import Mathlib

/-!
# Lexical analysis with a stop-list automaton

A shallow embedding of `src/src/LexicalAnalysis.cpp`: the builder that turns a
stop-word collection into a transition table (`DFA::build`), the run-time
matcher (`init`, `next`, `wordRecognized`), the character tables
(`buildCharTables`), the buffered character reader (`getNextChar`, `endFile`)
and the tokenizer (`getWord`).

Modelling conventions.

* `char` is the signed 8-bit type of the platforms the source is written for
  (it stores `EOF`, i.e. `-1`, in a `char` and indexes tables with it). A
  character is an `Int`; a byte `b ≥ 128` of a file is the character `b - 256`,
  so the byte `0xFF` is the character `-1`.
* `unsigned int` signatures are natural numbers reduced modulo `2 ^ 32`, the
  `uint8_t` arc counter is reduced modulo `2 ^ 8`.
* `std::vector` is a `List`; `v[i]` on a vector is `List.getD` and is only
  meaningful in bounds, which the well-formedness predicates below express.
* A reference into a vector is the index of the element: the `State &state` of
  `addArc` is the index of the state in the state table. The storage of the
  vectors (capacity, `reserve`, `shrink_to_fit`, reallocation on growth) is not
  part of `build`, which is the program as long as the state table stays
  within its capacity. `buildChecked` is `build` with the capacity of the state
  table as a parameter and the life of that reference tracked: it stops at the
  first use of the dangling reference. `buildTracked` carries the capacity of
  the state table along and goes on from there as the program does with the
  usual libraries: the increment through the dangling reference does not reach
  the state table. The label table `*pLabelsTable` grows in step with the state
  table; a reallocation moves its elements, and the iteration over a label,
  which holds iterators into the storage of that label, goes on over the same
  storage. The arc tables are only appended to and subscripted.
* The array `term` the caller passes to `getWord` is taken to be large enough
  for the term; its contents are the list of the characters stored.
* `isalpha` and `tolower` are those of the "C" locale, which the program never
  changes.
* Loops are structural recursions on a fuel argument that is at least the
  number of iterations the loop can make; where that is not evident from the
  definition the loop returns `none` on exhausted fuel and a theorem shows that
  this does not happen.
-/

namespace LexicalAnalyzer

/-! ## Words and word collections -/

/-- The C++ `char`: a signed 8-bit value, `-128 ≤ c ≤ 127`. -/
abbrev CChar := Int

/-- The unsigned 32-bit wrap-around of `unsigned int` arithmetic. -/
def wrap32 (x : Int) : Nat := (x % 4294967296).toNat

/-- Struct `Word`: the half-open span `[start, stop)` of the character buffer
(`stop` is the member `end` of the source). -/
structure Word where
  start : Nat
  stop : Nat
deriving DecidableEq

/-- Struct `WordCollection`: the character buffer and the spans of the words. -/
structure WordCollection where
  wordsCharBuffer : List CChar
  words : List Word
deriving DecidableEq

/-- The type `LabelType`, a vector of words. -/
abbrev LabelType := List Word

/-- Struct `SignatureSearchTree::TreeNode`, with `nil` for the null pointer. -/
inductive TreeNode where
  | nil : TreeNode
  | node (signature : Nat) (state : Nat) (left right : TreeNode) : TreeNode
deriving DecidableEq

/-- Struct `State`. The constructor of the source sets `label` only; the other
members are written when the state is processed by `build`, and hold `0` and
`false` here until then. -/
structure State where
  label : Nat
  arcOffset : Nat
  numArcs : Nat
  isFinal : Bool
deriving DecidableEq

/-- The constant `HASH_TABLE_SIZE`. -/
def HASH_TABLE_SIZE : Nat := 53

/-- Struct `DFA`. `pLabelsTable` is the vector the pointer owns (empty when the
pointer is null); `htable` is the array of the roots of the search trees. The
member `wordCollectionPtr` is passed to the functions as an argument. -/
structure DFA where
  stateTable : List State
  arcLabels : List CChar
  arcTargets : List Nat
  pLabelsTable : List LabelType
  htable : List TreeNode
  dead : Bool
  curState : Nat
deriving DecidableEq

/-- A freshly constructed `DFA`: empty tables, null tree roots; `dead` and
`curState` are not initialised by the source and are arbitrary. -/
def DFA.fresh (dead : Bool) (curState : Nat) : DFA :=
  { stateTable := [], arcLabels := [], arcTargets := [], pLabelsTable := [],
    htable := List.replicate HASH_TABLE_SIZE TreeNode.nil,
    dead := dead, curState := curState }

/-! ## `sortAndRemoveDuplicateWords` -/

/-- The loop of the lambda `predSort`; the fuel is `last1 - first1`. -/
def predSortLoop (cbuf : List CChar) (last1 last2 : Nat) : Nat → Nat → Nat → Bool
  | 0, _, first2 => first2 != last2
  | fuel + 1, first1, first2 =>
    if first1 != last1 then
      if first2 == last2 || decide (cbuf.getD first2 0 < cbuf.getD first1 0) then false
      else if cbuf.getD first1 0 < cbuf.getD first2 0 then true
      else predSortLoop cbuf last1 last2 fuel (first1 + 1) (first2 + 1)
    else first2 != last2

/-- The lambda `predSort`: byte-by-byte comparison, a proper prefix first. -/
def predSort (cbuf : List CChar) (a b : Word) : Bool :=
  predSortLoop cbuf a.stop b.stop (a.stop - a.start) a.start b.start

/-- The loop of the lambda `predEqual`; the fuel is `last1 - first1`. -/
def predEqualLoop (cbuf : List CChar) (last1 : Nat) : Nat → Nat → Nat → Bool
  | 0, _, _ => true
  | fuel + 1, first1, first2 =>
    if first1 != last1 then
      if cbuf.getD first1 0 != cbuf.getD first2 0 then false
      else predEqualLoop cbuf last1 fuel (first1 + 1) (first2 + 1)
    else true

/-- The lambda `predEqual`: equal lengths and equal characters. -/
def predEqual (cbuf : List CChar) (a b : Word) : Bool :=
  if a.stop - a.start == b.stop - b.start then
    predEqualLoop cbuf a.stop (a.stop - a.start) a.start b.start
  else false

/-- Insertion of one element into a list sorted by `lt`, after the elements
that are not greater. -/
def sortInsert {α : Type} (lt : α → α → Bool) (a : α) : List α → List α
  | [] => [a]
  | b :: l => if lt a b then a :: b :: l else b :: sortInsert lt a l

/-- The call `std::sort(first, last, lt)`, as an insertion sort. The standard
leaves the relative order of equivalent elements open; for `predSort` these
are spans with equal characters. -/
def stdSort {α : Type} (lt : α → α → Bool) : List α → List α
  | [] => []
  | a :: l => sortInsert lt a (stdSort lt l)

/-- The loop of `std::unique`: `a` is the last element kept. -/
def stdUniqueFrom {α : Type} (eq : α → α → Bool) (a : α) : List α → List α
  | [] => [a]
  | b :: l => if eq a b then stdUniqueFrom eq a l else a :: stdUniqueFrom eq b l

/-- The call `std::unique(first, last, eq)` followed by the `resize`: of each
group of consecutive equivalent elements the first one is kept. -/
def stdUnique {α : Type} (eq : α → α → Bool) : List α → List α
  | [] => []
  | a :: l => stdUniqueFrom eq a l

/-- The function `DFA::sortAndRemoveDuplicateWords`. -/
def sortAndRemoveDuplicateWords (cbuf : List CChar) (words : List Word) : List Word :=
  stdUnique (predEqual cbuf) (stdSort (predSort cbuf) words)

/-! ## `cmpWords`, `cmpLabel` -/

/-- The `for` loop of `cmpWords`; the fuel is `len1 - i`. -/
def cmpWordsLoop (cbuf : List CChar) : Nat → Nat → Nat → Int
  | 0, _, _ => 0
  | fuel + 1, first1, first2 =>
    if cbuf.getD first1 0 < cbuf.getD first2 0 then -1
    else if cbuf.getD first1 0 > cbuf.getD first2 0 then 1
    else cmpWordsLoop cbuf fuel (first1 + 1) (first2 + 1)

/-- The function `DFA::cmpWords`: shorter words first, words of equal length by characters. -/
def cmpWords (cbuf : List CChar) (a b : Word) : Int :=
  if a.stop - a.start = b.stop - b.start then
    cmpWordsLoop cbuf (a.stop - a.start) a.start b.start
  else if a.stop - a.start < b.stop - b.start then -1
  else 1

/-- The `for` loop of `cmpLabel`, which stops at the first non-zero `cmp`. -/
def cmpLabelLoop (cbuf : List CChar) : List Word → List Word → Int
  | a :: l1, b :: l2 =>
    if cmpWords cbuf a b = 0 then cmpLabelLoop cbuf l1 l2 else cmpWords cbuf a b
  | _, _ => 0

/-- The function `DFA::cmpLabel`: shorter labels first, labels of equal length word by word. -/
def cmpLabel (cbuf : List CChar) (label1 label2 : List Word) : Int :=
  if label1.length = label2.length then cmpLabelLoop cbuf label1 label2
  else if label1.length < label2.length then -1
  else 1

/-! ## `getState`, `addArc` -/

/-- The search loop of `getState` together with the linking of the new node:
the tree is descended by signature and, on equal signatures, by `cmpLabel` of
the requested label against the stored label of the node. The result is
`some state` when a node with an equal label is found (the tree is unchanged);
otherwise the node `(signature, newState)` is linked at the null pointer the
search ended on. -/
def searchTree (cbuf : List CChar) (labels : List LabelType) (label : List Word)
    (signature newState : Nat) : TreeNode → Option Nat × TreeNode
  | TreeNode.nil => (none, TreeNode.node signature newState TreeNode.nil TreeNode.nil)
  | TreeNode.node sig st left right =>
    if signature = sig then
      if cmpLabel cbuf label (labels.getD st []) = 0 then
        (some st, TreeNode.node sig st left right)
      else if cmpLabel cbuf label (labels.getD st []) = -1 then
        ((searchTree cbuf labels label signature newState left).1,
          TreeNode.node sig st (searchTree cbuf labels label signature newState left).2 right)
      else
        ((searchTree cbuf labels label signature newState right).1,
          TreeNode.node sig st left (searchTree cbuf labels label signature newState right).2)
    else if signature < sig then
      ((searchTree cbuf labels label signature newState left).1,
        TreeNode.node sig st (searchTree cbuf labels label signature newState left).2 right)
    else
      ((searchTree cbuf labels label signature newState right).1,
        TreeNode.node sig st left (searchTree cbuf labels label signature newState right).2)

/-- The function `DFA::getState`: the state whose stored label compares equal to `label`,
or a new state (and label, and tree node) appended to the tables. The result
is the changed automaton and the index of the state. -/
def getState (cbuf : List CChar) (d : DFA) (label : List Word) (signature : Nat) : DFA × Nat :=
  match (searchTree cbuf d.pLabelsTable label signature d.stateTable.length
      (d.htable.getD (signature % HASH_TABLE_SIZE) TreeNode.nil)).1 with
  | some st => (d, st)
  | none =>
    ({ d with
        pLabelsTable := d.pLabelsTable ++ [label],
        stateTable := d.stateTable ++ [{ label := d.pLabelsTable.length, arcOffset := 0,
                                          numArcs := 0, isFinal := false }],
        htable := d.htable.set (signature % HASH_TABLE_SIZE)
          (searchTree cbuf d.pLabelsTable label signature d.stateTable.length
            (d.htable.getD (signature % HASH_TABLE_SIZE) TreeNode.nil)).2 },
      d.stateTable.length)

/-- The statement `++state.numArcs` on the `uint8_t` counter of state `state`. -/
def incNumArcs (stateTable : List State) (state : Nat) : List State :=
  stateTable.set state
    { stateTable.getD state ⟨0, 0, 0, false⟩ with
      numArcs := ((stateTable.getD state ⟨0, 0, 0, false⟩).numArcs + 1) % 256 }

/-- The function `DFA::addArc` while the state table does not reallocate: the
reference `State &state` of the source is the index `state` into the state
table. The reallocation is in `addArcChecked` and `addArcTracked`. -/
def addArc (cbuf : List CChar) (d : DFA) (state : Nat) (arcLabel : CChar)
    (stateLabel : List Word) (stateSignature : Nat) : DFA :=
  { (getState cbuf d (sortAndRemoveDuplicateWords cbuf stateLabel) stateSignature).1 with
    arcLabels :=
      (getState cbuf d (sortAndRemoveDuplicateWords cbuf stateLabel) stateSignature).1.arcLabels
        ++ [arcLabel],
    arcTargets :=
      (getState cbuf d (sortAndRemoveDuplicateWords cbuf stateLabel) stateSignature).1.arcTargets
        ++ [(getState cbuf d (sortAndRemoveDuplicateWords cbuf stateLabel) stateSignature).2],
    stateTable :=
      incNumArcs
        (getState cbuf d (sortAndRemoveDuplicateWords cbuf stateLabel) stateSignature).1.stateTable
        state }

/-! ## Signatures -/

/-- The constant `HASH_START`, the value of `startHashValue()`. -/
def startHashValue : Nat := 5775863

/-- The constant `HASH_INCREMENT`. -/
def HASH_INCREMENT : Int := 38873647

/-- The `do ... while` loop of `updateHashValue`; the fuel is `end - start`. -/
def updateHashLoop (wc : List CChar) : Nat → Nat → Nat → Nat
  | 0, curHashValue, _ => curHashValue
  | fuel + 1, curHashValue, start =>
    updateHashLoop wc fuel (wrap32 ((curHashValue : Int) + wc.getD start 0)) (start + 1)

/-- The function `DFA::updateHashValue`. -/
def updateHashValue (curHashValue : Nat) (wc : List CChar) (start stop : Nat) : Nat :=
  if start != stop then
    updateHashLoop wc (stop - start)
      (wrap32 ((curHashValue : Int) + (wc.getD start 0 + 1) * HASH_INCREMENT)) start
  else wrap32 ((curHashValue : Int) + HASH_INCREMENT)

/-! ## `build` -/

/-- The variables of the inner loop of `build`. -/
structure Scan where
  dfa : DFA
  targetLabel : List Word
  targetSignature : Nat
  arcLabel : CChar
deriving DecidableEq

/-- The statement `if (arcLabel == -1) arcLabel = ch;` of the inner loop. -/
def legitimate (arcLabel ch : CChar) : CChar := if arcLabel = -1 then ch else arcLabel

/-- The statement `stateTable[state].isFinal = true`. -/
def setFinal (stateTable : List State) (state : Nat) : List State :=
  stateTable.set state { stateTable.getD state ⟨0, 0, 0, false⟩ with isFinal := true }

/-- The three stores at the head of the outer loop: `arcOffset`, `numArcs` and
`isFinal` of state `state`. -/
def setUp (stateTable : List State) (state arcOffset : Nat) : List State :=
  stateTable.set state
    { stateTable.getD state ⟨0, 0, 0, false⟩ with
      arcOffset := arcOffset, numArcs := 0, isFinal := false }

/-- One iteration of the inner loop of `build`, for the word `word` of the
label of state `state`. -/
def scanWord (cbuf : List CChar) (state : Nat) (s : Scan) (word : Word) : Scan :=
  if word.start = word.stop then
    { s with dfa := { s.dfa with stateTable := setFinal s.dfa.stateTable state } }
  else if cbuf.getD word.start 0 ≠ legitimate s.arcLabel (cbuf.getD word.start 0) then
    { dfa := addArc cbuf s.dfa state (legitimate s.arcLabel (cbuf.getD word.start 0))
        s.targetLabel s.targetSignature,
      targetLabel := [⟨word.start + 1, word.stop⟩],
      targetSignature := updateHashValue startHashValue cbuf (word.start + 1) word.stop,
      arcLabel := cbuf.getD word.start 0 }
  else
    { dfa := s.dfa,
      targetLabel := s.targetLabel ++ [⟨word.start + 1, word.stop⟩],
      targetSignature := updateHashValue s.targetSignature cbuf (word.start + 1) word.stop,
      arcLabel := legitimate s.arcLabel (cbuf.getD word.start 0) }

/-- The variables of the inner loop when it is entered for the state `state`. -/
def scanStart (state : Nat) (d : DFA) : Scan :=
  { dfa := { d with stateTable := setUp d.stateTable state d.arcLabels.length },
    targetLabel := [], targetSignature := startHashValue, arcLabel := -1 }

/-- The statement after the inner loop: the arc of the last run of suffixes. -/
def scanFinish (cbuf : List CChar) (state : Nat) (s : Scan) : DFA :=
  if s.targetLabel.length ≠ 0 then
    addArc cbuf s.dfa state s.arcLabel s.targetLabel s.targetSignature
  else s.dfa

/-- The body of the outer loop of `build` for the state `state`: the members
of the state are set up, its label is scanned, and the arc of the last run of
suffixes is added. -/
def processState (cbuf : List CChar) (state : Nat) (d : DFA) : DFA :=
  scanFinish cbuf state
    ((d.pLabelsTable.getD state []).foldl (scanWord cbuf state) (scanStart state d))

/-- The outer loop of `build`, `for (state = 0; state != stateTable.size(); ++state)`.
The state table grows while it is iterated; `none` is the exhausted fuel. -/
def buildLoop (cbuf : List CChar) : Nat → Nat → DFA → Option DFA
  | 0, state, d => if state = d.stateTable.length then some d else none
  | fuel + 1, state, d =>
    if state = d.stateTable.length then some d
    else buildLoop cbuf fuel (state + 1) (processState cbuf state d)

/-- A bound on the number of states `build` creates: one more than the number
of characters and words of the collection. -/
def buildFuel (words : List Word) : Nat :=
  (words.map (fun w => w.stop - w.start + 1)).sum + 1

/-- The functions `DFA::destroySearchStructures` and `DFA::destroyLabels`. -/
def destroy (d : DFA) : DFA :=
  { d with htable := d.htable.map (fun _ => TreeNode.nil), pLabelsTable := [] }

/-- The automaton at the entry of the outer loop of `build`: cleared tables,
the label of state 0 is the sorted word list without duplicates. The search
trees are those the automaton holds on entry. -/
def buildStart (d : DFA) (wordCollection : WordCollection) : DFA :=
  { d with
    stateTable := [{ label := 0, arcOffset := 0, numArcs := 0, isFinal := false }],
    arcLabels := [],
    arcTargets := [],
    pLabelsTable :=
      [sortAndRemoveDuplicateWords wordCollection.wordsCharBuffer wordCollection.words] }

/-- The function `DFA::build` while the state table does not reallocate (see
`buildChecked` and `buildTracked` for the capacity of the state table). The
words of the collection are moved into the label table, which is destroyed at
the end; the collection is not used again. -/
def build (d : DFA) (wordCollection : WordCollection) : Option DFA :=
  (buildLoop wordCollection.wordsCharBuffer (buildFuel wordCollection.words) 0
    (buildStart d wordCollection)).map destroy

/-! ## `build` with the reference `State &state` tracked -/

/-- The constant `INITIAL_TABLE_SIZE`, the argument of `stateTable.reserve` in
`build`. -/
def INITIAL_TABLE_SIZE : Nat := 1024

/-- The function `DFA::addArc` with the life of its parameter `State &state` tracked;
`capacity` is `stateTable.capacity()`. The caller binds the reference to
`stateTable[state]`. When `getState` appends a state to a state table whose
size has reached its capacity, `emplace_back` reallocates the vector, the
reference dangles and the statement `++state.numArcs` is undefined: `none`. -/
def addArcChecked (capacity : Nat) (cbuf : List CChar) (d : DFA) (state : Nat)
    (arcLabel : CChar) (stateLabel : List Word) (stateSignature : Nat) : Option DFA :=
  if capacity ≤ d.stateTable.length ∧
      (getState cbuf d (sortAndRemoveDuplicateWords cbuf stateLabel)
        stateSignature).1.stateTable.length ≠ d.stateTable.length then none
  else some (addArc cbuf d state arcLabel stateLabel stateSignature)

/-- One iteration of the inner loop of `build` with the reference tracked. -/
def scanWordChecked (capacity : Nat) (cbuf : List CChar) (state : Nat) (s : Scan)
    (word : Word) : Option Scan :=
  if word.start = word.stop then
    some { s with dfa := { s.dfa with stateTable := setFinal s.dfa.stateTable state } }
  else if cbuf.getD word.start 0 ≠ legitimate s.arcLabel (cbuf.getD word.start 0) then
    match addArcChecked capacity cbuf s.dfa state
        (legitimate s.arcLabel (cbuf.getD word.start 0)) s.targetLabel s.targetSignature with
    | none => none
    | some d =>
      some { dfa := d,
             targetLabel := [⟨word.start + 1, word.stop⟩],
             targetSignature := updateHashValue startHashValue cbuf (word.start + 1) word.stop,
             arcLabel := cbuf.getD word.start 0 }
  else
    some { dfa := s.dfa,
           targetLabel := s.targetLabel ++ [⟨word.start + 1, word.stop⟩],
           targetSignature := updateHashValue s.targetSignature cbuf (word.start + 1) word.stop,
           arcLabel := legitimate s.arcLabel (cbuf.getD word.start 0) }

/-- The inner loop of `build` over the words of a label, with the reference
tracked. -/
def scanLabelChecked (capacity : Nat) (cbuf : List CChar) (state : Nat) :
    List Word → Scan → Option Scan
  | [], s => some s
  | word :: rest, s =>
    match scanWordChecked capacity cbuf state s word with
    | none => none
    | some s2 => scanLabelChecked capacity cbuf state rest s2

/-- The statement after the inner loop, with the reference tracked. -/
def scanFinishChecked (capacity : Nat) (cbuf : List CChar) (state : Nat) (s : Scan) :
    Option DFA :=
  if s.targetLabel.length ≠ 0 then
    addArcChecked capacity cbuf s.dfa state s.arcLabel s.targetLabel s.targetSignature
  else some s.dfa

/-- The body of the outer loop of `build`, with the reference tracked. -/
def processStateChecked (capacity : Nat) (cbuf : List CChar) (state : Nat) (d : DFA) :
    Option DFA :=
  match scanLabelChecked capacity cbuf state (d.pLabelsTable.getD state [])
      (scanStart state d) with
  | none => none
  | some s => scanFinishChecked capacity cbuf state s

/-- The result of `build` with the reference tracked: the automaton, a use of
the dangling reference (undefined behaviour in the source), or exhausted
fuel. -/
inductive Built where
  | ok (d : DFA) : Built
  | dangling : Built
  | outOfFuel : Built
deriving DecidableEq

/-- The outer loop of `build`, with the reference tracked. -/
def buildLoopChecked (capacity : Nat) (cbuf : List CChar) : Nat → Nat → DFA → Built
  | 0, state, d => if state = d.stateTable.length then Built.ok d else Built.outOfFuel
  | fuel + 1, state, d =>
    if state = d.stateTable.length then Built.ok d
    else
      match processStateChecked capacity cbuf state d with
      | none => Built.dangling
      | some d2 => buildLoopChecked capacity cbuf fuel (state + 1) d2

/-- The function `DFA::build` with the reference `State &state` of `addArc` tracked.
`capacity` is the capacity of `stateTable` after `clear()` and
`reserve(INITIAL_TABLE_SIZE)`: at least `INITIAL_TABLE_SIZE`, and exactly that
for a newly constructed automaton with the usual libraries. -/
def buildChecked (capacity : Nat) (d : DFA) (wordCollection : WordCollection) : Built :=
  match buildLoopChecked capacity wordCollection.wordsCharBuffer
      (buildFuel wordCollection.words) 0 (buildStart d wordCollection) with
  | Built.ok d2 => Built.ok (destroy d2)
  | Built.dangling => Built.dangling
  | Built.outOfFuel => Built.outOfFuel

/-! ## `build` with the storage of the state table -/

/-- The function `DFA::addArc` with the storage of `stateTable` taken into account:
`capacity` is `stateTable.capacity()` and `grow c` is the capacity after a
reallocation at the capacity `c`. When `getState` appends a state to a state
table whose size has reached its capacity, the vector reallocates and the
reference `state` is left pointing into the storage released; the store
`++state.numArcs`, undefined in the source, then does not reach the state
table, and the counter of the state keeps its value. The result is the
automaton and the capacity after the call. -/
def addArcTracked (grow : Nat → Nat) (capacity : Nat) (cbuf : List CChar) (d : DFA)
    (state : Nat) (arcLabel : CChar) (stateLabel : List Word) (stateSignature : Nat) :
    DFA × Nat :=
  if capacity ≤ d.stateTable.length ∧
      (getState cbuf d (sortAndRemoveDuplicateWords cbuf stateLabel)
        stateSignature).1.stateTable.length ≠ d.stateTable.length then
    ({ (getState cbuf d (sortAndRemoveDuplicateWords cbuf stateLabel) stateSignature).1 with
        arcLabels :=
          (getState cbuf d (sortAndRemoveDuplicateWords cbuf stateLabel)
            stateSignature).1.arcLabels ++ [arcLabel],
        arcTargets :=
          (getState cbuf d (sortAndRemoveDuplicateWords cbuf stateLabel)
            stateSignature).1.arcTargets ++
            [(getState cbuf d (sortAndRemoveDuplicateWords cbuf stateLabel)
              stateSignature).2] },
      grow capacity)
  else (addArc cbuf d state arcLabel stateLabel stateSignature, capacity)

/-- One iteration of the inner loop of `build`, with the capacity of the state
table carried along. -/
def scanWordTracked (grow : Nat → Nat) (cbuf : List CChar) (state : Nat) (s : Scan × Nat)
    (word : Word) : Scan × Nat :=
  if word.start = word.stop then
    ({ s.1 with dfa := { s.1.dfa with stateTable := setFinal s.1.dfa.stateTable state } }, s.2)
  else if cbuf.getD word.start 0 ≠ legitimate s.1.arcLabel (cbuf.getD word.start 0) then
    ({ dfa := (addArcTracked grow s.2 cbuf s.1.dfa state
          (legitimate s.1.arcLabel (cbuf.getD word.start 0)) s.1.targetLabel
          s.1.targetSignature).1,
       targetLabel := [⟨word.start + 1, word.stop⟩],
       targetSignature := updateHashValue startHashValue cbuf (word.start + 1) word.stop,
       arcLabel := cbuf.getD word.start 0 },
     (addArcTracked grow s.2 cbuf s.1.dfa state
        (legitimate s.1.arcLabel (cbuf.getD word.start 0)) s.1.targetLabel
        s.1.targetSignature).2)
  else
    ({ dfa := s.1.dfa,
       targetLabel := s.1.targetLabel ++ [⟨word.start + 1, word.stop⟩],
       targetSignature := updateHashValue s.1.targetSignature cbuf (word.start + 1) word.stop,
       arcLabel := legitimate s.1.arcLabel (cbuf.getD word.start 0) },
     s.2)

/-- The statement after the inner loop, with the capacity carried along. -/
def scanFinishTracked (grow : Nat → Nat) (cbuf : List CChar) (state : Nat) (s : Scan × Nat) :
    DFA × Nat :=
  if s.1.targetLabel.length ≠ 0 then
    addArcTracked grow s.2 cbuf s.1.dfa state s.1.arcLabel s.1.targetLabel s.1.targetSignature
  else (s.1.dfa, s.2)

/-- The body of the outer loop of `build`, with the capacity carried along. -/
def processStateTracked (grow : Nat → Nat) (cbuf : List CChar) (state : Nat) (d : DFA × Nat) :
    DFA × Nat :=
  scanFinishTracked grow cbuf state
    ((d.1.pLabelsTable.getD state []).foldl (scanWordTracked grow cbuf state)
      (scanStart state d.1, d.2))

/-- The outer loop of `build`, with the capacity carried along and a log of the
values of `state` for which the body ran, in the order of the iterations;
`none` is the exhausted fuel. -/
def buildLoopTracked (grow : Nat → Nat) (cbuf : List CChar) :
    Nat → Nat → DFA × Nat → Option (DFA × List Nat)
  | 0, state, d => if state = d.1.stateTable.length then some (d.1, []) else none
  | fuel + 1, state, d =>
    if state = d.1.stateTable.length then some (d.1, [])
    else
      (buildLoopTracked grow cbuf fuel (state + 1) (processStateTracked grow cbuf state d)).map
        (fun r => (r.1, state :: r.2))

/-- The function `DFA::build` with the storage of `stateTable` taken into account.
`capacity` is the capacity of the state table after `clear()` and
`reserve(INITIAL_TABLE_SIZE)`: at least `INITIAL_TABLE_SIZE`, and exactly that
for a newly constructed automaton with the usual libraries; an automaton that
has built before may hold more. -/
def buildTracked (grow : Nat → Nat) (capacity : Nat) (d : DFA)
    (wordCollection : WordCollection) : Option DFA :=
  (buildLoopTracked grow wordCollection.wordsCharBuffer (buildFuel wordCollection.words) 0
    (buildStart d wordCollection, capacity)).map (fun r => destroy r.1)

/-! ## The matcher -/

/-- The function `DFA::init`. -/
def init (d : DFA) : DFA := { d with dead := false, curState := 0 }

/-- The `for` loop of `next` over the arcs `i .. arcEnd`; the fuel is
`arcEnd - i`. -/
def nextLoop (d : DFA) (c : CChar) : Nat → Nat → DFA
  | 0, _ => { d with dead := true }
  | fuel + 1, i =>
    if d.arcLabels.getD i 0 = c then { d with curState := d.arcTargets.getD i 0 }
    else nextLoop d c fuel (i + 1)

/-- The function `DFA::next`. -/
def next (d : DFA) (c : CChar) : DFA :=
  if d.dead then d
  else nextLoop d c (d.stateTable.getD d.curState ⟨0, 0, 0, false⟩).numArcs
    (d.stateTable.getD d.curState ⟨0, 0, 0, false⟩).arcOffset

/-- The function `DFA::wordRecognized`. -/
def wordRecognized (d : DFA) : Bool :=
  !d.dead && (d.stateTable.getD d.curState ⟨0, 0, 0, false⟩).isFinal

/-- The outcome of `init()` followed by `next(c)` for each character of `s`
and `wordRecognized()`. -/
def recognizes (d : DFA) (s : List CChar) : Bool :=
  wordRecognized (s.foldl next (init d))

/-- The loop of `next` with every subscript checked against the size of its
table: `none` when `arcLabels[i]` or `arcTargets[i]` lies outside the vector. -/
def nextLoopChecked (d : DFA) (c : CChar) : Nat → Nat → Option DFA
  | 0, _ => some { d with dead := true }
  | fuel + 1, i =>
    match d.arcLabels[i]? with
    | none => none
    | some l =>
      if l = c then
        match d.arcTargets[i]? with
        | none => none
        | some t => some { d with curState := t }
      else nextLoopChecked d c fuel (i + 1)

/-- The function `DFA::next` with every subscript checked: `none` when
`stateTable[curState]` or an arc read lies outside its vector. -/
def nextChecked (d : DFA) (c : CChar) : Option DFA :=
  if d.dead then some d
  else
    match d.stateTable[d.curState]? with
    | none => none
    | some st => nextLoopChecked d c st.numArcs st.arcOffset

/-- The function `DFA::wordRecognized` with the subscript checked; the state
table is read only when the matcher is not dead. -/
def wordRecognizedChecked (d : DFA) : Option Bool :=
  if d.dead then some false
  else
    match d.stateTable[d.curState]? with
    | none => none
    | some st => some st.isFinal

/-- The calls `next(c)` for each character of `s` with every subscript
checked. -/
def feedChecked : List CChar → DFA → Option DFA
  | [], d => some d
  | c :: s, d => (nextChecked d c).bind (feedChecked s)

/-! ## `loadStopWords` -/

/-- The function `isalpha` in the "C" locale. -/
def isalpha (c : Int) : Bool := (decide (65 ≤ c) && decide (c ≤ 90)) || (decide (97 ≤ c) && decide (c ≤ 122))

/-- The function `tolower` in the "C" locale; every value that is not an
upper-case letter, a negative `char` included, is returned as it is. -/
def tolower (c : Int) : Int := if 65 ≤ c ∧ c ≤ 90 then c + 32 else c

/-- The loop of `loadStopWords` over the lines `std::getline` delivers. -/
def loadLines : List (List CChar) → WordCollection → WordCollection
  | [], wc => wc
  | line :: rest, wc =>
    if line.isEmpty then loadLines rest wc
    else loadLines rest
      { wordsCharBuffer := wc.wordsCharBuffer ++ line.map tolower,
        words := wc.words ++ [⟨wc.wordsCharBuffer.length,
          wc.wordsCharBuffer.length + (line.map tolower).length⟩] }

/-- The function `Impl::loadStopWords` on an opened file with the given lines. -/
def loadStopWords (lines : List (List CChar)) : WordCollection :=
  loadLines lines { wordsCharBuffer := [], words := [] }

/-! ## `buildCharTables` -/

/-- The size of the member `char buffer[256+1+256+1+256]`. -/
def BUFFER_SIZE : Nat := 256 + 1 + 256 + 1 + 256

/-- The value of the macro `EOF`. -/
def EOF : Int := -1

/-- The conversion of an `int` to the signed 8-bit `char`. -/
def toChar (x : Int) : CChar := (x + 128) % 256 - 128

/-- Struct `Impl`. The member `buffer` is a memory of `BUFFER_SIZE` characters
(a function of the index); the pointers `separator`, `token` and `lower` point
into it and are held as offsets from its first element. -/
structure Impl where
  buffer : Nat → CChar
  separator : Nat
  token : Nat
  lower : Nat
  machine : DFA

/-- The store `buffer[i] = v`. -/
def bufWrite (buffer : Nat → CChar) (i : Nat) (v : CChar) : Nat → CChar :=
  fun j => if j = i then v else buffer j

/-- The read `table[ch]` through a pointer `table = buffer + base`, for an
`int` index `ch`: `none` when the element is outside the member `buffer`. -/
def tableRead (buffer : Nat → CChar) (base : Nat) (ch : Int) : Option CChar :=
  if 0 ≤ (base : Int) + ch ∧ (base : Int) + ch < (BUFFER_SIZE : Int) then
    some (buffer ((base : Int) + ch).toNat)
  else none

/-- The function `Impl::buildCharTables`; each loop is `for (int c = 0; c != 255; ++c)`. -/
def buildCharTables (impl : Impl) : Impl :=
  { impl with
    buffer :=
      (List.range 255).foldl
        (fun b c => bufWrite b (513 + c) (toChar (tolower (c : Int))))
        ((List.range 255).foldl
          (fun b c => bufWrite b (257 + c)
            (if isalpha (c : Int) || decide ((c : Int) = 39) then 1 else 0))
          (bufWrite
            ((List.range 255).foldl
              (fun b c => bufWrite b (1 + c) (if isalpha (c : Int) then 0 else 1))
              (bufWrite impl.buffer 0 0))
            256 0)),
    separator := 1,
    token := 257,
    lower := 513 }

/-- The function `LexicalAnalyzer::setStopWords` on a readable file with the given lines. -/
def setStopWords (impl : Impl) (lines : List (List CChar)) : Option Impl :=
  (build impl.machine (loadStopWords lines)).map
    (fun m => buildCharTables { impl with machine := m })

/-! ## The character reader -/

/-- The constant `BUF_SIZE`. -/
def BUF_SIZE : Nat := 4096

/-- The input stream together with the static variables of the reader:
`file` holds the characters the stream has not delivered yet, `eofbit` is
`file.eof()`, and `readbuf`, `ic`, `size` are the statics of the source. -/
structure Reader where
  file : List CChar
  eofbit : Bool
  readbuf : List CChar
  ic : Nat
  size : Nat

/-- A newly opened stream and the initial values of the statics. -/
def Reader.opened (file : List CChar) : Reader :=
  { file := file, eofbit := false, readbuf := List.replicate BUF_SIZE 0,
    ic := BUF_SIZE, size := 0 }

/-- The function `endFile`. -/
def endFile (r : Reader) : Bool := r.eofbit && decide (r.ic ≥ r.size)

/-- The refill of `getNextChar`: `file.read(readbuf, BUF_SIZE)` and, after a
short read, the store of `EOF` behind the characters read. -/
def refill (r : Reader) : Reader :=
  if (r.file.take BUF_SIZE).length ≠ BUF_SIZE then
    { file := r.file.drop BUF_SIZE,
      eofbit := true,
      readbuf := ((r.file.take BUF_SIZE) ++
        r.readbuf.drop (r.file.take BUF_SIZE).length).set (r.file.take BUF_SIZE).length EOF,
      ic := 0,
      size := (r.file.take BUF_SIZE).length }
  else
    { file := r.file.drop BUF_SIZE,
      eofbit := r.eofbit,
      readbuf := (r.file.take BUF_SIZE) ++ r.readbuf.drop (r.file.take BUF_SIZE).length,
      ic := 0,
      size := (r.file.take BUF_SIZE).length }

/-- The function `getNextChar`: the character returned and the reader after
the call. -/
def getNextChar (r : Reader) : Int × Reader :=
  if r.ic = BUF_SIZE then
    ((refill r).readbuf.getD 0 0, { refill r with ic := 1 })
  else (r.readbuf.getD r.ic 0, { r with ic := r.ic + 1 })

/-! ## `getWord` -/

/-- The result of a run of the tokenizer: a value, a read outside the member
`buffer` (undefined behaviour in the source), or exhausted fuel. -/
inductive Outcome (α : Type) where
  | ok (a : α) : Outcome α
  | outOfBounds : Outcome α
  | outOfFuel : Outcome α
deriving DecidableEq

/-- A bound on the number of characters the reader can still return. -/
def readerFuel (r : Reader) : Nat := r.file.length + BUF_SIZE + 2

/-- The loop `while (separator[ch]) ch = getNextChar(file);`. -/
def skipSeparators (impl : Impl) : Nat → Int → Reader → Outcome (Int × Reader)
  | 0, _, _ => Outcome.outOfFuel
  | fuel + 1, ch, r =>
    match tableRead impl.buffer impl.separator ch with
    | none => Outcome.outOfBounds
    | some v =>
      if v ≠ 0 then skipSeparators impl fuel (getNextChar r).1 (getNextChar r).2
      else Outcome.ok (ch, r)

/-- The loop `while (token[ch]) ...` of `getWord`; `dst` is the list of the
characters stored in `term[0 .. dst)`, `m` the matcher. -/
def scanToken (impl : Impl) : Nat → Int → Reader → List CChar → DFA →
    Outcome (Int × Reader × List CChar × DFA)
  | 0, _, _, _, _ => Outcome.outOfFuel
  | fuel + 1, ch, r, dst, m =>
    match tableRead impl.buffer impl.token ch with
    | none => Outcome.outOfBounds
    | some v =>
      if v ≠ 0 then
        match tableRead impl.buffer impl.lower ch with
        | none => Outcome.outOfBounds
        | some chlower =>
          scanToken impl fuel (getNextChar r).1 (getNextChar r).2 (dst ++ [chlower])
            (next m chlower)
      else Outcome.ok (ch, r, dst, m)

/-- The value of `*term` after the store `*dst = 0`, where `dst` holds the
characters of `term[0 .. dst)`. -/
def termFirst (dst : List CChar) : CChar := (dst ++ [(0 : CChar)]).headD 0

/-- The `do ... while (ch != EOF && !*term)` loop of `getWord`. The result is
the last character read, the reader, the characters of `term[0 .. dst)` and
the matcher. -/
def getWordLoop (impl : Impl) : Nat → Reader → List CChar → DFA →
    Outcome (Int × Reader × List CChar × DFA)
  | 0, _, _, _ => Outcome.outOfFuel
  | fuel + 1, r, dst, m =>
    match skipSeparators impl (readerFuel r) (getNextChar r).1 (getNextChar r).2 with
    | Outcome.ok (ch, r1) =>
      match scanToken impl (readerFuel r1) ch r1 dst (init m) with
      | Outcome.ok (ch2, r2, dst2, m2) =>
        if ch2 ≠ EOF ∧ termFirst (if wordRecognized m2 then [] else dst2) = 0 then
          getWordLoop impl fuel r2 (if wordRecognized m2 then [] else dst2) m2
        else Outcome.ok (ch2, r2, if wordRecognized m2 then [] else dst2, m2)
      | Outcome.outOfBounds => Outcome.outOfBounds
      | Outcome.outOfFuel => Outcome.outOfFuel
    | Outcome.outOfBounds => Outcome.outOfBounds
    | Outcome.outOfFuel => Outcome.outOfFuel

/-- The string a character array holds: the characters before the first `0`. -/
def cString (mem : List CChar) : List CChar := mem.takeWhile (fun c => c != 0)

/-- The function `LexicalAnalyzer::getWord`: the value returned, the analyzer and the reader
after the call, and the string left in `term` (the caller's array is taken to
be large enough). -/
def getWord (impl : Impl) (r : Reader) (term : List CChar) :
    Outcome (Bool × Impl × Reader × List CChar) :=
  if endFile r then Outcome.ok (false, impl, r, term)
  else
    match getWordLoop impl (readerFuel r) r [] impl.machine with
    | Outcome.ok (_, r1, dst, m) =>
      Outcome.ok (decide (termFirst dst ≠ 0), { impl with machine := m }, r1,
        cString (dst ++ [(0 : CChar)]))
    | Outcome.outOfBounds => Outcome.outOfBounds
    | Outcome.outOfFuel => Outcome.outOfFuel

/-- The loop `while (lex.getWord(in, term)) ...` of `main`: the terms of the
successive calls of `getWord` up to the first call that returns `false`. -/
def getWords (impl : Impl) : Nat → Reader → List CChar → Outcome (List (List CChar))
  | 0, _, _ => Outcome.outOfFuel
  | fuel + 1, r, term =>
    match getWord impl r term with
    | Outcome.ok (true, impl1, r1, term1) =>
      match getWords impl1 fuel r1 term1 with
      | Outcome.ok terms => Outcome.ok (term1 :: terms)
      | Outcome.outOfBounds => Outcome.outOfBounds
      | Outcome.outOfFuel => Outcome.outOfFuel
    | Outcome.ok (false, _, _, _) => Outcome.ok []
    | Outcome.outOfBounds => Outcome.outOfBounds
    | Outcome.outOfFuel => Outcome.outOfFuel

/-! ## The builder on the characters of the words

The functions of the builder read a span only through its characters. The
definitions of this section repeat the builder with every span replaced by the
list of its characters; the theorems below show that `build` computes the same
tables, and derive the properties of `build` from this form. -/

/-- The characters of the span `w` of the buffer `cbuf`. -/
def content (cbuf : List CChar) (w : Word) : List CChar :=
  (cbuf.drop w.start).take (w.stop - w.start)

/-- A span that lies inside the buffer: `start ≤ end ≤ size`. -/
def Word.WellFormed (cbuf : List CChar) (w : Word) : Prop :=
  w.start ≤ w.stop ∧ w.stop ≤ cbuf.length

/-- A collection all of whose spans lie inside its buffer. -/
def WordCollection.WellFormed (wc : WordCollection) : Prop :=
  ∀ w ∈ wc.words, w.WellFormed wc.wordsCharBuffer

/-- The list of the words of a collection, each as the list of its characters. -/
def WordCollection.contents (wc : WordCollection) : List (List CChar) :=
  wc.words.map (content wc.wordsCharBuffer)

/-- The order of `predSort` on the characters of two words. -/
def ltChars : List CChar → List CChar → Bool
  | [], b => !b.isEmpty
  | _ :: _, [] => false
  | x :: a, y :: b => if y < x then false else if x < y then true else ltChars a b

/-- The lists the builder sorts and scans: strictly increasing for `ltChars`. -/
def Canonical (label : List (List CChar)) : Prop :=
  label.Pairwise (fun a b => ltChars a b = true)

/-- The result of `sortAndRemoveDuplicateWords` on the characters. -/
def canonicalize (label : List (List CChar)) : List (List CChar) :=
  stdUnique (fun a b => decide (a = b)) (stdSort ltChars label)

/-- The loop of `cmpWords` on the characters of two words of equal length. -/
def cmpCharsLoop : List CChar → List CChar → Int
  | x :: a, y :: b => if x < y then -1 else if x > y then 1 else cmpCharsLoop a b
  | _, _ => 0

/-- The function `cmpWords` on the characters of two words. -/
def cmpChars (a b : List CChar) : Int :=
  if a.length = b.length then cmpCharsLoop a b
  else if a.length < b.length then -1
  else 1

/-- The loop of `cmpLabel` on the characters. -/
def cmpContentsLoop : List (List CChar) → List (List CChar) → Int
  | a :: l1, b :: l2 => if cmpChars a b = 0 then cmpContentsLoop l1 l2 else cmpChars a b
  | _, _ => 0

/-- The function `cmpLabel` on the characters. -/
def cmpContents (label1 label2 : List (List CChar)) : Int :=
  if label1.length = label2.length then cmpContentsLoop label1 label2
  else if label1.length < label2.length then -1
  else 1

/-- The function `updateHashValue` on the characters of the word hashed. -/
def hashChars (curHashValue : Nat) (w : List CChar) : Nat :=
  match w with
  | [] => wrap32 ((curHashValue : Int) + HASH_INCREMENT)
  | c :: _ =>
    w.foldl (fun h x => wrap32 ((h : Int) + x))
      (wrap32 ((curHashValue : Int) + (c + 1) * HASH_INCREMENT))

/-- The tables of the builder, with the labels as lists of character lists. -/
structure Builder where
  stateTable : List State
  arcLabels : List CChar
  arcTargets : List Nat
  labels : List (List (List CChar))
  htable : List TreeNode
deriving DecidableEq

/-- The tables of an automaton under construction over the buffer `cbuf`. -/
def DFA.toBuilder (cbuf : List CChar) (d : DFA) : Builder :=
  { stateTable := d.stateTable, arcLabels := d.arcLabels, arcTargets := d.arcTargets,
    labels := d.pLabelsTable.map (fun label => label.map (content cbuf)),
    htable := d.htable }

/-- The function `searchTree` on the characters. -/
def Builder.searchTree (labels : List (List (List CChar))) (label : List (List CChar))
    (signature newState : Nat) : TreeNode → Option Nat × TreeNode
  | TreeNode.nil => (none, TreeNode.node signature newState TreeNode.nil TreeNode.nil)
  | TreeNode.node sig st left right =>
    if signature = sig then
      if cmpContents label (labels.getD st []) = 0 then
        (some st, TreeNode.node sig st left right)
      else if cmpContents label (labels.getD st []) = -1 then
        ((Builder.searchTree labels label signature newState left).1,
          TreeNode.node sig st (Builder.searchTree labels label signature newState left).2 right)
      else
        ((Builder.searchTree labels label signature newState right).1,
          TreeNode.node sig st left (Builder.searchTree labels label signature newState right).2)
    else if signature < sig then
      ((Builder.searchTree labels label signature newState left).1,
        TreeNode.node sig st (Builder.searchTree labels label signature newState left).2 right)
    else
      ((Builder.searchTree labels label signature newState right).1,
        TreeNode.node sig st left (Builder.searchTree labels label signature newState right).2)

/-- The function `getState` on the characters. -/
def Builder.getState (b : Builder) (label : List (List CChar)) (signature : Nat) :
    Builder × Nat :=
  match (Builder.searchTree b.labels label signature b.stateTable.length
      (b.htable.getD (signature % HASH_TABLE_SIZE) TreeNode.nil)).1 with
  | some st => (b, st)
  | none =>
    ({ b with
        labels := b.labels ++ [label],
        stateTable := b.stateTable ++ [{ label := b.labels.length, arcOffset := 0,
                                          numArcs := 0, isFinal := false }],
        htable := b.htable.set (signature % HASH_TABLE_SIZE)
          (Builder.searchTree b.labels label signature b.stateTable.length
            (b.htable.getD (signature % HASH_TABLE_SIZE) TreeNode.nil)).2 },
      b.stateTable.length)

/-- The function `addArc` on the characters. -/
def Builder.addArc (b : Builder) (state : Nat) (arcLabel : CChar)
    (stateLabel : List (List CChar)) (stateSignature : Nat) : Builder :=
  { (b.getState (canonicalize stateLabel) stateSignature).1 with
    arcLabels := (b.getState (canonicalize stateLabel) stateSignature).1.arcLabels ++ [arcLabel],
    arcTargets := (b.getState (canonicalize stateLabel) stateSignature).1.arcTargets
      ++ [(b.getState (canonicalize stateLabel) stateSignature).2],
    stateTable :=
      incNumArcs (b.getState (canonicalize stateLabel) stateSignature).1.stateTable state }

/-- The variables of the inner loop of `build`, on the characters. -/
structure Builder.Scan where
  builder : Builder
  targetLabel : List (List CChar)
  targetSignature : Nat
  arcLabel : CChar

/-- The function `scanWord` on the characters. -/
def Builder.scanWord (state : Nat) (s : Builder.Scan) (word : List CChar) : Builder.Scan :=
  match word with
  | [] => { s with builder := { s.builder with
              stateTable := setFinal s.builder.stateTable state } }
  | ch :: rest =>
    if ch ≠ legitimate s.arcLabel ch then
      { builder := s.builder.addArc state (legitimate s.arcLabel ch)
          s.targetLabel s.targetSignature,
        targetLabel := [rest],
        targetSignature := hashChars startHashValue rest,
        arcLabel := ch }
    else
      { builder := s.builder,
        targetLabel := s.targetLabel ++ [rest],
        targetSignature := hashChars s.targetSignature rest,
        arcLabel := legitimate s.arcLabel ch }

/-- The function `scanStart` on the characters. -/
def Builder.scanStart (state : Nat) (b : Builder) : Builder.Scan :=
  { builder := { b with stateTable := setUp b.stateTable state b.arcLabels.length },
    targetLabel := [], targetSignature := startHashValue, arcLabel := -1 }

/-- The function `scanFinish` on the characters. -/
def Builder.scanFinish (state : Nat) (s : Builder.Scan) : Builder :=
  if s.targetLabel.length ≠ 0 then
    s.builder.addArc state s.arcLabel s.targetLabel s.targetSignature
  else s.builder

/-- The function `processState` on the characters. -/
def Builder.processState (state : Nat) (b : Builder) : Builder :=
  Builder.scanFinish state
    ((b.labels.getD state []).foldl (Builder.scanWord state) (Builder.scanStart state b))

/-- The function `buildLoop` on the characters. -/
def Builder.buildLoop : Nat → Nat → Builder → Option Builder
  | 0, state, b => if state = b.stateTable.length then some b else none
  | fuel + 1, state, b =>
    if state = b.stateTable.length then some b
    else Builder.buildLoop fuel (state + 1) (b.processState state)

/-- The number of loop iterations a label can still cause: one for the state
of the label and one for every character and word end of the label. -/
def labelWeight (label : List (List CChar)) : Nat :=
  (label.map (fun w => w.length + 1)).sum + 1

/-- The runs the inner loop of `build` finds in a label: for each arc it adds,
the arc label, the suffixes collected for the target, and their signature. -/
structure RunScan where
  runs : List (CChar × List (List CChar) × Nat)
  targetLabel : List (List CChar)
  targetSignature : Nat
  arcLabel : CChar
  isFinal : Bool

/-- One word of the label in the scan for runs. -/
def runStep (s : RunScan) (word : List CChar) : RunScan :=
  match word with
  | [] => { s with isFinal := true }
  | ch :: rest =>
    if ch ≠ legitimate s.arcLabel ch then
      { runs := s.runs ++ [(legitimate s.arcLabel ch, s.targetLabel, s.targetSignature)],
        targetLabel := [rest],
        targetSignature := hashChars startHashValue rest,
        arcLabel := ch,
        isFinal := s.isFinal }
    else
      { runs := s.runs,
        targetLabel := s.targetLabel ++ [rest],
        targetSignature := hashChars s.targetSignature rest,
        arcLabel := legitimate s.arcLabel ch,
        isFinal := s.isFinal }

/-- The scan of a whole label for runs, from the initial values of the loop. -/
def runScan (label : List (List CChar)) : RunScan :=
  label.foldl runStep
    { runs := [], targetLabel := [], targetSignature := startHashValue, arcLabel := -1,
      isFinal := false }

/-- The arcs `build` adds for a label, in order, the last run included. -/
def labelRuns (label : List (List CChar)) : List (CChar × List (List CChar) × Nat) :=
  if (runScan label).targetLabel.length ≠ 0 then
    (runScan label).runs ++
      [((runScan label).arcLabel, (runScan label).targetLabel, (runScan label).targetSignature)]
  else (runScan label).runs

/-- The automaton state `q` made current and alive, as after the characters
of a prefix that leads to `q`. -/
def atState (d : DFA) (q : Nat) : DFA := { d with dead := false, curState := q }

/-- The right language of state `q`: the strings that lead from `q` to a final
state. -/
def acceptsFrom (d : DFA) (q : Nat) (s : List CChar) : Bool :=
  wordRecognized (s.foldl next (atState d q))

/-! ## Predicates and measures used in the proofs -/

/-- The spans of the labels of an automaton under construction lie inside the buffer. -/
def DFA.LabelsWF (cbuf : List CChar) (d : DFA) : Prop :=
  ∀ label ∈ d.pLabelsTable, ∀ w ∈ label, w.WellFormed cbuf

/-- The variables of the inner loop with the spans replaced by their characters. -/
def Scan.toBuilderScan (cbuf : List CChar) (s : Scan) : Builder.Scan :=
  { builder := s.dfa.toBuilder cbuf, targetLabel := s.targetLabel.map (content cbuf),
    targetSignature := s.targetSignature, arcLabel := s.arcLabel }

/-- The spans held by the variables of the inner loop lie inside the buffer. -/
def Scan.WF (cbuf : List CChar) (s : Scan) : Prop :=
  s.dfa.LabelsWF cbuf ∧ ∀ w ∈ s.targetLabel, w.WellFormed cbuf

/-- The order `≤` of `predSort`: `b` does not sort before `a`. -/
def leChars (a b : List Int) : Prop := ltChars b a = false

/-- The state table entry `stateTable[k]`. -/
def Builder.stateAt (b : Builder) (k : Nat) : State := b.stateTable.getD k ⟨0, 0, 0, false⟩

/-- The effect of arcs added for the state `n`: the arc labels `arcs` are
appended, the labels `news` and as many states are appended, the entries of
the other states are unchanged, and the arc counter of `n` has advanced. -/
structure Builder.Grows (n : Nat) (b b2 : Builder) (arcs : List CChar)
    (news : List (List (List CChar))) : Prop where
  arcLabels_eq : b2.arcLabels = b.arcLabels ++ arcs
  arcTargets_len : b2.arcTargets.length = b.arcTargets.length + arcs.length
  labels_eq : b2.labels = b.labels ++ news
  states_len : b2.stateTable.length = b.stateTable.length + news.length
  frame : ∀ k, k < b.stateTable.length → k ≠ n → b2.stateAt k = b.stateAt k
  offset_eq : (b2.stateAt n).arcOffset = (b.stateAt n).arcOffset
  count_le : (b2.stateAt n).numArcs ≤ (b.stateAt n).numArcs + arcs.length
  count_mod : (b2.stateAt n).numArcs % 256 = ((b.stateAt n).numArcs + arcs.length) % 256
  htable_len : b2.htable.length = b.htable.length

/-- The variables of the inner loop after some words of the label of state `n`,
against the runs `rs` found in the same words: the arcs added are the runs
found, and the new labels are canonical labels of runs. -/
structure Builder.ScanInv (n : Nat) (b0 : Builder) (s : Builder.Scan) (rs : RunScan)
    (news : List (List (List CChar))) : Prop where
  targetLabel_eq : s.targetLabel = rs.targetLabel
  targetSignature_eq : s.targetSignature = rs.targetSignature
  arcLabel_eq : s.arcLabel = rs.arcLabel
  grows : Builder.Grows n b0 s.builder (rs.runs.map (fun r => r.1)) news
  sublist : news.Sublist (rs.runs.map (fun r => canonicalize r.2.1))
  label_eq : (s.builder.stateAt n).label = (b0.stateAt n).label
  isFinal_eq : (s.builder.stateAt n).isFinal = ((b0.stateAt n).isFinal || rs.isFinal)

/-! ### Weights -/

/-- The number of characters and word ends of a list of words. -/
def wordsWeight (l : List (List CChar)) : Nat := (l.map (fun w => w.length + 1)).sum

/-- The weight of the target labels of a list of runs. -/
def runsWeight (runs : List (CChar × List (List CChar) × Nat)) : Nat :=
  (runs.map (fun r => labelWeight (canonicalize r.2.1))).sum

/-- The weight of the suffixes collected for the run that is still open. -/
def openWeight (targetLabel : List (List CChar)) : Nat :=
  if targetLabel = [] then 0 else wordsWeight targetLabel + 1

/-- The runs found after some words of a canonical label, with the words `l`
still to come: the arc labels of the closed runs increase and lie below the
label of the open run, which is at most the first character of any word to
come. -/
structure RunInv (rs : RunScan) (l : List (List CChar)) : Prop where
  increasing : (rs.runs.map (fun r => r.1)).Pairwise (fun x y => x < y)
  fresh : rs.targetLabel = [] → rs.runs = [] ∧ rs.arcLabel = -1
  below : rs.targetLabel ≠ [] → ∀ e ∈ rs.runs.map (fun r => r.1), e < rs.arcLabel
  le_rest : rs.targetLabel ≠ [] → ∀ c t, (c :: t) ∈ l → rs.arcLabel ≤ c

/-- The arc labels of state `k`: `arcLabels[arcOffset .. arcOffset + numArcs)`. -/
def arcsOf (stateTable : List State) (arcLabels : List CChar) (k : Nat) : List CChar :=
  (arcLabels.drop (stateTable.getD k ⟨0, 0, 0, false⟩).arcOffset).take
    (stateTable.getD k ⟨0, 0, 0, false⟩).numArcs

/-- The invariant of the outer loop of `build` when it is about to test the
state `n`: every state has a label, the labels are canonical, and the arcs of
the states already processed lie in the arc table with increasing characters. -/
structure Builder.LoopInv (b : Builder) (n : Nat) : Prop where
  labels_len : b.labels.length = b.stateTable.length
  le : n ≤ b.stateTable.length
  canonical : ∀ l ∈ b.labels, Canonical l
  arcs : ∀ k, k < n →
    (b.stateAt k).arcOffset + (b.stateAt k).numArcs ≤ b.arcLabels.length ∧
      (arcsOf b.stateTable b.arcLabels k).Pairwise (fun x y => x < y)

/-- The weight of the labels of the states not yet processed. -/
def Builder.pendingWeight (b : Builder) (n : Nat) : Nat :=
  ((b.labels.drop n).map labelWeight).sum

/-- The tables at the entry of the outer loop of `build`, on the characters. -/
def Builder.start (htable : List TreeNode) (words : List (List CChar)) : Builder :=
  { stateTable := [{ label := 0, arcOffset := 0, numArcs := 0, isFinal := false }],
    arcLabels := [], arcTargets := [], labels := [canonicalize words], htable := htable }

/-- The automaton `build` returns for the tables `b` the outer loop ends with:
the labels and the search trees are destroyed. -/
def Builder.finish (d : DFA) (b : Builder) : DFA :=
  { stateTable := b.stateTable, arcLabels := b.arcLabels, arcTargets := b.arcTargets,
    pLabelsTable := [], htable := List.replicate d.htable.length TreeNode.nil,
    dead := d.dead, curState := d.curState }

instance (cbuf : List CChar) (w : Word) : Decidable (w.WellFormed cbuf) := by
  unfold Word.WellFormed; exact inferInstance

instance (wc : WordCollection) : Decidable wc.WellFormed := by
  unfold WordCollection.WellFormed; exact inferInstance

/-- Two automata with the same state and arc tables. -/
def DFA.SameTables (d1 d2 : DFA) : Prop :=
  d1.stateTable = d2.stateTable ∧ d1.arcLabels = d2.arcLabels ∧ d1.arcTargets = d2.arcTargets

/-- Two matchers over the same tables in the same state. -/
def DFA.SameRun (d1 d2 : DFA) : Prop :=
  d1.SameTables d2 ∧ d1.dead = d2.dead ∧ d1.curState = d2.curState

/-- An ASCII character, `0 ≤ c ≤ 127`. -/
def isASCII (c : Int) : Prop := 0 ≤ c ∧ c ≤ 127

/-! ### The character reader -/

/-- The characters of the stream that `getNextChar` has not returned yet. -/
def Reader.pending (r : Reader) : List CChar :=
  (r.readbuf.take r.size).drop r.ic ++ r.file

/-- The reader after `getNextChar` has returned the `EOF` stored behind the
last character of the stream. -/
def Reader.Done (r : Reader) : Prop := r.eofbit = true ∧ r.ic = r.size + 1

/-- The states the reader takes on one stream, from `Reader.opened` on. -/
structure Reader.Ok (r : Reader) : Prop where
  size_le : r.size ≤ BUF_SIZE
  buf_len : r.readbuf.length = BUF_SIZE
  ic_le : r.ic ≤ r.size ∨ (r.ic = BUF_SIZE ∧ r.eofbit = false) ∨ r.Done
  eof : r.eofbit = true → r.file = [] ∧ r.size < BUF_SIZE ∧ r.readbuf.getD r.size 0 = EOF
  noeof : r.eofbit = false → r.size = BUF_SIZE ∨ r.ic = BUF_SIZE

/-- The character `ch` has just been read, and `l` is the stream from `ch` on
(empty when `ch` is the `EOF` behind the last character). -/
def Reader.At (r : Reader) (ch : Int) (l : List CChar) : Prop :=
  r.Ok ∧ ((l = [] ∧ ch = EOF ∧ r.Done) ∨ (l = ch :: r.pending ∧ ¬ r.Done))

/-! ### The token runs of an input -/

/-- A character a token run is made of: a letter or the apostrophe. -/
def isTokenChar (c : Int) : Bool := isalpha c || decide (c = 39)

/-- The lowercased token runs of an input, in order: characters that are not
letters are skipped, then the maximal run of letters and apostrophes is taken.
The first argument is the run being taken, if any. -/
def tokenRuns : Option (List CChar) → List CChar → List (List CChar)
  | none, [] => []
  | some run, [] => [run]
  | none, c :: rest =>
    if isalpha c then tokenRuns (some [tolower c]) rest else tokenRuns none rest
  | some run, c :: rest =>
    if isTokenChar c then tokenRuns (some (run ++ [tolower c])) rest
    else run :: tokenRuns none rest

/-- The input from its first letter on. -/
def skipSep : List CChar → List CChar
  | [] => []
  | c :: t => if isalpha c then c :: t else skipSep t

/-- The lowercased characters of the token run an input starts with. -/
def tokenOf : List CChar → List CChar
  | [] => []
  | c :: t => if isTokenChar c then tolower c :: tokenOf t else []

/-- The input behind the token run it starts with. -/
def afterToken : List CChar → List CChar
  | [] => []
  | c :: t => if isTokenChar c then afterToken t else c :: t

/-- The analyzer holds the tables `buildCharTables` sets up. -/
def Impl.HasTables (impl : Impl) : Prop :=
  (∃ impl0 : Impl, impl.buffer = (buildCharTables impl0).buffer) ∧
    impl.separator = 1 ∧ impl.token = 257 ∧ impl.lower = 513

/-- The terms the tokenizer is to deliver for the input `l` with the matcher
`m`: the token runs of `l` without those `m` recognizes. -/
def filterTerms (m : DFA) (l : List CChar) : List (List CChar) :=
  (tokenRuns none l).filter (fun t => !recognizes m t)

/-- The reader between two calls of `getWord`, with the input `l` still to be
scanned. -/
def Reader.Holds (r : Reader) (l : List CChar) : Prop :=
  r.Ok ∧ ((r.Done ∧ l = []) ∨ (¬ r.Done ∧ r.pending = l))

instance (c : Int) : Decidable (isASCII c) := by
  unfold isASCII; exact inferInstance

/-- A newly constructed analyzer for the closed examples: the memory of
`buffer` and the pointers, which the source leaves uninitialised, hold zeros. -/
def Impl.fresh : Impl :=
  { buffer := fun _ => 0, separator := 0, token := 0, lower := 0,
    machine := DFA.fresh false 0 }

/-- What the caller of `getWord` sees: the value returned and the term. -/
def returned (o : Outcome (Bool × Impl × Reader × List CChar)) : Outcome (Bool × List CChar) :=
  match o with
  | Outcome.ok (b, _, _, term) => Outcome.ok (b, term)
  | Outcome.outOfBounds => Outcome.outOfBounds
  | Outcome.outOfFuel => Outcome.outOfFuel

/-- The terms the tokenizer is to deliver for a stop-word list and an input:
the lowercased token runs of the input without those equal to a stop word. -/
def expectedTerms (stopWords : List (List CChar)) (input : List CChar) : List (List CChar) :=
  (tokenRuns none input).filter (fun t => !decide (t ∈ stopWords))

/-! ### What the runs of a label hold -/

/-- The runs found in the words `done` of a label: every closed run has a
character other than `-1`, which is the first character of a word scanned, and
a non-empty list of suffixes; so has the open run, if there is one. -/
structure RunFacts (rs : RunScan) (done : List (List CChar)) : Prop where
  closed : ∀ r ∈ rs.runs, r.1 ≠ -1 ∧ r.2.1 ≠ [] ∧ ∃ w, (r.1 :: w) ∈ done
  opened : rs.targetLabel ≠ [] → ∃ w, (rs.arcLabel :: w) ∈ done
  final : rs.isFinal = true ↔ [] ∈ done
  fresh : rs.targetLabel = [] → rs.arcLabel = -1 ∧ rs.runs = [] ∧ ∀ w ∈ done, w = []

/-! ### The number of runs of a label -/

/-- The values of the C++ type `char`. -/
def isChar (c : CChar) : Prop := -128 ≤ c ∧ c ≤ 127

instance (c : CChar) : Decidable (isChar c) := by
  unfold isChar; infer_instance

/-! ### The runs of a label without the byte `0xFF` -/

/-- The runs found in the words `done` of a sorted label whose words do not
start with `-1` group them by first character. -/
structure RunSem (rs : RunScan) (done : List (List CChar)) : Prop where
  closed : ∀ r ∈ rs.runs, ∀ w, w ∈ r.2.1 ↔ (r.1 :: w) ∈ done
  opened : rs.targetLabel ≠ [] → ∀ w, w ∈ rs.targetLabel ↔ (rs.arcLabel :: w) ∈ done
  cover : ∀ c w, (c :: w) ∈ done →
    c ∈ rs.runs.map (fun r => r.1) ∨ (rs.targetLabel ≠ [] ∧ c = rs.arcLabel)
  started : rs.targetLabel ≠ [] → rs.arcLabel ≠ -1

/-- Every state stored in the tree is below `n`. -/
def TreeNode.statesBelow (n : Nat) : TreeNode → Bool
  | TreeNode.nil => true
  | TreeNode.node _ st left right =>
    decide (st < n) && TreeNode.statesBelow n left && TreeNode.statesBelow n right

/-! ### The targets of the arcs of a state -/

/-- The arc targets `targets` lead to the states of the runs `runs`: each is a
state of the table whose label is the canonical label of its run. -/
def Builder.TargetsOK (labels : List (List (List CChar))) (targets : List Nat)
    (runs : List (CChar × List (List CChar) × Nat)) : Prop :=
  List.Forall₂ (fun t r => t < labels.length ∧ labels.getD t [] = canonicalize r.2.1) targets runs

/-- The arc targets added by the inner loop, against the runs found. -/
structure Builder.TargetInv (n : Nat) (b0 : Builder) (s : Builder.Scan) (rs : RunScan)
    (done : List (List CChar)) : Prop where
  scan : ∃ news, Builder.ScanInv n b0 s rs news
  facts : RunFacts rs done
  targets : ∃ ts, s.builder.arcTargets = b0.arcTargets ++ ts ∧
    Builder.TargetsOK s.builder.labels ts rs.runs

/-! ### The suffixes of the runs come from the label -/

/-- Every suffix collected by the scan is a word scanned less its first
character. -/
structure RunSub (rs : RunScan) (done : List (List CChar)) : Prop where
  closed : ∀ r ∈ rs.runs, ∀ w ∈ r.2.1, ∃ c, (c :: w) ∈ done
  opened : ∀ w ∈ rs.targetLabel, ∃ c, (c :: w) ∈ done

/-! ### The tables of the states processed -/

/-- The entry of a processed state `k` and its arcs: one arc for every run of
the label of `k`, with the character of the run and a target whose label is
the canonical label of the run; the state is final when the label holds the
empty word. -/
structure Builder.StateOK (b : Builder) (k : Nat) : Prop where
  count : (b.stateAt k).numArcs = (labelRuns (b.labels.getD k [])).length
  inside : (b.stateAt k).arcOffset + (b.stateAt k).numArcs ≤ b.arcLabels.length
  arcs : (b.arcLabels.drop (b.stateAt k).arcOffset).take (b.stateAt k).numArcs =
    (labelRuns (b.labels.getD k [])).map (fun r => r.1)
  targets : Builder.TargetsOK b.labels
    ((b.arcTargets.drop (b.stateAt k).arcOffset).take (b.stateAt k).numArcs)
    (labelRuns (b.labels.getD k []))
  final : (b.stateAt k).isFinal = (runScan (b.labels.getD k [])).isFinal

/-- The invariant of the outer loop of `build` on the tables, when it is about
to test the state `n`: the arc ranges of the states processed tile the arc
table in state order, and every processed state has the arcs of its label. -/
structure Builder.TableInv (b : Builder) (n : Nat) : Prop where
  base : b.LoopInv n
  chars : ∀ l ∈ b.labels, ∀ w ∈ l, ∀ c ∈ w, isChar c
  targets_len : b.arcTargets.length = b.arcLabels.length
  targets_lt : ∀ t ∈ b.arcTargets, t < b.labels.length
  first : 0 < n → (b.stateAt 0).arcOffset = 0
  next : ∀ k, k + 1 < n →
    (b.stateAt (k + 1)).arcOffset = (b.stateAt k).arcOffset + (b.stateAt k).numArcs
  last_nil : n = 0 → b.arcLabels = []
  last : ∀ k, k + 1 = n → (b.stateAt k).arcOffset + (b.stateAt k).numArcs = b.arcLabels.length
  states : ∀ k, k < n → b.StateOK k

/-! ### The matcher on the tables of the builder -/

/-- The target of the first arc labelled `c` among the arcs of a state. -/
def lookupArc (c : CChar) : List CChar → List Nat → Option Nat
  | ch :: chars, t :: targets => if ch = c then some t else lookupArc c chars targets
  | _, _ => none

/-- A matcher whose three tables are those of the builder `b`. -/
def DFA.Over (m : DFA) (b : Builder) : Prop :=
  m.stateTable = b.stateTable ∧ m.arcLabels = b.arcLabels ∧ m.arcTargets = b.arcTargets

/-- The lines `loadStopWords` keeps: the non-empty lines, each with its
letters in lower case. -/
def loweredLines (lines : List (List CChar)) : List (List CChar) :=
  (lines.filter (fun line => !line.isEmpty)).map (fun line => line.map tolower)

/-- The spans of the words `ws` laid one after the other from the offset
`off`. -/
def spansFrom : Nat → List (List CChar) → List Word
  | _, [] => []
  | off, w :: ws => ⟨off, off + w.length⟩ :: spansFrom (off + w.length) ws

/-- The spans `words` are non-empty half-open intervals that follow one
another from `off` to `stop` without gap or overlap. -/
def chained : Nat → List Word → Nat → Prop
  | off, [], stop => off = stop
  | off, w :: ws, stop => w.start = off ∧ w.start < w.stop ∧ chained w.stop ws stop

/-! ### The state `DFA::getState` returns -/

/-- The states stored in the search trees are states of the table, and every
state has a label. -/
def DFA.TreesOK (d : DFA) : Prop :=
  d.pLabelsTable.length = d.stateTable.length ∧
    ∀ t ∈ d.htable, t.statesBelow d.stateTable.length = true

instance (d : DFA) : Decidable d.TreesOK := by
  unfold DFA.TreesOK; infer_instance

/-- The labels of the states of the automaton of the word `w` after `k` states
are processed: the suffixes of `w` from position 0 to `k`. -/
def chainLabels (w : List CChar) (k : Nat) : List (List (List CChar)) :=
  (List.range (k + 1)).map (fun j => [w.drop j])

/-! ### `build` with the storage of the state table, on the characters -/

/-- The function `addArcTracked` on the characters. -/
def Builder.addArcT (grow : Nat → Nat) (capacity : Nat) (b : Builder) (state : Nat)
    (arcLabel : CChar) (stateLabel : List (List CChar)) (stateSignature : Nat) :
    Builder × Nat :=
  if capacity ≤ b.stateTable.length ∧
      (b.getState (canonicalize stateLabel) stateSignature).1.stateTable.length ≠
        b.stateTable.length then
    ({ (b.getState (canonicalize stateLabel) stateSignature).1 with
        arcLabels :=
          (b.getState (canonicalize stateLabel) stateSignature).1.arcLabels ++ [arcLabel],
        arcTargets :=
          (b.getState (canonicalize stateLabel) stateSignature).1.arcTargets ++
            [(b.getState (canonicalize stateLabel) stateSignature).2] },
      grow capacity)
  else (b.addArc state arcLabel stateLabel stateSignature, capacity)

/-- The function `scanWordTracked` on the characters. -/
def Builder.scanWordT (grow : Nat → Nat) (state : Nat) (s : Builder.Scan × Nat)
    (word : List CChar) : Builder.Scan × Nat :=
  match word with
  | [] =>
    ({ s.1 with builder := { s.1.builder with
          stateTable := setFinal s.1.builder.stateTable state } }, s.2)
  | ch :: rest =>
    if ch ≠ legitimate s.1.arcLabel ch then
      ({ builder := (s.1.builder.addArcT grow s.2 state (legitimate s.1.arcLabel ch)
            s.1.targetLabel s.1.targetSignature).1,
         targetLabel := [rest],
         targetSignature := hashChars startHashValue rest,
         arcLabel := ch },
       (s.1.builder.addArcT grow s.2 state (legitimate s.1.arcLabel ch)
          s.1.targetLabel s.1.targetSignature).2)
    else
      ({ builder := s.1.builder,
         targetLabel := s.1.targetLabel ++ [rest],
         targetSignature := hashChars s.1.targetSignature rest,
         arcLabel := legitimate s.1.arcLabel ch },
       s.2)

/-- The function `scanFinishTracked` on the characters. -/
def Builder.scanFinishT (grow : Nat → Nat) (state : Nat) (s : Builder.Scan × Nat) :
    Builder × Nat :=
  if s.1.targetLabel.length ≠ 0 then
    s.1.builder.addArcT grow s.2 state s.1.arcLabel s.1.targetLabel s.1.targetSignature
  else (s.1.builder, s.2)

/-- The function `processStateTracked` on the characters. -/
def Builder.processStateT (grow : Nat → Nat) (state : Nat) (b : Builder × Nat) : Builder × Nat :=
  Builder.scanFinishT grow state
    ((b.1.labels.getD state []).foldl (Builder.scanWordT grow state)
      (Builder.scanStart state b.1, b.2))

/-- The function `buildLoopTracked` on the characters, without the log. -/
def Builder.buildLoopT (grow : Nat → Nat) : Nat → Nat → Builder × Nat → Option (Builder × Nat)
  | 0, state, b => if state = b.1.stateTable.length then some b else none
  | fuel + 1, state, b =>
    if state = b.1.stateTable.length then some b
    else Builder.buildLoopT grow fuel (state + 1) (Builder.processStateT grow state b)

/-- The variables of the inner loop and the capacity, with the spans replaced
by their characters. -/
def toBuilderScanT (cbuf : List CChar) (s : Scan × Nat) : Builder.Scan × Nat :=
  (s.1.toBuilderScan cbuf, s.2)

/-- The automaton and the capacity, with the spans replaced by their
characters. -/
def toBuilderT (cbuf : List CChar) (d : DFA × Nat) : Builder × Nat :=
  (d.1.toBuilder cbuf, d.2)

/-! ### The effect of the inner loop with the capacity carried along -/

/-- The effect of arcs added for the state `n` when increments of the arc
counter may be lost: as `Builder.Grows`, without the exact value of the
counter. -/
structure Builder.GrowsT (n : Nat) (b b2 : Builder) (arcs : List CChar)
    (news : List (List (List CChar))) : Prop where
  arcLabels_eq : b2.arcLabels = b.arcLabels ++ arcs
  arcTargets_len : b2.arcTargets.length = b.arcTargets.length + arcs.length
  labels_eq : b2.labels = b.labels ++ news
  states_len : b2.stateTable.length = b.stateTable.length + news.length
  frame : ∀ k, k < b.stateTable.length → k ≠ n → b2.stateAt k = b.stateAt k
  offset_eq : (b2.stateAt n).arcOffset = (b.stateAt n).arcOffset
  count_le : (b2.stateAt n).numArcs ≤ (b.stateAt n).numArcs + arcs.length
  htable_len : b2.htable.length = b.htable.length

/-- The variables of the inner loop with the capacity carried along, after
some words of the label of state `n`, against the runs `rs` found in the same
words. -/
structure Builder.ScanInvT (n : Nat) (b0 : Builder) (s : Builder.Scan) (rs : RunScan)
    (news : List (List (List CChar))) : Prop where
  targetLabel_eq : s.targetLabel = rs.targetLabel
  targetSignature_eq : s.targetSignature = rs.targetSignature
  arcLabel_eq : s.arcLabel = rs.arcLabel
  grows : Builder.GrowsT n b0 s.builder (rs.runs.map (fun r => r.1)) news
  sublist : news.Sublist (rs.runs.map (fun r => canonicalize r.2.1))
  label_eq : (s.builder.stateAt n).label = (b0.stateAt n).label
  isFinal_eq : (s.builder.stateAt n).isFinal = ((b0.stateAt n).isFinal || rs.isFinal)

/-- The builder before state `k` of the automaton of the single word `w` is
processed, the capacity of the state table being the length of `w` at the
start: every state before `k` has its one arc, and its counter is 1 unless
its arc was added when the state table was full. -/
structure Builder.ChainInv (w : List CChar) (k : Nat) (b : Builder × Nat) : Prop where
  labels : b.1.labels = chainLabels w k
  states_len : b.1.stateTable.length = k + 1
  arcLabels : b.1.arcLabels = w.take k
  arcTargets : b.1.arcTargets = (List.range k).map (fun j => j + 1)
  states : ∀ j, j < k →
    b.1.stateAt j = ⟨j, j, if j + 1 = w.length then 0 else 1, false⟩
  label : (b.1.stateAt k).label = k
  capacity : k < w.length → b.2 = w.length

/-! ### The reader on a stream opened after another stream

The statics `readbuf`, `ic` and `size` keep their values from one stream to
the next. `getNextChar` does not read `size`, and `endFile` reads it only when
the stream has met its end, so that a stream opened with `ic < BUF_SIZE` is
read behind the rest of the old buffer. -/

/-- Two readers that differ at most in the static `size`, on a stream that has
not met its end. -/
def Reader.SameButSize (r r2 : Reader) : Prop :=
  r2 = r ∨ (r.eofbit = false ∧ ∃ s, r2 = { r with size := s })

/-- Two outcomes of the same kind whose values are related by `P`. -/
def Outcome.Same {α : Type} (P : α → α → Prop) (o o2 : Outcome α) : Prop :=
  match o, o2 with
  | Outcome.ok a, Outcome.ok a2 => P a a2
  | Outcome.outOfBounds, Outcome.outOfBounds => True
  | Outcome.outOfFuel, Outcome.outOfFuel => True
  | _, _ => False

/-- The reader when the stream `"y"` is opened after the stream of 4095 blanks
followed by `"xz"` has been read to its end: the second block of that stream,
`"z"` and the `EOF` stored behind it, lies at the start of `readbuf`, the rest
of `readbuf` still holds the first block, and `ic` stands behind the `EOF`. -/
def staleReader : Reader :=
  { file := [121], eofbit := false,
    readbuf := [122, -1] ++ (List.replicate (BUF_SIZE - 3) 32 ++ [120]),
    ic := 2, size := 1 }

instance (cbuf : List CChar) (d : DFA) : Decidable (d.LabelsWF cbuf) := by
  unfold DFA.LabelsWF; infer_instance

/-- The automaton `build` returns for the stop-word file with the single line
`"a"`: the start state with the arc `a` to the final state 1. -/
def exampleAutomaton : DFA :=
  { stateTable := [⟨0, 0, 1, false⟩, ⟨1, 1, 0, true⟩], arcLabels := [97], arcTargets := [1],
    pLabelsTable := [], htable := List.replicate HASH_TABLE_SIZE TreeNode.nil,
    dead := false, curState := 0 }

/-! # Theorems -/

theorem content_nil_of_eq (cbuf : List CChar) (w : Word) (h : w.start = w.stop) :
    content cbuf w = [] := by
  simp [content, h]

theorem content_cons (cbuf : List CChar) (w : Word) (h1 : w.start < w.stop)
    (h2 : w.stop ≤ cbuf.length) :
    content cbuf w = cbuf.getD w.start 0 :: content cbuf ⟨w.start + 1, w.stop⟩ := by
  unfold content
  have hlt : w.start < cbuf.length := by omega
  rw [List.drop_eq_getElem_cons hlt]
  have : w.stop - w.start = (w.stop - (w.start + 1)) + 1 := by omega
  rw [this, List.take_succ_cons]
  simp [List.getD_eq_getElem?_getD, List.getElem?_eq_getElem hlt]

theorem content_length (cbuf : List CChar) (w : Word) (h : w.WellFormed cbuf) :
    (content cbuf w).length = w.stop - w.start := by
  unfold content
  rw [List.length_take, List.length_drop]
  have := h.1; have := h.2
  omega

theorem content_eq_nil_iff (cbuf : List CChar) (w : Word) (h : w.WellFormed cbuf) :
    content cbuf w = [] ↔ w.start = w.stop := by
  rw [← List.length_eq_zero, content_length cbuf w h]
  have := h.1
  omega

theorem predSortLoop_eq (cbuf : List CChar) (last1 last2 : Nat) :
    ∀ (fuel first1 first2 : Nat), fuel = last1 - first1 → first1 ≤ last1 → last1 ≤ cbuf.length →
      first2 ≤ last2 → last2 ≤ cbuf.length →
      predSortLoop cbuf last1 last2 fuel first1 first2 =
        ltChars (content cbuf ⟨first1, last1⟩) (content cbuf ⟨first2, last2⟩) := by
  intro fuel
  induction fuel with
  | zero =>
    intro first1 first2 hf h1 h1b h2 h2b
    have e1 : first1 = last1 := by omega
    subst e1
    rw [content_nil_of_eq cbuf ⟨first1, first1⟩ rfl]
    simp only [predSortLoop, ltChars]
    by_cases e2 : first2 = last2
    · subst e2
      rw [content_nil_of_eq cbuf ⟨first2, first2⟩ rfl]
      simp
    · rw [content_cons cbuf ⟨first2, last2⟩ (by simp; omega) h2b]
      simp [e2]
  | succ n ih =>
    intro first1 first2 hf h1 h1b h2 h2b
    have e1 : first1 ≠ last1 := by omega
    rw [content_cons cbuf ⟨first1, last1⟩ (by simp; omega) h1b]
    simp only [predSortLoop, bne_iff_ne, ne_eq, e1, not_false_eq_true, ↓reduceIte]
    by_cases e2 : first2 = last2
    · subst e2
      rw [content_nil_of_eq cbuf ⟨first2, first2⟩ rfl]
      simp [ltChars]
    · rw [content_cons cbuf ⟨first2, last2⟩ (by simp; omega) h2b]
      rw [ih (first1 + 1) (first2 + 1) (by omega) (by omega) h1b (by omega) h2b]
      simp [ltChars, e2]

theorem predSort_eq (cbuf : List CChar) (a b : Word) (ha : a.WellFormed cbuf)
    (hb : b.WellFormed cbuf) :
    predSort cbuf a b = ltChars (content cbuf a) (content cbuf b) :=
  predSortLoop_eq cbuf a.stop b.stop _ a.start b.start rfl ha.1 ha.2 hb.1 hb.2

theorem predEqualLoop_eq (cbuf : List CChar) (last1 last2 : Nat) :
    ∀ (fuel first1 first2 : Nat), fuel = last1 - first1 → fuel = last2 - first2 →
      first1 ≤ last1 → last1 ≤ cbuf.length → first2 ≤ last2 → last2 ≤ cbuf.length →
      predEqualLoop cbuf last1 fuel first1 first2 =
        decide (content cbuf ⟨first1, last1⟩ = content cbuf ⟨first2, last2⟩) := by
  intro fuel
  induction fuel with
  | zero =>
    intro first1 first2 hf hf2 h1 h1b h2 h2b
    have e1 : first1 = last1 := by omega
    have e2 : first2 = last2 := by omega
    subst e1; subst e2
    simp [predEqualLoop, content]
  | succ n ih =>
    intro first1 first2 hf hf2 h1 h1b h2 h2b
    have e1 : first1 ≠ last1 := by omega
    rw [content_cons cbuf ⟨first1, last1⟩ (by simp; omega) h1b,
      content_cons cbuf ⟨first2, last2⟩ (by simp; omega) h2b]
    simp only [predEqualLoop, bne_iff_ne, ne_eq, e1, not_false_eq_true, ↓reduceIte]
    rw [ih (first1 + 1) (first2 + 1) (by omega) (by omega) (by omega) h1b (by omega) h2b]
    by_cases hc : cbuf.getD first1 0 = cbuf.getD first2 0
    · simp [hc]
    · simp [hc]

theorem predEqual_eq (cbuf : List CChar) (a b : Word) (ha : a.WellFormed cbuf)
    (hb : b.WellFormed cbuf) :
    predEqual cbuf a b = decide (content cbuf a = content cbuf b) := by
  unfold predEqual
  by_cases hl : a.stop - a.start = b.stop - b.start
  · simp only [hl, beq_self_eq_true, ↓reduceIte]
    rw [← hl]
    exact predEqualLoop_eq cbuf a.stop b.stop _ a.start b.start rfl hl ha.1 ha.2 hb.1 hb.2
  · have hne : content cbuf a ≠ content cbuf b := by
      intro h
      have := congrArg List.length h
      rw [content_length cbuf a ha, content_length cbuf b hb] at this
      exact hl this
    simp [hl, hne]

theorem cmpWordsLoop_eq (cbuf : List CChar) (last1 last2 : Nat) :
    ∀ (fuel first1 first2 : Nat), fuel = last1 - first1 → fuel = last2 - first2 →
      first1 ≤ last1 → last1 ≤ cbuf.length → first2 ≤ last2 → last2 ≤ cbuf.length →
      cmpWordsLoop cbuf fuel first1 first2 =
        cmpCharsLoop (content cbuf ⟨first1, last1⟩) (content cbuf ⟨first2, last2⟩) := by
  intro fuel
  induction fuel with
  | zero =>
    intro first1 first2 hf hf2 h1 h1b h2 h2b
    have e1 : first1 = last1 := by omega
    have e2 : first2 = last2 := by omega
    subst e1; subst e2
    simp [cmpWordsLoop, cmpCharsLoop, content]
  | succ n ih =>
    intro first1 first2 hf hf2 h1 h1b h2 h2b
    rw [content_cons cbuf ⟨first1, last1⟩ (by simp; omega) h1b,
      content_cons cbuf ⟨first2, last2⟩ (by simp; omega) h2b]
    simp only [cmpWordsLoop, cmpCharsLoop]
    rw [ih (first1 + 1) (first2 + 1) (by omega) (by omega) (by omega) h1b (by omega) h2b]

theorem cmpWords_eq (cbuf : List CChar) (a b : Word) (ha : a.WellFormed cbuf)
    (hb : b.WellFormed cbuf) :
    cmpWords cbuf a b = cmpChars (content cbuf a) (content cbuf b) := by
  unfold cmpWords cmpChars
  rw [content_length cbuf a ha, content_length cbuf b hb]
  by_cases hl : a.stop - a.start = b.stop - b.start
  · simp only [hl, ↓reduceIte]
    rw [← hl]
    exact cmpWordsLoop_eq cbuf a.stop b.stop _ a.start b.start rfl hl ha.1 ha.2 hb.1 hb.2
  · simp [hl]

theorem updateHashLoop_eq (cbuf : List CChar) (stop : Nat) :
    ∀ (fuel cur start : Nat), fuel = stop - start → start ≤ stop → stop ≤ cbuf.length →
      updateHashLoop cbuf fuel cur start =
        (content cbuf ⟨start, stop⟩).foldl (fun h x => wrap32 ((h : Int) + x)) cur := by
  intro fuel
  induction fuel with
  | zero =>
    intro cur start hf h1 h2
    have e : start = stop := by omega
    subst e
    simp [updateHashLoop, content]
  | succ n ih =>
    intro cur start hf h1 h2
    rw [content_cons cbuf ⟨start, stop⟩ (by simp; omega) h2]
    simp only [updateHashLoop, List.foldl_cons]
    rw [ih _ (start + 1) (by omega) (by omega) h2]

theorem updateHashValue_eq (cbuf : List CChar) (cur : Nat) (w : Word) (h : w.WellFormed cbuf) :
    updateHashValue cur cbuf w.start w.stop = hashChars cur (content cbuf w) := by
  unfold updateHashValue
  by_cases e : w.start = w.stop
  · rw [content_nil_of_eq cbuf w e]
    simp [e, hashChars]
  · have hlt : w.start < w.stop := lt_of_le_of_ne h.1 e
    simp only [bne_iff_ne, ne_eq, e, not_false_eq_true, ↓reduceIte]
    rw [updateHashLoop_eq cbuf w.stop _ _ w.start rfl h.1 h.2]
    rw [content_cons cbuf w hlt h.2]
    simp only [hashChars]

/-! ### Sorting and removal of duplicates -/

theorem mem_sortInsert {α : Type} (lt : α → α → Bool) (a x : α) (l : List α) :
    x ∈ sortInsert lt a l ↔ x = a ∨ x ∈ l := by
  induction l with
  | nil => simp [sortInsert]
  | cons b l ih =>
    simp only [sortInsert]
    split
    · simp
    · simp only [List.mem_cons, ih]
      tauto

theorem mem_stdSort {α : Type} (lt : α → α → Bool) (x : α) (l : List α) :
    x ∈ stdSort lt l ↔ x ∈ l := by
  induction l with
  | nil => simp [stdSort]
  | cons a l ih => simp [stdSort, mem_sortInsert, ih]

theorem mem_stdUniqueFrom {α : Type} (eq : α → α → Bool) (a x : α) (l : List α) :
    x ∈ stdUniqueFrom eq a l → x = a ∨ x ∈ l := by
  induction l generalizing a with
  | nil => simp [stdUniqueFrom]
  | cons b l ih =>
    simp only [stdUniqueFrom]
    split
    · intro h
      rcases ih a h with h | h
      · exact Or.inl h
      · exact Or.inr (List.mem_cons_of_mem _ h)
    · intro h
      rcases List.mem_cons.1 h with h | h
      · exact Or.inl h
      · rcases ih b h with h | h
        · exact Or.inr (h ▸ List.mem_cons_self _ _)
        · exact Or.inr (List.mem_cons_of_mem _ h)

theorem mem_stdUnique {α : Type} (eq : α → α → Bool) (x : α) (l : List α) :
    x ∈ stdUnique eq l → x ∈ l := by
  cases l with
  | nil => simp [stdUnique]
  | cons a l =>
    intro h
    rcases mem_stdUniqueFrom eq a x l h with h | h
    · exact h ▸ List.mem_cons_self _ _
    · exact List.mem_cons_of_mem _ h

theorem map_sortInsert {α β : Type} (f : α → β) (lt : α → α → Bool) (lt2 : β → β → Bool)
    (a : α) (l : List α) (h : ∀ b ∈ l, lt a b = lt2 (f a) (f b)) :
    (sortInsert lt a l).map f = sortInsert lt2 (f a) (l.map f) := by
  induction l with
  | nil => simp [sortInsert]
  | cons b l ih =>
    simp only [sortInsert, List.map_cons]
    rw [h b (List.mem_cons_self _ _)]
    split
    · simp
    · simp only [List.map_cons]
      rw [ih (fun c hc => h c (List.mem_cons_of_mem _ hc))]

theorem map_stdSort {α β : Type} (f : α → β) (lt : α → α → Bool) (lt2 : β → β → Bool)
    (l : List α) (h : ∀ a ∈ l, ∀ b ∈ l, lt a b = lt2 (f a) (f b)) :
    (stdSort lt l).map f = stdSort lt2 (l.map f) := by
  induction l with
  | nil => simp [stdSort]
  | cons a l ih =>
    simp only [stdSort, List.map_cons]
    rw [map_sortInsert f lt lt2 a (stdSort lt l)
      (fun b hb => h a (List.mem_cons_self _ _) b
        (List.mem_cons_of_mem _ ((mem_stdSort lt b l).1 hb)))]
    rw [ih (fun x hx y hy => h x (List.mem_cons_of_mem _ hx) y (List.mem_cons_of_mem _ hy))]

theorem map_stdUniqueFrom {α β : Type} (f : α → β) (eq : α → α → Bool) (eq2 : β → β → Bool)
    (a : α) (l : List α) (h : ∀ x ∈ a :: l, ∀ y ∈ a :: l, eq x y = eq2 (f x) (f y)) :
    (stdUniqueFrom eq a l).map f = stdUniqueFrom eq2 (f a) (l.map f) := by
  induction l generalizing a with
  | nil => simp [stdUniqueFrom]
  | cons b l ih =>
    simp only [stdUniqueFrom, List.map_cons]
    rw [h a (List.mem_cons_self _ _) b (List.mem_cons_of_mem _ (List.mem_cons_self _ _))]
    split
    · exact ih a (fun x hx y hy => h x (by simp at hx ⊢; tauto) y (by simp at hy ⊢; tauto))
    · simp only [List.map_cons]
      rw [ih b (fun x hx y hy => h x (List.mem_cons_of_mem _ hx) y (List.mem_cons_of_mem _ hy))]

theorem map_stdUnique {α β : Type} (f : α → β) (eq : α → α → Bool) (eq2 : β → β → Bool)
    (l : List α) (h : ∀ x ∈ l, ∀ y ∈ l, eq x y = eq2 (f x) (f y)) :
    (stdUnique eq l).map f = stdUnique eq2 (l.map f) := by
  cases l with
  | nil => simp [stdUnique]
  | cons a l => exact map_stdUniqueFrom f eq eq2 a l h

theorem mem_sortAndRemoveDuplicateWords (cbuf : List CChar) (words : List Word) (w : Word)
    (h : w ∈ sortAndRemoveDuplicateWords cbuf words) : w ∈ words :=
  (mem_stdSort _ w words).1 (mem_stdUnique _ w _ h)

theorem map_sortAndRemoveDuplicateWords (cbuf : List CChar) (words : List Word)
    (h : ∀ w ∈ words, w.WellFormed cbuf) :
    (sortAndRemoveDuplicateWords cbuf words).map (content cbuf) =
      canonicalize (words.map (content cbuf)) := by
  unfold sortAndRemoveDuplicateWords canonicalize
  rw [map_stdUnique (content cbuf) (predEqual cbuf) (fun a b => decide (a = b))]
  · rw [map_stdSort (content cbuf) (predSort cbuf) ltChars]
    intro a ha b hb
    exact predSort_eq cbuf a b (h a ha) (h b hb)
  · intro a ha b hb
    exact predEqual_eq cbuf a b (h a ((mem_stdSort _ a words).1 ha))
      (h b ((mem_stdSort _ b words).1 hb))

/-! ### Comparison of labels -/

theorem cmpLabelLoop_eq (cbuf : List CChar) (l1 l2 : List Word)
    (h1 : ∀ w ∈ l1, w.WellFormed cbuf) (h2 : ∀ w ∈ l2, w.WellFormed cbuf) :
    cmpLabelLoop cbuf l1 l2 = cmpContentsLoop (l1.map (content cbuf)) (l2.map (content cbuf)) := by
  induction l1 generalizing l2 with
  | nil => simp [cmpLabelLoop, cmpContentsLoop]
  | cons a l1 ih =>
    cases l2 with
    | nil => simp [cmpLabelLoop, cmpContentsLoop]
    | cons b l2 =>
      simp only [cmpLabelLoop, cmpContentsLoop, List.map_cons]
      rw [cmpWords_eq cbuf a b (h1 a (List.mem_cons_self _ _)) (h2 b (List.mem_cons_self _ _))]
      rw [ih l2 (fun w hw => h1 w (List.mem_cons_of_mem _ hw))
        (fun w hw => h2 w (List.mem_cons_of_mem _ hw))]

theorem cmpLabel_eq (cbuf : List CChar) (l1 l2 : List Word)
    (h1 : ∀ w ∈ l1, w.WellFormed cbuf) (h2 : ∀ w ∈ l2, w.WellFormed cbuf) :
    cmpLabel cbuf l1 l2 = cmpContents (l1.map (content cbuf)) (l2.map (content cbuf)) := by
  unfold cmpLabel cmpContents
  rw [cmpLabelLoop_eq cbuf l1 l2 h1 h2]
  simp

theorem getD_labels_wf (cbuf : List CChar) (labels : List LabelType)
    (h : ∀ label ∈ labels, ∀ w ∈ label, w.WellFormed cbuf) (i : Nat) :
    ∀ w ∈ labels.getD i [], w.WellFormed cbuf := by
  intro w hw
  by_cases hi : i < labels.length
  · rw [List.getD_eq_getElem _ _ hi] at hw
    exact h _ (List.getElem_mem hi) w hw
  · rw [List.getD_eq_default _ _ (by omega)] at hw
    simp at hw

theorem getD_map_labels (cbuf : List CChar) (labels : List LabelType) (i : Nat) :
    (labels.map (fun label => label.map (content cbuf))).getD i [] =
      (labels.getD i []).map (content cbuf) := by
  by_cases hi : i < labels.length
  · rw [List.getD_eq_getElem _ _ hi, List.getD_eq_getElem _ _ (by simpa using hi)]
    simp
  · rw [List.getD_eq_default labels _ (by omega),
      List.getD_eq_default (labels.map _) _ (by rw [List.length_map]; omega)]
    simp

theorem searchTree_eq (cbuf : List CChar) (labels : List LabelType) (label : List Word)
    (signature newState : Nat)
    (hl : ∀ l ∈ labels, ∀ w ∈ l, w.WellFormed cbuf) (hw : ∀ w ∈ label, w.WellFormed cbuf)
    (t : TreeNode) :
    searchTree cbuf labels label signature newState t =
      Builder.searchTree (labels.map (fun l => l.map (content cbuf))) (label.map (content cbuf))
        signature newState t := by
  induction t with
  | nil => simp [searchTree, Builder.searchTree]
  | node sig st left right ihl ihr =>
    simp only [searchTree, Builder.searchTree]
    rw [ihl, ihr, getD_map_labels,
      cmpLabel_eq cbuf label (labels.getD st []) hw (getD_labels_wf cbuf labels hl st)]

theorem getState_eq (cbuf : List CChar) (d : DFA) (label : List Word) (signature : Nat)
    (hd : d.LabelsWF cbuf) (hw : ∀ w ∈ label, w.WellFormed cbuf) :
    (getState cbuf d label signature).1.toBuilder cbuf =
        ((d.toBuilder cbuf).getState (label.map (content cbuf)) signature).1 ∧
      (getState cbuf d label signature).2 =
        ((d.toBuilder cbuf).getState (label.map (content cbuf)) signature).2 ∧
      (getState cbuf d label signature).1.LabelsWF cbuf ∧
      (getState cbuf d label signature).1.dead = d.dead ∧
      (getState cbuf d label signature).1.curState = d.curState := by
  unfold getState Builder.getState
  rw [searchTree_eq cbuf d.pLabelsTable label signature _ hd hw]
  simp only [DFA.toBuilder]
  cases heq : (Builder.searchTree (List.map (fun l => List.map (content cbuf) l) d.pLabelsTable)
      (List.map (content cbuf) label) signature d.stateTable.length
      (d.htable.getD (signature % HASH_TABLE_SIZE) TreeNode.nil)).1 with
  | some st => exact ⟨rfl, rfl, hd, rfl, rfl⟩
  | none =>
    refine ⟨?_, rfl, ?_, rfl, rfl⟩
    · simp
    · intro l hl
      simp only [List.mem_append, List.mem_singleton] at hl
      rcases hl with hl | hl
      · exact hd l hl
      · subst hl; exact hw

theorem addArc_eq (cbuf : List CChar) (d : DFA) (state : Nat) (arcLabel : CChar)
    (label : List Word) (signature : Nat)
    (hd : d.LabelsWF cbuf) (hw : ∀ w ∈ label, w.WellFormed cbuf) :
    (addArc cbuf d state arcLabel label signature).toBuilder cbuf =
        (d.toBuilder cbuf).addArc state arcLabel (label.map (content cbuf)) signature ∧
      (addArc cbuf d state arcLabel label signature).LabelsWF cbuf ∧
      (addArc cbuf d state arcLabel label signature).dead = d.dead ∧
      (addArc cbuf d state arcLabel label signature).curState = d.curState := by
  have hw2 : ∀ w ∈ sortAndRemoveDuplicateWords cbuf label, w.WellFormed cbuf :=
    fun w h => hw w (mem_sortAndRemoveDuplicateWords cbuf label w h)
  obtain ⟨h1, h2, h3, h4, h5⟩ :=
    getState_eq cbuf d (sortAndRemoveDuplicateWords cbuf label) signature hd hw2
  rw [map_sortAndRemoveDuplicateWords cbuf label hw] at h1 h2
  refine ⟨?_, ?_, ?_, ?_⟩
  · unfold addArc Builder.addArc
    rw [← h1, ← h2]
    simp [DFA.toBuilder]
  · exact h3
  · exact h4
  · exact h5

theorem scanWord_empty (cbuf : List CChar) (state : Nat) (s : Scan) (word : Word)
    (he : word.start = word.stop) :
    scanWord cbuf state s word =
      { s with dfa := { s.dfa with stateTable := setFinal s.dfa.stateTable state } } := by
  unfold scanWord
  rw [if_pos he]

theorem scanWord_newRun (cbuf : List CChar) (state : Nat) (s : Scan) (word : Word)
    (he : ¬ word.start = word.stop)
    (hc : cbuf.getD word.start 0 ≠ legitimate s.arcLabel (cbuf.getD word.start 0)) :
    scanWord cbuf state s word =
      { dfa := addArc cbuf s.dfa state (legitimate s.arcLabel (cbuf.getD word.start 0))
          s.targetLabel s.targetSignature,
        targetLabel := [⟨word.start + 1, word.stop⟩],
        targetSignature := updateHashValue startHashValue cbuf (word.start + 1) word.stop,
        arcLabel := cbuf.getD word.start 0 } := by
  unfold scanWord
  rw [if_neg he, if_pos hc]

theorem scanWord_sameRun (cbuf : List CChar) (state : Nat) (s : Scan) (word : Word)
    (he : ¬ word.start = word.stop)
    (hc : ¬ cbuf.getD word.start 0 ≠ legitimate s.arcLabel (cbuf.getD word.start 0)) :
    scanWord cbuf state s word =
      { dfa := s.dfa,
        targetLabel := s.targetLabel ++ [⟨word.start + 1, word.stop⟩],
        targetSignature := updateHashValue s.targetSignature cbuf (word.start + 1) word.stop,
        arcLabel := legitimate s.arcLabel (cbuf.getD word.start 0) } := by
  unfold scanWord
  rw [if_neg he, if_neg hc]

theorem Builder.scanWord_nil (state : Nat) (s : Builder.Scan) :
    Builder.scanWord state s [] =
      { s with builder := { s.builder with
          stateTable := setFinal s.builder.stateTable state } } := rfl

theorem Builder.scanWord_cons_new (state : Nat) (s : Builder.Scan) (ch : CChar)
    (rest : List CChar) (hc : ch ≠ legitimate s.arcLabel ch) :
    Builder.scanWord state s (ch :: rest) =
      { builder := s.builder.addArc state (legitimate s.arcLabel ch)
          s.targetLabel s.targetSignature,
        targetLabel := [rest],
        targetSignature := hashChars startHashValue rest,
        arcLabel := ch } := if_pos hc

theorem Builder.scanWord_cons_same (state : Nat) (s : Builder.Scan) (ch : CChar)
    (rest : List CChar) (hc : ¬ ch ≠ legitimate s.arcLabel ch) :
    Builder.scanWord state s (ch :: rest) =
      { builder := s.builder,
        targetLabel := s.targetLabel ++ [rest],
        targetSignature := hashChars s.targetSignature rest,
        arcLabel := legitimate s.arcLabel ch } := if_neg hc

theorem scanWord_eq (cbuf : List CChar) (state : Nat) (s : Scan) (word : Word)
    (hs : s.WF cbuf) (hw : word.WellFormed cbuf) :
    (scanWord cbuf state s word).toBuilderScan cbuf =
        Builder.scanWord state (s.toBuilderScan cbuf) (content cbuf word) ∧
      (scanWord cbuf state s word).WF cbuf ∧
      (scanWord cbuf state s word).dfa.dead = s.dfa.dead ∧
      (scanWord cbuf state s word).dfa.curState = s.dfa.curState := by
  by_cases he : word.start = word.stop
  · rw [content_nil_of_eq cbuf word he, scanWord_empty cbuf state s word he,
      Builder.scanWord_nil]
    exact ⟨rfl, ⟨hs.1, hs.2⟩, rfl, rfl⟩
  · have hlt : word.start < word.stop := lt_of_le_of_ne hw.1 he
    have hsuf : Word.WellFormed cbuf ⟨word.start + 1, word.stop⟩ := ⟨hlt, hw.2⟩
    rw [content_cons cbuf word hlt hw.2]
    by_cases hc : cbuf.getD word.start 0 ≠ legitimate s.arcLabel (cbuf.getD word.start 0)
    · obtain ⟨h1, h2, h3, h4⟩ := addArc_eq cbuf s.dfa state
        (legitimate s.arcLabel (cbuf.getD word.start 0)) s.targetLabel
        s.targetSignature hs.1 hs.2
      rw [scanWord_newRun cbuf state s word he hc,
        Builder.scanWord_cons_new state (s.toBuilderScan cbuf) _ _ hc]
      refine ⟨?_, ⟨h2, ?_⟩, h3, h4⟩
      · simp only [Scan.toBuilderScan]
        rw [h1, updateHashValue_eq cbuf _ ⟨word.start + 1, word.stop⟩ hsuf]
        simp
      · intro w hw2
        simp only [List.mem_singleton] at hw2
        subst hw2; exact hsuf
    · rw [scanWord_sameRun cbuf state s word he hc,
        Builder.scanWord_cons_same state (s.toBuilderScan cbuf) _ _ hc]
      refine ⟨?_, ⟨hs.1, ?_⟩, rfl, rfl⟩
      · simp only [Scan.toBuilderScan]
        rw [updateHashValue_eq cbuf _ ⟨word.start + 1, word.stop⟩ hsuf]
        simp
      · intro w hw2
        simp only [List.mem_append, List.mem_singleton] at hw2
        rcases hw2 with hw2 | hw2
        · exact hs.2 w hw2
        · subst hw2; exact hsuf

theorem foldl_scanWord_eq (cbuf : List CChar) (state : Nat) (label : List Word)
    (hl : ∀ w ∈ label, w.WellFormed cbuf) (s : Scan) (hs : s.WF cbuf) :
    (label.foldl (scanWord cbuf state) s).toBuilderScan cbuf =
        (label.map (content cbuf)).foldl (Builder.scanWord state) (s.toBuilderScan cbuf) ∧
      (label.foldl (scanWord cbuf state) s).WF cbuf ∧
      (label.foldl (scanWord cbuf state) s).dfa.dead = s.dfa.dead ∧
      (label.foldl (scanWord cbuf state) s).dfa.curState = s.dfa.curState := by
  induction label generalizing s with
  | nil => exact ⟨rfl, hs, rfl, rfl⟩
  | cons w label ih =>
    obtain ⟨h1, h2, h3, h4⟩ := scanWord_eq cbuf state s w hs (hl w (List.mem_cons_self _ _))
    obtain ⟨k1, k2, k3, k4⟩ := ih (fun x hx => hl x (List.mem_cons_of_mem _ hx))
      (scanWord cbuf state s w) h2
    simp only [List.foldl_cons, List.map_cons]
    refine ⟨?_, k2, ?_, ?_⟩
    · rw [k1, h1]
    · rw [k3, h3]
    · rw [k4, h4]

theorem scanFinish_eq (cbuf : List CChar) (state : Nat) (s : Scan) (hs : s.WF cbuf) :
    (scanFinish cbuf state s).toBuilder cbuf =
        Builder.scanFinish state (s.toBuilderScan cbuf) ∧
      (scanFinish cbuf state s).LabelsWF cbuf ∧
      (scanFinish cbuf state s).dead = s.dfa.dead ∧
      (scanFinish cbuf state s).curState = s.dfa.curState := by
  unfold scanFinish Builder.scanFinish
  by_cases h : s.targetLabel.length ≠ 0
  · have h2 : (s.toBuilderScan cbuf).targetLabel.length ≠ 0 := by
      simpa [Scan.toBuilderScan] using h
    rw [if_pos h, if_pos h2]
    exact addArc_eq cbuf s.dfa state s.arcLabel s.targetLabel s.targetSignature hs.1 hs.2
  · have h2 : ¬ (s.toBuilderScan cbuf).targetLabel.length ≠ 0 := by
      simpa [Scan.toBuilderScan] using h
    rw [if_neg h, if_neg h2]
    exact ⟨rfl, hs.1, rfl, rfl⟩

theorem processState_eq (cbuf : List CChar) (state : Nat) (d : DFA) (hd : d.LabelsWF cbuf) :
    (processState cbuf state d).toBuilder cbuf = (d.toBuilder cbuf).processState state ∧
      (processState cbuf state d).LabelsWF cbuf ∧
      (processState cbuf state d).dead = d.dead ∧
      (processState cbuf state d).curState = d.curState := by
  have hs : (scanStart state d).WF cbuf := ⟨hd, by simp [scanStart]⟩
  obtain ⟨h1, h2, h3, h4⟩ := foldl_scanWord_eq cbuf state (d.pLabelsTable.getD state [])
    (getD_labels_wf cbuf d.pLabelsTable hd state) _ hs
  obtain ⟨k1, k2, k3, k4⟩ := scanFinish_eq cbuf state _ h2
  unfold processState Builder.processState
  refine ⟨?_, k2, k3.trans h3, k4.trans h4⟩
  rw [k1, h1]
  have hlab : (d.toBuilder cbuf).labels.getD state [] =
      (d.pLabelsTable.getD state []).map (content cbuf) := getD_map_labels cbuf _ state
  rw [hlab]
  rfl

theorem buildLoop_eq (cbuf : List CChar) (fuel : Nat) :
    ∀ (state : Nat) (d : DFA), d.LabelsWF cbuf →
      (buildLoop cbuf fuel state d).map (DFA.toBuilder cbuf) =
        Builder.buildLoop fuel state (d.toBuilder cbuf) ∧
      ∀ d2, buildLoop cbuf fuel state d = some d2 →
        d2.dead = d.dead ∧ d2.curState = d.curState := by
  induction fuel with
  | zero =>
    intro state d _
    simp only [buildLoop, Builder.buildLoop]
    by_cases he : state = d.stateTable.length
    · have he2 : state = (d.toBuilder cbuf).stateTable.length := he
      rw [if_pos he, if_pos he2]
      simp
    · have he2 : ¬ state = (d.toBuilder cbuf).stateTable.length := he
      rw [if_neg he, if_neg he2]
      simp
  | succ n ih =>
    intro state d hd
    obtain ⟨h1, h2, h3, h4⟩ := processState_eq cbuf state d hd
    simp only [buildLoop, Builder.buildLoop]
    by_cases he : state = d.stateTable.length
    · have he2 : state = (d.toBuilder cbuf).stateTable.length := he
      rw [if_pos he, if_pos he2]
      simp
    · have he2 : ¬ state = (d.toBuilder cbuf).stateTable.length := he
      rw [if_neg he, if_neg he2]
      obtain ⟨k1, k2⟩ := ih (state + 1) (processState cbuf state d) h2
      refine ⟨?_, ?_⟩
      · rw [k1, h1]
      · intro d2 hd2
        obtain ⟨k3, k4⟩ := k2 d2 hd2
        exact ⟨k3.trans h3, k4.trans h4⟩

/-! ### The order of `predSort` -/

theorem ltChars_irrefl (a : List Int) : ltChars a a = false := by
  induction a with
  | nil => rfl
  | cons x a ih => simp [ltChars, ih]

theorem ltChars_cons_cons (x y : Int) (a b : List Int) :
    ltChars (x :: a) (y :: b) = true ↔ x < y ∨ (x = y ∧ ltChars a b = true) := by
  simp only [ltChars]
  by_cases h1 : y < x
  · simp only [h1, ↓reduceIte]
    constructor
    · intro h; cases h
    · rintro (h | ⟨h, _⟩) <;> omega
  · by_cases h2 : x < y
    · simp [h1, h2]
    · have : x = y := by omega
      simp [h1, h2, this]

theorem ltChars_trans : ∀ (a b c : List Int), ltChars a b = true → ltChars b c = true →
    ltChars a c = true := by
  intro a
  induction a with
  | nil =>
    intro b c h1 h2
    cases c with
    | nil => cases b <;> simp [ltChars] at h2
    | cons z c => simp [ltChars]
  | cons x a ih =>
    intro b c h1 h2
    cases b with
    | nil => simp [ltChars] at h1
    | cons y b =>
      cases c with
      | nil => simp [ltChars] at h2
      | cons z c =>
        rw [ltChars_cons_cons] at h1 h2 ⊢
        rcases h1 with h1 | ⟨h1, h1b⟩
        · rcases h2 with h2 | ⟨h2, _⟩
          · left; omega
          · left; omega
        · rcases h2 with h2 | ⟨h2, h2b⟩
          · left; omega
          · right; exact ⟨h1.trans h2, ih b c h1b h2b⟩

theorem ltChars_total : ∀ (a b : List Int), ltChars a b = false → ltChars b a = false →
    a = b := by
  intro a
  induction a with
  | nil =>
    intro b h1 _
    cases b with
    | nil => rfl
    | cons y b => simp [ltChars] at h1
  | cons x a ih =>
    intro b h1 h2
    cases b with
    | nil => simp [ltChars] at h2
    | cons y b =>
      have k1 : ¬ (x < y ∨ (x = y ∧ ltChars a b = true)) := by
        rw [← ltChars_cons_cons]; simp [h1]
      have k2 : ¬ (y < x ∨ (y = x ∧ ltChars b a = true)) := by
        rw [← ltChars_cons_cons]; simp [h2]
      have hxy : x = y := by omega
      subst hxy
      have e := ih b (by simpa using k1) (by simpa using k2)
      rw [e]

theorem ltChars_asymm (a b : List Int) (h : ltChars a b = true) : ltChars b a = false := by
  cases hb : ltChars b a with
  | false => rfl
  | true =>
    have := ltChars_trans a b a h hb
    rw [ltChars_irrefl] at this
    cases this

theorem leChars_trans (a b c : List Int) (h1 : leChars a b) (h2 : leChars b c) :
    leChars a c := by
  unfold leChars at *
  cases hca : ltChars c a with
  | false => rfl
  | true =>
    cases hab : ltChars a b with
    | true =>
      have := ltChars_trans c a b hca hab
      rw [h2] at this; cases this
    | false =>
      have e := ltChars_total a b hab h1
      subst e
      rw [h2] at hca; cases hca

theorem leChars_of_lt (a b : List Int) (h : ltChars a b = true) : leChars a b :=
  ltChars_asymm a b h

theorem pairwise_sortInsert (a : List Int) (l : List (List Int))
    (h : l.Pairwise leChars) : (sortInsert ltChars a l).Pairwise leChars := by
  induction l with
  | nil => simp [sortInsert]
  | cons b l ih =>
    rw [List.pairwise_cons] at h
    simp only [sortInsert]
    by_cases hab : ltChars a b = true
    · rw [if_pos hab]
      refine List.Pairwise.cons ?_ (List.Pairwise.cons h.1 h.2)
      intro x hx
      rcases List.mem_cons.1 hx with hx | hx
      · subst hx; exact leChars_of_lt _ _ hab
      · exact leChars_trans a b x (leChars_of_lt _ _ hab) (h.1 x hx)
    · rw [if_neg hab]
      refine List.Pairwise.cons ?_ (ih h.2)
      intro x hx
      rcases (mem_sortInsert ltChars a x l).1 hx with hx | hx
      · subst hx
        simpa [leChars] using hab
      · exact h.1 x hx

theorem pairwise_stdSort (l : List (List Int)) : (stdSort ltChars l).Pairwise leChars := by
  induction l with
  | nil => simp [stdSort]
  | cons a l ih => exact pairwise_sortInsert a _ ih

theorem stdUniqueFrom_spec (a : List Int) (l : List (List Int))
    (h : (a :: l).Pairwise leChars) :
    Canonical (stdUniqueFrom (fun x y => decide (x = y)) a l) ∧
      (∀ x, x ∈ stdUniqueFrom (fun x y => decide (x = y)) a l ↔ x ∈ a :: l) ∧
      (stdUniqueFrom (fun x y => decide (x = y)) a l).head? = some a := by
  induction l generalizing a with
  | nil => simp [stdUniqueFrom, Canonical]
  | cons b l ih =>
    rw [List.pairwise_cons] at h
    simp only [stdUniqueFrom]
    by_cases hab : a = b
    · subst hab
      simp only [decide_True, ↓reduceIte]
      obtain ⟨k1, k2, k3⟩ := ih a h.2
      refine ⟨k1, ?_, k3⟩
      intro x
      rw [k2 x]
      simp
    · simp only [hab, decide_False, Bool.false_eq_true, ↓reduceIte]
      obtain ⟨k1, k2, k3⟩ := ih b h.2
      refine ⟨?_, ?_, rfl⟩
      · refine List.Pairwise.cons ?_ k1
        intro x hx
        have hx2 := (k2 x).1 hx
        have hbx : leChars b x := by
          rcases List.mem_cons.1 hx2 with e | e
          · subst e; exact ltChars_irrefl _
          · exact (List.pairwise_cons.1 h.2).1 x e
        have hle : leChars a b := h.1 b (List.mem_cons_self _ _)
        cases hlt : ltChars a x with
        | true => rfl
        | false =>
          have hax : leChars a x := leChars_trans a b x hle hbx
          have e := ltChars_total a x hlt hax
          subst e
          have := ltChars_total a b ?_ hle
          · exact absurd this hab
          · exact hbx
      · intro x
        simp only [List.mem_cons, k2 x]

theorem canonical_canonicalize (l : List (List Int)) : Canonical (canonicalize l) := by
  unfold canonicalize
  have h := pairwise_stdSort l
  cases hs : stdSort ltChars l with
  | nil => simp [stdUnique, Canonical]
  | cons a r =>
    rw [hs] at h
    exact (stdUniqueFrom_spec a r h).1

theorem mem_canonicalize (l : List (List Int)) (x : List Int) :
    x ∈ canonicalize l ↔ x ∈ l := by
  unfold canonicalize
  have h := pairwise_stdSort l
  have hm := mem_stdSort ltChars x l
  cases hs : stdSort ltChars l with
  | nil =>
    rw [hs] at hm
    simp only [stdUnique]
    exact hm
  | cons a r =>
    rw [hs] at h hm
    simp only [stdUnique]
    rw [(stdUniqueFrom_spec a r h).2.1 x]
    exact hm

theorem Builder.Grows.refl (n : Nat) (b : Builder) : Builder.Grows n b b [] [] where
  arcLabels_eq := by simp
  arcTargets_len := by simp
  labels_eq := by simp
  states_len := by simp
  frame := fun _ _ _ => rfl
  offset_eq := rfl
  count_le := by simp
  count_mod := by simp
  htable_len := rfl

theorem Builder.Grows.compose {n : Nat} {b b2 b3 : Builder} {a1 a2 : List CChar}
    {n1 n2 : List (List (List CChar))} (h1 : Builder.Grows n b b2 a1 n1)
    (h2 : Builder.Grows n b2 b3 a2 n2) : Builder.Grows n b b3 (a1 ++ a2) (n1 ++ n2) where
  arcLabels_eq := by rw [h2.arcLabels_eq, h1.arcLabels_eq, List.append_assoc]
  arcTargets_len := by rw [h2.arcTargets_len, h1.arcTargets_len, List.length_append]; omega
  labels_eq := by rw [h2.labels_eq, h1.labels_eq, List.append_assoc]
  states_len := by rw [h2.states_len, h1.states_len, List.length_append]; omega
  frame := fun k hk hn => by
    rw [h2.frame k (by rw [h1.states_len]; omega) hn, h1.frame k hk hn]
  offset_eq := by rw [h2.offset_eq, h1.offset_eq]
  count_le := by
    have := h2.count_le; have := h1.count_le
    rw [List.length_append]; omega
  count_mod := by
    have e2 := h2.count_mod; have e1 := h1.count_mod
    rw [List.length_append]
    omega
  htable_len := by rw [h2.htable_len, h1.htable_len]

theorem stateAt_append_left (t x : List State) (k : Nat) (hk : k < t.length) :
    (t ++ x).getD k ⟨0, 0, 0, false⟩ = t.getD k ⟨0, 0, 0, false⟩ := by
  rw [List.getD_eq_getElem _ _ hk, List.getD_eq_getElem _ _ (by rw [List.length_append]; omega)]
  exact List.getElem_append_left hk

theorem getD_set_self (t : List State) (k : Nat) (s : State) (hk : k < t.length) :
    (t.set k s).getD k ⟨0, 0, 0, false⟩ = s := by
  rw [List.getD_eq_getElem _ _ (by rw [List.length_set]; exact hk)]
  simp

theorem getD_set_ne (t : List State) (k j : Nat) (s : State) (h : j ≠ k) :
    (t.set k s).getD j ⟨0, 0, 0, false⟩ = t.getD j ⟨0, 0, 0, false⟩ := by
  simp only [List.getD_eq_getElem?_getD]
  rw [List.getElem?_set_ne (Ne.symm h)]

/-- What `getState` changes: nothing, or one label and one state are appended. -/
theorem Builder.getState_spec (b : Builder) (label : List (List CChar)) (signature : Nat) :
    ∃ news, (news = [] ∨ news = [label]) ∧
      (b.getState label signature).1.arcLabels = b.arcLabels ∧
      (b.getState label signature).1.arcTargets = b.arcTargets ∧
      (b.getState label signature).1.labels = b.labels ++ news ∧
      (b.getState label signature).1.stateTable =
        b.stateTable ++ news.map (fun _ => ⟨b.labels.length, 0, 0, false⟩) ∧
      (b.getState label signature).1.htable.length = b.htable.length := by
  unfold Builder.getState
  cases (Builder.searchTree b.labels label signature b.stateTable.length
      (b.htable.getD (signature % HASH_TABLE_SIZE) TreeNode.nil)).1 with
  | some st => exact ⟨[], Or.inl rfl, rfl, rfl, by simp, by simp, rfl⟩
  | none => exact ⟨[label], Or.inr rfl, rfl, rfl, rfl, by simp, by simp⟩

/-- What `addArc` changes. -/
theorem Builder.addArc_grows (b : Builder) (n : Nat) (c : CChar) (label : List (List CChar))
    (signature : Nat) (hn : n < b.stateTable.length) :
    ∃ news, (news = [] ∨ news = [canonicalize label]) ∧
      Builder.Grows n b (b.addArc n c label signature) [c] news ∧
      (b.addArc n c label signature).stateAt n =
        { b.stateAt n with numArcs := ((b.stateAt n).numArcs + 1) % 256 } := by
  obtain ⟨news, hnews, h1, h2, h3, h4, h5⟩ := b.getState_spec (canonicalize label) signature
  have hst : (b.addArc n c label signature).stateTable =
      incNumArcs (b.stateTable ++ news.map (fun _ => ⟨b.labels.length, 0, 0, false⟩)) n := by
    unfold Builder.addArc
    simp only [h4]
  have hlen : n < (b.stateTable ++
      news.map (fun _ => (⟨b.labels.length, 0, 0, false⟩ : State))).length := by
    rw [List.length_append]; omega
  have hself : (b.addArc n c label signature).stateAt n =
      { b.stateAt n with numArcs := ((b.stateAt n).numArcs + 1) % 256 } := by
    unfold Builder.stateAt
    rw [hst]
    unfold incNumArcs
    rw [getD_set_self _ _ _ hlen, stateAt_append_left _ _ _ hn]
  refine ⟨news, hnews, ?_, hself⟩
  refine
    { arcLabels_eq := ?_, arcTargets_len := ?_, labels_eq := ?_, states_len := ?_,
      frame := ?_, offset_eq := ?_, count_le := ?_, count_mod := ?_, htable_len := ?_ }
  · unfold Builder.addArc; simp only [h1]
  · unfold Builder.addArc; simp only [h2, List.length_append, List.length_singleton]
  · unfold Builder.addArc; simp only [h3]
  · rw [hst]; unfold incNumArcs
    rw [List.length_set, List.length_append, List.length_map]
  · intro k hk hkn
    unfold Builder.stateAt
    rw [hst]; unfold incNumArcs
    rw [getD_set_ne _ _ _ _ hkn, stateAt_append_left _ _ _ hk]
  · rw [hself]
  · rw [hself]; simp only [List.length_singleton]
    exact Nat.mod_le _ _
  · rw [hself]; simp
  · unfold Builder.addArc; simp only [h5]

theorem setFinal_grows (b : Builder) (n : Nat) (hn : n < b.stateTable.length) :
    Builder.Grows n b { b with stateTable := setFinal b.stateTable n } [] [] ∧
      Builder.stateAt { b with stateTable := setFinal b.stateTable n } n =
        { b.stateAt n with isFinal := true } := by
  have hself : Builder.stateAt { b with stateTable := setFinal b.stateTable n } n =
      { b.stateAt n with isFinal := true } := by
    unfold Builder.stateAt setFinal
    exact getD_set_self _ _ _ hn
  refine ⟨?_, hself⟩
  refine
    { arcLabels_eq := by simp, arcTargets_len := by simp, labels_eq := by simp,
      states_len := ?_, frame := ?_, offset_eq := ?_, count_le := ?_, count_mod := ?_,
      htable_len := rfl }
  · simp [setFinal]
  · intro k _ hkn
    unfold Builder.stateAt setFinal
    exact getD_set_ne _ _ _ _ hkn
  · rw [hself]
  · rw [hself]; simp
  · rw [hself]; simp

theorem Builder.scanWord_inv (n : Nat) (b0 : Builder) (hn : n < b0.stateTable.length)
    (s : Builder.Scan) (rs : RunScan) (news : List (List (List CChar)))
    (h : Builder.ScanInv n b0 s rs news) (word : List CChar) :
    ∃ news2, Builder.ScanInv n b0 (Builder.scanWord n s word) (runStep rs word) news2 := by
  have hn2 : n < s.builder.stateTable.length := by
    rw [h.grows.states_len]; omega
  cases word with
  | nil =>
    obtain ⟨g, gs⟩ := setFinal_grows s.builder n hn2
    refine ⟨news ++ [], ?_⟩
    rw [Builder.scanWord_nil]
    show Builder.ScanInv n b0 _ { rs with isFinal := true } _
    refine
      { targetLabel_eq := h.targetLabel_eq, targetSignature_eq := h.targetSignature_eq,
        arcLabel_eq := h.arcLabel_eq, grows := ?_, sublist := ?_, label_eq := ?_,
        isFinal_eq := ?_ }
    · have := h.grows.compose g
      simpa using this
    · simpa using h.sublist
    · show (Builder.stateAt _ n).label = _
      rw [gs]; exact h.label_eq
    · show (Builder.stateAt _ n).isFinal = _
      rw [gs]; simp
  | cons ch rest =>
    by_cases hc : ch ≠ legitimate s.arcLabel ch
    · have hc2 : ch ≠ legitimate rs.arcLabel ch := by rw [← h.arcLabel_eq]; exact hc
      obtain ⟨news1, hnews1, g, gs⟩ := s.builder.addArc_grows n (legitimate s.arcLabel ch)
        s.targetLabel s.targetSignature hn2
      refine ⟨news ++ news1, ?_⟩
      rw [Builder.scanWord_cons_new n s ch rest hc]
      have e : runStep rs (ch :: rest) =
          { runs := rs.runs ++ [(legitimate rs.arcLabel ch, rs.targetLabel, rs.targetSignature)],
            targetLabel := [rest],
            targetSignature := hashChars startHashValue rest,
            arcLabel := ch,
            isFinal := rs.isFinal } := if_pos hc2
      rw [e]
      refine
        { targetLabel_eq := rfl, targetSignature_eq := rfl, arcLabel_eq := rfl,
          grows := ?_, sublist := ?_, label_eq := ?_, isFinal_eq := ?_ }
      · have := h.grows.compose g
        simpa [h.arcLabel_eq] using this
      · simp only [List.map_append, List.map_cons, List.map_nil]
        refine List.Sublist.append h.sublist ?_
        rcases hnews1 with e1 | e1
        · rw [e1]; exact List.nil_sublist _
        · rw [e1, h.targetLabel_eq]
      · show (Builder.stateAt _ n).label = _
        rw [gs]; exact h.label_eq
      · show (Builder.stateAt _ n).isFinal = _
        rw [gs]; exact h.isFinal_eq
    · have hc2 : ¬ ch ≠ legitimate rs.arcLabel ch := by rw [← h.arcLabel_eq]; exact hc
      refine ⟨news, ?_⟩
      rw [Builder.scanWord_cons_same n s ch rest hc]
      have e : runStep rs (ch :: rest) =
          { runs := rs.runs,
            targetLabel := rs.targetLabel ++ [rest],
            targetSignature := hashChars rs.targetSignature rest,
            arcLabel := legitimate rs.arcLabel ch,
            isFinal := rs.isFinal } := if_neg hc2
      rw [e]
      exact
        { targetLabel_eq := by simp [h.targetLabel_eq],
          targetSignature_eq := by simp [h.targetSignature_eq],
          arcLabel_eq := by simp [h.arcLabel_eq],
          grows := h.grows, sublist := h.sublist, label_eq := h.label_eq,
          isFinal_eq := h.isFinal_eq }

theorem Builder.foldl_scanWord_inv (n : Nat) (b0 : Builder) (hn : n < b0.stateTable.length)
    (label : List (List CChar)) :
    ∀ (s : Builder.Scan) (rs : RunScan) (news : List (List (List CChar))),
      Builder.ScanInv n b0 s rs news →
      ∃ news2, Builder.ScanInv n b0 (label.foldl (Builder.scanWord n) s)
        (label.foldl runStep rs) news2 := by
  induction label with
  | nil => intro s rs news h; exact ⟨news, h⟩
  | cons w label ih =>
    intro s rs news h
    obtain ⟨news1, h1⟩ := Builder.scanWord_inv n b0 hn s rs news h w
    exact ih _ _ news1 h1

/-- The entry of state `n` after `setUp`, and the other effects of `setUp`. -/
theorem setUp_spec (b : Builder) (n : Nat) (hn : n < b.stateTable.length) :
    Builder.stateAt { b with stateTable := setUp b.stateTable n b.arcLabels.length } n =
        { b.stateAt n with arcOffset := b.arcLabels.length, numArcs := 0, isFinal := false } ∧
      (setUp b.stateTable n b.arcLabels.length).length = b.stateTable.length ∧
      ∀ k, k ≠ n →
        Builder.stateAt { b with stateTable := setUp b.stateTable n b.arcLabels.length } k =
          b.stateAt k := by
  refine ⟨?_, ?_, ?_⟩
  · unfold Builder.stateAt setUp
    exact getD_set_self _ _ _ hn
  · simp [setUp]
  · intro k hk
    unfold Builder.stateAt setUp
    exact getD_set_ne _ _ _ _ hk

/-- The effect of the body of the outer loop for a state `n` of the table. -/
theorem Builder.processState_spec (b : Builder) (n : Nat) (hn : n < b.stateTable.length) :
    ∃ news,
      (b.processState n).arcLabels =
        b.arcLabels ++ (labelRuns (b.labels.getD n [])).map (fun r => r.1) ∧
      (b.processState n).arcTargets.length =
        b.arcTargets.length + (labelRuns (b.labels.getD n [])).length ∧
      (b.processState n).labels = b.labels ++ news ∧
      news.Sublist ((labelRuns (b.labels.getD n [])).map (fun r => canonicalize r.2.1)) ∧
      (b.processState n).stateTable.length = b.stateTable.length + news.length ∧
      (∀ k, k < b.stateTable.length → k ≠ n → (b.processState n).stateAt k = b.stateAt k) ∧
      ((b.processState n).stateAt n).label = (b.stateAt n).label ∧
      ((b.processState n).stateAt n).arcOffset = b.arcLabels.length ∧
      ((b.processState n).stateAt n).numArcs ≤ (labelRuns (b.labels.getD n [])).length ∧
      ((b.processState n).stateAt n).numArcs % 256 =
        (labelRuns (b.labels.getD n [])).length % 256 ∧
      ((b.processState n).stateAt n).isFinal = (runScan (b.labels.getD n [])).isFinal ∧
      (b.processState n).htable.length = b.htable.length := by
  obtain ⟨u1, u2, u3⟩ := setUp_spec b n hn
  have hn0 : n < (Builder.scanStart n b).builder.stateTable.length := by
    show n < (setUp b.stateTable n b.arcLabels.length).length
    rw [u2]; exact hn
  have h0 : Builder.ScanInv n (Builder.scanStart n b).builder (Builder.scanStart n b)
      { runs := [], targetLabel := [], targetSignature := startHashValue, arcLabel := -1,
        isFinal := false } [] :=
    { targetLabel_eq := rfl, targetSignature_eq := rfl, arcLabel_eq := rfl,
      grows := Builder.Grows.refl _ _, sublist := List.Sublist.refl _, label_eq := rfl,
      isFinal_eq := by simp }
  obtain ⟨news, h⟩ := Builder.foldl_scanWord_inv n _ hn0 (b.labels.getD n []) _ _ _ h0
  have hb0 : (Builder.scanStart n b).builder.stateAt n =
      { b.stateAt n with arcOffset := b.arcLabels.length, numArcs := 0, isFinal := false } := u1
  have hrs : List.foldl runStep
      { runs := [], targetLabel := [], targetSignature := startHashValue, arcLabel := -1,
        isFinal := false } (b.labels.getD n []) = runScan (b.labels.getD n []) := rfl
  rw [hrs] at h
  have hwrap : ∀ (b2 : Builder) (arcs : List CChar) (news2 : List (List (List CChar))),
      Builder.Grows n (Builder.scanStart n b).builder b2 arcs news2 →
      (b2.stateAt n).label = ((Builder.scanStart n b).builder.stateAt n).label →
      (b2.stateAt n).isFinal = (runScan (b.labels.getD n [])).isFinal →
      b2.arcLabels = b.arcLabels ++ arcs ∧
      b2.arcTargets.length = b.arcTargets.length + arcs.length ∧
      b2.labels = b.labels ++ news2 ∧
      b2.stateTable.length = b.stateTable.length + news2.length ∧
      (∀ k, k < b.stateTable.length → k ≠ n → b2.stateAt k = b.stateAt k) ∧
      (b2.stateAt n).label = (b.stateAt n).label ∧
      (b2.stateAt n).arcOffset = b.arcLabels.length ∧
      (b2.stateAt n).numArcs ≤ arcs.length ∧
      (b2.stateAt n).numArcs % 256 = arcs.length % 256 ∧
      (b2.stateAt n).isFinal = (runScan (b.labels.getD n [])).isFinal ∧
      b2.htable.length = b.htable.length := by
    intro b2 arcs news2 g hl hf
    refine ⟨g.arcLabels_eq, g.arcTargets_len, g.labels_eq, ?_, ?_, ?_, ?_, ?_, ?_, hf,
      g.htable_len⟩
    · rw [g.states_len]; show (setUp _ _ _).length + _ = _; rw [u2]
    · intro k hk hkn
      rw [g.frame k (by show k < (setUp _ _ _).length; rw [u2]; exact hk) hkn]
      exact u3 k hkn
    · rw [hl, hb0]
    · rw [g.offset_eq, hb0]
    · have := g.count_le; rw [hb0] at this; simpa using this
    · have := g.count_mod; rw [hb0] at this; simpa using this
  unfold Builder.processState Builder.scanFinish labelRuns
  by_cases ht : (List.foldl (Builder.scanWord n) (Builder.scanStart n b)
      (b.labels.getD n [])).targetLabel.length ≠ 0
  · have ht2 : (runScan (b.labels.getD n [])).targetLabel.length ≠ 0 := by
      rw [← h.targetLabel_eq]; exact ht
    rw [if_pos ht, if_pos ht2]
    have hn2 : n < (List.foldl (Builder.scanWord n) (Builder.scanStart n b)
        (b.labels.getD n [])).builder.stateTable.length := by
      rw [h.grows.states_len]; omega
    obtain ⟨news1, hnews1, g, gs⟩ := Builder.addArc_grows _ n
      (List.foldl (Builder.scanWord n) (Builder.scanStart n b) (b.labels.getD n [])).arcLabel
      (List.foldl (Builder.scanWord n) (Builder.scanStart n b) (b.labels.getD n [])).targetLabel
      (List.foldl (Builder.scanWord n) (Builder.scanStart n b)
        (b.labels.getD n [])).targetSignature hn2
    have hg := h.grows.compose g
    obtain ⟨w1, w2, w3, w4, w5, w6, w7, w8, w9, w10, w11⟩ := hwrap _ _ _ hg
      (by rw [gs]; exact h.label_eq)
      (by rw [gs]; show (Builder.stateAt _ n).isFinal = _; rw [h.isFinal_eq, hb0]; simp)
    refine ⟨news ++ news1, ?_, ?_, w3, ?_, w4, w5, w6, w7, ?_, ?_, w10, w11⟩
    · rw [w1, h.arcLabel_eq]; simp
    · rw [w2]; simp
    · simp only [List.map_append, List.map_cons, List.map_nil]
      refine List.Sublist.append h.sublist ?_
      rcases hnews1 with e1 | e1
      · rw [e1]; exact List.nil_sublist _
      · rw [e1, h.targetLabel_eq]
    · simpa using w8
    · simpa using w9
  · have ht2 : ¬ (runScan (b.labels.getD n [])).targetLabel.length ≠ 0 := by
      rw [← h.targetLabel_eq]; exact ht
    rw [if_neg ht, if_neg ht2]
    obtain ⟨w1, w2, w3, w4, w5, w6, w7, w8, w9, w10, w11⟩ := hwrap _ _ _ h.grows h.label_eq
      (by rw [h.isFinal_eq, hb0]; simp)
    refine ⟨news, w1, ?_, w3, h.sublist, w4, w5, w6, w7, ?_, ?_, w10, w11⟩
    · rw [w2]; simp
    · simpa using w8
    · simpa using w9

theorem labelWeight_eq (l : List (List CChar)) : labelWeight l = wordsWeight l + 1 := rfl

theorem wordsWeight_sortInsert (lt : List CChar → List CChar → Bool) (a : List CChar)
    (l : List (List CChar)) :
    wordsWeight (sortInsert lt a l) = a.length + 1 + wordsWeight l := by
  induction l with
  | nil => simp [sortInsert, wordsWeight]
  | cons b l ih =>
    simp only [sortInsert]
    split
    · simp [wordsWeight]
    · simp only [wordsWeight, List.map_cons, List.sum_cons] at ih ⊢
      omega

theorem wordsWeight_stdSort (lt : List CChar → List CChar → Bool) (l : List (List CChar)) :
    wordsWeight (stdSort lt l) = wordsWeight l := by
  induction l with
  | nil => rfl
  | cons a l ih =>
    simp only [stdSort, wordsWeight_sortInsert, ih]
    simp [wordsWeight]

theorem wordsWeight_stdUniqueFrom (eq : List CChar → List CChar → Bool) (a : List CChar)
    (l : List (List CChar)) :
    wordsWeight (stdUniqueFrom eq a l) ≤ a.length + 1 + wordsWeight l := by
  induction l generalizing a with
  | nil => simp [stdUniqueFrom, wordsWeight]
  | cons b l ih =>
    simp only [stdUniqueFrom]
    split
    · have := ih a
      simp only [wordsWeight, List.map_cons, List.sum_cons] at this ⊢
      omega
    · have := ih b
      simp only [wordsWeight, List.map_cons, List.sum_cons] at this ⊢
      omega

theorem wordsWeight_canonicalize (l : List (List CChar)) :
    wordsWeight (canonicalize l) ≤ wordsWeight l := by
  unfold canonicalize
  rw [← wordsWeight_stdSort ltChars l]
  cases stdSort ltChars l with
  | nil => simp [stdUnique]
  | cons a r =>
    simp only [stdUnique]
    have := wordsWeight_stdUniqueFrom (fun x y => decide (x = y)) a r
    simp only [wordsWeight, List.map_cons, List.sum_cons] at this ⊢
    omega

theorem runStep_weight (rs : RunScan) (word : List CChar)
    (h : rs.targetLabel = [] → rs.arcLabel = -1) :
    runsWeight (runStep rs word).runs + openWeight (runStep rs word).targetLabel ≤
        runsWeight rs.runs + openWeight rs.targetLabel + (word.length + 1) ∧
      ((runStep rs word).targetLabel = [] → (runStep rs word).arcLabel = -1) := by
  cases word with
  | nil =>
    refine ⟨?_, h⟩
    show runsWeight rs.runs + openWeight rs.targetLabel ≤ _
    omega
  | cons ch rest =>
    by_cases hc : ch ≠ legitimate rs.arcLabel ch
    · have e : runStep rs (ch :: rest) =
          { runs := rs.runs ++ [(legitimate rs.arcLabel ch, rs.targetLabel, rs.targetSignature)],
            targetLabel := [rest],
            targetSignature := hashChars startHashValue rest,
            arcLabel := ch,
            isFinal := rs.isFinal } := if_pos hc
      rw [e]
      have hne : rs.targetLabel ≠ [] := by
        intro h0
        apply hc
        simp [legitimate, h h0]
      refine ⟨?_, by simp⟩
      have := wordsWeight_canonicalize rs.targetLabel
      simp only [runsWeight, List.map_append, List.map_cons, List.map_nil, List.sum_append,
        List.sum_cons, List.sum_nil, openWeight, hne, labelWeight_eq, wordsWeight,
        List.length_cons] at this ⊢
      simp only [↓reduceIte, List.cons_ne_nil]
      omega
    · have e : runStep rs (ch :: rest) =
          { runs := rs.runs,
            targetLabel := rs.targetLabel ++ [rest],
            targetSignature := hashChars rs.targetSignature rest,
            arcLabel := legitimate rs.arcLabel ch,
            isFinal := rs.isFinal } := if_neg hc
      rw [e]
      refine ⟨?_, by simp⟩
      simp only [openWeight, wordsWeight, List.map_append, List.sum_append, List.map_cons,
        List.map_nil, List.sum_cons, List.sum_nil, List.length_cons]
      have hne : rs.targetLabel ++ [rest] ≠ [] := by simp
      rw [if_neg hne]
      by_cases h0 : rs.targetLabel = []
      · rw [if_pos h0, h0]; simp
      · rw [if_neg h0]; omega

theorem foldl_runStep_weight (l : List (List CChar)) :
    ∀ (rs : RunScan), (rs.targetLabel = [] → rs.arcLabel = -1) →
      runsWeight (l.foldl runStep rs).runs + openWeight (l.foldl runStep rs).targetLabel ≤
        runsWeight rs.runs + openWeight rs.targetLabel + wordsWeight l := by
  induction l with
  | nil => intro rs _; simp [wordsWeight]
  | cons w l ih =>
    intro rs h
    obtain ⟨h1, h2⟩ := runStep_weight rs w h
    have := ih (runStep rs w) h2
    simp only [List.foldl_cons, wordsWeight, List.map_cons, List.sum_cons] at this ⊢
    omega

/-- The target labels of the runs of a label weigh less than the label. -/
theorem labelRuns_weight (label : List (List CChar)) :
    runsWeight (labelRuns label) + 1 ≤ labelWeight label := by
  have h := foldl_runStep_weight label
    { runs := [], targetLabel := [], targetSignature := startHashValue, arcLabel := -1,
      isFinal := false } (fun _ => rfl)
  have e : List.foldl runStep
      { runs := [], targetLabel := [], targetSignature := startHashValue, arcLabel := -1,
        isFinal := false } label = runScan label := rfl
  rw [e] at h
  simp only [runsWeight, List.map_nil, List.sum_nil, openWeight, ↓reduceIte, zero_add] at h
  rw [labelWeight_eq]
  unfold labelRuns
  by_cases ht : (runScan label).targetLabel.length ≠ 0
  · rw [if_pos ht]
    have hne : (runScan label).targetLabel ≠ [] := by
      intro h0; rw [h0] at ht; exact ht rfl
    rw [if_neg hne] at h
    have := wordsWeight_canonicalize (runScan label).targetLabel
    have e2 : labelWeight (canonicalize (runScan label).targetLabel) =
        wordsWeight (canonicalize (runScan label).targetLabel) + 1 := rfl
    simp only [runsWeight, List.map_append, List.map_cons, List.map_nil, List.sum_append,
      List.sum_cons, List.sum_nil, e2] at h ⊢
    omega
  · rw [if_neg ht]
    simp only [runsWeight]
    split at h <;> omega

theorem head_le_of_ltChars (x y : Int) (a b : List Int) (h : ltChars (x :: a) (y :: b) = true) :
    x ≤ y := by
  rcases (ltChars_cons_cons x y a b).1 h with h | ⟨h, _⟩
  · exact le_of_lt h
  · exact le_of_eq h

theorem runStep_inv (rs : RunScan) (w : List CChar) (l : List (List CChar))
    (hl : Canonical (w :: l)) (h : RunInv rs (w :: l)) : RunInv (runStep rs w) l := by
  have hpw := List.pairwise_cons.1 hl
  cases w with
  | nil =>
    exact
      { increasing := h.increasing, fresh := h.fresh, below := h.below,
        le_rest := fun ht c t hm => h.le_rest ht c t (List.mem_cons_of_mem _ hm) }
  | cons ch rest =>
    have hrest : ∀ c t, (c :: t) ∈ l → ch ≤ c := fun c t hm =>
      head_le_of_ltChars ch c rest t (hpw.1 _ hm)
    by_cases hc : ch ≠ legitimate rs.arcLabel ch
    · have e : runStep rs (ch :: rest) =
          { runs := rs.runs ++ [(legitimate rs.arcLabel ch, rs.targetLabel, rs.targetSignature)],
            targetLabel := [rest],
            targetSignature := hashChars startHashValue rest,
            arcLabel := ch,
            isFinal := rs.isFinal } := if_pos hc
      rw [e]
      have hne1 : rs.arcLabel ≠ -1 := by
        intro h0; apply hc; simp [legitimate, h0]
      have hleg : legitimate rs.arcLabel ch = rs.arcLabel := by simp [legitimate, hne1]
      have hne : rs.targetLabel ≠ [] := fun h0 => hne1 (h.fresh h0).2
      have hle : rs.arcLabel ≤ ch := h.le_rest hne ch rest (List.mem_cons_self _ _)
      have hlt : rs.arcLabel < ch := lt_of_le_of_ne hle (by rw [hleg] at hc; exact Ne.symm hc)
      refine { increasing := ?_, fresh := ?_, below := ?_, le_rest := ?_ }
      · simp only [List.map_append, List.map_cons, List.map_nil, hleg]
        rw [List.pairwise_append]
        refine ⟨h.increasing, List.pairwise_singleton _ _, ?_⟩
        intro x hx y hy
        rw [List.mem_singleton] at hy
        subst hy
        exact h.below hne x hx
      · intro h0; exact absurd h0 (List.cons_ne_nil _ _)
      · intro _ x hx
        simp only [List.map_append, List.map_cons, List.map_nil, hleg, List.mem_append,
          List.mem_singleton] at hx
        rcases hx with hx | hx
        · exact lt_trans (h.below hne x hx) hlt
        · rw [hx]; exact hlt
      · intro _ c t hm
        exact hrest c t hm
    · have e : runStep rs (ch :: rest) =
          { runs := rs.runs,
            targetLabel := rs.targetLabel ++ [rest],
            targetSignature := hashChars rs.targetSignature rest,
            arcLabel := legitimate rs.arcLabel ch,
            isFinal := rs.isFinal } := if_neg hc
      rw [e]
      have hleg : legitimate rs.arcLabel ch = ch := by
        by_contra h0; exact hc (Ne.symm h0)
      refine { increasing := h.increasing, fresh := ?_, below := ?_, le_rest := ?_ }
      · intro h0; simp at h0
      · intro _ x hx
        show x < legitimate rs.arcLabel ch
        rw [hleg]
        by_cases h0 : rs.targetLabel = []
        · rw [(h.fresh h0).1] at hx; simp at hx
        · exact lt_of_lt_of_le (h.below h0 x hx) (h.le_rest h0 ch rest (List.mem_cons_self _ _))
      · intro _ c t hm
        show legitimate rs.arcLabel ch ≤ c
        rw [hleg]
        exact hrest c t hm

theorem foldl_runStep_inv (l : List (List CChar)) :
    ∀ (rs : RunScan), Canonical l → RunInv rs l → RunInv (l.foldl runStep rs) [] := by
  induction l with
  | nil => intro rs _ h; exact h
  | cons w l ih =>
    intro rs hl h
    exact ih (runStep rs w) (List.pairwise_cons.1 hl).2 (runStep_inv rs w l hl h)

/-- The arcs added for a canonical label carry increasing characters. -/
theorem labelRuns_increasing (label : List (List CChar)) (h : Canonical label) :
    ((labelRuns label).map (fun r => r.1)).Pairwise (fun x y => x < y) := by
  have h0 : RunInv
      { runs := [], targetLabel := [], targetSignature := startHashValue, arcLabel := -1,
        isFinal := false } label :=
    { increasing := by simp, fresh := fun _ => ⟨rfl, rfl⟩,
      below := fun hne => absurd rfl hne, le_rest := fun hne => absurd rfl hne }
  have hi : RunInv (runScan label) [] := foldl_runStep_inv label _ h h0
  unfold labelRuns
  by_cases ht : (runScan label).targetLabel.length ≠ 0
  · rw [if_pos ht]
    have hne : (runScan label).targetLabel ≠ [] := by
      intro h1; rw [h1] at ht; exact ht rfl
    simp only [List.map_append, List.map_cons, List.map_nil]
    rw [List.pairwise_append]
    refine ⟨hi.increasing, List.pairwise_singleton _ _, ?_⟩
    intro x hx y hy
    rw [List.mem_singleton] at hy
    subst hy
    exact hi.below hne x hx
  · rw [if_neg ht]
    exact hi.increasing

theorem take_drop_append_left (l x : List CChar) (off num : Nat) (h : off + num ≤ l.length) :
    ((l ++ x).drop off).take num = (l.drop off).take num := by
  rw [List.drop_append_of_le_length (by omega)]
  rw [List.take_append_of_le_length (by rw [List.length_drop]; omega)]

theorem Builder.processState_inv (b : Builder) (n : Nat) (h : b.LoopInv n)
    (hn : n < b.stateTable.length) :
    (b.processState n).LoopInv (n + 1) ∧
      (b.processState n).pendingWeight (n + 1) + 1 ≤ b.pendingWeight n ∧
      (b.processState n).htable.length = b.htable.length := by
  obtain ⟨news, p1, p2, p3, p4, p5, p6, p7, p8, p9, p10, p11, p12⟩ := b.processState_spec n hn
  have hnl : n < b.labels.length := by rw [h.labels_len]; exact hn
  have hlab : b.labels.getD n [] ∈ b.labels := by
    rw [List.getD_eq_getElem _ _ hnl]; exact List.getElem_mem hnl
  have hcan : Canonical (b.labels.getD n []) := h.canonical _ hlab
  refine ⟨?_, ?_, p12⟩
  · refine { labels_len := ?_, le := ?_, canonical := ?_, arcs := ?_ }
    · rw [p3, p5, List.length_append, h.labels_len]
    · rw [p5]; omega
    · intro l hl
      rw [p3, List.mem_append] at hl
      rcases hl with hl | hl
      · exact h.canonical l hl
      · have := p4.subset hl
        rw [List.mem_map] at this
        obtain ⟨r, _, hr⟩ := this
        rw [← hr]
        exact canonical_canonicalize _
    · intro k hk
      by_cases hkn : k = n
      · subst hkn
        have e1 : arcsOf (b.processState k).stateTable (b.processState k).arcLabels k =
            ((labelRuns (b.labels.getD k [])).map (fun r => r.1)).take
              ((b.processState k).stateAt k).numArcs := by
          unfold arcsOf
          show (List.drop ((b.processState k).stateAt k).arcOffset _).take
            ((b.processState k).stateAt k).numArcs = _
          rw [p8, p1, List.drop_left]
        refine ⟨?_, ?_⟩
        · rw [p8, p1, List.length_append, List.length_map]; omega
        · rw [e1]
          exact (labelRuns_increasing _ hcan).sublist (List.take_sublist _ _)
      · have hk2 : k < n := by omega
        obtain ⟨a1, a2⟩ := h.arcs k hk2
        have hfr := p6 k (by omega) hkn
        refine ⟨?_, ?_⟩
        · rw [hfr, p1, List.length_append]; omega
        · have e1 : arcsOf (b.processState n).stateTable (b.processState n).arcLabels k =
              arcsOf b.stateTable b.arcLabels k := by
            unfold arcsOf
            show (List.drop ((b.processState n).stateAt k).arcOffset _).take
              ((b.processState n).stateAt k).numArcs = _
            rw [hfr, p1]
            exact take_drop_append_left _ _ _ _ a1
          rw [e1]; exact a2
  · unfold Builder.pendingWeight
    have e1 : b.labels.drop n = b.labels.getD n [] :: b.labels.drop (n + 1) := by
      rw [List.getD_eq_getElem _ _ hnl]
      exact List.drop_eq_getElem_cons hnl
    have e2 : (b.processState n).labels.drop (n + 1) = b.labels.drop (n + 1) ++ news := by
      rw [p3, List.drop_append_of_le_length (by omega)]
    rw [e1, e2]
    simp only [List.map_append, List.sum_append, List.map_cons, List.sum_cons]
    have h1 : (news.map labelWeight).sum ≤ runsWeight (labelRuns (b.labels.getD n [])) := by
      unfold runsWeight
      have := (p4.map labelWeight).sum_le_sum (fun a _ => Nat.zero_le a)
      simpa [List.map_map] using this
    have h2 := labelRuns_weight (b.labels.getD n [])
    omega

theorem pendingWeight_pos (b : Builder) (n : Nat) (hn : n < b.labels.length) :
    0 < b.pendingWeight n := by
  unfold Builder.pendingWeight
  rw [List.drop_eq_getElem_cons hn]
  simp only [List.map_cons, List.sum_cons, labelWeight]
  omega

/-- The outer loop terminates within the weight of the pending labels, and
keeps its invariant. -/
theorem Builder.buildLoop_spec (fuel : Nat) :
    ∀ (n : Nat) (b : Builder), b.LoopInv n → b.pendingWeight n ≤ fuel →
      ∃ b2, Builder.buildLoop fuel n b = some b2 ∧ b2.LoopInv b2.stateTable.length ∧
        b2.htable.length = b.htable.length := by
  induction fuel with
  | zero =>
    intro n b h hw
    have hn : n = b.stateTable.length := by
      by_contra hne
      have hlt : n < b.labels.length := by
        rw [h.labels_len]; exact lt_of_le_of_ne h.le hne
      have := pendingWeight_pos b n hlt
      omega
    refine ⟨b, ?_, ?_, rfl⟩
    · simp only [Builder.buildLoop]; rw [if_pos hn]
    · rw [← hn]; exact h
  | succ fuel ih =>
    intro n b h hw
    by_cases hn : n = b.stateTable.length
    · refine ⟨b, ?_, ?_, rfl⟩
      · simp only [Builder.buildLoop]; rw [if_pos hn]
      · rw [← hn]; exact h
    · have hlt : n < b.stateTable.length := lt_of_le_of_ne h.le hn
      obtain ⟨s1, s2, s3⟩ := b.processState_inv n h hlt
      obtain ⟨b2, k1, k2, k3⟩ := ih (n + 1) (b.processState n) s1 (by omega)
      refine ⟨b2, ?_, k2, k3.trans s3⟩
      simp only [Builder.buildLoop]; rw [if_neg hn]; exact k1

theorem buildStart_labelsWF (d : DFA) (wc : WordCollection) (h : wc.WellFormed) :
    (buildStart d wc).LabelsWF wc.wordsCharBuffer := by
  intro label hl w hw
  simp only [buildStart, List.mem_singleton] at hl
  subst hl
  exact h w (mem_sortAndRemoveDuplicateWords _ _ w hw)

theorem buildStart_toBuilder (d : DFA) (wc : WordCollection) (h : wc.WellFormed) :
    (buildStart d wc).toBuilder wc.wordsCharBuffer = Builder.start d.htable wc.contents := by
  simp only [buildStart, DFA.toBuilder, Builder.start, List.map_cons, List.map_nil,
    WordCollection.contents]
  rw [map_sortAndRemoveDuplicateWords _ _ h]

theorem buildFuel_eq (wc : WordCollection) (h : wc.WellFormed) :
    buildFuel wc.words = labelWeight wc.contents := by
  unfold buildFuel labelWeight WordCollection.contents
  rw [List.map_map]
  congr 2
  apply List.map_congr_left
  intro w hw
  simp only [Function.comp]
  rw [content_length _ w (h w hw)]

theorem Builder.start_inv (htable : List TreeNode) (words : List (List CChar)) :
    (Builder.start htable words).LoopInv 0 where
  labels_len := rfl
  le := Nat.zero_le _
  canonical := by
    intro l hl
    simp only [Builder.start, List.mem_singleton] at hl
    subst hl
    exact canonical_canonicalize _
  arcs := fun k hk => absurd hk (Nat.not_lt_zero k)

theorem Builder.start_weight (htable : List TreeNode) (words : List (List CChar)) :
    (Builder.start htable words).pendingWeight 0 ≤ labelWeight words := by
  have := wordsWeight_canonicalize words
  simp only [Builder.pendingWeight, Builder.start, List.drop_zero, List.map_cons, List.map_nil,
    List.sum_cons, List.sum_nil, labelWeight_eq]
  omega

theorem Builder.buildLoop_fuel (fuel : Nat) :
    ∀ (n : Nat) (b b2 : Builder), Builder.buildLoop fuel n b = some b2 →
      ∀ fuel2, fuel ≤ fuel2 → Builder.buildLoop fuel2 n b = some b2 := by
  induction fuel with
  | zero =>
    intro n b b2 h fuel2 _
    simp only [Builder.buildLoop] at h
    by_cases hn : n = b.stateTable.length
    · rw [if_pos hn] at h
      cases fuel2 with
      | zero => simp only [Builder.buildLoop]; rw [if_pos hn]; exact h
      | succ f => simp only [Builder.buildLoop]; rw [if_pos hn]; exact h
    · rw [if_neg hn] at h; cases h
  | succ fuel ih =>
    intro n b b2 h fuel2 hf
    cases fuel2 with
    | zero => omega
    | succ f =>
      simp only [Builder.buildLoop] at h ⊢
      by_cases hn : n = b.stateTable.length
      · rw [if_pos hn] at h ⊢; exact h
      · rw [if_neg hn] at h ⊢
        exact ih _ _ _ h f (by omega)

/-- The form of `build`: the outer loop runs to its end on the characters of
the words, and the automaton returned holds the tables it ends with. -/
theorem build_spec (d : DFA) (wc : WordCollection) (h : wc.WellFormed) :
    ∃ b, Builder.buildLoop (labelWeight wc.contents) 0 (Builder.start d.htable wc.contents) =
        some b ∧
      b.LoopInv b.stateTable.length ∧
      build d wc = some (Builder.finish d b) := by
  obtain ⟨b, hb, hinv, hlen⟩ := Builder.buildLoop_spec (labelWeight wc.contents) 0
    (Builder.start d.htable wc.contents) (Builder.start_inv _ _) (Builder.start_weight _ _)
  refine ⟨b, hb, hinv, ?_⟩
  obtain ⟨e1, e2⟩ := buildLoop_eq wc.wordsCharBuffer (buildFuel wc.words) 0 (buildStart d wc)
    (buildStart_labelsWF d wc h)
  have hb2 := hb
  rw [← buildFuel_eq wc h] at hb2
  rw [buildStart_toBuilder d wc h, hb2] at e1
  unfold build
  cases hd : buildLoop wc.wordsCharBuffer (buildFuel wc.words) 0 (buildStart d wc) with
  | none => rw [hd] at e1; simp at e1
  | some d2 =>
    rw [hd] at e1
    simp only [Option.map_some', Option.some.injEq] at e1
    obtain ⟨k1, k2⟩ := e2 d2 hd
    simp only [Option.map_some', Option.some.injEq]
    have hh : d2.htable.length = d.htable.length := by
      have : (d2.toBuilder wc.wordsCharBuffer).htable.length = d.htable.length := by
        rw [e1]; exact hlen
      exact this
    unfold destroy Builder.finish
    rw [← e1]
    simp only [DFA.toBuilder, DFA.mk.injEq, true_and]
    refine ⟨?_, k1, k2⟩
    rw [← hh]
    exact List.map_const' _ _

/-! ### The matcher reads the three tables only -/

theorem nextLoop_sameRun (d1 d2 : DFA) (c : CChar) (h : d1.SameRun d2) (fuel : Nat) :
    ∀ i, (nextLoop d1 c fuel i).SameRun (nextLoop d2 c fuel i) := by
  obtain ⟨⟨t1, t2, t3⟩, hd, hc⟩ := h
  induction fuel with
  | zero => intro i; exact ⟨⟨t1, t2, t3⟩, rfl, hc⟩
  | succ n ih =>
    intro i
    simp only [nextLoop]
    by_cases hx : d1.arcLabels.getD i 0 = c
    · rw [if_pos hx, if_pos (t2 ▸ hx)]
      exact ⟨⟨t1, t2, t3⟩, hd, by show d1.arcTargets.getD i 0 = d2.arcTargets.getD i 0; rw [t3]⟩
    · rw [if_neg hx, if_neg (t2 ▸ hx)]
      exact ih (i + 1)

theorem next_sameRun (d1 d2 : DFA) (c : CChar) (h : d1.SameRun d2) :
    (next d1 c).SameRun (next d2 c) := by
  unfold next
  rw [h.2.1, h.2.2, h.1.1]
  by_cases hd : d2.dead = true
  · rw [if_pos hd, if_pos hd]; exact h
  · rw [if_neg hd, if_neg hd]
    exact nextLoop_sameRun d1 d2 c h _ _

theorem foldl_next_sameRun (s : List CChar) :
    ∀ (d1 d2 : DFA), d1.SameRun d2 → (s.foldl next d1).SameRun (s.foldl next d2) := by
  induction s with
  | nil => intro d1 d2 h; exact h
  | cons c s ih => intro d1 d2 h; exact ih _ _ (next_sameRun d1 d2 c h)

theorem wordRecognized_sameRun (d1 d2 : DFA) (h : d1.SameRun d2) :
    wordRecognized d1 = wordRecognized d2 := by
  unfold wordRecognized
  rw [h.2.1, h.2.2, h.1.1]

theorem recognizes_sameTables (d1 d2 : DFA) (h : d1.SameTables d2) (s : List CChar) :
    recognizes d1 s = recognizes d2 s := by
  unfold recognizes
  apply wordRecognized_sameRun
  apply foldl_next_sameRun
  exact ⟨h, rfl, rfl⟩

theorem foldl_next_dead (s : List CChar) (d : DFA) (h : d.dead = true) :
    s.foldl next d = d := by
  induction s with
  | nil => rfl
  | cons c s ih =>
    simp only [List.foldl_cons]
    have : next d c = d := by unfold next; rw [if_pos h]
    rw [this]; exact ih

/-! ### The character tables on ASCII characters and on `EOF` -/

theorem foldl_bufWrite (f : Nat → CChar) (base n : Nat) (b : Nat → CChar) (j : Nat) :
    ((List.range n).foldl (fun b c => bufWrite b (base + c) (f c)) b) j =
      if base ≤ j ∧ j < base + n then f (j - base) else b j := by
  induction n with
  | zero =>
    simp only [List.range_zero, List.foldl_nil]
    rw [if_neg (by omega)]
  | succ n ih =>
    rw [List.range_succ, List.foldl_append]
    simp only [List.foldl_cons, List.foldl_nil, bufWrite]
    by_cases hj : j = base + n
    · rw [if_pos hj, if_pos (by omega)]
      congr 1; omega
    · rw [if_neg hj, ih]
      by_cases h2 : base ≤ j ∧ j < base + n
      · rw [if_pos h2, if_pos (by omega)]
      · rw [if_neg h2, if_neg (by omega)]

/-- The element `buffer[j]` after `buildCharTables`. -/
theorem buildCharTables_buffer (impl : Impl) (j : Nat) :
    (buildCharTables impl).buffer j =
      if 513 ≤ j ∧ j < 513 + 255 then toChar (tolower ((j - 513 : Nat) : Int))
      else if 257 ≤ j ∧ j < 257 + 255 then
        (if isalpha ((j - 257 : Nat) : Int) || decide (((j - 257 : Nat) : Int) = 39) then 1 else 0)
      else if j = 256 then 0
      else if 1 ≤ j ∧ j < 1 + 255 then (if isalpha ((j - 1 : Nat) : Int) then 0 else 1)
      else if j = 0 then 0
      else impl.buffer j := by
  simp only [buildCharTables]
  rw [foldl_bufWrite (fun c => toChar (tolower (c : Int))) 513 255]
  rw [foldl_bufWrite (fun c => if isalpha (c : Int) || decide ((c : Int) = 39) then 1 else 0) 257 255]
  simp only [bufWrite]
  rw [foldl_bufWrite (fun c => if isalpha (c : Int) then 0 else 1) 1 255]
  rfl

theorem separator_ascii (impl : Impl) (ch : Int) (h : isASCII ch) :
    tableRead (buildCharTables impl).buffer 1 ch = some (if isalpha ch then 0 else 1) := by
  obtain ⟨h0, h1⟩ := h
  obtain ⟨n, rfl⟩ := Int.eq_ofNat_of_zero_le h0
  have hn : n ≤ 127 := by omega
  unfold tableRead
  rw [if_pos (by simp only [BUFFER_SIZE]; omega)]
  have e : ((1 : Nat) + (n : Int)).toNat = n + 1 := by omega
  simp only [Nat.cast_one] at e ⊢
  rw [e, buildCharTables_buffer]
  rw [if_neg (by omega), if_neg (by omega), if_neg (by omega), if_pos (by omega)]
  simp

theorem token_ascii (impl : Impl) (ch : Int) (h : isASCII ch) :
    tableRead (buildCharTables impl).buffer 257 ch =
      some (if isalpha ch || decide (ch = 39) then 1 else 0) := by
  obtain ⟨h0, h1⟩ := h
  obtain ⟨n, rfl⟩ := Int.eq_ofNat_of_zero_le h0
  have hn : n ≤ 127 := by omega
  unfold tableRead
  rw [if_pos (by simp only [BUFFER_SIZE]; omega)]
  have e : (((257 : Nat) : Int) + (n : Int)).toNat = n + 257 := by omega
  rw [e, buildCharTables_buffer]
  rw [if_neg (by omega), if_pos (by omega)]
  simp

theorem toChar_ascii (c : Int) (h : isASCII c) : toChar c = c := by
  obtain ⟨h0, h1⟩ := h
  unfold toChar
  have e : (c + 128) % 256 = c + 128 := Int.emod_eq_of_lt (by omega) (by omega)
  rw [e]
  exact Int.add_sub_cancel c 128

theorem tolower_ascii (c : Int) (h : isASCII c) : isASCII (tolower c) := by
  obtain ⟨h0, h1⟩ := h
  unfold tolower isASCII
  split <;> omega

theorem lower_ascii (impl : Impl) (ch : Int) (h : isASCII ch) :
    tableRead (buildCharTables impl).buffer 513 ch = some (tolower ch) := by
  have hl := toChar_ascii _ (tolower_ascii ch h)
  obtain ⟨h0, h1⟩ := h
  obtain ⟨n, rfl⟩ := Int.eq_ofNat_of_zero_le h0
  have hn : n ≤ 127 := by omega
  unfold tableRead
  rw [if_pos (by simp only [BUFFER_SIZE]; omega)]
  have e : (((513 : Nat) : Int) + (n : Int)).toNat = n + 513 := by omega
  rw [e, buildCharTables_buffer]
  rw [if_pos (by omega)]
  simp only [Nat.add_sub_cancel]
  rw [hl]

theorem separator_eof (impl : Impl) :
    tableRead (buildCharTables impl).buffer 1 EOF = some 0 := by
  unfold tableRead
  rw [if_pos (by simp [BUFFER_SIZE, EOF])]
  have e : (((1 : Nat) : Int) + EOF).toNat = 0 := by simp [EOF]
  rw [e, buildCharTables_buffer]
  simp

theorem token_eof (impl : Impl) :
    tableRead (buildCharTables impl).buffer 257 EOF = some 0 := by
  unfold tableRead
  rw [if_pos (by simp [BUFFER_SIZE, EOF])]
  have e : (((257 : Nat) : Int) + EOF).toNat = 256 := by simp [EOF]
  rw [e, buildCharTables_buffer]
  simp

theorem BUF_SIZE_pos : 0 < BUF_SIZE := by decide

theorem Reader.opened_ok (file : List CChar) :
    (Reader.opened file).Ok ∧ (Reader.opened file).pending = file ∧
      ¬ (Reader.opened file).Done ∧ endFile (Reader.opened file) = false := by
  refine ⟨?_, ?_, ?_, rfl⟩
  · exact
      { size_le := Nat.zero_le _, buf_len := List.length_replicate _ _,
        ic_le := Or.inr (Or.inl ⟨rfl, rfl⟩),
        eof := fun h => by simp [Reader.opened] at h,
        noeof := fun _ => Or.inr rfl }
  · simp [Reader.pending, Reader.opened]
  · intro h; have := h.1; simp [Reader.opened] at this

theorem getNextChar_mid (r : Reader) (h : r.Ok) (hic : r.ic ≠ BUF_SIZE) (hlt : r.ic < r.size) :
    (getNextChar r).2.At (getNextChar r).1 r.pending := by
  have e : getNextChar r = (r.readbuf.getD r.ic 0, { r with ic := r.ic + 1 }) := by
    unfold getNextChar; rw [if_neg hic]
  rw [e]
  have hsz := h.size_le
  have hbl := h.buf_len
  refine ⟨?_, Or.inr ⟨?_, ?_⟩⟩
  · exact
      { size_le := h.size_le, buf_len := h.buf_len, ic_le := Or.inl (by show r.ic + 1 ≤ r.size; omega),
        eof := h.eof, noeof := fun he => by
          rcases h.noeof he with h1 | h1
          · exact Or.inl h1
          · exact absurd h1 hic }
  · show r.pending = r.readbuf.getD r.ic 0 :: ((r.readbuf.take r.size).drop (r.ic + 1) ++ r.file)
    unfold Reader.pending
    have hl : r.ic < (r.readbuf.take r.size).length := by
      rw [List.length_take]; omega
    rw [List.drop_eq_getElem_cons hl, List.cons_append]
    congr 1
    rw [List.getElem_take, List.getD_eq_getElem _ _ (by omega)]
  · intro hd
    have := hd.2
    simp only at this
    omega

theorem getNextChar_last (r : Reader) (h : r.Ok) (hic : r.ic ≠ BUF_SIZE) (heq : r.ic = r.size) :
    (getNextChar r).2.At (getNextChar r).1 r.pending ∧ r.pending = [] := by
  have e : getNextChar r = (r.readbuf.getD r.ic 0, { r with ic := r.ic + 1 }) := by
    unfold getNextChar; rw [if_neg hic]
  rw [e]
  have heof : r.eofbit = true := by
    cases hb : r.eofbit with
    | true => rfl
    | false =>
      rcases h.noeof hb with h1 | h1
      · exact absurd (heq.trans h1) hic
      · exact absurd h1 hic
  obtain ⟨hf, hs, hE⟩ := h.eof heof
  have hp : r.pending = [] := by
    unfold Reader.pending
    rw [hf, heq, List.append_nil]
    apply List.drop_eq_nil_of_le
    rw [List.length_take]; omega
  refine ⟨⟨?_, Or.inl ⟨hp, ?_, ?_⟩⟩, hp⟩
  · exact
      { size_le := h.size_le, buf_len := h.buf_len,
        ic_le := Or.inr (Or.inr ⟨heof, by show r.ic + 1 = r.size + 1; omega⟩),
        eof := h.eof, noeof := fun he => by rw [heof] at he; cases he }
  · show r.readbuf.getD r.ic 0 = EOF
    rw [heq]; exact hE
  · exact ⟨heof, by show r.ic + 1 = r.size + 1; omega⟩

theorem getD_set_eq (l : List CChar) (i : Nat) (v : CChar) (h : i < l.length) :
    (l.set i v).getD i 0 = v := by
  rw [List.getD_eq_getElem _ _ (by rw [List.length_set]; exact h)]
  simp

theorem take_set_self (l : List CChar) (i : Nat) (v : CChar) :
    (l.set i v).take i = l.take i := by
  induction l generalizing i with
  | nil => simp
  | cons a l ih =>
    cases i with
    | zero => simp
    | succ i => simp [List.set, ih]

theorem getNextChar_refill_short (r : Reader) (h : r.Ok) (hic : r.ic = BUF_SIZE)
    (hshort : r.file.length < BUF_SIZE) :
    (getNextChar r).2.At (getNextChar r).1 r.file := by
  have hbl := h.buf_len
  have htake : r.file.take BUF_SIZE = r.file := List.take_of_length_le (by omega)
  have hdrop : r.file.drop BUF_SIZE = [] := List.drop_eq_nil_of_le (by omega)
  have hne : (r.file.take BUF_SIZE).length ≠ BUF_SIZE := by rw [htake]; omega
  have hre : refill r =
      { file := [], eofbit := true,
        readbuf := (r.file ++ r.readbuf.drop r.file.length).set r.file.length EOF,
        ic := 0, size := r.file.length } := by
    unfold refill
    rw [if_pos hne, htake, hdrop]
  have e : getNextChar r = ((refill r).readbuf.getD 0 0, { refill r with ic := 1 }) := by
    unfold getNextChar; rw [if_pos hic]
  rw [e, hre]
  have hlen : (r.file ++ r.readbuf.drop r.file.length).length = BUF_SIZE := by
    rw [List.length_append, List.length_drop, hbl]; omega
  cases hfile : r.file with
  | nil =>
    refine ⟨?_, Or.inl ⟨rfl, ?_, ?_⟩⟩
    · exact
        { size_le := Nat.zero_le _,
          buf_len := by
            show (List.set _ _ _).length = _
            rw [List.length_set]; rw [hfile] at hlen; exact hlen
          ic_le := Or.inr (Or.inr ⟨rfl, rfl⟩),
          eof := fun _ => ⟨rfl, BUF_SIZE_pos, by
            show (List.set _ _ _).getD _ 0 = EOF
            apply getD_set_eq
            rw [hfile] at hlen; rw [hlen]; exact BUF_SIZE_pos⟩,
          noeof := fun he => by cases he }
    · show (List.set _ _ _).getD 0 0 = EOF
      apply getD_set_eq
      simp only [List.nil_append, List.length_nil, List.drop_zero, hbl]
      exact BUF_SIZE_pos
    · exact ⟨rfl, rfl⟩
  | cons c t =>
    rw [hfile] at hlen hshort
    refine ⟨?_, Or.inr ⟨?_, ?_⟩⟩
    · exact
        { size_le := by show (c :: t).length ≤ _; omega,
          buf_len := by
            show (List.set _ _ _).length = _
            rw [List.length_set]; exact hlen
          ic_le := Or.inl (by show 1 ≤ (c :: t).length; simp),
          eof := fun _ => ⟨rfl, hshort, by
            show (List.set _ _ _).getD _ 0 = EOF
            apply getD_set_eq
            rw [hlen]; exact hshort⟩,
          noeof := fun he => by cases he }
    · show c :: t =
        ((c :: t ++ r.readbuf.drop (c :: t).length).set (c :: t).length EOF).getD 0 0 ::
          ((((c :: t ++ r.readbuf.drop (c :: t).length).set (c :: t).length EOF).take
            (c :: t).length).drop 1 ++ [])
      rw [take_set_self, List.take_left]
      simp [List.getD_eq_getElem?_getD]
    · intro hd
      have := hd.2
      simp only [List.length_cons] at this
      omega

theorem getNextChar_refill_full (r : Reader) (h : r.Ok) (hic : r.ic = BUF_SIZE)
    (heof : r.eofbit = false) (hfull : BUF_SIZE ≤ r.file.length) :
    (getNextChar r).2.At (getNextChar r).1 r.file := by
  have hbl := h.buf_len
  have hpos := BUF_SIZE_pos
  have hlen : (r.file.take BUF_SIZE).length = BUF_SIZE := by
    rw [List.length_take]; omega
  have hre : refill r =
      { file := r.file.drop BUF_SIZE, eofbit := r.eofbit,
        readbuf := r.file.take BUF_SIZE ++ r.readbuf.drop (r.file.take BUF_SIZE).length,
        ic := 0, size := (r.file.take BUF_SIZE).length } := by
    unfold refill
    rw [if_neg (not_not.2 hlen)]
  have e : getNextChar r = ((refill r).readbuf.getD 0 0, { refill r with ic := 1 }) := by
    unfold getNextChar; rw [if_pos hic]
  rw [e, hre]
  have hd0 : r.readbuf.drop (r.file.take BUF_SIZE).length = [] := by
    apply List.drop_eq_nil_of_le; rw [hlen, hbl]
  rw [hd0, List.append_nil, hlen]
  cases hfile : r.file with
  | nil => rw [hfile] at hfull; simp at hfull; omega
  | cons c t =>
    have htk : (c :: t).take BUF_SIZE = c :: t.take (BUF_SIZE - 1) := by
      obtain ⟨n, hn⟩ : ∃ n, BUF_SIZE = n + 1 := ⟨BUF_SIZE - 1, by omega⟩
      rw [hn]; simp
    have hlen2 : ((c :: t).take BUF_SIZE).length = BUF_SIZE := by rw [← hfile]; exact hlen
    refine ⟨?_, Or.inr ⟨?_, ?_⟩⟩
    · exact
        { size_le := le_refl _, buf_len := hlen2,
          ic_le := Or.inl hpos,
          eof := fun he => by
            have : r.eofbit = true := he
            rw [heof] at this; cases this
          noeof := fun _ => Or.inl rfl }
    · show c :: t = ((c :: t).take BUF_SIZE).getD 0 0 ::
        ((((c :: t).take BUF_SIZE).take BUF_SIZE).drop 1 ++ (c :: t).drop BUF_SIZE)
      rw [List.take_take, Nat.min_self]
      have h1 : ((c :: t).take BUF_SIZE).getD 0 0 = c := by rw [htk]; rfl
      rw [h1]
      congr 1
      have h2 : c :: t = (c :: t).take BUF_SIZE ++ (c :: t).drop BUF_SIZE :=
        (List.take_append_drop _ _).symm
      have h3 : t = ((c :: t).take BUF_SIZE ++ (c :: t).drop BUF_SIZE).drop 1 := by
        rw [← h2]; rfl
      rw [htk] at h3 ⊢
      exact h3
    · intro hd
      have : r.eofbit = true := hd.1
      rw [heof] at this; cases this

/-- The function `getNextChar` returns the next character of the stream, or `EOF` when no
character is left. -/
theorem getNextChar_spec (r : Reader) (h : r.Ok) (hnd : ¬ r.Done) :
    (getNextChar r).2.At (getNextChar r).1 r.pending := by
  by_cases hic : r.ic = BUF_SIZE
  · have heof : r.eofbit = false := by
      cases hb : r.eofbit with
      | false => rfl
      | true =>
        obtain ⟨_, hs, _⟩ := h.eof hb
        rcases h.ic_le with h1 | h1 | h1
        · omega
        · rw [h1.2] at hb; cases hb
        · exact absurd h1 hnd
    have hp : r.pending = r.file := by
      unfold Reader.pending
      have : (r.readbuf.take r.size).drop r.ic = [] := by
        apply List.drop_eq_nil_of_le
        rw [List.length_take, hic]
        have := h.size_le
        omega
      rw [this, List.nil_append]
    rw [hp]
    by_cases hshort : r.file.length < BUF_SIZE
    · exact getNextChar_refill_short r h hic hshort
    · exact getNextChar_refill_full r h hic heof (by omega)
  · have hle : r.ic ≤ r.size := by
      rcases h.ic_le with h1 | h1 | h1
      · exact h1
      · exact absurd h1.1 hic
      · exact absurd h1 hnd
    by_cases hlt : r.ic < r.size
    · exact getNextChar_mid r h hic hlt
    · exact (getNextChar_last r h hic (by omega)).1

/-- When `endFile` holds no character is left. -/
theorem endFile_pending (r : Reader) (h : r.Ok) (hnd : ¬ r.Done) (he : endFile r = true) :
    r.pending = [] := by
  unfold endFile at he
  simp only [Bool.and_eq_true, decide_eq_true_eq] at he
  obtain ⟨hf, hs, _⟩ := h.eof he.1
  have hle : r.ic ≤ r.size := by
    rcases h.ic_le with h1 | h1 | h1
    · exact h1
    · rw [h1.2] at he; cases he.1
    · exact absurd h1 hnd
  unfold Reader.pending
  rw [hf, List.append_nil]
  apply List.drop_eq_nil_of_le
  rw [List.length_take]; omega

theorem endFile_done (r : Reader) (hd : r.Done) : endFile r = true := by
  unfold endFile
  simp only [Bool.and_eq_true, decide_eq_true_eq]
  exact ⟨hd.1, by rw [hd.2]; omega⟩

theorem isTokenChar_of_isalpha (c : Int) (h : isalpha c = true) : isTokenChar c = true := by
  simp [isTokenChar, h]

theorem tokenRuns_some (l : List CChar) :
    ∀ run, tokenRuns (some run) l = (run ++ tokenOf l) :: tokenRuns none (afterToken l) := by
  induction l with
  | nil => intro run; simp [tokenRuns, tokenOf, afterToken]
  | cons c t ih =>
    intro run
    simp only [tokenRuns, tokenOf, afterToken]
    by_cases hc : isTokenChar c = true
    · rw [if_pos hc, if_pos hc, if_pos hc, ih]
      simp
    · rw [if_neg hc, if_neg hc, if_neg hc]
      have ha : ¬ isalpha c = true := fun h => hc (isTokenChar_of_isalpha c h)
      simp only [tokenRuns, List.append_nil]
      rw [if_neg ha]

theorem tokenRuns_skipSep (l : List CChar) : tokenRuns none l = tokenRuns none (skipSep l) := by
  induction l with
  | nil => rfl
  | cons c t ih =>
    simp only [skipSep]
    by_cases hc : isalpha c = true
    · rw [if_pos hc]
    · rw [if_neg hc]
      simp only [tokenRuns]
      rw [if_neg hc, ih]

theorem tokenRuns_letter (c : CChar) (t : List CChar) (h : isalpha c = true) :
    tokenRuns none (c :: t) = tokenOf (c :: t) :: tokenRuns none (afterToken (c :: t)) := by
  simp only [tokenRuns, tokenOf, afterToken]
  rw [if_pos h, if_pos (isTokenChar_of_isalpha c h), if_pos (isTokenChar_of_isalpha c h),
    tokenRuns_some]
  rfl

theorem skipSep_head (l : List CChar) :
    skipSep l = [] ∨ ∃ c t, skipSep l = c :: t ∧ isalpha c = true := by
  induction l with
  | nil => exact Or.inl rfl
  | cons c t ih =>
    simp only [skipSep]
    by_cases hc : isalpha c = true
    · rw [if_pos hc]; exact Or.inr ⟨c, t, rfl, hc⟩
    · rw [if_neg hc]; exact ih

theorem afterToken_head (l : List CChar) :
    afterToken l = [] ∨ ∃ c t, afterToken l = c :: t ∧ isTokenChar c = false := by
  induction l with
  | nil => exact Or.inl rfl
  | cons c t ih =>
    simp only [afterToken]
    by_cases hc : isTokenChar c = true
    · rw [if_pos hc]; exact ih
    · rw [if_neg hc]; exact Or.inr ⟨c, t, rfl, by simpa using hc⟩

theorem tokenRuns_afterToken_tail (l : List CChar) (c : CChar) (t : List CChar)
    (h : afterToken l = c :: t) : tokenRuns none (afterToken l) = tokenRuns none t := by
  rcases afterToken_head l with h0 | ⟨c2, t2, h1, h2⟩
  · rw [h0] at h; cases h
  · rw [h] at h1
    cases h1
    rw [h]
    have ha : ¬ isalpha c = true := fun ha => by
      rw [isTokenChar_of_isalpha c ha] at h2; cases h2
    simp only [tokenRuns]
    rw [if_neg ha]

theorem skipSep_length (l : List CChar) : (skipSep l).length ≤ l.length := by
  induction l with
  | nil => simp [skipSep]
  | cons c t ih =>
    simp only [skipSep]
    split
    · exact le_refl _
    · simp only [List.length_cons]; omega

theorem afterToken_length (l : List CChar) : (afterToken l).length ≤ l.length := by
  induction l with
  | nil => simp [afterToken]
  | cons c t ih =>
    simp only [afterToken]
    split
    · simp only [List.length_cons]; omega
    · exact le_refl _

theorem skipSep_subset (l : List CChar) : ∀ c ∈ skipSep l, c ∈ l := by
  induction l with
  | nil => simp [skipSep]
  | cons a t ih =>
    intro c hc
    simp only [skipSep] at hc
    split at hc
    · exact hc
    · exact List.mem_cons_of_mem _ (ih c hc)

theorem afterToken_subset (l : List CChar) : ∀ c ∈ afterToken l, c ∈ l := by
  induction l with
  | nil => simp [afterToken]
  | cons a t ih =>
    intro c hc
    simp only [afterToken] at hc
    split at hc
    · exact List.mem_cons_of_mem _ (ih c hc)
    · exact hc

theorem tolower_ne_zero (c : Int) (h : isTokenChar c = true) : tolower c ≠ 0 := by
  unfold isTokenChar isalpha at h
  simp only [Bool.or_eq_true, Bool.and_eq_true, decide_eq_true_eq] at h
  unfold tolower
  split <;> omega

theorem tokenOf_no_zero (l : List CChar) : ∀ c ∈ tokenOf l, c ≠ 0 := by
  induction l with
  | nil => simp [tokenOf]
  | cons a t ih =>
    intro c hc
    simp only [tokenOf] at hc
    split at hc
    · rename_i ha
      rcases List.mem_cons.1 hc with h | h
      · rw [h]; exact tolower_ne_zero a ha
      · exact ih c h
    · simp at hc

/-! ### The loops of `getWord` on an ASCII stream -/

theorem At_nil (r : Reader) (ch : Int) (h : r.At ch []) : r.Ok ∧ ch = EOF ∧ r.Done := by
  obtain ⟨hok, h1 | h1⟩ := h
  · exact ⟨hok, h1.2.1, h1.2.2⟩
  · cases h1.1

theorem At_cons (r : Reader) (ch : Int) (c : CChar) (t : List CChar) (h : r.At ch (c :: t)) :
    r.Ok ∧ ch = c ∧ r.pending = t ∧ ¬ r.Done := by
  obtain ⟨hok, h1 | h1⟩ := h
  · cases h1.1
  · have := h1.1
    simp only [List.cons.injEq] at this
    exact ⟨hok, this.1.symm, this.2.symm, h1.2⟩

theorem skipSeparators_spec (impl : Impl) (ht : impl.HasTables) (l : List CChar) :
    ∀ (fuel : Nat) (ch : Int) (r : Reader), r.At ch l → (∀ c ∈ l, isASCII c) →
      l.length < fuel →
      ∃ ch2 r2, skipSeparators impl fuel ch r = Outcome.ok (ch2, r2) ∧ r2.At ch2 (skipSep l) := by
  obtain ⟨⟨impl0, hb⟩, hs, _, _⟩ := ht
  induction l with
  | nil =>
    intro fuel ch r hat _ hf
    obtain ⟨_, hch, _⟩ := At_nil r ch hat
    cases fuel with
    | zero => omega
    | succ f =>
      refine ⟨ch, r, ?_, hat⟩
      simp only [skipSeparators]
      rw [hb, hs, hch, separator_eof]
      simp
  | cons c t ih =>
    intro fuel ch r hat hascii hf
    obtain ⟨hok, hch, hp, hnd⟩ := At_cons r ch c t hat
    subst hch
    cases fuel with
    | zero => omega
    | succ f =>
      have hread : tableRead impl.buffer impl.separator ch =
          some (if isalpha ch then 0 else 1) := by
        rw [hb, hs]; exact separator_ascii impl0 ch (hascii ch (List.mem_cons_self _ _))
      by_cases hc : isalpha ch = true
      · have hskip : skipSep (ch :: t) = ch :: t := by
          simp only [skipSep]; rw [if_pos hc]
        rw [if_pos hc] at hread
        refine ⟨ch, r, ?_, ?_⟩
        · simp only [skipSeparators, hread]
          simp
        · rw [hskip]; exact hat
      · have hskip : skipSep (ch :: t) = skipSep t := by
          simp only [skipSep]; rw [if_neg hc]
        rw [if_neg hc] at hread
        have hnext := getNextChar_spec r hok hnd
        rw [hp] at hnext
        obtain ⟨ch2, r2, e, hat2⟩ := ih f _ _ hnext
          (fun x hx => hascii x (List.mem_cons_of_mem _ hx))
          (by simp only [List.length_cons] at hf; omega)
        refine ⟨ch2, r2, ?_, ?_⟩
        · simp only [skipSeparators, hread]
          simpa using e
        · rw [hskip]; exact hat2

theorem scanToken_spec (impl : Impl) (ht : impl.HasTables) (l : List CChar) :
    ∀ (fuel : Nat) (ch : Int) (r : Reader) (dst : List CChar) (m : DFA),
      r.At ch l → (∀ c ∈ l, isASCII c) → l.length < fuel →
      ∃ ch2 r2, scanToken impl fuel ch r dst m =
          Outcome.ok (ch2, r2, dst ++ tokenOf l, (tokenOf l).foldl next m) ∧
        r2.At ch2 (afterToken l) := by
  obtain ⟨⟨impl0, hb⟩, _, hs, hlo⟩ := ht
  induction l with
  | nil =>
    intro fuel ch r dst m hat _ hf
    obtain ⟨_, hch, _⟩ := At_nil r ch hat
    cases fuel with
    | zero => omega
    | succ f =>
      refine ⟨ch, r, ?_, hat⟩
      have hread : tableRead impl.buffer impl.token ch = some 0 := by
        rw [hb, hs, hch]; exact token_eof impl0
      simp only [scanToken, hread, tokenOf]
      simp
  | cons c t ih =>
    intro fuel ch r dst m hat hascii hf
    obtain ⟨hok, hch, hp, hnd⟩ := At_cons r ch c t hat
    subst hch
    cases fuel with
    | zero => omega
    | succ f =>
      have hasc := hascii ch (List.mem_cons_self _ _)
      have hread : tableRead impl.buffer impl.token ch =
          some (if isTokenChar ch then 1 else 0) := by
        rw [hb, hs]; exact token_ascii impl0 ch hasc
      have hlow : tableRead impl.buffer impl.lower ch = some (tolower ch) := by
        rw [hb, hlo]; exact lower_ascii impl0 ch hasc
      by_cases hc : isTokenChar ch = true
      · have e1 : tokenOf (ch :: t) = tolower ch :: tokenOf t := by
          simp only [tokenOf]; rw [if_pos hc]
        have e2 : afterToken (ch :: t) = afterToken t := by
          simp only [afterToken]; rw [if_pos hc]
        rw [if_pos hc] at hread
        have hnext := getNextChar_spec r hok hnd
        rw [hp] at hnext
        obtain ⟨ch2, r2, e, hat2⟩ := ih f _ _ (dst ++ [tolower ch]) (next m (tolower ch)) hnext
          (fun x hx => hascii x (List.mem_cons_of_mem _ hx))
          (by simp only [List.length_cons] at hf; omega)
        refine ⟨ch2, r2, ?_, ?_⟩
        · simp only [scanToken, hread, hlow]
          rw [e1]
          simpa using e
        · rw [e2]; exact hat2
      · have e1 : tokenOf (ch :: t) = [] := by
          simp only [tokenOf]; rw [if_neg hc]
        have e2 : afterToken (ch :: t) = ch :: t := by
          simp only [afterToken]; rw [if_neg hc]
        rw [if_neg hc] at hread
        refine ⟨ch, r, ?_, ?_⟩
        · simp only [scanToken, hread]
          rw [e1]
          simp
        · rw [e2]; exact hat

theorem nextLoop_tables (d : DFA) (c : CChar) (fuel : Nat) :
    ∀ i, (nextLoop d c fuel i).SameTables d := by
  induction fuel with
  | zero => intro i; exact ⟨rfl, rfl, rfl⟩
  | succ n ih =>
    intro i
    simp only [nextLoop]
    split
    · exact ⟨rfl, rfl, rfl⟩
    · exact ih (i + 1)

theorem next_tables (d : DFA) (c : CChar) : (next d c).SameTables d := by
  unfold next
  split
  · exact ⟨rfl, rfl, rfl⟩
  · exact nextLoop_tables d c _ _

theorem DFA.SameTables.chain {d1 d2 d3 : DFA} (h1 : d1.SameTables d2) (h2 : d2.SameTables d3) :
    d1.SameTables d3 :=
  ⟨h1.1.trans h2.1, h1.2.1.trans h2.2.1, h1.2.2.trans h2.2.2⟩

theorem foldl_next_tables (s : List CChar) : ∀ d : DFA, (s.foldl next d).SameTables d := by
  induction s with
  | nil => intro d; exact ⟨rfl, rfl, rfl⟩
  | cons c s ih => intro d; exact (ih (next d c)).chain (next_tables d c)

theorem pending_length_lt (r : Reader) (h : r.Ok) : r.pending.length < readerFuel r := by
  unfold Reader.pending readerFuel
  rw [List.length_append, List.length_drop, List.length_take]
  have := h.size_le
  omega

theorem At_length_lt (r : Reader) (ch : Int) (l : List CChar) (h : r.At ch l) :
    l.length < readerFuel r := by
  obtain ⟨hok, h1 | h1⟩ := h
  · rw [h1.1]; unfold readerFuel; simp
  · rw [h1.1]
    have := pending_length_lt r hok
    unfold readerFuel at this ⊢
    simp only [List.length_cons]
    have h2 : r.pending.length ≤ BUF_SIZE + r.file.length := by
      unfold Reader.pending
      rw [List.length_append, List.length_drop, List.length_take]
      have := hok.size_le
      omega
    omega

theorem filterTerms_skip (m : DFA) (c : CChar) (t : List CChar) (h : isTokenChar c = false) :
    filterTerms m (c :: t) = filterTerms m t := by
  unfold filterTerms
  have ha : ¬ isalpha c = true := fun ha => by
    rw [isTokenChar_of_isalpha c ha] at h; cases h
  simp only [tokenRuns]
  rw [if_neg ha]

theorem termFirst_nil : termFirst [] = 0 := rfl

theorem termFirst_cons (c : CChar) (t : List CChar) : termFirst (c :: t) = c := rfl

theorem cString_no_zero (dst : List CChar) (h : ∀ c ∈ dst, c ≠ 0) :
    cString (dst ++ [(0 : CChar)]) = dst := by
  induction dst with
  | nil => simp [cString]
  | cons a t ih =>
    have ha : a ≠ 0 := h a (List.mem_cons_self _ _)
    have := ih (fun c hc => h c (List.mem_cons_of_mem _ hc))
    unfold cString at this ⊢
    simp only [List.cons_append, List.takeWhile_cons]
    have hb : (a != 0) = true := by simpa using ha
    rw [hb]
    simp only [↓reduceIte]
    rw [this]

/-- The loop of `getWord` on an ASCII stream: it ends with an empty `term` when
no term is left to deliver, and with the first term to deliver otherwise. -/
theorem getWordLoop_spec (impl : Impl) (ht : impl.HasTables) (m0 : DFA) (fuel : Nat) :
    ∀ (r : Reader) (l : List CChar) (m : DFA), r.Ok → ¬ r.Done → r.pending = l →
      (∀ c ∈ l, isASCII c) → l.length < fuel → m.SameTables m0 →
      ∃ ch2 r2 dst m2, getWordLoop impl fuel r [] m = Outcome.ok (ch2, r2, dst, m2) ∧
        m2.SameTables m0 ∧
        ((dst = [] ∧ filterTerms m0 l = []) ∨
          (dst ≠ [] ∧ (∀ c ∈ dst, c ≠ 0) ∧ termFirst dst ≠ 0 ∧
            ∃ l2, filterTerms m0 l = dst :: filterTerms m0 l2 ∧ r2.Holds l2 ∧
              l2.length < l.length ∧ ∀ c ∈ l2, isASCII c)) := by
  induction fuel with
  | zero => intro r l m _ _ _ _ hf; omega
  | succ f ih =>
    intro r l m hok hnd hp hascii hf hm
    have hnext := getNextChar_spec r hok hnd
    rw [hp] at hnext
    obtain ⟨ch, r1, e1, hat1⟩ := skipSeparators_spec impl ht l (readerFuel r) _ _ hnext hascii
      (by rw [← hp]; exact pending_length_lt r hok)
    have hascii1 : ∀ c ∈ skipSep l, isASCII c := fun c hc => hascii c (skipSep_subset l c hc)
    obtain ⟨ch2, r2, e2, hat2⟩ := scanToken_spec impl ht (skipSep l) (readerFuel r1) ch r1 []
      (init m) hat1 hascii1 (At_length_lt r1 ch _ hat1)
    have hascii2 : ∀ c ∈ afterToken (skipSep l), isASCII c :=
      fun c hc => hascii1 c (afterToken_subset _ c hc)
    have hm2 : ((tokenOf (skipSep l)).foldl next (init m)).SameTables m0 :=
      (foldl_next_tables _ _).chain (DFA.SameTables.chain ⟨rfl, rfl, rfl⟩ hm)
    have hrec : wordRecognized ((tokenOf (skipSep l)).foldl next (init m)) =
        recognizes m0 (tokenOf (skipSep l)) := by
      rw [← recognizes_sameTables m m0 hm]; rfl
    have hstep : getWordLoop impl (f + 1) r [] m =
        if ch2 ≠ EOF ∧ termFirst (if recognizes m0 (tokenOf (skipSep l)) then []
            else tokenOf (skipSep l)) = 0 then
          getWordLoop impl f r2 (if recognizes m0 (tokenOf (skipSep l)) then []
            else tokenOf (skipSep l)) ((tokenOf (skipSep l)).foldl next (init m))
        else Outcome.ok (ch2, r2, if recognizes m0 (tokenOf (skipSep l)) then []
            else tokenOf (skipSep l), (tokenOf (skipSep l)).foldl next (init m)) := by
      simp only [getWordLoop, e1, e2, List.nil_append, hrec]
    rw [hstep]
    have hF : filterTerms m0 l = filterTerms m0 (skipSep l) := by
      unfold filterTerms; rw [tokenRuns_skipSep]
    rcases skipSep_head l with h0 | ⟨c, t, hct, hc⟩
    · -- the stream holds no letter
      rw [h0] at hat2 ⊢
      simp only [afterToken] at hat2
      obtain ⟨_, hch2, _⟩ := At_nil r2 ch2 hat2
      rw [if_neg (fun h => h.1 hch2)]
      refine ⟨ch2, r2, _, _, rfl, ?_, Or.inl ⟨?_, ?_⟩⟩
      · rw [h0] at hm2; exact hm2
      · simp [tokenOf]
      · rw [hF, h0]; rfl
    · have htok : tokenOf (skipSep l) ≠ [] := by
        rw [hct]; simp only [tokenOf]
        rw [if_pos (isTokenChar_of_isalpha c hc)]
        exact List.cons_ne_nil _ _
      have hnz := tokenOf_no_zero (skipSep l)
      have hruns : tokenRuns none (skipSep l) =
          tokenOf (skipSep l) :: tokenRuns none (afterToken (skipSep l)) := by
        rw [hct]; exact tokenRuns_letter c t hc
      have hlen : (afterToken (skipSep l)).length ≤ l.length :=
        le_trans (afterToken_length _) (skipSep_length l)
      by_cases hr : recognizes m0 (tokenOf (skipSep l)) = true
      · -- the token is a stop word
        have hF2 : filterTerms m0 l = filterTerms m0 (afterToken (skipSep l)) := by
          rw [hF]; unfold filterTerms; rw [hruns, List.filter_cons_of_neg (by simp [hr])]
        rw [if_pos hr, termFirst_nil]
        by_cases hch2 : ch2 = EOF
        · rw [if_neg (fun h => h.1 hch2)]
          refine ⟨ch2, r2, _, _, rfl, hm2, Or.inl ⟨rfl, ?_⟩⟩
          rw [hF2]
          cases hl2 : afterToken (skipSep l) with
          | nil => rfl
          | cons c2 t2 =>
            rw [hl2] at hat2
            obtain ⟨_, hc2, _, _⟩ := At_cons r2 ch2 c2 t2 hat2
            have := (hascii2 c2 (by rw [hl2]; exact List.mem_cons_self _ _)).1
            rw [← hc2, hch2] at this
            simp [EOF] at this
        · rw [if_pos ⟨hch2, rfl⟩]
          cases hl2 : afterToken (skipSep l) with
          | nil =>
            rw [hl2] at hat2
            exact absurd (At_nil r2 ch2 hat2).2.1 hch2
          | cons c2 t2 =>
            rw [hl2] at hat2
            obtain ⟨hok2, _, hp2, hnd2⟩ := At_cons r2 ch2 c2 t2 hat2
            have hlt : t2.length < f := by
              rw [hl2] at hlen; simp only [List.length_cons] at hlen; omega
            obtain ⟨ch3, r3, dst, m3, e3, hm3, hres⟩ := ih r2 t2 _ hok2 hnd2 hp2
              (fun x hx => hascii2 x (by rw [hl2]; exact List.mem_cons_of_mem _ hx)) hlt hm2
            have hF3 : filterTerms m0 l = filterTerms m0 t2 := by
              rw [hF2]; unfold filterTerms
              rw [tokenRuns_afterToken_tail (skipSep l) c2 t2 hl2]
            refine ⟨ch3, r3, dst, m3, e3, hm3, ?_⟩
            rcases hres with ⟨hd, hf3⟩ | ⟨hd, hz, htf, l2, hf3, hh, hl3, ha3⟩
            · exact Or.inl ⟨hd, by rw [hF3]; exact hf3⟩
            · refine Or.inr ⟨hd, hz, htf, l2, by rw [hF3]; exact hf3, hh, ?_, ha3⟩
              rw [hl2] at hlen; simp only [List.length_cons] at hlen; omega
      · -- the token is a term
        rw [if_neg hr]
        have htf : termFirst (tokenOf (skipSep l)) ≠ 0 := by
          cases hto : tokenOf (skipSep l) with
          | nil => exact absurd hto htok
          | cons a s =>
            rw [termFirst_cons]
            exact hnz a (by rw [hto]; exact List.mem_cons_self _ _)
        rw [if_neg (fun h => htf h.2)]
        have hF2 : filterTerms m0 l =
            tokenOf (skipSep l) :: filterTerms m0 (afterToken (skipSep l)) := by
          rw [hF]; unfold filterTerms
          rw [hruns, List.filter_cons_of_pos (by simp [hr])]
        refine ⟨ch2, r2, _, _, rfl, hm2, Or.inr ⟨htok, hnz, htf, ?_⟩⟩
        cases hl2 : afterToken (skipSep l) with
        | nil =>
          rw [hl2] at hat2
          obtain ⟨hok2, _, hd2⟩ := At_nil r2 ch2 hat2
          refine ⟨[], ?_, ⟨hok2, Or.inl ⟨hd2, rfl⟩⟩, ?_, by simp⟩
          · rw [hF2, hl2]
          · have : 0 < (skipSep l).length := by rw [hct]; simp
            have := skipSep_length l
            simp only [List.length_nil]; omega
        | cons c2 t2 =>
          rw [hl2] at hat2
          obtain ⟨hok2, _, hp2, hnd2⟩ := At_cons r2 ch2 c2 t2 hat2
          refine ⟨t2, ?_, ⟨hok2, Or.inr ⟨hnd2, hp2⟩⟩, ?_, ?_⟩
          · rw [hF2, hl2]
            rcases afterToken_head (skipSep l) with h0 | ⟨c3, t3, h3, h4⟩
            · rw [hl2] at h0; cases h0
            · rw [hl2] at h3; cases h3
              rw [filterTerms_skip m0 c2 t2 h4]
          · rw [hl2] at hlen; simp only [List.length_cons] at hlen; omega
          · exact fun x hx => hascii2 x (by rw [hl2]; exact List.mem_cons_of_mem _ hx)

theorem Reader.Holds_length (r : Reader) (l : List CChar) (h : r.Holds l) :
    l.length < readerFuel r := by
  obtain ⟨hok, h1 | h1⟩ := h
  · rw [h1.2]; unfold readerFuel; simp
  · rw [← h1.2]; exact pending_length_lt r hok

/-- One call of `getWord` on an ASCII stream. -/
theorem getWord_spec (impl : Impl) (ht : impl.HasTables) (m0 : DFA)
    (hm : impl.machine.SameTables m0) (r : Reader) (l : List CChar) (term : List CChar)
    (hr : r.Holds l) (hascii : ∀ c ∈ l, isASCII c) :
    ∃ b impl2 r2 term2, getWord impl r term = Outcome.ok (b, impl2, r2, term2) ∧
      impl2.HasTables ∧ impl2.machine.SameTables m0 ∧
      ((b = false ∧ filterTerms m0 l = [] ∧ (endFile r = false → term2 = [])) ∨
        (b = true ∧ ∃ l2, filterTerms m0 l = term2 :: filterTerms m0 l2 ∧ r2.Holds l2 ∧
          l2.length < l.length ∧ ∀ c ∈ l2, isASCII c)) := by
  unfold getWord
  by_cases he : endFile r = true
  · rw [if_pos he]
    refine ⟨false, impl, r, term, rfl, ht, hm, Or.inl ⟨rfl, ?_, fun h => ?_⟩⟩
    · obtain ⟨hok, h1 | h1⟩ := hr
      · rw [h1.2]; rfl
      · rw [← h1.2, endFile_pending r hok h1.1 he]; rfl
    · rw [he] at h; cases h
  · rw [if_neg he]
    obtain ⟨hok, h1 | h1⟩ := hr
    · exact absurd (endFile_done r h1.1) he
    · obtain ⟨ch2, r2, dst, m2, e, hm2, hres⟩ := getWordLoop_spec impl ht m0 (readerFuel r) r l
        impl.machine hok h1.1 h1.2 hascii (Reader.Holds_length r l ⟨hok, Or.inr h1⟩) hm
      rw [e]
      have ht2 : Impl.HasTables { impl with machine := m2 } := ht
      rcases hres with ⟨hd, hf⟩ | ⟨hd, hz, htf, l2, hf, hh, hl, ha⟩
      · subst hd
        exact ⟨false, { impl with machine := m2 }, r2, [], rfl, ht2, hm2,
          Or.inl ⟨rfl, hf, fun _ => rfl⟩⟩
      · refine ⟨true, { impl with machine := m2 }, r2, dst, ?_, ht2, hm2,
          Or.inr ⟨rfl, l2, hf, hh, hl, ha⟩⟩
        show Outcome.ok (decide (termFirst dst ≠ 0), _, r2, cString (dst ++ [(0 : CChar)])) = _
        rw [cString_no_zero dst hz]
        simp [htf]

/-- The successive calls of `getWord` on an ASCII stream deliver the token runs
the matcher does not recognize. -/
theorem getWords_spec (m0 : DFA) (fuel : Nat) :
    ∀ (impl : Impl) (r : Reader) (l : List CChar) (term : List CChar), impl.HasTables →
      impl.machine.SameTables m0 → r.Holds l → (∀ c ∈ l, isASCII c) → l.length < fuel →
      getWords impl fuel r term = Outcome.ok (filterTerms m0 l) := by
  induction fuel with
  | zero => intro impl r l term _ _ _ _ hf; omega
  | succ f ih =>
    intro impl r l term ht hm hr hascii hf
    obtain ⟨b, impl2, r2, term2, e, ht2, hm2, hres⟩ := getWord_spec impl ht m0 hm r l term hr hascii
    rcases hres with ⟨hb, hF, _⟩ | ⟨hb, l2, hF, hh, hl, ha⟩
    · subst hb
      simp only [getWords, e]
      rw [hF]
    · subst hb
      have := ih impl2 r2 l2 term2 ht2 hm2 hh ha (by omega)
      simp only [getWords, e, this]
      rw [hF]

theorem buildCharTables_hasTables (impl : Impl) : (buildCharTables impl).HasTables :=
  ⟨⟨impl, rfl⟩, rfl, rfl, rfl⟩

theorem Reader.opened_holds (input : List CChar) : (Reader.opened input).Holds input := by
  obtain ⟨h1, h2, h3, _⟩ := Reader.opened_ok input
  exact ⟨h1, Or.inr ⟨h3, h2⟩⟩

/-- The tokenizer on an ASCII input, for any automaton: the terms delivered are
the lowercased token runs of the input without those the automaton
recognizes. -/
theorem getWords_ascii (impl : Impl) (input term : List CChar)
    (hascii : ∀ c ∈ input, isASCII c) :
    getWords (buildCharTables impl) (input.length + 1) (Reader.opened input) term =
      Outcome.ok ((tokenRuns none input).filter (fun t => !recognizes impl.machine t)) :=
  getWords_spec impl.machine (input.length + 1) (buildCharTables impl) (Reader.opened input)
    input term (buildCharTables_hasTables impl) ⟨rfl, rfl, rfl⟩ (Reader.opened_holds input)
    hascii (Nat.lt_succ_self _)

/-- The first call of `getWord` on an ASCII input all of whose token runs the
automaton recognizes returns `false` and leaves an empty term. -/
theorem getWord_all_recognized (impl : Impl) (input term : List CChar)
    (hascii : ∀ c ∈ input, isASCII c)
    (hall : ∀ t ∈ tokenRuns none input, recognizes impl.machine t = true) :
    ∃ impl2 r2, getWord (buildCharTables impl) (Reader.opened input) term =
      Outcome.ok (false, impl2, r2, []) := by
  obtain ⟨b, impl2, r2, term2, e, _, _, hres⟩ := getWord_spec (buildCharTables impl)
    (buildCharTables_hasTables impl) impl.machine ⟨rfl, rfl, rfl⟩ (Reader.opened input) input
    term (Reader.opened_holds input) hascii
  have hF : filterTerms impl.machine input = [] := by
    unfold filterTerms
    rw [List.filter_eq_nil_iff]
    intro t ht
    simp [hall t ht]
  rcases hres with ⟨hb, _, hterm⟩ | ⟨_, l2, hF2, _⟩
  · refine ⟨impl2, r2, ?_⟩
    rw [e, hb, hterm (Reader.opened_ok input).2.2.2]
  · rw [hF] at hF2; cases hF2

/-- The automaton built from a collection without words: the start state
alone, not final, without arcs; it recognizes no string. -/
theorem build_empty (d0 : DFA) (cbuf : List CChar) :
    ∃ d, build d0 { wordsCharBuffer := cbuf, words := [] } = some d ∧
      d.stateTable = [{ label := 0, arcOffset := 0, numArcs := 0, isFinal := false }] ∧
      d.arcLabels = [] ∧ d.arcTargets = [] ∧
      ∀ s, recognizes d s = false := by
  refine ⟨_, rfl, rfl, rfl, rfl, ?_⟩
  intro s
  cases s with
  | nil => rfl
  | cons c s =>
    unfold recognizes
    simp only [List.foldl_cons]
    rw [foldl_next_dead s _ rfl]
    rfl

theorem loadLines_wellFormed (lines : List (List CChar)) :
    ∀ wc : WordCollection, wc.WellFormed → (loadLines lines wc).WellFormed := by
  induction lines with
  | nil => intro wc h; exact h
  | cons line rest ih =>
    intro wc h
    simp only [loadLines]
    split
    · exact ih wc h
    · apply ih
      intro w hw
      simp only [List.mem_append, List.mem_singleton] at hw
      rcases hw with hw | hw
      · have := h w hw
        exact ⟨this.1, by
          show w.stop ≤ (wc.wordsCharBuffer ++ line.map tolower).length
          rw [List.length_append]; exact le_trans this.2 (Nat.le_add_right _ _)⟩
      · subst hw
        exact ⟨Nat.le_add_right _ _, by
          show _ ≤ (wc.wordsCharBuffer ++ line.map tolower).length
          rw [List.length_append]⟩

/-- Every collection `loadStopWords` produces is well formed. -/
theorem loadStopWords_wellFormed (lines : List (List CChar)) :
    (loadStopWords lines).WellFormed :=
  loadLines_wellFormed lines _ (fun _ hw => absurd hw (List.not_mem_nil _))

theorem runStep_newRun (rs : RunScan) (ch : CChar) (rest : List CChar)
    (hc : ch ≠ legitimate rs.arcLabel ch) :
    runStep rs (ch :: rest) =
      { runs := rs.runs ++ [(legitimate rs.arcLabel ch, rs.targetLabel, rs.targetSignature)],
        targetLabel := [rest],
        targetSignature := hashChars startHashValue rest,
        arcLabel := ch,
        isFinal := rs.isFinal } := if_pos hc

theorem runStep_sameRun (rs : RunScan) (ch : CChar) (rest : List CChar)
    (hc : ¬ ch ≠ legitimate rs.arcLabel ch) :
    runStep rs (ch :: rest) =
      { runs := rs.runs,
        targetLabel := rs.targetLabel ++ [rest],
        targetSignature := hashChars rs.targetSignature rest,
        arcLabel := legitimate rs.arcLabel ch,
        isFinal := rs.isFinal } := if_neg hc

theorem legitimate_of_ne (arcLabel ch : Int) (h : ch ≠ legitimate arcLabel ch) :
    arcLabel ≠ -1 ∧ legitimate arcLabel ch = arcLabel := by
  have h1 : arcLabel ≠ -1 := by
    intro h0; apply h; simp [legitimate, h0]
  exact ⟨h1, by simp [legitimate, h1]⟩

theorem legitimate_of_eq (arcLabel ch : Int) (h : ¬ ch ≠ legitimate arcLabel ch) :
    legitimate arcLabel ch = ch := by
  by_contra h0; exact h (Ne.symm h0)

theorem runStep_facts (rs : RunScan) (done : List (List CChar)) (w : List CChar)
    (h : RunFacts rs done) : RunFacts (runStep rs w) (done ++ [w]) := by
  cases w with
  | nil =>
    show RunFacts { rs with isFinal := true } (done ++ [[]])
    exact
      { closed := fun r hr => by
          obtain ⟨a, b, x, hx⟩ := h.closed r hr
          exact ⟨a, b, x, List.mem_append_left _ hx⟩
        opened := fun ht => by
          obtain ⟨x, hx⟩ := h.opened ht
          exact ⟨x, List.mem_append_left _ hx⟩
        final := by simp
        fresh := fun ht => by
          obtain ⟨a, b, c⟩ := h.fresh ht
          refine ⟨a, b, ?_⟩
          intro x hx
          rcases List.mem_append.1 hx with hx | hx
          · exact c x hx
          · simpa using hx }
  | cons ch rest =>
    have hmem : (ch :: rest) ∈ done ++ [ch :: rest] := by simp
    have hfin : (rs.isFinal = true ↔ [] ∈ done ++ [ch :: rest]) := by
      rw [h.final]; simp
    by_cases hc : ch ≠ legitimate rs.arcLabel ch
    · rw [runStep_newRun rs ch rest hc]
      obtain ⟨hne1, hleg⟩ := legitimate_of_ne _ _ hc
      have hne : rs.targetLabel ≠ [] := fun h0 => hne1 (h.fresh h0).1
      exact
        { closed := fun r hr => by
            rcases List.mem_append.1 hr with hr | hr
            · obtain ⟨a, b, x, hx⟩ := h.closed r hr
              exact ⟨a, b, x, List.mem_append_left _ hx⟩
            · rw [List.mem_singleton] at hr
              subst hr
              obtain ⟨x, hx⟩ := h.opened hne
              refine ⟨by rw [hleg]; exact hne1, hne, x, ?_⟩
              rw [hleg]; exact List.mem_append_left _ hx
          opened := fun _ => ⟨rest, hmem⟩
          final := hfin
          fresh := fun ht => absurd ht (List.cons_ne_nil _ _) }
    · rw [runStep_sameRun rs ch rest hc]
      have hleg := legitimate_of_eq _ _ hc
      exact
        { closed := fun r hr => by
            obtain ⟨a, b, x, hx⟩ := h.closed r hr
            exact ⟨a, b, x, List.mem_append_left _ hx⟩
          opened := fun _ => ⟨rest, by rw [hleg]; exact hmem⟩
          final := hfin
          fresh := fun ht => by simp at ht }

theorem foldl_runStep_facts (l : List (List CChar)) :
    ∀ (rs : RunScan) (done : List (List CChar)), RunFacts rs done →
      RunFacts (l.foldl runStep rs) (done ++ l) := by
  induction l with
  | nil => intro rs done h; simpa using h
  | cons w l ih =>
    intro rs done h
    have := ih (runStep rs w) (done ++ [w]) (runStep_facts rs done w h)
    simpa using this

theorem runScan_facts (label : List (List CChar)) : RunFacts (runScan label) label := by
  have h0 : RunFacts
      { runs := [], targetLabel := [], targetSignature := startHashValue, arcLabel := -1,
        isFinal := false } [] :=
    { closed := fun r hr => by simp at hr
      opened := fun h => absurd rfl h
      final := by simp
      fresh := fun _ => ⟨rfl, rfl, fun w hw => by simp at hw⟩ }
  have := foldl_runStep_facts label _ [] h0
  simpa using this

/-- The state of a label is final exactly when the label holds the empty word. -/
theorem runScan_isFinal (label : List (List CChar)) :
    (runScan label).isFinal = true ↔ [] ∈ label :=
  (runScan_facts label).final

/-- Every run of a label has suffixes, and its character starts a word of the
label. -/
theorem labelRuns_nonempty (label : List (List CChar)) :
    ∀ r ∈ labelRuns label, r.2.1 ≠ [] ∧ ∃ w, (r.1 :: w) ∈ label := by
  have h := runScan_facts label
  intro r hr
  unfold labelRuns at hr
  by_cases ht : (runScan label).targetLabel.length ≠ 0
  · rw [if_pos ht] at hr
    have hne : (runScan label).targetLabel ≠ [] := by
      intro h1; rw [h1] at ht; exact ht rfl
    rcases List.mem_append.1 hr with hr | hr
    · obtain ⟨_, b, c⟩ := h.closed r hr
      exact ⟨b, c⟩
    · rw [List.mem_singleton] at hr
      subst hr
      exact ⟨hne, h.opened hne⟩
  · rw [if_neg ht] at hr
    obtain ⟨_, b, c⟩ := h.closed r hr
    exact ⟨b, c⟩

theorem length_le_of_increasing (hi : Int) (l : List Int) :
    ∀ lo : Int, lo ≤ hi + 1 → l.Pairwise (fun x y => x < y) → (∀ x ∈ l, lo ≤ x ∧ x ≤ hi) →
      (l.length : Int) ≤ hi - lo + 1 := by
  induction l with
  | nil => intro lo h _ _; simp; omega
  | cons a l ih =>
    intro lo _ hp hr
    obtain ⟨ha, hp2⟩ := List.pairwise_cons.1 hp
    have h1 := hr a (List.mem_cons_self _ _)
    have h2 := ih (a + 1) (by omega) hp2 (fun x hx => by
      have := ha x hx
      have := hr x (List.mem_cons_of_mem _ hx)
      omega)
    simp only [List.length_cons, Nat.cast_add, Nat.cast_one]
    omega

theorem length_le_of_increasing_skip (hi p : Int) (l : List Int) :
    ∀ lo : Int, lo ≤ p → p ≤ hi → l.Pairwise (fun x y => x < y) →
      (∀ x ∈ l, lo ≤ x ∧ x ≤ hi ∧ x ≠ p) → (l.length : Int) ≤ hi - lo := by
  induction l with
  | nil => intro lo h1 h2 _ _; simp; omega
  | cons a l ih =>
    intro lo hlo hhi hp hr
    obtain ⟨ha, hp2⟩ := List.pairwise_cons.1 hp
    have h1 := hr a (List.mem_cons_self _ _)
    simp only [List.length_cons, Nat.cast_add, Nat.cast_one]
    by_cases hap : a < p
    · have h2 := ih (a + 1) (by omega) hhi hp2 (fun x hx => by
        have := ha x hx
        have := hr x (List.mem_cons_of_mem _ hx)
        omega)
      omega
    · have h2 := length_le_of_increasing hi l (a + 1) (by omega) hp2 (fun x hx => by
        have := ha x hx
        have := hr x (List.mem_cons_of_mem _ hx)
        omega)
      omega

theorem runScan_inv (label : List (List CChar)) (h : Canonical label) :
    RunInv (runScan label) [] := by
  have h0 : RunInv
      { runs := [], targetLabel := [], targetSignature := startHashValue, arcLabel := -1,
        isFinal := false } label :=
    { increasing := by simp, fresh := fun _ => ⟨rfl, rfl⟩,
      below := fun hne => absurd rfl hne, le_rest := fun hne => absurd rfl hne }
  exact foldl_runStep_inv label _ h h0

/-- A state has at most 255 arcs: the characters of its runs increase, they are
values of `char`, and `-1` can only be the character of the last run. -/
theorem labelRuns_length (label : List (List CChar)) (h : Canonical label)
    (hr : ∀ w ∈ label, ∀ c ∈ w, isChar c) : (labelRuns label).length ≤ 255 := by
  have hf := runScan_facts label
  have hi := runScan_inv label h
  have hinc := labelRuns_increasing label h
  have hrange : ∀ r ∈ labelRuns label, -128 ≤ r.1 ∧ r.1 ≤ 127 := by
    intro r hr1
    obtain ⟨_, w, hw⟩ := labelRuns_nonempty label r hr1
    exact hr _ hw r.1 (List.mem_cons_self _ _)
  have hlen : (labelRuns label).length = ((labelRuns label).map (fun r => r.1)).length := by simp
  by_cases hm : (-1 : Int) ∈ (labelRuns label).map (fun r => r.1)
  · -- the run of `-1` is the open one, and the closed ones are below it
    have hne : (runScan label).targetLabel ≠ [] := by
      intro h0
      unfold labelRuns at hm
      rw [h0] at hm
      simp only [List.length_nil, ne_eq, not_true_eq_false, if_false] at hm
      obtain ⟨r, hr1, hr2⟩ := List.mem_map.1 hm
      exact (hf.closed r hr1).1 hr2
    have hlr : labelRuns label = (runScan label).runs ++
        [((runScan label).arcLabel, (runScan label).targetLabel,
          (runScan label).targetSignature)] := by
      unfold labelRuns
      rw [if_pos]
      intro h0; exact hne (List.length_eq_zero.1 h0)
    have harc : (runScan label).arcLabel = -1 := by
      rw [hlr] at hm
      simp only [List.map_append, List.map_cons, List.map_nil, List.mem_append,
        List.mem_singleton] at hm
      rcases hm with hm | hm
      · obtain ⟨r, hr1, hr2⟩ := List.mem_map.1 hm
        exact absurd hr2 (hf.closed r hr1).1
      · exact hm.symm
    have hclosed : ((((runScan label).runs).map (fun r => r.1)).length : Int) ≤ -2 - -128 + 1 := by
      apply length_le_of_increasing (-2) _ (-128) (by omega) hi.increasing
      intro x hx
      have h1 := hi.below hne x hx
      rw [harc] at h1
      obtain ⟨r, hr1, hr2⟩ := List.mem_map.1 hx
      have h2 := hrange r (by rw [hlr]; exact List.mem_append_left _ hr1)
      rw [hr2] at h2
      have h3 : (-128 : Int) ≤ x := h2.1
      have h4 : x < (-1 : Int) := h1
      omega
    rw [hlr]
    simp only [List.length_map] at hclosed
    simp only [List.length_append, List.length_cons, List.length_nil]
    omega
  · have h1 := length_le_of_increasing_skip 127 (-1) _ (-128) (by omega) (by omega) hinc
      (fun x hx => by
        obtain ⟨r, hr1, hr2⟩ := List.mem_map.1 hx
        have h2 := hrange r hr1
        rw [hr2] at h2
        refine ⟨h2.1, h2.2, ?_⟩
        intro h0; rw [h0] at hx; exact hm hx)
    rw [hlen]
    omega

theorem mem_append_singleton_cons (done : List (List CChar)) (c ch : CChar)
    (w rest : List CChar) (h : c ≠ ch) :
    (c :: w) ∈ done ++ [ch :: rest] ↔ (c :: w) ∈ done := by
  simp only [List.mem_append, List.mem_singleton, List.cons.injEq]
  constructor
  · rintro (h1 | ⟨h1, _⟩)
    · exact h1
    · exact absurd h1 h
  · exact Or.inl

theorem runStep_sem (rs : RunScan) (done : List (List CChar)) (w : List CChar)
    (l : List (List CChar)) (hi : RunInv rs (w :: l)) (hf : RunFacts rs done)
    (hw : ∀ c rest, w = c :: rest → c ≠ -1)
    (h : RunSem rs done) : RunSem (runStep rs w) (done ++ [w]) := by
  cases w with
  | nil =>
    show RunSem { rs with isFinal := true } (done ++ [[]])
    have hm : ∀ (c : CChar) (x : List CChar), (c :: x) ∈ done ++ [[]] ↔ (c :: x) ∈ done := by
      intro c x; simp
    exact
      { closed := fun r hr x => by rw [hm]; exact h.closed r hr x
        opened := fun ht x => by rw [hm]; exact h.opened ht x
        cover := fun c x hx => h.cover c x ((hm c x).1 hx)
        started := h.started }
  | cons ch rest =>
    have hch : ch ≠ -1 := hw ch rest rfl
    have hle : rs.targetLabel ≠ [] → rs.arcLabel ≤ ch := fun ht =>
      hi.le_rest ht ch rest (List.mem_cons_self _ _)
    by_cases hc : ch ≠ legitimate rs.arcLabel ch
    · rw [runStep_newRun rs ch rest hc]
      obtain ⟨hne1, hleg⟩ := legitimate_of_ne _ _ hc
      have hne : rs.targetLabel ≠ [] := fun h0 => hne1 (hf.fresh h0).1
      have hlt : rs.arcLabel < ch := by
        rw [hleg] at hc
        exact lt_of_le_of_ne (hle hne) (Ne.symm hc)
      have hbelow : ∀ r ∈ rs.runs, r.1 < rs.arcLabel := fun r hr =>
        hi.below hne r.1 (List.mem_map.2 ⟨r, hr, rfl⟩)
      exact
        { closed := fun r hr x => by
            rcases List.mem_append.1 hr with hr | hr
            · rw [mem_append_singleton_cons _ _ _ _ _
                (ne_of_lt (lt_trans (hbelow r hr) hlt))]
              exact h.closed r hr x
            · rw [List.mem_singleton] at hr
              subst hr
              show x ∈ rs.targetLabel ↔ (legitimate rs.arcLabel ch :: x) ∈ done ++ [ch :: rest]
              rw [hleg, mem_append_singleton_cons _ _ _ _ _ (ne_of_lt hlt)]
              exact h.opened hne x
          opened := fun _ x => by
            show x ∈ [rest] ↔ (ch :: x) ∈ done ++ [ch :: rest]
            simp only [List.mem_singleton, List.mem_append, List.cons.injEq, true_and]
            constructor
            · exact Or.inr
            · rintro (h1 | h1)
              · rcases h.cover ch x h1 with h2 | ⟨_, h2⟩
                · obtain ⟨r, hr1, hr2⟩ := List.mem_map.1 h2
                  have := hbelow r hr1
                  have hr3 : r.1 = ch := hr2
                  rw [hr3] at this
                  exact absurd (lt_trans this hlt) (lt_irrefl _)
                · rw [h2] at hlt; exact absurd hlt (lt_irrefl _)
              · exact h1
          cover := fun c x hx => by
            rcases List.mem_append.1 hx with hx | hx
            · left
              rw [List.map_append, List.mem_append]
              rcases h.cover c x hx with h2 | ⟨_, h2⟩
              · exact Or.inl h2
              · right
                simp only [List.map_cons, List.map_nil, List.mem_singleton]
                rw [hleg]; exact h2
            · right
              simp only [List.mem_singleton, List.cons.injEq] at hx
              exact ⟨List.cons_ne_nil _ _, hx.1⟩
          started := fun _ => hch }
    · rw [runStep_sameRun rs ch rest hc]
      have hleg := legitimate_of_eq _ _ hc
      rw [hleg]
      by_cases ht : rs.targetLabel = []
      · obtain ⟨_, hruns, hdone⟩ := hf.fresh ht
        have hnot : ∀ (c : CChar) (x : List CChar), (c :: x) ∉ done := fun c x hx =>
          absurd (hdone _ hx) (List.cons_ne_nil _ _)
        exact
          { closed := fun r hr => by rw [hruns] at hr; simp at hr
            opened := fun _ x => by
              show x ∈ rs.targetLabel ++ [rest] ↔ (ch :: x) ∈ done ++ [ch :: rest]
              rw [ht]
              simp only [List.nil_append, List.mem_singleton, List.mem_append, List.cons.injEq,
                true_and]
              constructor
              · exact Or.inr
              · rintro (h1 | h1)
                · exact absurd h1 (hnot _ _)
                · exact h1
            cover := fun c x hx => by
              rcases List.mem_append.1 hx with hx | hx
              · exact absurd hx (hnot _ _)
              · right
                simp only [List.mem_singleton, List.cons.injEq] at hx
                exact ⟨by simp, hx.1⟩
            started := fun _ => hch }
      · have harc : rs.arcLabel = ch := by
          have h1 := h.started ht
          have h2 : legitimate rs.arcLabel ch = rs.arcLabel := by simp [legitimate, h1]
          rw [← h2]; exact hleg
        have hbelow : ∀ r ∈ rs.runs, r.1 < ch := fun r hr => by
          have := hi.below ht r.1 (List.mem_map.2 ⟨r, hr, rfl⟩)
          rw [harc] at this; exact this
        exact
          { closed := fun r hr x => by
              rw [mem_append_singleton_cons _ _ _ _ _ (ne_of_lt (hbelow r hr))]
              exact h.closed r hr x
            opened := fun _ x => by
              show x ∈ rs.targetLabel ++ [rest] ↔ (ch :: x) ∈ done ++ [ch :: rest]
              have h1 := h.opened ht x
              rw [harc] at h1
              simp only [List.mem_append, List.mem_singleton, List.cons.injEq, true_and]
              rw [h1]
            cover := fun c x hx => by
              rcases List.mem_append.1 hx with hx | hx
              · rcases h.cover c x hx with h2 | ⟨_, h2⟩
                · exact Or.inl h2
                · right; exact ⟨by simp, by rw [h2, harc]⟩
              · right
                simp only [List.mem_singleton, List.cons.injEq] at hx
                exact ⟨by simp, hx.1⟩
            started := fun _ => hch }

theorem foldl_runStep_sem (l : List (List CChar)) :
    ∀ (rs : RunScan) (done : List (List CChar)), Canonical l → RunInv rs l →
      RunFacts rs done → (∀ c rest, (c :: rest) ∈ l → c ≠ -1) → RunSem rs done →
      RunSem (l.foldl runStep rs) (done ++ l) := by
  induction l with
  | nil => intro rs done _ _ _ _ h; simpa using h
  | cons w l ih =>
    intro rs done hl hi hf hs h
    have := ih (runStep rs w) (done ++ [w]) (List.pairwise_cons.1 hl).2
      (runStep_inv rs w l hl hi) (runStep_facts rs done w hf)
      (fun c rest hm => hs c rest (List.mem_cons_of_mem _ hm))
      (runStep_sem rs done w l hi hf
        (fun c rest hw => hs c rest (by rw [hw]; exact List.mem_cons_self _ _)) h)
    simpa using this

theorem runScan_sem (label : List (List CChar)) (h : Canonical label)
    (hs : ∀ c rest, (c :: rest) ∈ label → c ≠ -1) : RunSem (runScan label) label := by
  have hi : RunInv
      { runs := [], targetLabel := [], targetSignature := startHashValue, arcLabel := -1,
        isFinal := false } label :=
    { increasing := by simp, fresh := fun _ => ⟨rfl, rfl⟩,
      below := fun hne => absurd rfl hne, le_rest := fun hne => absurd rfl hne }
  have hf : RunFacts
      { runs := [], targetLabel := [], targetSignature := startHashValue, arcLabel := -1,
        isFinal := false } [] :=
    { closed := fun r hr => by simp at hr
      opened := fun h => absurd rfl h
      final := by simp
      fresh := fun _ => ⟨rfl, rfl, fun w hw => by simp at hw⟩ }
  have h0 : RunSem
      { runs := [], targetLabel := [], targetSignature := startHashValue, arcLabel := -1,
        isFinal := false } [] :=
    { closed := fun r hr => by simp at hr
      opened := fun h => absurd rfl h
      cover := fun c w hw => by simp at hw
      started := fun h => absurd rfl h }
  have := foldl_runStep_sem label _ [] h hi hf hs h0
  simpa using this

/-- The suffixes of a run are the words of the label that start with its
character, less that character. -/
theorem labelRuns_suffixes (label : List (List CChar)) (h : Canonical label)
    (hs : ∀ c rest, (c :: rest) ∈ label → c ≠ -1) :
    ∀ r ∈ labelRuns label, ∀ w, w ∈ r.2.1 ↔ (r.1 :: w) ∈ label := by
  have hsem := runScan_sem label h hs
  intro r hr
  unfold labelRuns at hr
  by_cases ht : (runScan label).targetLabel.length ≠ 0
  · rw [if_pos ht] at hr
    have hne : (runScan label).targetLabel ≠ [] := by
      intro h1; rw [h1] at ht; exact ht rfl
    rcases List.mem_append.1 hr with hr | hr
    · exact hsem.closed r hr
    · rw [List.mem_singleton] at hr
      subst hr
      exact hsem.opened hne
  · rw [if_neg ht] at hr
    exact hsem.closed r hr

/-- Every first character of a word of the label has a run. -/
theorem labelRuns_cover (label : List (List CChar)) (h : Canonical label)
    (hs : ∀ c rest, (c :: rest) ∈ label → c ≠ -1) :
    ∀ c w, (c :: w) ∈ label → c ∈ (labelRuns label).map (fun r => r.1) := by
  have hsem := runScan_sem label h hs
  intro c w hw
  unfold labelRuns
  by_cases ht : (runScan label).targetLabel.length ≠ 0
  · rw [if_pos ht, List.map_append, List.mem_append]
    rcases hsem.cover c w hw with h1 | ⟨_, h1⟩
    · exact Or.inl h1
    · right; simp [h1]
  · rw [if_neg ht]
    rcases hsem.cover c w hw with h1 | ⟨h1, _⟩
    · exact h1
    · exfalso; apply ht; intro h0; exact h1 (List.length_eq_zero.1 h0)

/-! ### The state `getState` returns -/

theorem cmpCharsLoop_eq_zero (a : List CChar) :
    ∀ b : List CChar, a.length = b.length → (cmpCharsLoop a b = 0 ↔ a = b) := by
  induction a with
  | nil =>
    intro b hb
    cases b with
    | nil => simp [cmpCharsLoop]
    | cons y b => simp at hb
  | cons x a ih =>
    intro b hb
    cases b with
    | nil => simp at hb
    | cons y b =>
      have hl : a.length = b.length := by simpa using hb
      simp only [cmpCharsLoop]
      by_cases h1 : x < y
      · rw [if_pos h1]
        constructor
        · intro h; exact absurd h (by decide)
        · intro h; rw [(List.cons.inj h).1] at h1; exact absurd h1 (lt_irrefl _)
      · rw [if_neg h1]
        by_cases h2 : x > y
        · rw [if_pos h2]
          constructor
          · intro h; exact absurd h (by decide)
          · intro h; rw [(List.cons.inj h).1] at h2; exact absurd h2 (lt_irrefl _)
        · rw [if_neg h2, ih b hl]
          have hxy : x = y := le_antisymm (not_lt.1 h2) (not_lt.1 h1)
          constructor
          · intro h; rw [hxy, h]
          · intro h; exact (List.cons.inj h).2

/-- The function `cmpWords` returns 0 exactly on words with the same characters. -/
theorem cmpChars_eq_zero (a b : List CChar) : cmpChars a b = 0 ↔ a = b := by
  unfold cmpChars
  by_cases h : a.length = b.length
  · rw [if_pos h]; exact cmpCharsLoop_eq_zero a b h
  · rw [if_neg h]
    have hne : a ≠ b := fun h0 => h (by rw [h0])
    by_cases h2 : a.length < b.length
    · rw [if_pos h2]; simp [hne]
    · rw [if_neg h2]; simp [hne]

theorem cmpContentsLoop_eq_zero (l1 : List (List CChar)) :
    ∀ l2 : List (List CChar), l1.length = l2.length → (cmpContentsLoop l1 l2 = 0 ↔ l1 = l2) := by
  induction l1 with
  | nil =>
    intro l2 h
    cases l2 with
    | nil => simp [cmpContentsLoop]
    | cons b l2 => simp at h
  | cons a l1 ih =>
    intro l2 h
    cases l2 with
    | nil => simp at h
    | cons b l2 =>
      have hl : l1.length = l2.length := by simpa using h
      simp only [cmpContentsLoop]
      by_cases h1 : cmpChars a b = 0
      · rw [if_pos h1, ih l2 hl]
        have hab := (cmpChars_eq_zero a b).1 h1
        constructor
        · intro h; rw [hab, h]
        · intro h; exact (List.cons.inj h).2
      · rw [if_neg h1]
        constructor
        · intro h; exact absurd h h1
        · intro h; exact absurd ((cmpChars_eq_zero a b).2 (List.cons.inj h).1) h1

/-- The function `cmpLabel` returns 0 exactly on labels with the same words. -/
theorem cmpContents_eq_zero (l1 l2 : List (List CChar)) : cmpContents l1 l2 = 0 ↔ l1 = l2 := by
  unfold cmpContents
  by_cases h : l1.length = l2.length
  · rw [if_pos h]; exact cmpContentsLoop_eq_zero l1 l2 h
  · rw [if_neg h]
    have hne : l1 ≠ l2 := fun h0 => h (by rw [h0])
    by_cases h2 : l1.length < l2.length
    · rw [if_pos h2]; simp [hne]
    · rw [if_neg h2]; simp [hne]

theorem TreeNode.statesBelow_mono (n m : Nat) (h : n ≤ m) (t : TreeNode) :
    t.statesBelow n = true → t.statesBelow m = true := by
  induction t with
  | nil => intro _; rfl
  | node sig st left right ihl ihr =>
    simp only [TreeNode.statesBelow, Bool.and_eq_true, decide_eq_true_eq]
    rintro ⟨⟨h1, h2⟩, h3⟩
    exact ⟨⟨by omega, ihl h2⟩, ihr h3⟩

/-- A state found in the tree is a state of the tree whose label is the
requested one; the tree is then unchanged. When none is found the new tree
holds the states of the old one and the new state. -/
theorem Builder.searchTree_spec (labels : List (List (List CChar))) (label : List (List CChar))
    (signature newState : Nat) (t : TreeNode) :
    (∀ st, (Builder.searchTree labels label signature newState t).1 = some st →
      labels.getD st [] = label ∧
      (∀ n, t.statesBelow n = true → st < n) ∧
      (Builder.searchTree labels label signature newState t).2 = t) ∧
    (∀ n, t.statesBelow n = true → newState < n →
      (Builder.searchTree labels label signature newState t).2.statesBelow n = true) := by
  induction t with
  | nil =>
    refine ⟨fun st h => by simp [Builder.searchTree] at h, ?_⟩
    intro n _ hn
    simp [Builder.searchTree, TreeNode.statesBelow, hn]
  | node sig st0 left right ihl ihr =>
    have hleft :
        (∀ st, (Builder.searchTree labels label signature newState left).1 = some st →
          labels.getD st [] = label ∧
          (∀ n, (TreeNode.node sig st0 left right).statesBelow n = true → st < n) ∧
          TreeNode.node sig st0 (Builder.searchTree labels label signature newState left).2 right =
            TreeNode.node sig st0 left right) ∧
        (∀ n, (TreeNode.node sig st0 left right).statesBelow n = true → newState < n →
          (TreeNode.node sig st0 (Builder.searchTree labels label signature newState left).2
            right).statesBelow n = true) := by
      refine ⟨fun st h => ?_, fun n hn hnew => ?_⟩
      · obtain ⟨a, b, c⟩ := ihl.1 st h
        refine ⟨a, fun n hn => ?_, by rw [c]⟩
        simp only [TreeNode.statesBelow, Bool.and_eq_true, decide_eq_true_eq] at hn
        exact b n hn.1.2
      · simp only [TreeNode.statesBelow, Bool.and_eq_true, decide_eq_true_eq] at hn ⊢
        exact ⟨⟨hn.1.1, ihl.2 n hn.1.2 hnew⟩, hn.2⟩
    have hright :
        (∀ st, (Builder.searchTree labels label signature newState right).1 = some st →
          labels.getD st [] = label ∧
          (∀ n, (TreeNode.node sig st0 left right).statesBelow n = true → st < n) ∧
          TreeNode.node sig st0 left (Builder.searchTree labels label signature newState right).2 =
            TreeNode.node sig st0 left right) ∧
        (∀ n, (TreeNode.node sig st0 left right).statesBelow n = true → newState < n →
          (TreeNode.node sig st0 left
            (Builder.searchTree labels label signature newState right).2).statesBelow n = true) := by
      refine ⟨fun st h => ?_, fun n hn hnew => ?_⟩
      · obtain ⟨a, b, c⟩ := ihr.1 st h
        refine ⟨a, fun n hn => ?_, by rw [c]⟩
        simp only [TreeNode.statesBelow, Bool.and_eq_true, decide_eq_true_eq] at hn
        exact b n hn.2
      · simp only [TreeNode.statesBelow, Bool.and_eq_true, decide_eq_true_eq] at hn ⊢
        exact ⟨⟨hn.1.1, hn.1.2⟩, ihr.2 n hn.2 hnew⟩
    simp only [Builder.searchTree]
    by_cases h1 : signature = sig
    · rw [if_pos h1]
      by_cases h2 : cmpContents label (labels.getD st0 []) = 0
      · rw [if_pos h2]
        refine ⟨fun st h => ?_, fun n hn _ => hn⟩
        have hst : st0 = st := by simpa using h
        subst hst
        refine ⟨((cmpContents_eq_zero _ _).1 h2).symm, fun n hn => ?_, rfl⟩
        simp only [TreeNode.statesBelow, Bool.and_eq_true, decide_eq_true_eq] at hn
        exact hn.1.1
      · rw [if_neg h2]
        by_cases h3 : cmpContents label (labels.getD st0 []) = -1
        · rw [if_pos h3]; exact hleft
        · rw [if_neg h3]; exact hright
    · rw [if_neg h1]
      by_cases h4 : signature < sig
      · rw [if_pos h4]; exact hleft
      · rw [if_neg h4]; exact hright

/-- The state `getState` returns for a non-empty label is a state of the new
table whose label is the requested one. -/
theorem Builder.getState_target (b : Builder) (label : List (List CChar)) (signature : Nat)
    (hlen : b.labels.length = b.stateTable.length) (hne : label ≠ []) :
    (b.getState label signature).2 < (b.getState label signature).1.labels.length ∧
      (b.getState label signature).1.labels.getD (b.getState label signature).2 [] = label := by
  unfold Builder.getState
  cases heq : (Builder.searchTree b.labels label signature b.stateTable.length
      (b.htable.getD (signature % HASH_TABLE_SIZE) TreeNode.nil)).1 with
  | some st =>
    obtain ⟨h1, _, _⟩ := (Builder.searchTree_spec b.labels label signature b.stateTable.length
      (b.htable.getD (signature % HASH_TABLE_SIZE) TreeNode.nil)).1 st heq
    refine ⟨?_, h1⟩
    show st < b.labels.length
    by_contra hge
    rw [List.getD_eq_default b.labels _ (by omega)] at h1
    exact hne h1.symm
  | none =>
    show b.stateTable.length < (b.labels ++ [label]).length ∧
      (b.labels ++ [label]).getD b.stateTable.length [] = label
    rw [← hlen]
    refine ⟨by simp, ?_⟩
    rw [List.getD_eq_getElem _ _ (by simp)]
    simp

theorem getD_append_left (labels x : List (List (List CChar))) (t : Nat)
    (ht : t < labels.length) : (labels ++ x).getD t [] = labels.getD t [] := by
  rw [List.getD_eq_getElem _ _ ht, List.getD_eq_getElem _ _ (by rw [List.length_append]; omega)]
  exact List.getElem_append_left ht

theorem Builder.TargetsOK.mono {labels : List (List (List CChar))} {targets : List Nat}
    {runs : List (CChar × List (List CChar) × Nat)} (x : List (List (List CChar)))
    (h : Builder.TargetsOK labels targets runs) : Builder.TargetsOK (labels ++ x) targets runs := by
  unfold Builder.TargetsOK at h ⊢
  refine List.Forall₂.imp ?_ h
  intro t r ⟨h1, h2⟩
  exact ⟨by rw [List.length_append]; omega, by rw [getD_append_left _ _ _ h1]; exact h2⟩

theorem canonicalize_ne_nil (label : List (List CChar)) (h : label ≠ []) :
    canonicalize label ≠ [] := by
  cases label with
  | nil => exact absurd rfl h
  | cons w l =>
    intro h0
    have : w ∈ canonicalize (w :: l) := (mem_canonicalize _ _).2 (List.mem_cons_self _ _)
    rw [h0] at this
    simp at this

/-- The arc `addArc` adds leads to a state with the canonical label requested. -/
theorem Builder.addArc_target (b : Builder) (n : Nat) (c : CChar) (label : List (List CChar))
    (signature : Nat) (hlen : b.labels.length = b.stateTable.length) (hne : label ≠ []) :
    ∃ t, (b.addArc n c label signature).arcTargets = b.arcTargets ++ [t] ∧
      t < (b.addArc n c label signature).labels.length ∧
      (b.addArc n c label signature).labels.getD t [] = canonicalize label := by
  obtain ⟨news, _, _, h2, _, _, _⟩ := b.getState_spec (canonicalize label) signature
  obtain ⟨t1, t2⟩ := b.getState_target (canonicalize label) signature hlen
    (canonicalize_ne_nil label hne)
  refine ⟨(b.getState (canonicalize label) signature).2, ?_, t1, t2⟩
  show (b.getState (canonicalize label) signature).1.arcTargets ++ _ = _
  rw [h2]

theorem Builder.scanWord_targets (n : Nat) (b0 : Builder) (hn : n < b0.stateTable.length)
    (hlen : b0.labels.length = b0.stateTable.length)
    (s : Builder.Scan) (rs : RunScan) (done : List (List CChar))
    (h : Builder.TargetInv n b0 s rs done) (word : List CChar) :
    Builder.TargetInv n b0 (Builder.scanWord n s word) (runStep rs word) (done ++ [word]) := by
  obtain ⟨news, hs⟩ := h.scan
  obtain ⟨ts, ht1, ht2⟩ := h.targets
  refine ⟨Builder.scanWord_inv n b0 hn s rs news hs word, runStep_facts rs done word h.facts, ?_⟩
  have hn2 : n < s.builder.stateTable.length := by
    rw [hs.grows.states_len]; omega
  have hlen2 : s.builder.labels.length = s.builder.stateTable.length := by
    rw [hs.grows.states_len, hs.grows.labels_eq, List.length_append, hlen]
  cases word with
  | nil =>
    rw [Builder.scanWord_nil]
    exact ⟨ts, ht1, ht2⟩
  | cons ch rest =>
    by_cases hc : ch ≠ legitimate s.arcLabel ch
    · have hc2 : ch ≠ legitimate rs.arcLabel ch := by rw [← hs.arcLabel_eq]; exact hc
      rw [Builder.scanWord_cons_new n s ch rest hc, runStep_newRun rs ch rest hc2]
      obtain ⟨hne1, _⟩ := legitimate_of_ne _ _ hc2
      have hne : s.targetLabel ≠ [] := by
        rw [hs.targetLabel_eq]
        exact fun h0 => hne1 (h.facts.fresh h0).1
      obtain ⟨t, a1, a2, a3⟩ := s.builder.addArc_target n (legitimate s.arcLabel ch)
        s.targetLabel s.targetSignature hlen2 hne
      obtain ⟨news1, _, g, _⟩ := s.builder.addArc_grows n (legitimate s.arcLabel ch)
        s.targetLabel s.targetSignature hn2
      refine ⟨ts ++ [t], ?_, ?_⟩
      · show (s.builder.addArc n _ _ _).arcTargets = _
        rw [a1, ht1, List.append_assoc]
      · show Builder.TargetsOK (s.builder.addArc n _ _ _).labels (ts ++ [t])
          (rs.runs ++ [(legitimate rs.arcLabel ch, rs.targetLabel, rs.targetSignature)])
        unfold Builder.TargetsOK
        refine List.rel_append ?_ ?_
        · have := ht2.mono news1
          rw [← g.labels_eq] at this
          exact this
        · refine List.Forall₂.cons ⟨a2, ?_⟩ List.Forall₂.nil
          rw [a3, hs.targetLabel_eq]
    · have hc2 : ¬ ch ≠ legitimate rs.arcLabel ch := by rw [← hs.arcLabel_eq]; exact hc
      rw [Builder.scanWord_cons_same n s ch rest hc, runStep_sameRun rs ch rest hc2]
      exact ⟨ts, ht1, ht2⟩

theorem Builder.foldl_scanWord_targets (n : Nat) (b0 : Builder) (hn : n < b0.stateTable.length)
    (hlen : b0.labels.length = b0.stateTable.length) (label : List (List CChar)) :
    ∀ (s : Builder.Scan) (rs : RunScan) (done : List (List CChar)),
      Builder.TargetInv n b0 s rs done →
      Builder.TargetInv n b0 (label.foldl (Builder.scanWord n) s) (label.foldl runStep rs)
        (done ++ label) := by
  induction label with
  | nil => intro s rs done h; simpa using h
  | cons w label ih =>
    intro s rs done h
    have := ih _ _ _ (Builder.scanWord_targets n b0 hn hlen s rs done h w)
    simpa using this

/-- The arc targets the body of the outer loop adds for the state `n` lead to
the states of the runs of its label. -/
theorem Builder.processState_targets (b : Builder) (n : Nat) (hn : n < b.stateTable.length)
    (hlen : b.labels.length = b.stateTable.length) :
    ∃ ts, (b.processState n).arcTargets = b.arcTargets ++ ts ∧
      Builder.TargetsOK (b.processState n).labels ts (labelRuns (b.labels.getD n [])) := by
  obtain ⟨_, u2, _⟩ := setUp_spec b n hn
  have hn0 : n < (Builder.scanStart n b).builder.stateTable.length := by
    show n < (setUp b.stateTable n b.arcLabels.length).length
    rw [u2]; exact hn
  have hlen0 : (Builder.scanStart n b).builder.labels.length =
      (Builder.scanStart n b).builder.stateTable.length := by
    show b.labels.length = (setUp b.stateTable n b.arcLabels.length).length
    rw [u2]; exact hlen
  have h0 : Builder.TargetInv n (Builder.scanStart n b).builder (Builder.scanStart n b)
      { runs := [], targetLabel := [], targetSignature := startHashValue, arcLabel := -1,
        isFinal := false } [] :=
    { scan := ⟨[],
        { targetLabel_eq := rfl, targetSignature_eq := rfl, arcLabel_eq := rfl,
          grows := Builder.Grows.refl _ _, sublist := List.Sublist.refl _, label_eq := rfl,
          isFinal_eq := by simp }⟩
      facts :=
        { closed := fun r hr => by simp at hr
          opened := fun h => absurd rfl h
          final := by simp
          fresh := fun _ => ⟨rfl, rfl, fun w hw => by simp at hw⟩ }
      targets := ⟨[], by simp, List.Forall₂.nil⟩ }
  have h := Builder.foldl_scanWord_targets n _ hn0 hlen0 (b.labels.getD n []) _ _ _ h0
  have hrs : List.foldl runStep
      { runs := [], targetLabel := [], targetSignature := startHashValue, arcLabel := -1,
        isFinal := false } (b.labels.getD n []) = runScan (b.labels.getD n []) := rfl
  rw [hrs] at h
  obtain ⟨news, hs⟩ := h.scan
  obtain ⟨ts, ht1, ht2⟩ := h.targets
  have ht1b : (List.foldl (Builder.scanWord n) (Builder.scanStart n b)
      (b.labels.getD n [])).builder.arcTargets = b.arcTargets ++ ts := ht1
  unfold Builder.processState Builder.scanFinish labelRuns
  by_cases ht : (List.foldl (Builder.scanWord n) (Builder.scanStart n b)
      (b.labels.getD n [])).targetLabel.length ≠ 0
  · have ht2b : (runScan (b.labels.getD n [])).targetLabel.length ≠ 0 := by
      rw [← hs.targetLabel_eq]; exact ht
    rw [if_pos ht, if_pos ht2b]
    have hn2 : n < (List.foldl (Builder.scanWord n) (Builder.scanStart n b)
        (b.labels.getD n [])).builder.stateTable.length := by
      rw [hs.grows.states_len]; omega
    have hlen2 : (List.foldl (Builder.scanWord n) (Builder.scanStart n b)
        (b.labels.getD n [])).builder.labels.length =
        (List.foldl (Builder.scanWord n) (Builder.scanStart n b)
          (b.labels.getD n [])).builder.stateTable.length := by
      rw [hs.grows.states_len, hs.grows.labels_eq, List.length_append, hlen0]
    have hne : (List.foldl (Builder.scanWord n) (Builder.scanStart n b)
        (b.labels.getD n [])).targetLabel ≠ [] := fun h0 => ht (by rw [h0]; rfl)
    obtain ⟨t, a1, a2, a3⟩ := Builder.addArc_target _ n
      (List.foldl (Builder.scanWord n) (Builder.scanStart n b) (b.labels.getD n [])).arcLabel
      (List.foldl (Builder.scanWord n) (Builder.scanStart n b) (b.labels.getD n [])).targetLabel
      (List.foldl (Builder.scanWord n) (Builder.scanStart n b)
        (b.labels.getD n [])).targetSignature hlen2 hne
    obtain ⟨news1, _, g, _⟩ := Builder.addArc_grows _ n
      (List.foldl (Builder.scanWord n) (Builder.scanStart n b) (b.labels.getD n [])).arcLabel
      (List.foldl (Builder.scanWord n) (Builder.scanStart n b) (b.labels.getD n [])).targetLabel
      (List.foldl (Builder.scanWord n) (Builder.scanStart n b)
        (b.labels.getD n [])).targetSignature hn2
    refine ⟨ts ++ [t], ?_, ?_⟩
    · rw [a1, ht1b, List.append_assoc]
    · unfold Builder.TargetsOK
      refine List.rel_append ?_ ?_
      · have := ht2.mono news1
        rw [← g.labels_eq] at this
        exact this
      · refine List.Forall₂.cons ⟨a2, ?_⟩ List.Forall₂.nil
        rw [a3, hs.targetLabel_eq]
  · have ht2b : ¬ (runScan (b.labels.getD n [])).targetLabel.length ≠ 0 := by
      rw [← hs.targetLabel_eq]; exact ht
    rw [if_neg ht, if_neg ht2b]
    exact ⟨ts, ht1b, ht2⟩

theorem runStep_sub (rs : RunScan) (done : List (List CChar)) (w : List CChar)
    (h : RunSub rs done) : RunSub (runStep rs w) (done ++ [w]) := by
  have hc : ∀ r ∈ rs.runs, ∀ x ∈ r.2.1, ∃ c, (c :: x) ∈ done ++ [w] := fun r hr x hx => by
    obtain ⟨c, hc⟩ := h.closed r hr x hx
    exact ⟨c, List.mem_append_left _ hc⟩
  have ho : ∀ x ∈ rs.targetLabel, ∃ c, (c :: x) ∈ done ++ [w] := fun x hx => by
    obtain ⟨c, hc⟩ := h.opened x hx
    exact ⟨c, List.mem_append_left _ hc⟩
  cases w with
  | nil => exact ⟨hc, ho⟩
  | cons ch rest =>
    have hmem : (ch :: rest) ∈ done ++ [ch :: rest] := by simp
    by_cases hn : ch ≠ legitimate rs.arcLabel ch
    · rw [runStep_newRun rs ch rest hn]
      refine ⟨fun r hr x hx => ?_, fun x hx => ?_⟩
      · rcases List.mem_append.1 hr with hr | hr
        · exact hc r hr x hx
        · rw [List.mem_singleton] at hr
          subst hr
          exact ho x hx
      · rw [List.mem_singleton] at hx
        subst hx
        exact ⟨ch, hmem⟩
    · rw [runStep_sameRun rs ch rest hn]
      refine ⟨hc, fun x hx => ?_⟩
      rcases List.mem_append.1 hx with hx | hx
      · exact ho x hx
      · rw [List.mem_singleton] at hx
        subst hx
        exact ⟨ch, hmem⟩

theorem foldl_runStep_sub (l : List (List CChar)) :
    ∀ (rs : RunScan) (done : List (List CChar)), RunSub rs done →
      RunSub (l.foldl runStep rs) (done ++ l) := by
  induction l with
  | nil => intro rs done h; simpa using h
  | cons w l ih =>
    intro rs done h
    have := ih (runStep rs w) (done ++ [w]) (runStep_sub rs done w h)
    simpa using this

/-- Every suffix of a run of a label is a word of the label less its first
character. -/
theorem labelRuns_suffix_mem (label : List (List CChar)) :
    ∀ r ∈ labelRuns label, ∀ w ∈ r.2.1, ∃ c, (c :: w) ∈ label := by
  have h0 : RunSub
      { runs := [], targetLabel := [], targetSignature := startHashValue, arcLabel := -1,
        isFinal := false } [] :=
    ⟨fun r hr => by simp at hr, fun w hw => by simp at hw⟩
  have h : RunSub (runScan label) label := by
    have := foldl_runStep_sub label _ [] h0
    simpa using this
  intro r hr
  unfold labelRuns at hr
  by_cases ht : (runScan label).targetLabel.length ≠ 0
  · rw [if_pos ht] at hr
    rcases List.mem_append.1 hr with hr | hr
    · exact h.closed r hr
    · rw [List.mem_singleton] at hr
      subst hr
      exact h.opened
  · rw [if_neg ht] at hr
    exact h.closed r hr

/-- The characters of the labels keep a property `P` of the characters of the
labels the loop started with. -/
theorem Builder.processState_chars (P : CChar → Prop) (b : Builder) (n : Nat)
    (hn : n < b.stateTable.length)
    (h : ∀ l ∈ b.labels, ∀ w ∈ l, ∀ c ∈ w, P c) :
    ∀ l ∈ (b.processState n).labels, ∀ w ∈ l, ∀ c ∈ w, P c := by
  obtain ⟨news, _, _, p3, p4, _⟩ := b.processState_spec n hn
  have hlab : ∀ w ∈ b.labels.getD n [], ∀ c ∈ w, P c := by
    intro w hw
    by_cases hnl : n < b.labels.length
    · rw [List.getD_eq_getElem _ _ hnl] at hw
      exact h _ (List.getElem_mem hnl) w hw
    · rw [List.getD_eq_default _ _ (by omega)] at hw
      simp at hw
  intro l hl
  rw [p3] at hl
  rcases List.mem_append.1 hl with hl | hl
  · exact h l hl
  · have hl2 := p4.subset hl
    obtain ⟨r, hr1, hr2⟩ := List.mem_map.1 hl2
    intro w hw c hc
    rw [← hr2] at hw
    have hw2 : w ∈ r.2.1 := (mem_canonicalize _ _).1 hw
    obtain ⟨c0, hc0⟩ := labelRuns_suffix_mem _ r hr1 w hw2
    exact hlab _ hc0 c (List.mem_cons_of_mem _ hc)

theorem Builder.buildLoop_chars (P : CChar → Prop) (fuel : Nat) :
    ∀ (n : Nat) (b b2 : Builder), n ≤ b.stateTable.length →
      (∀ l ∈ b.labels, ∀ w ∈ l, ∀ c ∈ w, P c) → Builder.buildLoop fuel n b = some b2 →
      ∀ l ∈ b2.labels, ∀ w ∈ l, ∀ c ∈ w, P c := by
  induction fuel with
  | zero =>
    intro n b b2 _ h hb
    simp only [Builder.buildLoop] at hb
    by_cases hn : n = b.stateTable.length
    · rw [if_pos hn] at hb
      cases hb; exact h
    · rw [if_neg hn] at hb; cases hb
  | succ fuel ih =>
    intro n b b2 hle h hb
    simp only [Builder.buildLoop] at hb
    by_cases hn : n = b.stateTable.length
    · rw [if_pos hn] at hb
      cases hb; exact h
    · rw [if_neg hn] at hb
      have hlt : n < b.stateTable.length := lt_of_le_of_ne hle hn
      obtain ⟨news, _, _, _, _, p5, _⟩ := b.processState_spec n hlt
      exact ih (n + 1) _ b2 (by rw [p5]; omega) (Builder.processState_chars P b n hlt h) hb

theorem take_drop_append {α : Type} (l x : List α) (off num : Nat)
    (h : off + num ≤ l.length) : ((l ++ x).drop off).take num = (l.drop off).take num := by
  rw [List.drop_append_of_le_length (by omega)]
  rw [List.take_append_of_le_length (by rw [List.length_drop]; omega)]

theorem take_drop_append_right {α : Type} (l x : List α) (off num : Nat)
    (h1 : off = l.length) (h2 : num = x.length) : ((l ++ x).drop off).take num = x := by
  rw [h1, h2, List.drop_left, List.take_length]

theorem Builder.TargetsOK.lt {labels : List (List (List CChar))} {targets : List Nat}
    {runs : List (CChar × List (List CChar) × Nat)}
    (h : Builder.TargetsOK labels targets runs) : ∀ t ∈ targets, t < labels.length := by
  unfold Builder.TargetsOK at h
  induction h with
  | nil => intro t ht; simp at ht
  | cons hd _ ih =>
    intro t ht
    rcases List.mem_cons.1 ht with ht | ht
    · rw [ht]; exact hd.1
    · exact ih t ht

theorem Builder.processState_table (b : Builder) (n : Nat) (h : b.TableInv n)
    (hn : n < b.stateTable.length) : (b.processState n).TableInv (n + 1) := by
  obtain ⟨news, p1, p2, p3, _, p5, p6, _, p8, p9, p10, p11, _⟩ := b.processState_spec n hn
  obtain ⟨ts, t1, t2⟩ := b.processState_targets n hn h.base.labels_len
  have hnl : n < b.labels.length := by rw [h.base.labels_len]; exact hn
  have hlab : b.labels.getD n [] ∈ b.labels := by
    rw [List.getD_eq_getElem _ _ hnl]; exact List.getElem_mem hnl
  have hR := labelRuns_length (b.labels.getD n []) (h.base.canonical _ hlab) (h.chars _ hlab)
  have hnum : ((b.processState n).stateAt n).numArcs = (labelRuns (b.labels.getD n [])).length := by
    omega
  have hts : ts.length = (labelRuns (b.labels.getD n [])).length := List.Forall₂.length_eq t2
  have hget : ∀ k, k < b.labels.length → (b.processState n).labels.getD k [] = b.labels.getD k [] :=
    fun k hk => by rw [p3]; exact getD_append_left _ _ _ hk
  have hframe : ∀ k, k < n → (b.processState n).stateAt k = b.stateAt k := fun k hk =>
    p6 k (by omega) (by omega)
  have hlenA : (b.processState n).arcLabels.length =
      b.arcLabels.length + (labelRuns (b.labels.getD n [])).length := by
    rw [p1]; simp
  refine
    { base := (Builder.processState_inv b n h.base hn).1
      chars := Builder.processState_chars isChar b n hn h.chars
      targets_len := by rw [p2, hlenA, h.targets_len]
      targets_lt := fun t ht => by
        rw [t1] at ht
        rcases List.mem_append.1 ht with ht | ht
        · have := h.targets_lt t ht
          rw [p3, List.length_append]; omega
        · exact t2.lt t ht
      first := ?_, next := ?_, last_nil := fun h0 => absurd h0 (Nat.succ_ne_zero n),
      last := ?_, states := ?_ }
  · intro _
    by_cases h0 : n = 0
    · subst h0
      rw [p8, h.last_nil rfl]; rfl
    · rw [hframe 0 (by omega)]; exact h.first (by omega)
  · intro k hk
    by_cases hkn : k + 1 = n
    · rw [hkn, p8, hframe k (by omega)]
      exact (h.last k hkn).symm
    · rw [hframe (k + 1) (by omega), hframe k (by omega)]
      exact h.next k (by omega)
  · intro k hk
    have hkn : k = n := by omega
    subst hkn
    rw [p8, hnum, hlenA]
  · intro k hk
    by_cases hkn : k < n
    · have old := h.states k hkn
      have hkl : k < b.labels.length := by omega
      refine
        { count := by rw [hframe k hkn, hget k hkl]; exact old.count
          inside := by rw [hframe k hkn, hlenA]; have := old.inside; omega
          arcs := ?_, targets := ?_
          final := by rw [hframe k hkn, hget k hkl]; exact old.final }
      · rw [hframe k hkn, hget k hkl, p1, take_drop_append _ _ _ _ old.inside]
        exact old.arcs
      · rw [hframe k hkn, hget k hkl, t1,
          take_drop_append _ _ _ _ (by rw [h.targets_len]; exact old.inside), p3]
        exact old.targets.mono news
    · have hkn2 : k = n := by omega
      subst hkn2
      refine
        { count := by rw [hnum, hget k hnl]
          inside := by rw [p8, hnum, hlenA]
          arcs := ?_, targets := ?_
          final := by rw [p11, hget k hnl] }
      · rw [p8, hnum, hget k hnl, p1]
        exact take_drop_append_right _ _ _ _ rfl (by simp)
      · rw [p8, hnum, hget k hnl, t1,
          take_drop_append_right _ _ _ _ h.targets_len.symm hts.symm]
        exact t2

theorem Builder.buildLoop_table (fuel : Nat) :
    ∀ (n : Nat) (b b2 : Builder), b.TableInv n → Builder.buildLoop fuel n b = some b2 →
      b2.TableInv b2.stateTable.length ∧ b.stateTable.length ≤ b2.stateTable.length ∧
      ∀ k, k < b.labels.length → b2.labels.getD k [] = b.labels.getD k [] := by
  induction fuel with
  | zero =>
    intro n b b2 h hb
    simp only [Builder.buildLoop] at hb
    by_cases hn : n = b.stateTable.length
    · rw [if_pos hn] at hb
      cases hb
      exact ⟨by rw [← hn]; exact h, le_refl _, fun _ _ => rfl⟩
    · rw [if_neg hn] at hb; cases hb
  | succ fuel ih =>
    intro n b b2 h hb
    simp only [Builder.buildLoop] at hb
    by_cases hn : n = b.stateTable.length
    · rw [if_pos hn] at hb
      cases hb
      exact ⟨by rw [← hn]; exact h, le_refl _, fun _ _ => rfl⟩
    · rw [if_neg hn] at hb
      have hlt : n < b.stateTable.length := lt_of_le_of_ne h.base.le hn
      obtain ⟨news, _, _, p3, _, p5, _⟩ := b.processState_spec n hlt
      obtain ⟨i1, i3, i2⟩ := ih (n + 1) _ b2 (Builder.processState_table b n h hlt) hb
      refine ⟨i1, by rw [p5] at i3; omega, fun k hk => ?_⟩
      rw [i2 k (by rw [p3, List.length_append]; omega), p3]
      exact getD_append_left _ _ _ hk

theorem Builder.start_table (htable : List TreeNode) (words : List (List CChar))
    (h : ∀ w ∈ words, ∀ c ∈ w, isChar c) : (Builder.start htable words).TableInv 0 where
  base := Builder.start_inv htable words
  chars := by
    intro l hl w hw
    simp only [Builder.start, List.mem_singleton] at hl
    subst hl
    exact h w ((mem_canonicalize _ _).1 hw)
  targets_len := rfl
  targets_lt := fun t ht => by simp [Builder.start] at ht
  first := fun h0 => absurd h0 (lt_irrefl _)
  next := fun k hk => absurd hk (Nat.not_lt_zero _)
  last_nil := fun _ => rfl
  last := fun k hk => absurd hk (Nat.succ_ne_zero k)
  states := fun k hk => absurd hk (Nat.not_lt_zero k)

theorem content_subset (cbuf : List CChar) (w : Word) : ∀ c ∈ content cbuf w, c ∈ cbuf := by
  intro c hc
  unfold content at hc
  exact List.mem_of_mem_drop (List.mem_of_mem_take hc)

/-- The tables `build` returns: the automaton built from well-formed spans of a
buffer of `char` values holds the tables of a builder that satisfies the table
invariant in all its states, and the label of state 0 was the canonical word
list. -/
theorem build_table (d : DFA) (wc : WordCollection) (h : wc.WellFormed)
    (hc : ∀ c ∈ wc.wordsCharBuffer, isChar c) :
    ∃ b, Builder.buildLoop (labelWeight wc.contents) 0 (Builder.start d.htable wc.contents) =
        some b ∧
      build d wc = some (Builder.finish d b) ∧ b.TableInv b.stateTable.length ∧
      0 < b.stateTable.length ∧ b.labels.getD 0 [] = canonicalize wc.contents := by
  obtain ⟨b, hb, hinv, hbuild⟩ := build_spec d wc h
  have hchars : ∀ w ∈ wc.contents, ∀ c ∈ w, isChar c := by
    intro w hw c hcw
    obtain ⟨x, _, hx⟩ := List.mem_map.1 hw
    rw [← hx] at hcw
    exact hc c (content_subset _ _ c hcw)
  obtain ⟨i1, i3, i2⟩ :=
    Builder.buildLoop_table _ 0 _ b (Builder.start_table d.htable _ hchars) hb
  refine ⟨b, hb, hbuild, i1, ?_, ?_⟩
  · have : (Builder.start d.htable wc.contents).stateTable.length = 1 := rfl
    omega
  · rw [i2 0 (by simp [Builder.start])]
    rfl

theorem take_drop_succ {α : Type} (l : List α) (off n : Nat) (a : α) (x : List α)
    (h : (l.drop off).take (n + 1) = a :: x) :
    l[off]? = some a ∧ (l.drop (off + 1)).take n = x := by
  by_cases ho : off < l.length
  · rw [List.drop_eq_getElem_cons ho, List.take_succ_cons] at h
    obtain ⟨h1, h2⟩ := List.cons.inj h
    exact ⟨by rw [List.getElem?_eq_getElem ho, h1], h2⟩
  · rw [List.drop_eq_nil_of_le (by omega)] at h
    simp at h

theorem nextLoop_lookup (m : DFA) (c : CChar) (chars : List CChar) :
    ∀ (targets : List Nat) (off : Nat), chars.length = targets.length →
      (m.arcLabels.drop off).take chars.length = chars →
      (m.arcTargets.drop off).take chars.length = targets →
      nextLoopChecked m c chars.length off = some (nextLoop m c chars.length off) ∧
      (lookupArc c chars targets = none →
        nextLoop m c chars.length off = { m with dead := true }) ∧
      (∀ t, lookupArc c chars targets = some t →
        nextLoop m c chars.length off = { m with curState := t }) := by
  induction chars with
  | nil =>
    intro targets off _ _ _
    refine ⟨rfl, fun _ => rfl, fun t ht => ?_⟩
    simp [lookupArc] at ht
  | cons ch chars ih =>
    intro targets off hlen h1 h2
    cases targets with
    | nil => simp at hlen
    | cons t0 targets =>
      have hlen2 : chars.length = targets.length := by simpa using hlen
      obtain ⟨a1, a2⟩ := take_drop_succ _ _ _ _ _ h1
      obtain ⟨b1, b2⟩ := take_drop_succ _ _ _ _ _ h2
      obtain ⟨i1, i2, i3⟩ := ih targets (off + 1) hlen2 a2 b2
      have g1 : m.arcLabels.getD off 0 = ch := by
        rw [List.getD_eq_getElem?_getD, a1]; rfl
      have g2 : m.arcTargets.getD off 0 = t0 := by
        rw [List.getD_eq_getElem?_getD, b1]; rfl
      simp only [List.length_cons, nextLoop, nextLoopChecked, lookupArc, a1, b1, g1, g2]
      by_cases hc : ch = c
      · simp only [if_pos hc]
        refine ⟨by first | rfl | trivial, fun h => by simp at h, fun t ht => ?_⟩
        have : t0 = t := by simpa using ht
        rw [this]
      · simp only [if_neg hc]
        exact ⟨i1, i2, i3⟩

theorem lookupArc_some (R : Nat → (CChar × List (List CChar) × Nat) → Prop) (c : CChar)
    (targets : List Nat) (runs : List (CChar × List (List CChar) × Nat))
    (h : List.Forall₂ R targets runs) :
    ∀ t, lookupArc c (runs.map (fun r => r.1)) targets = some t →
      ∃ r ∈ runs, r.1 = c ∧ R t r := by
  induction h with
  | nil => intro t ht; simp [lookupArc] at ht
  | @cons t0 r0 ts rs hd _ ih =>
    intro t ht
    simp only [List.map_cons, lookupArc] at ht
    by_cases hc : r0.1 = c
    · rw [if_pos hc] at ht
      have : t0 = t := by simpa using ht
      rw [← this]
      exact ⟨r0, List.mem_cons_self _ _, hc, hd⟩
    · rw [if_neg hc] at ht
      obtain ⟨r, hr, h1, h2⟩ := ih t ht
      exact ⟨r, List.mem_cons_of_mem _ hr, h1, h2⟩

theorem lookupArc_none (R : Nat → (CChar × List (List CChar) × Nat) → Prop) (c : CChar)
    (targets : List Nat) (runs : List (CChar × List (List CChar) × Nat))
    (h : List.Forall₂ R targets runs) :
    lookupArc c (runs.map (fun r => r.1)) targets = none → c ∉ runs.map (fun r => r.1) := by
  induction h with
  | nil => intro _ hm; simp at hm
  | @cons t0 r0 ts rs _ _ ih =>
    intro ht
    simp only [List.map_cons, lookupArc] at ht
    by_cases hc : r0.1 = c
    · rw [if_pos hc] at ht; simp at ht
    · rw [if_neg hc] at ht
      intro hm
      rcases List.mem_cons.1 hm with hm | hm
      · exact hc hm.symm
      · exact ih ht hm

/-- One call of `next` in a live state `k` whose entry and arcs are those of
its label: every subscript is inside its table, and the matcher follows the
arc of the run labelled `c`, or dies when there is none. -/
theorem next_stateOK (b : Builder) (m : DFA) (k : Nat) (c : CChar) (hm : m.Over b)
    (hk : k < b.stateTable.length) (hs : b.StateOK k) (hlen : b.arcTargets.length = b.arcLabels.length)
    (hd : m.dead = false) (hcur : m.curState = k) :
    nextChecked m c = some (next m c) ∧
      ((next m c = { m with dead := true } ∧
          c ∉ (labelRuns (b.labels.getD k [])).map (fun r => r.1)) ∨
        ∃ t r, next m c = { m with curState := t } ∧ r ∈ labelRuns (b.labels.getD k []) ∧
          r.1 = c ∧ t < b.labels.length ∧ b.labels.getD t [] = canonicalize r.2.1) := by
  obtain ⟨m1, m2, m3⟩ := hm
  have hst : m.stateTable[m.curState]? = some (b.stateAt k) := by
    rw [hcur, m1, List.getElem?_eq_getElem hk]
    unfold Builder.stateAt
    rw [List.getD_eq_getElem _ _ hk]
  have hst2 : m.stateTable.getD m.curState ⟨0, 0, 0, false⟩ = b.stateAt k := by
    rw [hcur, m1]; rfl
  have hchars : ((labelRuns (b.labels.getD k [])).map (fun r => r.1)).length =
      (b.stateAt k).numArcs := by
    rw [List.length_map, hs.count]
  have htl : ((b.arcTargets.drop (b.stateAt k).arcOffset).take (b.stateAt k).numArcs).length =
      (b.stateAt k).numArcs := by
    rw [List.length_take, List.length_drop, hlen]
    have := hs.inside
    omega
  obtain ⟨l1, l2, l3⟩ := nextLoop_lookup m c
    ((labelRuns (b.labels.getD k [])).map (fun r => r.1))
    ((b.arcTargets.drop (b.stateAt k).arcOffset).take (b.stateAt k).numArcs)
    (b.stateAt k).arcOffset (by rw [hchars, htl])
    (by rw [hchars, m2]; exact hs.arcs) (by rw [hchars, m3])
  rw [hchars] at l1 l2 l3
  have hnext : next m c = nextLoop m c (b.stateAt k).numArcs (b.stateAt k).arcOffset := by
    unfold next
    rw [hd, hst2]; rfl
  have hnc : nextChecked m c =
      nextLoopChecked m c (b.stateAt k).numArcs (b.stateAt k).arcOffset := by
    unfold nextChecked
    rw [hd, hst]; rfl
  refine ⟨by rw [hnc, hnext]; exact l1, ?_⟩
  cases hl : lookupArc c ((labelRuns (b.labels.getD k [])).map (fun r => r.1))
      ((b.arcTargets.drop (b.stateAt k).arcOffset).take (b.stateAt k).numArcs) with
  | none =>
    left
    exact ⟨by rw [hnext]; exact l2 hl, lookupArc_none _ c _ _ hs.targets hl⟩
  | some t =>
    right
    obtain ⟨r, hr, h1, h2, h3⟩ := lookupArc_some _ c _ _ hs.targets t hl
    exact ⟨t, r, by rw [hnext]; exact l3 t hl, hr, h1, h2, h3⟩

/-! ### The language and the subscripts of the matcher -/

theorem atState_over (b : Builder) (m : DFA) (k : Nat) (hm : m.Over b) : (atState m k).Over b :=
  hm

/-- The right language of a state of the tables built from labels without the
byte `0xFF` is the label of the state. -/
theorem acceptsFrom_label (b : Builder) (m : DFA) (hm : m.Over b)
    (hinv : b.TableInv b.stateTable.length)
    (hs : ∀ l ∈ b.labels, ∀ w ∈ l, ∀ c ∈ w, c ≠ -1) :
    ∀ (s : List CChar) (k : Nat), k < b.stateTable.length →
      (acceptsFrom m k s = true ↔ s ∈ b.labels.getD k []) := by
  intro s
  induction s with
  | nil =>
    intro k hk
    have hst := hinv.states k hk
    have h1 : acceptsFrom m k [] = (b.stateAt k).isFinal := by
      unfold acceptsFrom wordRecognized atState Builder.stateAt
      simp only [List.foldl_nil, Bool.not_false, Bool.true_and]
      rw [hm.1]
    rw [h1, hst.final]
    exact runScan_isFinal _
  | cons c s ih =>
    intro k hk
    have hst := hinv.states k hk
    have hkl : k < b.labels.length := by rw [hinv.base.labels_len]; exact hk
    have hlab : b.labels.getD k [] ∈ b.labels := by
      rw [List.getD_eq_getElem _ _ hkl]; exact List.getElem_mem hkl
    have hcan := hinv.base.canonical _ hlab
    have hfree : ∀ (c : CChar) (rest : List CChar), (c :: rest) ∈ b.labels.getD k [] → c ≠ -1 :=
      fun c rest hw => hs _ hlab _ hw c (List.mem_cons_self _ _)
    obtain ⟨_, hn⟩ := next_stateOK b (atState m k) k c (atState_over b m k hm) hk hst
      hinv.targets_len rfl rfl
    have hacc : acceptsFrom m k (c :: s) =
        wordRecognized (s.foldl next (next (atState m k) c)) := rfl
    rcases hn with ⟨hdead, hnot⟩ | ⟨t, r, hnext, hr, hrc, ht, hlt⟩
    · rw [hacc, hdead, foldl_next_dead s _ rfl]
      constructor
      · intro h; simp [wordRecognized] at h
      · intro h
        exact absurd (labelRuns_cover _ hcan hfree c s h) hnot
    · have hat : ({ atState m k with curState := t } : DFA) = atState m t := rfl
      rw [hacc, hnext, hat]
      have := ih t (by rw [← hinv.base.labels_len]; exact ht)
      unfold acceptsFrom at this
      rw [this, hlt, mem_canonicalize, labelRuns_suffixes _ hcan hfree r hr s, hrc]

/-- The automaton returned by `build` for words without the byte `0xFF`
recognizes exactly the words of the list. -/
theorem build_language (d : DFA) (wc : WordCollection) (h : wc.WellFormed)
    (hc : ∀ c ∈ wc.wordsCharBuffer, isChar c)
    (hs : ∀ w ∈ wc.contents, ∀ c ∈ w, c ≠ -1) :
    ∃ d2, build d wc = some d2 ∧ ∀ s, recognizes d2 s = true ↔ s ∈ wc.contents := by
  obtain ⟨b, hb, hbuild, hinv, hpos, h0⟩ := build_table d wc h hc
  have hfree : ∀ l ∈ b.labels, ∀ w ∈ l, ∀ c ∈ w, c ≠ -1 := by
    refine Builder.buildLoop_chars (fun c => c ≠ -1) _ 0 _ b (Nat.zero_le _) ?_ hb
    intro l hl w hw
    simp only [Builder.start, List.mem_singleton] at hl
    subst hl
    exact hs w ((mem_canonicalize _ _).1 hw)
  refine ⟨Builder.finish d b, hbuild, fun s => ?_⟩
  have hm : (Builder.finish d b).Over b := ⟨rfl, rfl, rfl⟩
  have := acceptsFrom_label b (Builder.finish d b) hm hinv hfree s 0 hpos
  rw [h0, mem_canonicalize] at this
  exact this

/-- A matcher over the tables built stays inside them: every call of `next`
reads inside the three tables and leaves the matcher dead or in a state of the
state table. -/
theorem feedChecked_ok (b : Builder) (hinv : b.TableInv b.stateTable.length) :
    ∀ (s : List CChar) (m : DFA), m.Over b → (m.dead = true ∨ m.curState < b.stateTable.length) →
      feedChecked s m = some (s.foldl next m) ∧ (s.foldl next m).Over b ∧
        ((s.foldl next m).dead = true ∨ (s.foldl next m).curState < b.stateTable.length) := by
  intro s
  induction s with
  | nil => intro m hm hd; exact ⟨rfl, hm, hd⟩
  | cons c s ih =>
    intro m hm hd
    have hstep : nextChecked m c = some (next m c) ∧ (next m c).Over b ∧
        ((next m c).dead = true ∨ (next m c).curState < b.stateTable.length) := by
      by_cases hdead : m.dead = true
      · have h1 : next m c = m := by unfold next; rw [if_pos hdead]
        have h2 : nextChecked m c = some m := by unfold nextChecked; rw [if_pos hdead]
        rw [h1, h2]; exact ⟨rfl, hm, hd⟩
      · have hk : m.curState < b.stateTable.length := by
          rcases hd with hd | hd
          · exact absurd hd hdead
          · exact hd
        have hf : m.dead = false := by simpa using hdead
        obtain ⟨n1, n2⟩ := next_stateOK b m m.curState c hm hk (hinv.states _ hk)
          hinv.targets_len hf rfl
        refine ⟨n1, ?_⟩
        rcases n2 with ⟨hn, _⟩ | ⟨t, r, hn, _, _, ht, _⟩
        · rw [hn]; exact ⟨hm, Or.inl rfl⟩
        · rw [hn]
          exact ⟨hm, Or.inr (by rw [← hinv.base.labels_len]; exact ht)⟩
    obtain ⟨s1, s2, s3⟩ := hstep
    obtain ⟨i1, i2, i3⟩ := ih (next m c) s2 s3
    refine ⟨?_, i2, i3⟩
    show (nextChecked m c).bind (feedChecked s) = _
    rw [s1]; exact i1

theorem wordRecognizedChecked_ok (b : Builder) (m : DFA) (hm : m.Over b)
    (hd : m.dead = true ∨ m.curState < b.stateTable.length) :
    wordRecognizedChecked m = some (wordRecognized m) := by
  unfold wordRecognizedChecked wordRecognized
  by_cases hdead : m.dead = true
  · rw [if_pos hdead, hdead]; rfl
  · have hk : m.curState < m.stateTable.length := by
      rw [hm.1]
      rcases hd with hd | hd
      · exact absurd hd hdead
      · exact hd
    have hf : m.dead = false := by simpa using hdead
    rw [if_neg hdead, List.getElem?_eq_getElem hk, List.getD_eq_getElem _ _ hk, hf]
    rfl

/-- The arc counts of states whose arc ranges follow one another from 0 add up
to the end of the range of the last. -/
theorem sum_numArcs (st : List State)
    (first : 0 < st.length → (st.getD 0 ⟨0, 0, 0, false⟩).arcOffset = 0)
    (next : ∀ k, k + 1 < st.length →
      (st.getD (k + 1) ⟨0, 0, 0, false⟩).arcOffset =
        (st.getD k ⟨0, 0, 0, false⟩).arcOffset + (st.getD k ⟨0, 0, 0, false⟩).numArcs) :
    ∀ j, j < st.length →
      ((st.take (j + 1)).map (fun s => s.numArcs)).sum =
        (st.getD j ⟨0, 0, 0, false⟩).arcOffset + (st.getD j ⟨0, 0, 0, false⟩).numArcs := by
  intro j
  induction j with
  | zero =>
    intro h0
    rw [List.take_succ, List.take_zero, List.getElem?_eq_getElem h0, first h0,
      List.getD_eq_getElem _ _ h0]
    simp
  | succ j ih =>
    intro hj
    rw [List.take_succ, List.map_append, List.sum_append, ih (by omega),
      List.getElem?_eq_getElem hj, next j hj, List.getD_eq_getElem _ _ hj]
    simp

/-! ### The matcher without an arc -/

theorem nextLoop_no_arc (d : DFA) (c : CChar) (fuel : Nat) :
    ∀ i, (∀ j, j < fuel → d.arcLabels.getD (i + j) 0 ≠ c) →
      nextLoop d c fuel i = { d with dead := true } := by
  induction fuel with
  | zero => intro i _; rfl
  | succ n ih =>
    intro i h
    simp only [nextLoop]
    have h0 := h 0 (Nat.succ_pos n)
    rw [Nat.add_zero] at h0
    rw [if_neg h0]
    apply ih
    intro j hj
    have := h (j + 1) (by omega)
    rw [show i + (j + 1) = i + 1 + j by omega] at this
    exact this

/-! ### The loops of `getWord` at the end of the input -/

theorem skipSeparators_eof (impl : Impl) (fuel : Nat) (r : Reader) :
    skipSeparators (buildCharTables impl) (fuel + 1) EOF r = Outcome.ok (EOF, r) := by
  have h : tableRead (buildCharTables impl).buffer (buildCharTables impl).separator EOF =
      some 0 := separator_eof impl
  simp only [skipSeparators, h]
  rfl

theorem scanToken_eof (impl : Impl) (fuel : Nat) (r : Reader) (dst : List CChar) (m : DFA) :
    scanToken (buildCharTables impl) (fuel + 1) EOF r dst m = Outcome.ok (EOF, r, dst, m) := by
  have h : tableRead (buildCharTables impl).buffer (buildCharTables impl).token EOF =
      some 0 := token_eof impl
  simp only [scanToken, h]
  rfl

/-! ### The spans `loadStopWords` records -/

theorem loweredLines_cons_empty (line : List CChar) (rest : List (List CChar))
    (h : line.isEmpty = true) : loweredLines (line :: rest) = loweredLines rest := by
  unfold loweredLines
  rw [List.filter_cons_of_neg (by simp [h])]

theorem loweredLines_cons (line : List CChar) (rest : List (List CChar))
    (h : ¬ line.isEmpty = true) :
    loweredLines (line :: rest) = line.map tolower :: loweredLines rest := by
  unfold loweredLines
  rw [List.filter_cons_of_pos (by simpa using h)]
  rfl

theorem loadLines_spec (lines : List (List CChar)) :
    ∀ wc : WordCollection, loadLines lines wc =
      { wordsCharBuffer := wc.wordsCharBuffer ++ (loweredLines lines).flatten,
        words := wc.words ++ spansFrom wc.wordsCharBuffer.length (loweredLines lines) } := by
  induction lines with
  | nil => intro wc; simp [loadLines, loweredLines, spansFrom]
  | cons line rest ih =>
    intro wc
    simp only [loadLines]
    by_cases h : line.isEmpty = true
    · rw [if_pos h, ih, loweredLines_cons_empty line rest h]
    · rw [if_neg h, ih, loweredLines_cons line rest h]
      simp only [List.flatten_cons, List.append_assoc, spansFrom, List.length_append,
        List.singleton_append]

theorem content_middle (pre w post : List CChar) :
    content (pre ++ w ++ post) ⟨pre.length, pre.length + w.length⟩ = w := by
  unfold content
  simp only [List.append_assoc, List.drop_left, Nat.add_sub_cancel_left, List.take_left]

theorem map_content_spansFrom (ws : List (List CChar)) :
    ∀ pre post : List CChar,
      (spansFrom pre.length ws).map (content (pre ++ ws.flatten ++ post)) = ws := by
  induction ws with
  | nil => intro pre post; rfl
  | cons w ws ih =>
    intro pre post
    simp only [spansFrom, List.map_cons, List.flatten_cons]
    have h1 : pre ++ (w ++ ws.flatten) ++ post = pre ++ w ++ (ws.flatten ++ post) := by
      simp only [List.append_assoc]
    have h2 : pre ++ (w ++ ws.flatten) ++ post = (pre ++ w) ++ ws.flatten ++ post := by
      simp only [List.append_assoc]
    congr 1
    · rw [h1]; exact content_middle pre w _
    · rw [h2]
      have := ih (pre ++ w) post
      rw [List.length_append] at this
      exact this

theorem chained_spansFrom (ws : List (List CChar)) (hne : ∀ w ∈ ws, w ≠ []) :
    ∀ off, chained off (spansFrom off ws) (off + ws.flatten.length) := by
  induction ws with
  | nil => intro off; simp [spansFrom, chained]
  | cons w ws ih =>
    intro off
    simp only [spansFrom, chained, List.flatten_cons, List.length_append]
    have hw : 0 < w.length := List.length_pos.2 (hne w (List.mem_cons_self _ _))
    refine ⟨trivial, by omega, ?_⟩
    have := ih (fun x hx => hne x (List.mem_cons_of_mem _ hx)) (off + w.length)
    rw [Nat.add_assoc] at this
    exact this

theorem loweredLines_ne_nil (lines : List (List CChar)) : ∀ w ∈ loweredLines lines, w ≠ [] := by
  intro w hw
  unfold loweredLines at hw
  obtain ⟨l, hl, rfl⟩ := List.mem_map.1 hw
  have := (List.mem_filter.1 hl).2
  intro h0
  have hl0 : l = [] := by simpa using h0
  rw [hl0] at this
  simp at this

theorem loadStopWords_eq (lines : List (List CChar)) :
    loadStopWords lines =
      { wordsCharBuffer := (loweredLines lines).flatten,
        words := spansFrom 0 (loweredLines lines) } := by
  unfold loadStopWords
  rw [loadLines_spec]
  simp

/-- The words `loadStopWords` records are the non-empty lines in lower case. -/
theorem loadStopWords_contents (lines : List (List CChar)) :
    (loadStopWords lines).contents = loweredLines lines := by
  rw [loadStopWords_eq]
  have := map_content_spansFrom (loweredLines lines) [] []
  simpa [WordCollection.contents] using this

/-! ### The order of `predSort` is the lexicographic order -/

theorem ltChars_iff_lex (a : List Int) :
    ∀ b : List Int, ltChars a b = true ↔ List.Lex (fun x y : Int => x < y) a b := by
  induction a with
  | nil =>
    intro b
    cases b with
    | nil =>
      simp only [ltChars, List.isEmpty_nil, Bool.not_true]
      constructor
      · intro h; cases h
      · intro h; cases h
    | cons y b =>
      simp only [ltChars, List.isEmpty_cons, Bool.not_false, true_iff]
      exact List.Lex.nil
  | cons x a ih =>
    intro b
    cases b with
    | nil =>
      simp only [ltChars]
      constructor
      · intro h; cases h
      · intro h; cases h
    | cons y b =>
      rw [ltChars_cons_cons]
      constructor
      · rintro (h | ⟨h1, h2⟩)
        · exact List.Lex.rel h
        · rw [h1]; exact List.Lex.cons ((ih b).1 h2)
      · intro h
        cases h with
        | cons h2 => exact Or.inr ⟨rfl, (ih b).2 h2⟩
        | rel h1 => exact Or.inl h1

theorem getState_cases (cbuf : List CChar) (d : DFA) (label : List Word) (signature : Nat)
    (hd : d.LabelsWF cbuf) (hw : ∀ w ∈ label, w.WellFormed cbuf) :
    (∃ st, (Builder.searchTree (d.pLabelsTable.map (fun l => l.map (content cbuf)))
          (label.map (content cbuf)) signature d.stateTable.length
          (d.htable.getD (signature % HASH_TABLE_SIZE) TreeNode.nil)).1 = some st ∧
        getState cbuf d label signature = (d, st)) ∨
      ((Builder.searchTree (d.pLabelsTable.map (fun l => l.map (content cbuf)))
          (label.map (content cbuf)) signature d.stateTable.length
          (d.htable.getD (signature % HASH_TABLE_SIZE) TreeNode.nil)).1 = none ∧
        getState cbuf d label signature =
          ({ d with
              pLabelsTable := d.pLabelsTable ++ [label],
              stateTable := d.stateTable ++ [{ label := d.pLabelsTable.length, arcOffset := 0,
                                                numArcs := 0, isFinal := false }],
              htable := d.htable.set (signature % HASH_TABLE_SIZE)
                (Builder.searchTree (d.pLabelsTable.map (fun l => l.map (content cbuf)))
                  (label.map (content cbuf)) signature d.stateTable.length
                  (d.htable.getD (signature % HASH_TABLE_SIZE) TreeNode.nil)).2 },
            d.stateTable.length)) := by
  unfold getState
  rw [searchTree_eq cbuf d.pLabelsTable label signature _ hd hw]
  cases heq : (Builder.searchTree (d.pLabelsTable.map (fun l => l.map (content cbuf)))
      (label.map (content cbuf)) signature d.stateTable.length
      (d.htable.getD (signature % HASH_TABLE_SIZE) TreeNode.nil)).1 with
  | some st => exact Or.inl ⟨st, rfl, rfl⟩
  | none => exact Or.inr ⟨rfl, rfl⟩

theorem statesBelow_getD (htable : List TreeNode) (n i : Nat)
    (h : ∀ t ∈ htable, t.statesBelow n = true) :
    (htable.getD i TreeNode.nil).statesBelow n = true := by
  by_cases hi : i < htable.length
  · rw [List.getD_eq_getElem _ _ hi]; exact h _ (List.getElem_mem hi)
  · rw [List.getD_eq_default _ _ (by omega)]; rfl

/-- The function `getState` returns a state of the table whose stored label
has the contents of the requested label; it returns an existing state only
when `cmpLabel` finds the labels equal, and it keeps the tables consistent. -/
theorem getState_merge (cbuf : List CChar) (d : DFA) (label : List Word) (signature : Nat)
    (hd : d.LabelsWF cbuf) (hw : ∀ w ∈ label, w.WellFormed cbuf) (ht : d.TreesOK) :
    (getState cbuf d label signature).2 < (getState cbuf d label signature).1.stateTable.length ∧
      ((getState cbuf d label signature).1.pLabelsTable.getD
          (getState cbuf d label signature).2 []).map (content cbuf) =
        label.map (content cbuf) ∧
      ((getState cbuf d label signature).2 < d.stateTable.length →
        (getState cbuf d label signature).1 = d ∧
        cmpLabel cbuf label (d.pLabelsTable.getD (getState cbuf d label signature).2 []) = 0) ∧
      (∀ k, k < d.pLabelsTable.length →
        (getState cbuf d label signature).1.pLabelsTable.getD k [] = d.pLabelsTable.getD k []) ∧
      (getState cbuf d label signature).1.TreesOK := by
  obtain ⟨hlen, htree⟩ := ht
  have hbelow := statesBelow_getD d.htable d.stateTable.length (signature % HASH_TABLE_SIZE) htree
  obtain ⟨s1, s2⟩ := Builder.searchTree_spec (d.pLabelsTable.map (fun l => l.map (content cbuf)))
    (label.map (content cbuf)) signature d.stateTable.length
    (d.htable.getD (signature % HASH_TABLE_SIZE) TreeNode.nil)
  rcases getState_cases cbuf d label signature hd hw with ⟨st, hst, hg⟩ | ⟨_, hg⟩
  · rw [hg]
    obtain ⟨a1, a2, _⟩ := s1 st hst
    have hlt : st < d.stateTable.length := a2 _ hbelow
    rw [getD_map_labels] at a1
    refine ⟨hlt, a1, fun _ => ⟨rfl, ?_⟩, fun _ _ => rfl, hlen, htree⟩
    show cmpLabel cbuf label (d.pLabelsTable.getD st []) = 0
    rw [cmpLabel_eq cbuf label _ hw (getD_labels_wf cbuf d.pLabelsTable hd st), a1]
    exact (cmpContents_eq_zero _ _).2 rfl
  · rw [hg]
    refine ⟨by simp, ?_, fun h => absurd h (lt_irrefl _), fun k hk => ?_, ?_, ?_⟩
    · show ((d.pLabelsTable ++ [label]).getD d.stateTable.length []).map (content cbuf) = _
      rw [← hlen, List.getD_eq_getElem _ _ (by simp)]
      simp
    · show (d.pLabelsTable ++ [label]).getD k [] = _
      rw [List.getD_eq_getElem _ _ (by rw [List.length_append]; omega),
        List.getD_eq_getElem _ _ hk]
      exact List.getElem_append_left hk
    · show (d.pLabelsTable ++ [label]).length = (d.stateTable ++ [_]).length
      simp [hlen]
    · intro t htm
      show t.statesBelow (d.stateTable ++ [_]).length = true
      rw [List.length_append, List.length_singleton]
      rcases List.mem_or_eq_of_mem_set htm with h1 | h1
      · exact TreeNode.statesBelow_mono _ _ (Nat.le_succ _) t (htree t h1)
      · rw [h1]
        exact s2 _ (TreeNode.statesBelow_mono _ _ (Nat.le_succ _) _ hbelow) (Nat.lt_succ_self _)

/-! ### `build` with the reference tracked, against `build` -/

theorem getState_length (cbuf : List CChar) (d : DFA) (label : List Word) (signature : Nat) :
    (getState cbuf d label signature).1.stateTable.length = d.stateTable.length ∨
      (getState cbuf d label signature).1.stateTable.length = d.stateTable.length + 1 := by
  unfold getState
  split
  · exact Or.inl rfl
  · right; simp

theorem addArc_length (cbuf : List CChar) (d : DFA) (state : Nat) (arcLabel : CChar)
    (label : List Word) (signature : Nat) :
    (addArc cbuf d state arcLabel label signature).stateTable.length =
      (getState cbuf d (sortAndRemoveDuplicateWords cbuf label) signature).1.stateTable.length := by
  simp [addArc, incNumArcs]

/-- The function `addArc` uses its reference after a reallocation exactly when the state
table grows beyond its capacity. -/
theorem addArcChecked_eq (capacity : Nat) (cbuf : List CChar) (d : DFA) (state : Nat)
    (arcLabel : CChar) (label : List Word) (signature : Nat) :
    d.stateTable.length ≤ (addArc cbuf d state arcLabel label signature).stateTable.length ∧
      addArcChecked capacity cbuf d state arcLabel label signature =
        if capacity < (addArc cbuf d state arcLabel label signature).stateTable.length ∧
            d.stateTable.length < (addArc cbuf d state arcLabel label signature).stateTable.length
        then none
        else some (addArc cbuf d state arcLabel label signature) := by
  have hl := addArc_length cbuf d state arcLabel label signature
  have hg := getState_length cbuf d (sortAndRemoveDuplicateWords cbuf label) signature
  refine ⟨by omega, ?_⟩
  unfold addArcChecked
  rw [hl]
  by_cases h : capacity ≤ d.stateTable.length ∧
      (getState cbuf d (sortAndRemoveDuplicateWords cbuf label) signature).1.stateTable.length ≠
        d.stateTable.length
  · rw [if_pos h, if_pos (by omega)]
  · rw [if_neg h, if_neg (by omega)]

theorem setFinal_length (stateTable : List State) (state : Nat) :
    (setFinal stateTable state).length = stateTable.length := by
  simp [setFinal]

theorem setUp_length (stateTable : List State) (state arcOffset : Nat) :
    (setUp stateTable state arcOffset).length = stateTable.length := by
  simp [setUp]

theorem scanWordChecked_eq (capacity : Nat) (cbuf : List CChar) (state : Nat) (s : Scan)
    (word : Word) :
    s.dfa.stateTable.length ≤ (scanWord cbuf state s word).dfa.stateTable.length ∧
      scanWordChecked capacity cbuf state s word =
        if capacity < (scanWord cbuf state s word).dfa.stateTable.length ∧
            s.dfa.stateTable.length < (scanWord cbuf state s word).dfa.stateTable.length
        then none
        else some (scanWord cbuf state s word) := by
  unfold scanWordChecked scanWord
  by_cases h1 : word.start = word.stop
  · rw [if_pos h1, if_pos h1]
    have : ({ s with dfa := { s.dfa with stateTable := setFinal s.dfa.stateTable state } } :
        Scan).dfa.stateTable.length = s.dfa.stateTable.length := setFinal_length _ _
    rw [this]
    exact ⟨le_refl _, by rw [if_neg (by omega)]⟩
  · rw [if_neg h1, if_neg h1]
    by_cases h2 : cbuf.getD word.start 0 ≠ legitimate s.arcLabel (cbuf.getD word.start 0)
    · rw [if_pos h2, if_pos h2]
      obtain ⟨a1, a2⟩ := addArcChecked_eq capacity cbuf s.dfa state
        (legitimate s.arcLabel (cbuf.getD word.start 0)) s.targetLabel s.targetSignature
      refine ⟨a1, ?_⟩
      rw [a2]
      by_cases h3 : capacity < (addArc cbuf s.dfa state
          (legitimate s.arcLabel (cbuf.getD word.start 0)) s.targetLabel
          s.targetSignature).stateTable.length ∧
          s.dfa.stateTable.length < (addArc cbuf s.dfa state
            (legitimate s.arcLabel (cbuf.getD word.start 0)) s.targetLabel
            s.targetSignature).stateTable.length
      · rw [if_pos h3, if_pos h3]
      · rw [if_neg h3, if_neg h3]
    · rw [if_neg h2, if_neg h2]
      refine ⟨le_refl _, ?_⟩
      rw [if_neg]
      intro hx
      exact absurd hx.2 (lt_irrefl _)

theorem scanLabelChecked_eq (capacity : Nat) (cbuf : List CChar) (state : Nat)
    (words : List Word) :
    ∀ s : Scan,
      s.dfa.stateTable.length ≤ (words.foldl (scanWord cbuf state) s).dfa.stateTable.length ∧
      scanLabelChecked capacity cbuf state words s =
        if capacity < (words.foldl (scanWord cbuf state) s).dfa.stateTable.length ∧
            s.dfa.stateTable.length <
              (words.foldl (scanWord cbuf state) s).dfa.stateTable.length
        then none
        else some (words.foldl (scanWord cbuf state) s) := by
  induction words with
  | nil =>
    intro s
    exact ⟨le_refl _, by simp only [scanLabelChecked, List.foldl_nil]; rw [if_neg (by omega)]⟩
  | cons w words ih =>
    intro s
    obtain ⟨w1, w2⟩ := scanWordChecked_eq capacity cbuf state s w
    obtain ⟨i1, i2⟩ := ih (scanWord cbuf state s w)
    simp only [scanLabelChecked, List.foldl_cons]
    refine ⟨by omega, ?_⟩
    rw [w2]
    by_cases h : capacity < (scanWord cbuf state s w).dfa.stateTable.length ∧
        s.dfa.stateTable.length < (scanWord cbuf state s w).dfa.stateTable.length
    · rw [if_pos h, if_pos (by omega)]
    · rw [if_neg h]
      show scanLabelChecked capacity cbuf state words (scanWord cbuf state s w) = _
      rw [i2]
      by_cases h2 : capacity <
          (words.foldl (scanWord cbuf state) (scanWord cbuf state s w)).dfa.stateTable.length ∧
          (scanWord cbuf state s w).dfa.stateTable.length <
            (words.foldl (scanWord cbuf state) (scanWord cbuf state s w)).dfa.stateTable.length
      · rw [if_pos h2, if_pos (by omega)]
      · rw [if_neg h2, if_neg (by omega)]

theorem scanFinishChecked_eq (capacity : Nat) (cbuf : List CChar) (state : Nat) (s : Scan) :
    s.dfa.stateTable.length ≤ (scanFinish cbuf state s).stateTable.length ∧
      scanFinishChecked capacity cbuf state s =
        if capacity < (scanFinish cbuf state s).stateTable.length ∧
            s.dfa.stateTable.length < (scanFinish cbuf state s).stateTable.length
        then none
        else some (scanFinish cbuf state s) := by
  unfold scanFinishChecked scanFinish
  by_cases h : s.targetLabel.length ≠ 0
  · rw [if_pos h, if_pos h]
    exact addArcChecked_eq capacity cbuf s.dfa state s.arcLabel s.targetLabel s.targetSignature
  · rw [if_neg h, if_neg h]
    exact ⟨le_refl _, by rw [if_neg (by omega)]⟩

/-- The body of the outer loop uses the dangling reference exactly when it
makes the state table grow beyond its capacity. -/
theorem processStateChecked_eq (capacity : Nat) (cbuf : List CChar) (state : Nat) (d : DFA) :
    d.stateTable.length ≤ (processState cbuf state d).stateTable.length ∧
      processStateChecked capacity cbuf state d =
        if capacity < (processState cbuf state d).stateTable.length ∧
            d.stateTable.length < (processState cbuf state d).stateTable.length
        then none
        else some (processState cbuf state d) := by
  have h0 : (scanStart state d).dfa.stateTable.length = d.stateTable.length :=
    setUp_length _ _ _
  obtain ⟨l1, l2⟩ := scanLabelChecked_eq capacity cbuf state (d.pLabelsTable.getD state [])
    (scanStart state d)
  obtain ⟨f1, f2⟩ := scanFinishChecked_eq capacity cbuf state
    ((d.pLabelsTable.getD state []).foldl (scanWord cbuf state) (scanStart state d))
  unfold processStateChecked processState
  refine ⟨by omega, ?_⟩
  rw [l2]
  by_cases h : capacity < ((d.pLabelsTable.getD state []).foldl (scanWord cbuf state)
        (scanStart state d)).dfa.stateTable.length ∧
      (scanStart state d).dfa.stateTable.length <
        ((d.pLabelsTable.getD state []).foldl (scanWord cbuf state)
          (scanStart state d)).dfa.stateTable.length
  · rw [if_pos h, if_pos (by omega)]
  · rw [if_neg h]
    show scanFinishChecked capacity cbuf state _ = _
    rw [f2]
    by_cases h2 : capacity < (scanFinish cbuf state
          ((d.pLabelsTable.getD state []).foldl (scanWord cbuf state)
            (scanStart state d))).stateTable.length ∧
        ((d.pLabelsTable.getD state []).foldl (scanWord cbuf state)
            (scanStart state d)).dfa.stateTable.length <
          (scanFinish cbuf state
            ((d.pLabelsTable.getD state []).foldl (scanWord cbuf state)
              (scanStart state d))).stateTable.length
    · rw [if_pos h2, if_pos (by omega)]
    · rw [if_neg h2, if_neg (by omega)]

/-- The outer loop with the reference tracked ends as the outer loop does when
the state table stays within its capacity, and at the dangling reference
otherwise. -/
theorem buildLoopChecked_eq (capacity : Nat) (cbuf : List CChar) (fuel : Nat) :
    ∀ (n : Nat) (d d2 : DFA), buildLoop cbuf fuel n d = some d2 →
      d.stateTable.length ≤ d2.stateTable.length ∧
      buildLoopChecked capacity cbuf fuel n d =
        if capacity < d2.stateTable.length ∧ d.stateTable.length < d2.stateTable.length
        then Built.dangling
        else Built.ok d2 := by
  induction fuel with
  | zero =>
    intro n d d2 h
    simp only [buildLoop] at h
    simp only [buildLoopChecked]
    by_cases hn : n = d.stateTable.length
    · rw [if_pos hn] at h
      cases h
      rw [if_pos hn]
      exact ⟨le_refl _, by rw [if_neg (by omega)]⟩
    · rw [if_neg hn] at h; cases h
  | succ fuel ih =>
    intro n d d2 h
    simp only [buildLoop] at h
    simp only [buildLoopChecked]
    by_cases hn : n = d.stateTable.length
    · rw [if_pos hn] at h
      cases h
      rw [if_pos hn]
      exact ⟨le_refl _, by rw [if_neg (by omega)]⟩
    · rw [if_neg hn] at h
      rw [if_neg hn]
      obtain ⟨p1, p2⟩ := processStateChecked_eq capacity cbuf n d
      obtain ⟨i1, i2⟩ := ih (n + 1) (processState cbuf n d) d2 h
      refine ⟨by omega, ?_⟩
      rw [p2]
      by_cases hp : capacity < (processState cbuf n d).stateTable.length ∧
          d.stateTable.length < (processState cbuf n d).stateTable.length
      · rw [if_pos hp, if_pos (by omega)]
      · rw [if_neg hp]
        show buildLoopChecked capacity cbuf fuel (n + 1) (processState cbuf n d) = _
        rw [i2]
        by_cases h2 : capacity < d2.stateTable.length ∧
            (processState cbuf n d).stateTable.length < d2.stateTable.length
        · rw [if_pos h2, if_pos (by omega)]
        · rw [if_neg h2, if_neg (by omega)]

/-- The function `build` with the reference tracked returns the automaton of `build` when
that has at most `capacity` states, and uses the dangling reference when it
has more. -/
theorem buildChecked_eq (capacity : Nat) (d d2 : DFA) (wc : WordCollection)
    (hc : 1 ≤ capacity) (h : build d wc = some d2) :
    buildChecked capacity d wc =
      if capacity < d2.stateTable.length then Built.dangling else Built.ok d2 := by
  unfold build at h
  cases hl : buildLoop wc.wordsCharBuffer (buildFuel wc.words) 0 (buildStart d wc) with
  | none => rw [hl] at h; cases h
  | some d3 =>
    rw [hl] at h
    have hd : destroy d3 = d2 := by simpa using h
    have hlen : d2.stateTable.length = d3.stateTable.length := by rw [← hd]; rfl
    obtain ⟨b1, b2⟩ := buildLoopChecked_eq capacity wc.wordsCharBuffer _ 0 _ d3 hl
    have hs : (buildStart d wc).stateTable.length = 1 := rfl
    unfold buildChecked
    rw [b2, hlen, hs]
    by_cases hcap : capacity < d3.stateTable.length
    · rw [if_pos ⟨hcap, by omega⟩, if_pos hcap]
    · rw [if_neg (fun hx => hcap hx.1), if_neg hcap]
      show Built.ok (destroy d3) = Built.ok d2
      rw [hd]

/-- The outer loop with the reference tracked does not exhaust the fuel `build`
gives it: it ends with the tables or at the dangling reference. -/
theorem buildChecked_fuel (capacity : Nat) (d d2 : DFA) (wc : WordCollection)
    (h : build d wc = some d2) : buildChecked capacity d wc ≠ Built.outOfFuel := by
  unfold build at h
  cases hl : buildLoop wc.wordsCharBuffer (buildFuel wc.words) 0 (buildStart d wc) with
  | none => rw [hl] at h; cases h
  | some d3 =>
    obtain ⟨_, b2⟩ := buildLoopChecked_eq capacity wc.wordsCharBuffer _ 0 _ d3 hl
    unfold buildChecked
    rw [b2]
    by_cases hc : capacity < d3.stateTable.length ∧
        (buildStart d wc).stateTable.length < d3.stateTable.length
    · rw [if_pos hc]; intro hx; cases hx
    · rw [if_neg hc]; intro hx; cases hx

/-! ### The automaton of a single word -/

theorem labelRuns_single_cons (c : CChar) (rest : List CChar) :
    labelRuns [c :: rest] = [(c, [rest], hashChars startHashValue rest)] := by
  have hs : runScan [c :: rest] =
      { runs := [], targetLabel := [rest], targetSignature := hashChars startHashValue rest,
        arcLabel := c, isFinal := false } := by
    show runStep _ (c :: rest) = _
    rw [runStep_sameRun _ c rest (by simp [legitimate])]
    simp [legitimate]
  unfold labelRuns
  rw [hs]
  simp

theorem labelRuns_single_nil : labelRuns [[]] = [] := by
  decide

theorem canonicalize_single (x : List CChar) : canonicalize [x] = [x] := by
  simp [canonicalize, stdSort, sortInsert, stdUnique, stdUniqueFrom]

theorem chainLabels_length (w : List CChar) (k : Nat) : (chainLabels w k).length = k + 1 := by
  simp [chainLabels]

theorem chainLabels_getD (w : List CChar) (k t : Nat) (ht : t < k + 1) :
    (chainLabels w k).getD t [] = [w.drop t] := by
  unfold chainLabels
  rw [List.getD_eq_getElem _ _ (by simpa using ht)]
  simp

theorem chainLabels_succ (w : List CChar) (k : Nat) :
    chainLabels w (k + 1) = chainLabels w k ++ [[w.drop (k + 1)]] := by
  unfold chainLabels
  rw [List.range_succ, List.map_append]
  rfl

theorem sublist_singleton {α : Type} (l : List α) (a : α) (h : l.Sublist [a]) :
    l = [] ∨ l = [a] := by
  cases h with
  | cons _ h2 => left; exact List.sublist_nil.1 h2
  | cons₂ _ h2 => right; rw [List.sublist_nil.1 h2]

theorem Builder.processState_chain (b : Builder) (w : List CChar) (k : Nat)
    (hl : b.labels = chainLabels w k) (hs : b.stateTable.length = k + 1)
    (hk : k < w.length) :
    (b.processState k).labels = chainLabels w (k + 1) ∧
      (b.processState k).stateTable.length = k + 2 := by
  have hn : k < b.stateTable.length := by omega
  have hlen : b.labels.length = b.stateTable.length := by rw [hl, chainLabels_length, hs]
  have hlab : b.labels.getD k [] = [w.drop k] := by
    rw [hl]; exact chainLabels_getD w k k (by omega)
  have hdrop : w.drop k = w.getD k 0 :: w.drop (k + 1) := by
    rw [List.drop_eq_getElem_cons hk, List.getD_eq_getElem _ _ hk]
  obtain ⟨news, _, _, p3, p4, p5, _⟩ := b.processState_spec k hn
  obtain ⟨ts, _, t2⟩ := b.processState_targets k hn hlen
  rw [hlab, hdrop, labelRuns_single_cons] at p4 t2
  simp only [List.map_cons, List.map_nil, canonicalize_single] at p4
  rcases sublist_singleton _ _ p4 with h0 | h1
  · exfalso
    rw [h0, List.append_nil] at p3
    unfold Builder.TargetsOK at t2
    cases t2 with
    | cons hd _ =>
      obtain ⟨q1, q2⟩ := hd
      rw [p3, hl, chainLabels_length] at q1
      rw [p3, hl, chainLabels_getD w k _ q1, canonicalize_single] at q2
      have q3 := congrArg List.length (List.cons.inj q2).1
      simp only [List.length_drop] at q3
      omega
  · rw [p3, p5, h1, hl, hs, chainLabels_succ]
    exact ⟨rfl, rfl⟩

theorem Builder.processState_chain_last (b : Builder) (w : List CChar)
    (hl : b.labels = chainLabels w w.length) (hs : b.stateTable.length = w.length + 1) :
    (b.processState w.length).stateTable.length = w.length + 1 := by
  have hn : w.length < b.stateTable.length := by omega
  have hlab : b.labels.getD w.length [] = [[]] := by
    rw [hl, chainLabels_getD w _ _ (by omega), List.drop_length]
  obtain ⟨news, _, _, _, p4, p5, _⟩ := b.processState_spec w.length hn
  rw [hlab, labelRuns_single_nil] at p4
  have : news = [] := List.sublist_nil.1 p4
  rw [p5, this, hs]
  rfl

theorem Builder.buildLoop_chain (w : List CChar) (fuel : Nat) :
    ∀ (k : Nat) (b b2 : Builder), k ≤ w.length → b.labels = chainLabels w k →
      b.stateTable.length = k + 1 → Builder.buildLoop fuel k b = some b2 →
      b2.stateTable.length = w.length + 1 := by
  induction fuel with
  | zero =>
    intro k b b2 _ _ hs h
    simp only [Builder.buildLoop] at h
    rw [if_neg (by omega)] at h
    cases h
  | succ fuel ih =>
    intro k b b2 hk hl hs h
    simp only [Builder.buildLoop] at h
    rw [if_neg (by omega)] at h
    by_cases hlt : k < w.length
    · obtain ⟨c1, c2⟩ := Builder.processState_chain b w k hl hs hlt
      exact ih (k + 1) _ b2 (by omega) c1 c2 h
    · have hk2 : k = w.length := by omega
      subst hk2
      have c := Builder.processState_chain_last b w hl hs
      have hend : Builder.buildLoop fuel (w.length + 1) (b.processState w.length) =
          some (b.processState w.length) := by
        cases fuel with
        | zero => simp only [Builder.buildLoop]; rw [if_pos c.symm]
        | succ f => simp only [Builder.buildLoop]; rw [if_pos c.symm]
      rw [hend] at h
      cases h
      exact c

/-- The automaton of a collection with the single word `w` has one state more
than `w` has characters. -/
theorem build_single_word (d : DFA) (wc : WordCollection) (w : List CChar)
    (h : wc.WellFormed) (hw : wc.contents = [w]) :
    ∃ d2, build d wc = some d2 ∧ d2.stateTable.length = w.length + 1 := by
  obtain ⟨b, hb, _, hbuild⟩ := build_spec d wc h
  refine ⟨_, hbuild, ?_⟩
  show b.stateTable.length = w.length + 1
  have hl : (Builder.start d.htable wc.contents).labels = chainLabels w 0 := by
    rw [hw]
    show [canonicalize [w]] = [[w.drop 0]]
    rw [canonicalize_single, List.drop_zero]
  have hs : (Builder.start d.htable wc.contents).stateTable.length = 0 + 1 := rfl
  exact Builder.buildLoop_chain w _ 0 _ b (Nat.zero_le _) hl hs hb

theorem loweredLines_replicate (n : Nat) (hn : 1 ≤ n) :
    loweredLines [List.replicate n 97] = [List.replicate n 97] := by
  rw [loweredLines_cons _ _ (by
    cases n with
    | zero => omega
    | succ m => simp [List.replicate_succ])]
  simp [loweredLines, tolower]

/-- With the reference `State &state` tracked, `build` on the stop-word file
with the single line of `capacity` letters `a` uses the dangling reference:
the automaton has `capacity + 1` states, and the last of them is appended to
the full state table inside `addArc`. -/
theorem buildChecked_long_word (capacity : Nat) (d : DFA) (hc : 1 ≤ capacity) :
    buildChecked capacity d (loadStopWords [List.replicate capacity 97]) = Built.dangling := by
  have hcont : (loadStopWords [List.replicate capacity 97]).contents =
      [List.replicate capacity 97] := by
    rw [loadStopWords_contents, loweredLines_replicate capacity hc]
  obtain ⟨d2, h1, h2⟩ := build_single_word d _ _ (loadStopWords_wellFormed _) hcont
  rw [buildChecked_eq capacity d d2 _ hc h1, if_pos]
  rw [h2, List.length_replicate]
  omega

theorem addArcTracked_eq (grow : Nat → Nat) (capacity : Nat) (cbuf : List CChar) (d : DFA)
    (state : Nat) (arcLabel : CChar) (label : List Word) (signature : Nat)
    (hd : d.LabelsWF cbuf) (hw : ∀ w ∈ label, w.WellFormed cbuf) :
    (addArcTracked grow capacity cbuf d state arcLabel label signature).1.toBuilder cbuf =
        ((d.toBuilder cbuf).addArcT grow capacity state arcLabel (label.map (content cbuf))
          signature).1 ∧
      (addArcTracked grow capacity cbuf d state arcLabel label signature).2 =
        ((d.toBuilder cbuf).addArcT grow capacity state arcLabel (label.map (content cbuf))
          signature).2 ∧
      (addArcTracked grow capacity cbuf d state arcLabel label signature).1.LabelsWF cbuf ∧
      (addArcTracked grow capacity cbuf d state arcLabel label signature).1.dead = d.dead ∧
      (addArcTracked grow capacity cbuf d state arcLabel label signature).1.curState =
        d.curState := by
  have hw2 : ∀ w ∈ sortAndRemoveDuplicateWords cbuf label, w.WellFormed cbuf :=
    fun w h => hw w (mem_sortAndRemoveDuplicateWords cbuf label w h)
  obtain ⟨h1, h2, h3, h4, h5⟩ :=
    getState_eq cbuf d (sortAndRemoveDuplicateWords cbuf label) signature hd hw2
  rw [map_sortAndRemoveDuplicateWords cbuf label hw] at h1 h2
  obtain ⟨a1, a2, a3, a4⟩ := addArc_eq cbuf d state arcLabel label signature hd hw
  have hst : (getState cbuf d (sortAndRemoveDuplicateWords cbuf label) signature).1.stateTable =
      ((d.toBuilder cbuf).getState (canonicalize (label.map (content cbuf)))
        signature).1.stateTable := by
    rw [← h1]; rfl
  have hlen : (d.toBuilder cbuf).stateTable.length = d.stateTable.length := rfl
  unfold addArcTracked Builder.addArcT
  rw [hst, hlen]
  by_cases hc : capacity ≤ d.stateTable.length ∧
      ((d.toBuilder cbuf).getState (canonicalize (label.map (content cbuf)))
        signature).1.stateTable.length ≠ d.stateTable.length
  · rw [if_pos hc, if_pos hc]
    refine ⟨?_, rfl, h3, h4, h5⟩
    show DFA.toBuilder cbuf _ = _
    rw [← h1, ← h2]
    simp [DFA.toBuilder]
  · rw [if_neg hc, if_neg hc]
    exact ⟨a1, rfl, a2, a3, a4⟩

theorem scanWordTracked_eq (grow : Nat → Nat) (cbuf : List CChar) (state : Nat)
    (s : Scan × Nat) (word : Word) (hs : s.1.WF cbuf) (hw : word.WellFormed cbuf) :
    toBuilderScanT cbuf (scanWordTracked grow cbuf state s word) =
        Builder.scanWordT grow state (toBuilderScanT cbuf s) (content cbuf word) ∧
      (scanWordTracked grow cbuf state s word).1.WF cbuf ∧
      (scanWordTracked grow cbuf state s word).1.dfa.dead = s.1.dfa.dead ∧
      (scanWordTracked grow cbuf state s word).1.dfa.curState = s.1.dfa.curState := by
  unfold scanWordTracked
  by_cases he : word.start = word.stop
  · rw [content_nil_of_eq cbuf word he, if_pos he]
    exact ⟨rfl, ⟨hs.1, hs.2⟩, rfl, rfl⟩
  · have hlt : word.start < word.stop := lt_of_le_of_ne hw.1 he
    have hsuf : Word.WellFormed cbuf ⟨word.start + 1, word.stop⟩ := ⟨hlt, hw.2⟩
    rw [content_cons cbuf word hlt hw.2, if_neg he]
    by_cases hc : cbuf.getD word.start 0 ≠ legitimate s.1.arcLabel (cbuf.getD word.start 0)
    · obtain ⟨h1, h1b, h2, h3, h4⟩ := addArcTracked_eq grow s.2 cbuf s.1.dfa state
        (legitimate s.1.arcLabel (cbuf.getD word.start 0)) s.1.targetLabel
        s.1.targetSignature hs.1 hs.2
      rw [if_pos hc]
      refine ⟨?_, ⟨h2, ?_⟩, h3, h4⟩
      · have hc2 : cbuf.getD word.start 0 ≠
            legitimate (toBuilderScanT cbuf s).1.arcLabel (cbuf.getD word.start 0) := hc
        unfold Builder.scanWordT
        simp only
        rw [if_pos hc2]
        simp only [toBuilderScanT, Scan.toBuilderScan]
        rw [h1, h1b, updateHashValue_eq cbuf _ ⟨word.start + 1, word.stop⟩ hsuf]
        simp [DFA.toBuilder]
      · intro w hw2
        simp only [List.mem_singleton] at hw2
        subst hw2; exact hsuf
    · rw [if_neg hc]
      refine ⟨?_, ⟨hs.1, ?_⟩, rfl, rfl⟩
      · have hc2 : ¬ cbuf.getD word.start 0 ≠
            legitimate (toBuilderScanT cbuf s).1.arcLabel (cbuf.getD word.start 0) := hc
        unfold Builder.scanWordT
        simp only
        rw [if_neg hc2]
        simp only [toBuilderScanT, Scan.toBuilderScan]
        rw [updateHashValue_eq cbuf _ ⟨word.start + 1, word.stop⟩ hsuf]
        simp
      · intro w hw2
        simp only [List.mem_append, List.mem_singleton] at hw2
        rcases hw2 with hw2 | hw2
        · exact hs.2 w hw2
        · subst hw2; exact hsuf

theorem foldl_scanWordTracked_eq (grow : Nat → Nat) (cbuf : List CChar) (state : Nat)
    (label : List Word) (hl : ∀ w ∈ label, w.WellFormed cbuf) (s : Scan × Nat)
    (hs : s.1.WF cbuf) :
    toBuilderScanT cbuf (label.foldl (scanWordTracked grow cbuf state) s) =
        (label.map (content cbuf)).foldl (Builder.scanWordT grow state)
          (toBuilderScanT cbuf s) ∧
      (label.foldl (scanWordTracked grow cbuf state) s).1.WF cbuf ∧
      (label.foldl (scanWordTracked grow cbuf state) s).1.dfa.dead = s.1.dfa.dead ∧
      (label.foldl (scanWordTracked grow cbuf state) s).1.dfa.curState = s.1.dfa.curState := by
  induction label generalizing s with
  | nil => exact ⟨rfl, hs, rfl, rfl⟩
  | cons w label ih =>
    obtain ⟨h1, h2, h3, h4⟩ :=
      scanWordTracked_eq grow cbuf state s w hs (hl w (List.mem_cons_self _ _))
    obtain ⟨k1, k2, k3, k4⟩ := ih (fun x hx => hl x (List.mem_cons_of_mem _ hx))
      (scanWordTracked grow cbuf state s w) h2
    simp only [List.foldl_cons, List.map_cons]
    refine ⟨?_, k2, ?_, ?_⟩
    · rw [k1, h1]
    · rw [k3, h3]
    · rw [k4, h4]

theorem scanFinishTracked_eq (grow : Nat → Nat) (cbuf : List CChar) (state : Nat)
    (s : Scan × Nat) (hs : s.1.WF cbuf) :
    toBuilderT cbuf (scanFinishTracked grow cbuf state s) =
        Builder.scanFinishT grow state (toBuilderScanT cbuf s) ∧
      (scanFinishTracked grow cbuf state s).1.LabelsWF cbuf ∧
      (scanFinishTracked grow cbuf state s).1.dead = s.1.dfa.dead ∧
      (scanFinishTracked grow cbuf state s).1.curState = s.1.dfa.curState := by
  unfold scanFinishTracked Builder.scanFinishT
  by_cases h : s.1.targetLabel.length ≠ 0
  · have h2 : (toBuilderScanT cbuf s).1.targetLabel.length ≠ 0 := by
      simpa [toBuilderScanT, Scan.toBuilderScan] using h
    rw [if_pos h, if_pos h2]
    obtain ⟨a1, a2, a3, a4, a5⟩ := addArcTracked_eq grow s.2 cbuf s.1.dfa state s.1.arcLabel
      s.1.targetLabel s.1.targetSignature hs.1 hs.2
    refine ⟨?_, a3, a4, a5⟩
    exact Prod.ext a1 a2
  · have h2 : ¬ (toBuilderScanT cbuf s).1.targetLabel.length ≠ 0 := by
      simpa [toBuilderScanT, Scan.toBuilderScan] using h
    rw [if_neg h, if_neg h2]
    exact ⟨rfl, hs.1, rfl, rfl⟩

theorem processStateTracked_eq (grow : Nat → Nat) (cbuf : List CChar) (state : Nat)
    (d : DFA × Nat) (hd : d.1.LabelsWF cbuf) :
    toBuilderT cbuf (processStateTracked grow cbuf state d) =
        Builder.processStateT grow state (toBuilderT cbuf d) ∧
      (processStateTracked grow cbuf state d).1.LabelsWF cbuf ∧
      (processStateTracked grow cbuf state d).1.dead = d.1.dead ∧
      (processStateTracked grow cbuf state d).1.curState = d.1.curState := by
  have hs : (scanStart state d.1, d.2).1.WF cbuf := ⟨hd, by simp [scanStart]⟩
  obtain ⟨h1, h2, h3, h4⟩ := foldl_scanWordTracked_eq grow cbuf state
    (d.1.pLabelsTable.getD state []) (getD_labels_wf cbuf d.1.pLabelsTable hd state) _ hs
  obtain ⟨k1, k2, k3, k4⟩ := scanFinishTracked_eq grow cbuf state _ h2
  unfold processStateTracked Builder.processStateT
  refine ⟨?_, k2, k3.trans h3, k4.trans h4⟩
  rw [k1, h1]
  have hlab : (toBuilderT cbuf d).1.labels.getD state [] =
      (d.1.pLabelsTable.getD state []).map (content cbuf) := getD_map_labels cbuf _ state
  rw [hlab]
  rfl

/-- The outer loop with the capacity carried along is the loop on the
characters, and its log holds the states from the first one processed to the
last state of the table. -/
theorem buildLoopTracked_eq (grow : Nat → Nat) (cbuf : List CChar) (fuel : Nat) :
    ∀ (state : Nat) (d : DFA × Nat), d.1.LabelsWF cbuf →
      (buildLoopTracked grow cbuf fuel state d).map (fun r => r.1.toBuilder cbuf) =
        (Builder.buildLoopT grow fuel state (toBuilderT cbuf d)).map (fun r => r.1) ∧
      ∀ r, buildLoopTracked grow cbuf fuel state d = some r →
        r.1.dead = d.1.dead ∧ r.1.curState = d.1.curState ∧
        state ≤ r.1.stateTable.length ∧
        r.2 = List.range' state (r.1.stateTable.length - state) := by
  induction fuel with
  | zero =>
    intro state d _
    simp only [buildLoopTracked, Builder.buildLoopT]
    by_cases he : state = d.1.stateTable.length
    · have he2 : state = (toBuilderT cbuf d).1.stateTable.length := he
      rw [if_pos he, if_pos he2]
      refine ⟨rfl, ?_⟩
      intro r hr
      cases hr
      refine ⟨rfl, rfl, by show state ≤ d.1.stateTable.length; omega, ?_⟩
      show [] = List.range' state (d.1.stateTable.length - state)
      rw [← he]; simp
    · have he2 : ¬ state = (toBuilderT cbuf d).1.stateTable.length := he
      rw [if_neg he, if_neg he2]
      exact ⟨rfl, fun r hr => by cases hr⟩
  | succ n ih =>
    intro state d hd
    obtain ⟨h1, h2, h3, h4⟩ := processStateTracked_eq grow cbuf state d hd
    simp only [buildLoopTracked, Builder.buildLoopT]
    by_cases he : state = d.1.stateTable.length
    · have he2 : state = (toBuilderT cbuf d).1.stateTable.length := he
      rw [if_pos he, if_pos he2]
      refine ⟨rfl, ?_⟩
      intro r hr
      cases hr
      refine ⟨rfl, rfl, by show state ≤ d.1.stateTable.length; omega, ?_⟩
      show [] = List.range' state (d.1.stateTable.length - state)
      rw [← he]; simp
    · have he2 : ¬ state = (toBuilderT cbuf d).1.stateTable.length := he
      rw [if_neg he, if_neg he2]
      obtain ⟨k1, k2⟩ := ih (state + 1) (processStateTracked grow cbuf state d) h2
      refine ⟨?_, ?_⟩
      · rw [← h1, ← k1]
        simp only [Option.map_map]
        rfl
      · intro r hr
        cases hq : buildLoopTracked grow cbuf n (state + 1)
            (processStateTracked grow cbuf state d) with
        | none => rw [hq] at hr; cases hr
        | some q =>
          rw [hq] at hr
          obtain ⟨k3, k4, k5, k6⟩ := k2 q hq
          have hr2 : r = (q.1, state :: q.2) := by
            simpa using hr.symm
          rw [hr2]
          refine ⟨k3.trans h3, k4.trans h4, by show state ≤ q.1.stateTable.length; omega, ?_⟩
          show state :: q.2 = List.range' state (q.1.stateTable.length - state)
          have e : q.1.stateTable.length - state = (q.1.stateTable.length - (state + 1)) + 1 := by
            omega
          rw [e, List.range'_succ, k6]

theorem Builder.Grows.toT {n : Nat} {b b2 : Builder} {arcs : List CChar}
    {news : List (List (List CChar))} (h : Builder.Grows n b b2 arcs news) :
    Builder.GrowsT n b b2 arcs news :=
  { arcLabels_eq := h.arcLabels_eq, arcTargets_len := h.arcTargets_len,
    labels_eq := h.labels_eq, states_len := h.states_len, frame := h.frame,
    offset_eq := h.offset_eq, count_le := h.count_le, htable_len := h.htable_len }

theorem Builder.GrowsT.composeT {n : Nat} {b b2 b3 : Builder} {a1 a2 : List CChar}
    {n1 n2 : List (List (List CChar))} (h1 : Builder.GrowsT n b b2 a1 n1)
    (h2 : Builder.GrowsT n b2 b3 a2 n2) : Builder.GrowsT n b b3 (a1 ++ a2) (n1 ++ n2) where
  arcLabels_eq := by rw [h2.arcLabels_eq, h1.arcLabels_eq, List.append_assoc]
  arcTargets_len := by rw [h2.arcTargets_len, h1.arcTargets_len, List.length_append]; omega
  labels_eq := by rw [h2.labels_eq, h1.labels_eq, List.append_assoc]
  states_len := by rw [h2.states_len, h1.states_len, List.length_append]; omega
  frame := fun k hk hn => by
    rw [h2.frame k (by rw [h1.states_len]; omega) hn, h1.frame k hk hn]
  offset_eq := by rw [h2.offset_eq, h1.offset_eq]
  count_le := by
    have := h2.count_le; have := h1.count_le
    rw [List.length_append]; omega
  htable_len := by rw [h2.htable_len, h1.htable_len]

/-- What `addArcT` changes: the arc is appended, at most one label and state are
appended, and the entry of the state `n` keeps its label, its arc offset and
its final flag. -/
theorem Builder.addArcT_grows (grow : Nat → Nat) (capacity : Nat) (b : Builder) (n : Nat)
    (c : CChar) (label : List (List CChar)) (signature : Nat)
    (hn : n < b.stateTable.length) :
    ∃ news, (news = [] ∨ news = [canonicalize label]) ∧
      Builder.GrowsT n b (b.addArcT grow capacity n c label signature).1 [c] news ∧
      ((b.addArcT grow capacity n c label signature).1.stateAt n).label =
        (b.stateAt n).label ∧
      ((b.addArcT grow capacity n c label signature).1.stateAt n).isFinal =
        (b.stateAt n).isFinal := by
  unfold Builder.addArcT
  by_cases hc : capacity ≤ b.stateTable.length ∧
      (b.getState (canonicalize label) signature).1.stateTable.length ≠ b.stateTable.length
  · rw [if_pos hc]
    obtain ⟨news, hnews, h1, h2, h3, h4, h5⟩ := b.getState_spec (canonicalize label) signature
    have hself : Builder.stateAt
        { (b.getState (canonicalize label) signature).1 with
          arcLabels := (b.getState (canonicalize label) signature).1.arcLabels ++ [c],
          arcTargets := (b.getState (canonicalize label) signature).1.arcTargets ++
            [(b.getState (canonicalize label) signature).2] } n = b.stateAt n := by
      unfold Builder.stateAt
      show (b.getState (canonicalize label) signature).1.stateTable.getD n _ = _
      rw [h4]
      exact stateAt_append_left _ _ _ hn
    refine ⟨news, hnews, ?_, by rw [hself], by rw [hself]⟩
    refine
      { arcLabels_eq := ?_, arcTargets_len := ?_, labels_eq := ?_, states_len := ?_,
        frame := ?_, offset_eq := ?_, count_le := ?_, htable_len := ?_ }
    · show (b.getState (canonicalize label) signature).1.arcLabels ++ [c] = _
      rw [h1]
    · show ((b.getState (canonicalize label) signature).1.arcTargets ++ _).length = _
      rw [h2]; simp
    · exact h3
    · show (b.getState (canonicalize label) signature).1.stateTable.length = _
      rw [h4]; simp
    · intro k hk _
      unfold Builder.stateAt
      show (b.getState (canonicalize label) signature).1.stateTable.getD k _ = _
      rw [h4]
      exact stateAt_append_left _ _ _ hk
    · rw [hself]
    · rw [hself]; omega
    · exact h5
  · rw [if_neg hc]
    obtain ⟨news, hnews, g, gs⟩ := b.addArc_grows n c label signature hn
    exact ⟨news, hnews, g.toT, by rw [gs], by rw [gs]⟩

theorem Builder.scanWordT_inv (grow : Nat → Nat) (n : Nat) (b0 : Builder)
    (hn : n < b0.stateTable.length)
    (s : Builder.Scan × Nat) (rs : RunScan) (news : List (List (List CChar)))
    (h : Builder.ScanInvT n b0 s.1 rs news) (word : List CChar) :
    ∃ news2, Builder.ScanInvT n b0 (Builder.scanWordT grow n s word).1 (runStep rs word)
      news2 := by
  have hn2 : n < s.1.builder.stateTable.length := by
    rw [h.grows.states_len]; omega
  cases word with
  | nil =>
    obtain ⟨g, gs⟩ := setFinal_grows s.1.builder n hn2
    refine ⟨news ++ [], ?_⟩
    show Builder.ScanInvT n b0
      { s.1 with builder := { s.1.builder with
          stateTable := setFinal s.1.builder.stateTable n } }
      { rs with isFinal := true } _
    refine
      { targetLabel_eq := h.targetLabel_eq, targetSignature_eq := h.targetSignature_eq,
        arcLabel_eq := h.arcLabel_eq, grows := ?_, sublist := ?_, label_eq := ?_,
        isFinal_eq := ?_ }
    · have := h.grows.composeT g.toT
      simpa using this
    · simpa using h.sublist
    · show (Builder.stateAt _ n).label = _
      rw [gs]; exact h.label_eq
    · show (Builder.stateAt _ n).isFinal = _
      rw [gs]; simp
  | cons ch rest =>
    by_cases hc : ch ≠ legitimate s.1.arcLabel ch
    · have hc2 : ch ≠ legitimate rs.arcLabel ch := by rw [← h.arcLabel_eq]; exact hc
      obtain ⟨news1, hnews1, g, gl, gf⟩ := s.1.builder.addArcT_grows grow s.2 n
        (legitimate s.1.arcLabel ch) s.1.targetLabel s.1.targetSignature hn2
      refine ⟨news ++ news1, ?_⟩
      have e1 : (Builder.scanWordT grow n s (ch :: rest)).1 =
          { builder := (s.1.builder.addArcT grow s.2 n (legitimate s.1.arcLabel ch)
              s.1.targetLabel s.1.targetSignature).1,
            targetLabel := [rest],
            targetSignature := hashChars startHashValue rest,
            arcLabel := ch } := by
        unfold Builder.scanWordT
        simp only
        rw [if_pos hc]
      rw [e1, runStep_newRun rs ch rest hc2]
      refine
        { targetLabel_eq := rfl, targetSignature_eq := rfl, arcLabel_eq := rfl,
          grows := ?_, sublist := ?_, label_eq := ?_, isFinal_eq := ?_ }
      · have := h.grows.composeT g
        simpa [h.arcLabel_eq] using this
      · simp only [List.map_append, List.map_cons, List.map_nil]
        refine List.Sublist.append h.sublist ?_
        rcases hnews1 with e1 | e1
        · rw [e1]; exact List.nil_sublist _
        · rw [e1, h.targetLabel_eq]
      · show (Builder.stateAt _ n).label = _
        rw [gl]; exact h.label_eq
      · show (Builder.stateAt _ n).isFinal = _
        rw [gf]; exact h.isFinal_eq
    · have hc2 : ¬ ch ≠ legitimate rs.arcLabel ch := by rw [← h.arcLabel_eq]; exact hc
      refine ⟨news, ?_⟩
      have e1 : (Builder.scanWordT grow n s (ch :: rest)).1 =
          { builder := s.1.builder,
            targetLabel := s.1.targetLabel ++ [rest],
            targetSignature := hashChars s.1.targetSignature rest,
            arcLabel := legitimate s.1.arcLabel ch } := by
        unfold Builder.scanWordT
        simp only
        rw [if_neg hc]
      rw [e1, runStep_sameRun rs ch rest hc2]
      exact
        { targetLabel_eq := by simp [h.targetLabel_eq],
          targetSignature_eq := by simp [h.targetSignature_eq],
          arcLabel_eq := by simp [h.arcLabel_eq],
          grows := h.grows, sublist := h.sublist, label_eq := h.label_eq,
          isFinal_eq := h.isFinal_eq }

theorem Builder.foldl_scanWordT_inv (grow : Nat → Nat) (n : Nat) (b0 : Builder)
    (hn : n < b0.stateTable.length) (label : List (List CChar)) :
    ∀ (s : Builder.Scan × Nat) (rs : RunScan) (news : List (List (List CChar))),
      Builder.ScanInvT n b0 s.1 rs news →
      ∃ news2, Builder.ScanInvT n b0 (label.foldl (Builder.scanWordT grow n) s).1
        (label.foldl runStep rs) news2 := by
  induction label with
  | nil => intro s rs news h; exact ⟨news, h⟩
  | cons w label ih =>
    intro s rs news h
    obtain ⟨news1, h1⟩ := Builder.scanWordT_inv grow n b0 hn s rs news h w
    exact ih _ _ news1 h1

/-- The effect of the body of the outer loop, with the capacity carried along,
for a state `n` of the table. -/
theorem Builder.processStateT_spec (grow : Nat → Nat) (b : Builder × Nat) (n : Nat)
    (hn : n < b.1.stateTable.length) :
    ∃ news,
      (Builder.processStateT grow n b).1.arcLabels =
        b.1.arcLabels ++ (labelRuns (b.1.labels.getD n [])).map (fun r => r.1) ∧
      (Builder.processStateT grow n b).1.arcTargets.length =
        b.1.arcTargets.length + (labelRuns (b.1.labels.getD n [])).length ∧
      (Builder.processStateT grow n b).1.labels = b.1.labels ++ news ∧
      news.Sublist ((labelRuns (b.1.labels.getD n [])).map (fun r => canonicalize r.2.1)) ∧
      (Builder.processStateT grow n b).1.stateTable.length =
        b.1.stateTable.length + news.length ∧
      (∀ k, k < b.1.stateTable.length → k ≠ n →
        (Builder.processStateT grow n b).1.stateAt k = b.1.stateAt k) ∧
      ((Builder.processStateT grow n b).1.stateAt n).label = (b.1.stateAt n).label ∧
      ((Builder.processStateT grow n b).1.stateAt n).arcOffset = b.1.arcLabels.length ∧
      ((Builder.processStateT grow n b).1.stateAt n).numArcs ≤
        (labelRuns (b.1.labels.getD n [])).length ∧
      ((Builder.processStateT grow n b).1.stateAt n).isFinal =
        (runScan (b.1.labels.getD n [])).isFinal ∧
      (Builder.processStateT grow n b).1.htable.length = b.1.htable.length := by
  obtain ⟨u1, u2, u3⟩ := setUp_spec b.1 n hn
  have hn0 : n < (Builder.scanStart n b.1).builder.stateTable.length := by
    show n < (setUp b.1.stateTable n b.1.arcLabels.length).length
    rw [u2]; exact hn
  have h0 : Builder.ScanInvT n (Builder.scanStart n b.1).builder
      (Builder.scanStart n b.1, b.2).1
      { runs := [], targetLabel := [], targetSignature := startHashValue, arcLabel := -1,
        isFinal := false } [] :=
    { targetLabel_eq := rfl, targetSignature_eq := rfl, arcLabel_eq := rfl,
      grows := (Builder.Grows.refl _ _).toT, sublist := List.Sublist.refl _, label_eq := rfl,
      isFinal_eq := by simp }
  obtain ⟨news, h⟩ := Builder.foldl_scanWordT_inv grow n _ hn0 (b.1.labels.getD n [])
    (Builder.scanStart n b.1, b.2) _ _ h0
  have hb0 : (Builder.scanStart n b.1).builder.stateAt n =
      { b.1.stateAt n with arcOffset := b.1.arcLabels.length, numArcs := 0, isFinal := false } :=
    u1
  have hrs : List.foldl runStep
      { runs := [], targetLabel := [], targetSignature := startHashValue, arcLabel := -1,
        isFinal := false } (b.1.labels.getD n []) = runScan (b.1.labels.getD n []) := rfl
  rw [hrs] at h
  have hwrap : ∀ (b2 : Builder) (arcs : List CChar) (news2 : List (List (List CChar))),
      Builder.GrowsT n (Builder.scanStart n b.1).builder b2 arcs news2 →
      (b2.stateAt n).label = ((Builder.scanStart n b.1).builder.stateAt n).label →
      (b2.stateAt n).isFinal = (runScan (b.1.labels.getD n [])).isFinal →
      b2.arcLabels = b.1.arcLabels ++ arcs ∧
      b2.arcTargets.length = b.1.arcTargets.length + arcs.length ∧
      b2.labels = b.1.labels ++ news2 ∧
      b2.stateTable.length = b.1.stateTable.length + news2.length ∧
      (∀ k, k < b.1.stateTable.length → k ≠ n → b2.stateAt k = b.1.stateAt k) ∧
      (b2.stateAt n).label = (b.1.stateAt n).label ∧
      (b2.stateAt n).arcOffset = b.1.arcLabels.length ∧
      (b2.stateAt n).numArcs ≤ arcs.length ∧
      (b2.stateAt n).isFinal = (runScan (b.1.labels.getD n [])).isFinal ∧
      b2.htable.length = b.1.htable.length := by
    intro b2 arcs news2 g hl hf
    refine ⟨g.arcLabels_eq, g.arcTargets_len, g.labels_eq, ?_, ?_, ?_, ?_, ?_, hf,
      g.htable_len⟩
    · rw [g.states_len]; show (setUp _ _ _).length + _ = _; rw [u2]
    · intro k hk hkn
      rw [g.frame k (by show k < (setUp _ _ _).length; rw [u2]; exact hk) hkn]
      exact u3 k hkn
    · rw [hl, hb0]
    · rw [g.offset_eq, hb0]
    · have := g.count_le; rw [hb0] at this; simpa using this
  unfold Builder.processStateT Builder.scanFinishT labelRuns
  by_cases ht : (List.foldl (Builder.scanWordT grow n) (Builder.scanStart n b.1, b.2)
      (b.1.labels.getD n [])).1.targetLabel.length ≠ 0
  · have ht2 : (runScan (b.1.labels.getD n [])).targetLabel.length ≠ 0 := by
      rw [← h.targetLabel_eq]; exact ht
    rw [if_pos ht, if_pos ht2]
    have hn2 : n < (List.foldl (Builder.scanWordT grow n) (Builder.scanStart n b.1, b.2)
        (b.1.labels.getD n [])).1.builder.stateTable.length := by
      rw [h.grows.states_len]; omega
    obtain ⟨news1, hnews1, g, gl, gf⟩ := Builder.addArcT_grows grow
      (List.foldl (Builder.scanWordT grow n) (Builder.scanStart n b.1, b.2)
        (b.1.labels.getD n [])).2
      (List.foldl (Builder.scanWordT grow n) (Builder.scanStart n b.1, b.2)
        (b.1.labels.getD n [])).1.builder n
      (List.foldl (Builder.scanWordT grow n) (Builder.scanStart n b.1, b.2)
        (b.1.labels.getD n [])).1.arcLabel
      (List.foldl (Builder.scanWordT grow n) (Builder.scanStart n b.1, b.2)
        (b.1.labels.getD n [])).1.targetLabel
      (List.foldl (Builder.scanWordT grow n) (Builder.scanStart n b.1, b.2)
        (b.1.labels.getD n [])).1.targetSignature hn2
    have hg := h.grows.composeT g
    obtain ⟨w1, w2, w3, w4, w5, w6, w7, w8, w10, w11⟩ := hwrap _ _ _ hg
      (by rw [gl]; exact h.label_eq)
      (by rw [gf, h.isFinal_eq, hb0]; simp)
    refine ⟨news ++ news1, ?_, ?_, w3, ?_, w4, w5, w6, w7, ?_, w10, w11⟩
    · rw [w1, h.arcLabel_eq]; simp
    · rw [w2]; simp
    · simp only [List.map_append, List.map_cons, List.map_nil]
      refine List.Sublist.append h.sublist ?_
      rcases hnews1 with e1 | e1
      · rw [e1]; exact List.nil_sublist _
      · rw [e1, h.targetLabel_eq]
    · simpa using w8
  · have ht2 : ¬ (runScan (b.1.labels.getD n [])).targetLabel.length ≠ 0 := by
      rw [← h.targetLabel_eq]; exact ht
    rw [if_neg ht, if_neg ht2]
    obtain ⟨w1, w2, w3, w4, w5, w6, w7, w8, w10, w11⟩ := hwrap _ _ _ h.grows h.label_eq
      (by rw [h.isFinal_eq, hb0]; simp)
    refine ⟨news, w1, ?_, w3, h.sublist, w4, w5, w6, w7, ?_, w10, w11⟩
    · rw [w2]; simp
    · simpa using w8

/-! ### The outer loop with the capacity carried along -/

theorem Builder.processStateT_inv (grow : Nat → Nat) (b : Builder × Nat) (n : Nat)
    (h : b.1.LoopInv n) (hn : n < b.1.stateTable.length) :
    (Builder.processStateT grow n b).1.LoopInv (n + 1) ∧
      (Builder.processStateT grow n b).1.pendingWeight (n + 1) + 1 ≤ b.1.pendingWeight n ∧
      (Builder.processStateT grow n b).1.htable.length = b.1.htable.length := by
  obtain ⟨news, p1, p2, p3, p4, p5, p6, p7, p8, p9, p11, p12⟩ :=
    Builder.processStateT_spec grow b n hn
  have hnl : n < b.1.labels.length := by rw [h.labels_len]; exact hn
  have hlab : b.1.labels.getD n [] ∈ b.1.labels := by
    rw [List.getD_eq_getElem _ _ hnl]; exact List.getElem_mem hnl
  have hcan : Canonical (b.1.labels.getD n []) := h.canonical _ hlab
  refine ⟨?_, ?_, p12⟩
  · refine { labels_len := ?_, le := ?_, canonical := ?_, arcs := ?_ }
    · rw [p3, p5, List.length_append, h.labels_len]
    · rw [p5]; omega
    · intro l hl
      rw [p3, List.mem_append] at hl
      rcases hl with hl | hl
      · exact h.canonical l hl
      · have := p4.subset hl
        rw [List.mem_map] at this
        obtain ⟨r, _, hr⟩ := this
        rw [← hr]
        exact canonical_canonicalize _
    · intro k hk
      by_cases hkn : k = n
      · subst hkn
        have e1 : arcsOf (Builder.processStateT grow k b).1.stateTable
            (Builder.processStateT grow k b).1.arcLabels k =
            ((labelRuns (b.1.labels.getD k [])).map (fun r => r.1)).take
              ((Builder.processStateT grow k b).1.stateAt k).numArcs := by
          unfold arcsOf
          show (List.drop ((Builder.processStateT grow k b).1.stateAt k).arcOffset _).take
            ((Builder.processStateT grow k b).1.stateAt k).numArcs = _
          rw [p8, p1, List.drop_left]
        refine ⟨?_, ?_⟩
        · rw [p8, p1, List.length_append, List.length_map]; omega
        · rw [e1]
          exact (labelRuns_increasing _ hcan).sublist (List.take_sublist _ _)
      · have hk2 : k < n := by omega
        obtain ⟨a1, a2⟩ := h.arcs k hk2
        have hfr := p6 k (by omega) hkn
        refine ⟨?_, ?_⟩
        · rw [hfr, p1, List.length_append]; omega
        · have e1 : arcsOf (Builder.processStateT grow n b).1.stateTable
              (Builder.processStateT grow n b).1.arcLabels k =
              arcsOf b.1.stateTable b.1.arcLabels k := by
            unfold arcsOf
            show (List.drop ((Builder.processStateT grow n b).1.stateAt k).arcOffset _).take
              ((Builder.processStateT grow n b).1.stateAt k).numArcs = _
            rw [hfr, p1]
            exact take_drop_append_left _ _ _ _ a1
          rw [e1]; exact a2
  · unfold Builder.pendingWeight
    have e1 : b.1.labels.drop n = b.1.labels.getD n [] :: b.1.labels.drop (n + 1) := by
      rw [List.getD_eq_getElem _ _ hnl]
      exact List.drop_eq_getElem_cons hnl
    have e2 : (Builder.processStateT grow n b).1.labels.drop (n + 1) =
        b.1.labels.drop (n + 1) ++ news := by
      rw [p3, List.drop_append_of_le_length (by omega)]
    rw [e1, e2]
    simp only [List.map_append, List.sum_append, List.map_cons, List.sum_cons]
    have h1 : (news.map labelWeight).sum ≤ runsWeight (labelRuns (b.1.labels.getD n [])) := by
      unfold runsWeight
      have := (p4.map labelWeight).sum_le_sum (fun a _ => Nat.zero_le a)
      simpa [List.map_map] using this
    have h2 := labelRuns_weight (b.1.labels.getD n [])
    omega

/-- The outer loop with the capacity carried along terminates within the
weight of the pending labels, and keeps the invariant of the loop. -/
theorem Builder.buildLoopT_spec (grow : Nat → Nat) (fuel : Nat) :
    ∀ (n : Nat) (b : Builder × Nat), b.1.LoopInv n → b.1.pendingWeight n ≤ fuel →
      ∃ b2, Builder.buildLoopT grow fuel n b = some b2 ∧
        b2.1.LoopInv b2.1.stateTable.length ∧
        b2.1.htable.length = b.1.htable.length := by
  induction fuel with
  | zero =>
    intro n b h hw
    have hn : n = b.1.stateTable.length := by
      by_contra hne
      have hlt : n < b.1.labels.length := by
        rw [h.labels_len]; exact lt_of_le_of_ne h.le hne
      have := pendingWeight_pos b.1 n hlt
      omega
    refine ⟨b, ?_, ?_, rfl⟩
    · simp only [Builder.buildLoopT]; rw [if_pos hn]
    · rw [← hn]; exact h
  | succ fuel ih =>
    intro n b h hw
    by_cases hn : n = b.1.stateTable.length
    · refine ⟨b, ?_, ?_, rfl⟩
      · simp only [Builder.buildLoopT]; rw [if_pos hn]
      · rw [← hn]; exact h
    · have hlt : n < b.1.stateTable.length := lt_of_le_of_ne h.le hn
      obtain ⟨s1, s2, s3⟩ := Builder.processStateT_inv grow b n h hlt
      obtain ⟨b2, k1, k2, k3⟩ := ih (n + 1) (Builder.processStateT grow n b) s1 (by omega)
      refine ⟨b2, ?_, k2, k3.trans s3⟩
      simp only [Builder.buildLoopT]; rw [if_neg hn]; exact k1

/-- The function `buildTracked` returns for every well-formed collection: its outer loop
ends within the fuel with the tables of the loop on the characters, which keep
the invariant of the loop, and with the log of the states 0, 1, 2, ... of the
final state table. -/
theorem buildTracked_spec (grow : Nat → Nat) (capacity : Nat) (d : DFA) (wc : WordCollection)
    (h : wc.WellFormed) :
    ∃ b d2, Builder.buildLoopT grow (labelWeight wc.contents) 0
          (Builder.start d.htable wc.contents, capacity) = some b ∧
      b.1.LoopInv b.1.stateTable.length ∧
      buildLoopTracked grow wc.wordsCharBuffer (buildFuel wc.words) 0
          (buildStart d wc, capacity) = some (d2, List.range d2.stateTable.length) ∧
      buildTracked grow capacity d wc = some (destroy d2) ∧
      destroy d2 = Builder.finish d b.1 := by
  obtain ⟨b, hb, hinv, hlen⟩ := Builder.buildLoopT_spec grow (labelWeight wc.contents) 0
    (Builder.start d.htable wc.contents, capacity) (Builder.start_inv _ _)
    (Builder.start_weight _ _)
  obtain ⟨e1, e2⟩ := buildLoopTracked_eq grow wc.wordsCharBuffer (buildFuel wc.words) 0
    (buildStart d wc, capacity) (buildStart_labelsWF d wc h)
  have hb2 := hb
  rw [← buildFuel_eq wc h] at hb2
  have hstart : toBuilderT wc.wordsCharBuffer (buildStart d wc, capacity) =
      (Builder.start d.htable wc.contents, capacity) := by
    unfold toBuilderT
    rw [buildStart_toBuilder d wc h]
  rw [hstart, hb2] at e1
  cases hd : buildLoopTracked grow wc.wordsCharBuffer (buildFuel wc.words) 0
      (buildStart d wc, capacity) with
  | none => rw [hd] at e1; simp at e1
  | some r =>
    rw [hd] at e1
    simp only [Option.map_some', Option.some.injEq] at e1
    obtain ⟨k1, k2, _, k4⟩ := e2 r hd
    rw [Nat.sub_zero, ← List.range_eq_range'] at k4
    have hr : r = (r.1, List.range r.1.stateTable.length) := Prod.ext rfl k4
    have hfin : destroy r.1 = Builder.finish d b.1 := by
      have hh : r.1.htable.length = d.htable.length := by
        have : (r.1.toBuilder wc.wordsCharBuffer).htable.length = d.htable.length := by
          rw [e1]; exact hlen
        exact this
      unfold destroy Builder.finish
      rw [← e1]
      simp only [DFA.toBuilder, DFA.mk.injEq, true_and]
      refine ⟨?_, k1, k2⟩
      rw [← hh]
      exact List.map_const' _ _
    refine ⟨b, r.1, hb, hinv, congrArg some hr, ?_, hfin⟩
    unfold buildTracked
    rw [hd]
    rfl

/-! ### More fuel, and the runs without a reallocation -/

theorem buildLoopTracked_fuel (grow : Nat → Nat) (cbuf : List CChar) (fuel : Nat) :
    ∀ (n : Nat) (d : DFA × Nat) (r : DFA × List Nat),
      buildLoopTracked grow cbuf fuel n d = some r →
      ∀ fuel2, fuel ≤ fuel2 → buildLoopTracked grow cbuf fuel2 n d = some r := by
  induction fuel with
  | zero =>
    intro n d r h fuel2 _
    simp only [buildLoopTracked] at h
    by_cases hn : n = d.1.stateTable.length
    · rw [if_pos hn] at h
      cases fuel2 with
      | zero => simp only [buildLoopTracked]; rw [if_pos hn]; exact h
      | succ f => simp only [buildLoopTracked]; rw [if_pos hn]; exact h
    · rw [if_neg hn] at h; cases h
  | succ fuel ih =>
    intro n d r h fuel2 hle
    cases fuel2 with
    | zero => omega
    | succ f =>
      simp only [buildLoopTracked] at h ⊢
      by_cases hn : n = d.1.stateTable.length
      · rw [if_pos hn] at h; rw [if_pos hn]; exact h
      · rw [if_neg hn] at h; rw [if_neg hn]
        cases hq : buildLoopTracked grow cbuf fuel (n + 1)
            (processStateTracked grow cbuf n d) with
        | none => rw [hq] at h; cases h
        | some q =>
          rw [hq] at h
          rw [ih (n + 1) _ q hq f (by omega)]
          exact h

theorem addArcTracked_of_checked (grow : Nat → Nat) (capacity : Nat) (cbuf : List CChar)
    (d d2 : DFA) (state : Nat) (arcLabel : CChar) (label : List Word) (signature : Nat)
    (h : addArcChecked capacity cbuf d state arcLabel label signature = some d2) :
    addArcTracked grow capacity cbuf d state arcLabel label signature = (d2, capacity) := by
  unfold addArcChecked at h
  unfold addArcTracked
  by_cases hc : capacity ≤ d.stateTable.length ∧
      (getState cbuf d (sortAndRemoveDuplicateWords cbuf label) signature).1.stateTable.length ≠
        d.stateTable.length
  · rw [if_pos hc] at h; cases h
  · rw [if_neg hc] at h
    rw [if_neg hc, Option.some.inj h]

theorem scanWordTracked_of_checked (grow : Nat → Nat) (capacity : Nat) (cbuf : List CChar)
    (state : Nat) (s s2 : Scan) (word : Word)
    (h : scanWordChecked capacity cbuf state s word = some s2) :
    scanWordTracked grow cbuf state (s, capacity) word = (s2, capacity) := by
  unfold scanWordChecked at h
  unfold scanWordTracked
  by_cases h1 : word.start = word.stop
  · rw [if_pos h1] at h
    rw [if_pos h1, ← Option.some.inj h]
  · rw [if_neg h1] at h
    rw [if_neg h1]
    by_cases h2 : cbuf.getD word.start 0 ≠ legitimate s.arcLabel (cbuf.getD word.start 0)
    · rw [if_pos h2] at h
      have h2' : cbuf.getD word.start 0 ≠
          legitimate (s, capacity).1.arcLabel (cbuf.getD word.start 0) := h2
      rw [if_pos h2']
      cases ha : addArcChecked capacity cbuf s.dfa state
          (legitimate s.arcLabel (cbuf.getD word.start 0)) s.targetLabel s.targetSignature with
      | none => rw [ha] at h; cases h
      | some d =>
        rw [ha] at h
        have e := addArcTracked_of_checked grow capacity cbuf s.dfa d state _ _ _ ha
        show (_, _) = _
        rw [e, ← Option.some.inj h]
    · rw [if_neg h2] at h
      have h2' : ¬ cbuf.getD word.start 0 ≠
          legitimate (s, capacity).1.arcLabel (cbuf.getD word.start 0) := h2
      rw [if_neg h2', ← Option.some.inj h]

theorem scanLabelTracked_of_checked (grow : Nat → Nat) (capacity : Nat) (cbuf : List CChar)
    (state : Nat) (words : List Word) :
    ∀ (s s2 : Scan), scanLabelChecked capacity cbuf state words s = some s2 →
      words.foldl (scanWordTracked grow cbuf state) (s, capacity) = (s2, capacity) := by
  induction words with
  | nil =>
    intro s s2 h
    simp only [scanLabelChecked] at h
    rw [List.foldl_nil, Option.some.inj h]
  | cons w words ih =>
    intro s s2 h
    simp only [scanLabelChecked] at h
    cases hw : scanWordChecked capacity cbuf state s w with
    | none => rw [hw] at h; cases h
    | some s1 =>
      rw [hw] at h
      rw [List.foldl_cons, scanWordTracked_of_checked grow capacity cbuf state s s1 w hw]
      exact ih s1 s2 h

theorem processStateTracked_of_checked (grow : Nat → Nat) (capacity : Nat) (cbuf : List CChar)
    (state : Nat) (d d2 : DFA) (h : processStateChecked capacity cbuf state d = some d2) :
    processStateTracked grow cbuf state (d, capacity) = (d2, capacity) := by
  unfold processStateChecked at h
  unfold processStateTracked
  cases hl : scanLabelChecked capacity cbuf state (d.pLabelsTable.getD state [])
      (scanStart state d) with
  | none => rw [hl] at h; cases h
  | some s =>
    rw [hl] at h
    have e := scanLabelTracked_of_checked grow capacity cbuf state _ _ s hl
    show scanFinishTracked grow cbuf state
      ((d.pLabelsTable.getD state []).foldl (scanWordTracked grow cbuf state)
        (scanStart state d, capacity)) = _
    rw [e]
    have h3 : scanFinishChecked capacity cbuf state s = some d2 := h
    unfold scanFinishChecked at h3
    unfold scanFinishTracked
    by_cases ht : s.targetLabel.length ≠ 0
    · rw [if_pos ht] at h3
      have ht' : (s, capacity).1.targetLabel.length ≠ 0 := ht
      rw [if_pos ht']
      exact addArcTracked_of_checked grow capacity cbuf s.dfa d2 state _ _ _ h3
    · rw [if_neg ht] at h3
      have ht' : ¬ (s, capacity).1.targetLabel.length ≠ 0 := ht
      rw [if_neg ht', ← Option.some.inj h3]

theorem buildLoopTracked_of_checked (grow : Nat → Nat) (capacity : Nat) (cbuf : List CChar)
    (fuel : Nat) :
    ∀ (n : Nat) (d d2 : DFA), buildLoopChecked capacity cbuf fuel n d = Built.ok d2 →
      ∃ log, buildLoopTracked grow cbuf fuel n (d, capacity) = some (d2, log) := by
  induction fuel with
  | zero =>
    intro n d d2 h
    simp only [buildLoopChecked] at h
    simp only [buildLoopTracked]
    by_cases hn : n = d.stateTable.length
    · rw [if_pos hn] at h
      rw [if_pos hn]
      have : d = d2 := by injection h
      exact ⟨[], by rw [this]⟩
    · rw [if_neg hn] at h; cases h
  | succ fuel ih =>
    intro n d d2 h
    simp only [buildLoopChecked] at h
    simp only [buildLoopTracked]
    by_cases hn : n = d.stateTable.length
    · rw [if_pos hn] at h
      rw [if_pos hn]
      have : d = d2 := by injection h
      exact ⟨[], by rw [this]⟩
    · rw [if_neg hn] at h
      rw [if_neg hn]
      cases hp : processStateChecked capacity cbuf n d with
      | none => rw [hp] at h; cases h
      | some d1 =>
        rw [hp] at h
        rw [processStateTracked_of_checked grow capacity cbuf n d d1 hp]
        obtain ⟨log, hlog⟩ := ih (n + 1) d1 d2 h
        exact ⟨n :: log, by rw [hlog]; rfl⟩

/-- While the state table stays within its capacity the three forms of `build`
agree: when `build` with the reference tracked returns an automaton, `build`
with the capacity carried along returns the same automaton. -/
theorem buildTracked_of_checked (grow : Nat → Nat) (capacity : Nat) (d d2 : DFA)
    (wc : WordCollection) (h : buildChecked capacity d wc = Built.ok d2) :
    buildTracked grow capacity d wc = some d2 := by
  unfold buildChecked at h
  unfold buildTracked
  cases hl : buildLoopChecked capacity wc.wordsCharBuffer (buildFuel wc.words) 0
      (buildStart d wc) with
  | ok d3 =>
    rw [hl] at h
    have hd : destroy d3 = d2 := by injection h
    obtain ⟨log, hlog⟩ := buildLoopTracked_of_checked grow capacity wc.wordsCharBuffer _ 0 _ d3 hl
    rw [hlog]
    show some (destroy d3) = some d2
    rw [hd]
  | dangling => rw [hl] at h; cases h
  | outOfFuel => rw [hl] at h; cases h

/-! ### The automaton of a single word, with the storage of the state table -/

theorem Builder.getState_chain (b : Builder) (w : List CChar) (k sig : Nat)
    (hl : b.labels = chainLabels w k) (hs : b.stateTable.length = k + 1) (hk : k < w.length) :
    (b.getState [w.drop (k + 1)] sig).1.labels = chainLabels w (k + 1) ∧
      (b.getState [w.drop (k + 1)] sig).1.stateTable =
        b.stateTable ++ [⟨k + 1, 0, 0, false⟩] ∧
      (b.getState [w.drop (k + 1)] sig).1.arcLabels = b.arcLabels ∧
      (b.getState [w.drop (k + 1)] sig).1.arcTargets = b.arcTargets ∧
      (b.getState [w.drop (k + 1)] sig).2 = k + 1 := by
  have hlen : b.labels.length = b.stateTable.length := by rw [hl, chainLabels_length, hs]
  obtain ⟨news, hn, a1, a2, a3, a4, _⟩ := b.getState_spec [w.drop (k + 1)] sig
  obtain ⟨t1, t2⟩ := b.getState_target [w.drop (k + 1)] sig hlen (by simp)
  have hll : b.labels.length = k + 1 := by rw [hl, chainLabels_length]
  rcases hn with h0 | h1
  · exfalso
    rw [h0, List.append_nil] at a3
    rw [a3, hl, chainLabels_length] at t1
    rw [a3, hl, chainLabels_getD w k _ t1] at t2
    have q := congrArg List.length (List.cons.inj t2).1
    simp only [List.length_drop] at q
    omega
  · rw [h1] at a3 a4
    have a3' : (b.getState [w.drop (k + 1)] sig).1.labels = chainLabels w (k + 1) := by
      rw [a3, hl, chainLabels_succ]
    rw [a3', chainLabels_length] at t1
    rw [a3', chainLabels_getD w (k + 1) _ t1] at t2
    have q := congrArg List.length (List.cons.inj t2).1
    simp only [List.length_drop] at q
    refine ⟨a3', ?_, a1, a2, by omega⟩
    rw [a4, hll]
    rfl

theorem Builder.processStateT_single (grow : Nat → Nat) (cap : Nat) (b : Builder) (k : Nat)
    (c : CChar) (rest : List CChar) (hlab : b.labels.getD k [] = [c :: rest]) :
    Builder.processStateT grow k (b, cap) =
      Builder.addArcT grow cap
        { b with stateTable := setUp b.stateTable k b.arcLabels.length } k c [rest]
        (hashChars startHashValue rest) := by
  unfold Builder.processStateT
  show Builder.scanFinishT grow k
    ((b.labels.getD k []).foldl (Builder.scanWordT grow k) (Builder.scanStart k b, cap)) = _
  rw [hlab, List.foldl_cons, List.foldl_nil]
  have hleg : ¬ c ≠ legitimate (-1) c := by simp [legitimate]
  have e : Builder.scanWordT grow k (Builder.scanStart k b, cap) (c :: rest) =
      ({ builder := { b with stateTable := setUp b.stateTable k b.arcLabels.length },
         targetLabel := [rest],
         targetSignature := hashChars startHashValue rest,
         arcLabel := c }, cap) := by
    show (if c ≠ legitimate (-1) c then _ else _) = _
    rw [if_neg hleg]
    simp [Builder.scanStart, legitimate]
  rw [e]
  unfold Builder.scanFinishT
  rw [if_pos (by simp)]

theorem Builder.processStateT_chain (grow : Nat → Nat) (cap : Nat) (b : Builder)
    (w : List CChar) (k : Nat) (hl : b.labels = chainLabels w k)
    (hs : b.stateTable.length = k + 1) (hk : k < w.length) :
    (Builder.processStateT grow k (b, cap)).1.labels = chainLabels w (k + 1) ∧
      (Builder.processStateT grow k (b, cap)).1.stateTable.length = k + 2 ∧
      (Builder.processStateT grow k (b, cap)).1.arcLabels = b.arcLabels ++ [w.getD k 0] ∧
      (Builder.processStateT grow k (b, cap)).1.arcTargets = b.arcTargets ++ [k + 1] ∧
      (∀ j, j < k → (Builder.processStateT grow k (b, cap)).1.stateAt j = b.stateAt j) ∧
      (Builder.processStateT grow k (b, cap)).1.stateAt k =
        ⟨(b.stateAt k).label, b.arcLabels.length, if cap ≤ k + 1 then 0 else 1, false⟩ ∧
      (Builder.processStateT grow k (b, cap)).1.stateAt (k + 1) = ⟨k + 1, 0, 0, false⟩ ∧
      (Builder.processStateT grow k (b, cap)).2 = if cap ≤ k + 1 then grow cap else cap := by
  have hdrop : w.drop k = w.getD k 0 :: w.drop (k + 1) := by
    rw [List.drop_eq_getElem_cons hk, List.getD_eq_getElem _ _ hk]
  have hlab : b.labels.getD k [] = [w.getD k 0 :: w.drop (k + 1)] := by
    rw [hl, chainLabels_getD w k k (by omega), hdrop]
  have hkn : k < b.stateTable.length := by omega
  obtain ⟨u1, u2, u3⟩ := setUp_spec b k hkn
  have hs0 : (setUp b.stateTable k b.arcLabels.length).length = k + 1 := by rw [u2, hs]
  obtain ⟨g1, g2, g3, g4, g5⟩ := Builder.getState_chain
    { b with stateTable := setUp b.stateTable k b.arcLabels.length } w k
    (hashChars startHashValue (w.drop (k + 1))) hl hs0 hk
  rw [Builder.processStateT_single grow cap b k _ _ hlab]
  unfold Builder.addArcT
  rw [canonicalize_single]
  by_cases hc : cap ≤ k + 1
  · have hcond : cap ≤ (setUp b.stateTable k b.arcLabels.length).length ∧
        (Builder.getState { b with stateTable := setUp b.stateTable k b.arcLabels.length }
          [w.drop (k + 1)] (hashChars startHashValue (w.drop (k + 1)))).1.stateTable.length ≠
          (setUp b.stateTable k b.arcLabels.length).length := by
      rw [g2, List.length_append, hs0]
      exact ⟨hc, by simp⟩
    rw [if_pos hcond, if_pos hc]
    refine ⟨g1, ?_, ?_, ?_, ?_, ?_, ?_, by rw [if_pos hc]⟩
    · show (Builder.getState _ _ _).1.stateTable.length = k + 2
      rw [g2, List.length_append, hs0]; rfl
    · show (Builder.getState _ _ _).1.arcLabels ++ [w.getD k 0] = _
      rw [g3]
    · show (Builder.getState _ _ _).1.arcTargets ++ [(Builder.getState _ _ _).2] = _
      rw [g4, g5]
    · intro j hj
      show (Builder.getState _ _ _).1.stateTable.getD j ⟨0, 0, 0, false⟩ = _
      rw [g2, stateAt_append_left _ _ _ (by rw [hs0]; omega)]
      exact u3 j (by omega)
    · show (Builder.getState _ _ _).1.stateTable.getD k ⟨0, 0, 0, false⟩ = _
      rw [g2, stateAt_append_left _ _ _ (by rw [hs0]; omega)]
      exact u1
    · show (Builder.getState _ _ _).1.stateTable.getD (k + 1) ⟨0, 0, 0, false⟩ = _
      rw [g2, List.getD_eq_getElem _ _ (by rw [List.length_append, hs0]; simp)]
      rw [List.getElem_append_right (by rw [hs0])]
      simp [hs0]
  · have hcond : ¬ (cap ≤ (setUp b.stateTable k b.arcLabels.length).length ∧
        (Builder.getState { b with stateTable := setUp b.stateTable k b.arcLabels.length }
          [w.drop (k + 1)] (hashChars startHashValue (w.drop (k + 1)))).1.stateTable.length ≠
          (setUp b.stateTable k b.arcLabels.length).length) := by
      rw [hs0]
      exact fun h => hc h.1
    rw [if_neg hcond, if_neg hc]
    unfold Builder.addArc
    rw [canonicalize_single]
    have hlen2 : (setUp b.stateTable k b.arcLabels.length ++
        [(⟨k + 1, 0, 0, false⟩ : State)]).length = k + 2 := by
      rw [List.length_append, hs0]; rfl
    refine ⟨g1, ?_, ?_, ?_, ?_, ?_, ?_, by rw [if_neg hc]⟩
    · show (incNumArcs (Builder.getState _ _ _).1.stateTable k).length = k + 2
      rw [g2]
      unfold incNumArcs
      rw [List.length_set, hlen2]
    · show (Builder.getState _ _ _).1.arcLabels ++ [w.getD k 0] = _
      rw [g3]
    · show (Builder.getState _ _ _).1.arcTargets ++ [(Builder.getState _ _ _).2] = _
      rw [g4, g5]
    · intro j hj
      show (incNumArcs (Builder.getState _ _ _).1.stateTable k).getD j ⟨0, 0, 0, false⟩ = _
      rw [g2]
      unfold incNumArcs
      rw [getD_set_ne _ _ _ _ (by omega), stateAt_append_left _ _ _ (by rw [hs0]; omega)]
      exact u3 j (by omega)
    · show (incNumArcs (Builder.getState _ _ _).1.stateTable k).getD k ⟨0, 0, 0, false⟩ = _
      rw [g2]
      unfold incNumArcs
      rw [getD_set_self _ _ _ (by rw [hlen2]; omega),
        stateAt_append_left _ _ _ (by rw [hs0]; omega)]
      have u1' : (setUp b.stateTable k b.arcLabels.length).getD k ⟨0, 0, 0, false⟩ =
          { b.stateAt k with arcOffset := b.arcLabels.length, numArcs := 0, isFinal := false } :=
        u1
      rw [u1']
      rfl
    · show (incNumArcs (Builder.getState _ _ _).1.stateTable k).getD (k + 1)
        ⟨0, 0, 0, false⟩ = _
      rw [g2]
      unfold incNumArcs
      rw [getD_set_ne _ _ _ _ (by omega),
        List.getD_eq_getElem _ _ (by rw [hlen2]; omega)]
      rw [List.getElem_append_right (by rw [hs0])]
      simp [hs0]

theorem Builder.processStateT_chain_last (grow : Nat → Nat) (cap : Nat) (b : Builder)
    (w : List CChar) (hl : b.labels = chainLabels w w.length)
    (hs : b.stateTable.length = w.length + 1) :
    (Builder.processStateT grow w.length (b, cap)).1.stateTable.length = w.length + 1 ∧
      (Builder.processStateT grow w.length (b, cap)).1.arcLabels = b.arcLabels ∧
      (Builder.processStateT grow w.length (b, cap)).1.arcTargets = b.arcTargets ∧
      (∀ j, j < w.length →
        (Builder.processStateT grow w.length (b, cap)).1.stateAt j = b.stateAt j) ∧
      (Builder.processStateT grow w.length (b, cap)).1.stateAt w.length =
        ⟨(b.stateAt w.length).label, b.arcLabels.length, 0, true⟩ := by
  have hlab : b.labels.getD w.length [] = [[]] := by
    rw [hl, chainLabels_getD w _ _ (by omega), List.drop_length]
  have hkn : w.length < b.stateTable.length := by omega
  obtain ⟨u1, u2, u3⟩ := setUp_spec b w.length hkn
  have hs0 : (setUp b.stateTable w.length b.arcLabels.length).length = w.length + 1 := by
    rw [u2, hs]
  have e : Builder.processStateT grow w.length (b, cap) =
      ({ b with stateTable :=
          setFinal (setUp b.stateTable w.length b.arcLabels.length) w.length }, cap) := by
    unfold Builder.processStateT
    show Builder.scanFinishT grow w.length
      ((b.labels.getD w.length []).foldl (Builder.scanWordT grow w.length)
        (Builder.scanStart w.length b, cap)) = _
    rw [hlab, List.foldl_cons, List.foldl_nil]
    rfl
  rw [e]
  refine ⟨?_, rfl, rfl, ?_, ?_⟩
  · show (setFinal _ _).length = _
    rw [setFinal_length, hs0]
  · intro j hj
    show (setFinal _ _).getD j ⟨0, 0, 0, false⟩ = _
    unfold setFinal
    rw [getD_set_ne _ _ _ _ (by omega)]
    exact u3 j (by omega)
  · show (setFinal _ _).getD w.length ⟨0, 0, 0, false⟩ = _
    unfold setFinal
    rw [getD_set_self _ _ _ (by rw [hs0]; omega)]
    have u1' : (setUp b.stateTable w.length b.arcLabels.length).getD w.length
        ⟨0, 0, 0, false⟩ =
        { b.stateAt w.length with
          arcOffset := b.arcLabels.length, numArcs := 0, isFinal := false } := u1
    rw [u1']

theorem Builder.ChainInv.step (grow : Nat → Nat) (w : List CChar) (k : Nat)
    (b : Builder × Nat) (h : Builder.ChainInv w k b) (hk : k < w.length) :
    Builder.ChainInv w (k + 1) (Builder.processStateT grow k b) := by
  obtain ⟨c1, c2, c3, c4, c5, c6, c7, c8⟩ :=
    Builder.processStateT_chain grow b.2 b.1 w k h.labels h.states_len hk
  have hcap := h.capacity hk
  have hb : (b.1, b.2) = b := rfl
  rw [hb] at c1 c2 c3 c4 c5 c6 c7 c8
  refine
    { labels := c1, states_len := c2, arcLabels := ?_, arcTargets := ?_, states := ?_,
      label := ?_, capacity := ?_ }
  · rw [c3, h.arcLabels, List.getD_eq_getElem _ _ hk]
    simp
  · rw [c4, h.arcTargets, List.range_succ, List.map_append]
    rfl
  · intro j hj
    by_cases hjk : j = k
    · subst hjk
      rw [c6, h.label, h.arcLabels, List.length_take, hcap]
      have hmin : min j w.length = j := by omega
      rw [hmin]
      by_cases hlast : j + 1 = w.length
      · rw [if_pos (by omega), if_pos hlast]
      · rw [if_neg (by omega), if_neg hlast]
    · rw [c5 j (by omega)]
      exact h.states j (by omega)
  · rw [c7]
  · intro hk2
    rw [c8, hcap, if_neg (by omega)]

theorem Builder.buildLoopT_chain (grow : Nat → Nat) (w : List CChar) (fuel : Nat) :
    ∀ (k : Nat) (b r : Builder × Nat), k ≤ w.length → Builder.ChainInv w k b →
      Builder.buildLoopT grow fuel k b = some r →
      r.1.stateTable.length = w.length + 1 ∧ r.1.arcLabels = w ∧
        r.1.arcTargets = (List.range w.length).map (fun j => j + 1) ∧
        (∀ j, j < w.length →
          r.1.stateAt j = ⟨j, j, if j + 1 = w.length then 0 else 1, false⟩) ∧
        r.1.stateAt w.length = ⟨w.length, w.length, 0, true⟩ := by
  induction fuel with
  | zero =>
    intro k b r _ hinv h
    simp only [Builder.buildLoopT] at h
    rw [if_neg (by rw [hinv.states_len]; omega)] at h
    cases h
  | succ fuel ih =>
    intro k b r hk hinv h
    simp only [Builder.buildLoopT] at h
    rw [if_neg (by rw [hinv.states_len]; omega)] at h
    by_cases hlt : k < w.length
    · exact ih (k + 1) _ r (by omega) (hinv.step grow w k b hlt) h
    · have hk2 : k = w.length := by omega
      subst hk2
      obtain ⟨c1, c2, c3, c4, c5⟩ :=
        Builder.processStateT_chain_last grow b.2 b.1 w hinv.labels hinv.states_len
      have hb : (b.1, b.2) = b := rfl
      rw [hb] at c1 c2 c3 c4 c5
      have hend : Builder.buildLoopT grow fuel (w.length + 1)
          (Builder.processStateT grow w.length b) =
          some (Builder.processStateT grow w.length b) := by
        cases fuel with
        | zero => simp only [Builder.buildLoopT]; rw [if_pos c1.symm]
        | succ f => simp only [Builder.buildLoopT]; rw [if_pos c1.symm]
      rw [hend] at h
      cases h
      refine ⟨c1, ?_, ?_, ?_, ?_⟩
      · rw [c2, hinv.arcLabels, List.take_length]
      · rw [c3, hinv.arcTargets]
      · intro j hj
        rw [c4 j hj]
        exact hinv.states j hj
      · rw [c5, hinv.label, hinv.arcLabels, List.take_length]

/-- The automaton of a collection with the single word `w`, built on a state
table whose capacity is the length of `w`: the last state is appended to the
full state table inside the `addArc` of the state before it, whose counter
keeps the value 0. -/
theorem buildTracked_single_word (grow : Nat → Nat) (d : DFA) (wc : WordCollection)
    (w : List CChar) (h : wc.WellFormed) (hw : wc.contents = [w]) :
    ∃ d1, buildTracked grow w.length d wc = some d1 ∧
      d1.stateTable.length = w.length + 1 ∧ d1.arcLabels = w ∧
      d1.arcTargets = (List.range w.length).map (fun j => j + 1) ∧
      (∀ j, j < w.length →
        d1.stateTable.getD j ⟨0, 0, 0, false⟩ =
          ⟨j, j, if j + 1 = w.length then 0 else 1, false⟩) ∧
      d1.stateTable.getD w.length ⟨0, 0, 0, false⟩ = ⟨w.length, w.length, 0, true⟩ ∧
      d1.pLabelsTable = [] ∧
      d1.htable = List.replicate d.htable.length TreeNode.nil := by
  obtain ⟨b, d2, hb, _, _, hbuild, hfin⟩ := buildTracked_spec grow w.length d wc h
  have hinv : Builder.ChainInv w 0 (Builder.start d.htable wc.contents, w.length) :=
    { labels := by
        rw [hw]
        show [canonicalize [w]] = [[w.drop 0]]
        rw [canonicalize_single, List.drop_zero]
      states_len := rfl
      arcLabels := rfl
      arcTargets := rfl
      states := fun j hj => absurd hj (Nat.not_lt_zero j)
      label := rfl
      capacity := fun _ => rfl }
  obtain ⟨c1, c2, c3, c4, c5⟩ :=
    Builder.buildLoopT_chain grow w _ 0 _ b (Nat.zero_le _) hinv hb
  rw [hfin] at hbuild
  exact ⟨_, hbuild, c1, c2, c3, c4, c5, rfl, rfl⟩

theorem chain_run (m : DFA) (w : List CChar)
    (hl : m.arcLabels = w)
    (ht : m.arcTargets = (List.range w.length).map (fun j => j + 1))
    (hst : ∀ j, j < w.length →
      m.stateTable.getD j ⟨0, 0, 0, false⟩ =
        ⟨j, j, if j + 1 = w.length then 0 else 1, false⟩) :
    ∀ i, i + 1 ≤ w.length → (w.take i).foldl next (init m) = atState m i := by
  intro i
  induction i with
  | zero => intro _; rfl
  | succ i ih =>
    intro hi
    have hlt : i < w.length := by omega
    have htake : w.take (i + 1) = w.take i ++ [w.getD i 0] := by
      rw [List.getD_eq_getElem _ _ hlt]
      simp
    rw [htake, List.foldl_append, ih (by omega)]
    show next (atState m i) (w.getD i 0) = atState m (i + 1)
    unfold next
    have hdead : (atState m i).dead = false := rfl
    rw [if_neg (by rw [hdead]; simp)]
    have hs : (atState m i).stateTable.getD (atState m i).curState ⟨0, 0, 0, false⟩ =
        ⟨i, i, 1, false⟩ := by
      show m.stateTable.getD i ⟨0, 0, 0, false⟩ = _
      rw [hst i hlt, if_neg (by omega)]
    rw [hs]
    show nextLoop (atState m i) (w.getD i 0) 1 i = _
    unfold nextLoop
    have ha : (atState m i).arcLabels.getD i 0 = w.getD i 0 := by
      show m.arcLabels.getD i 0 = _
      rw [hl]
    rw [if_pos ha]
    have hb : (atState m i).arcTargets.getD i 0 = i + 1 := by
      show m.arcTargets.getD i 0 = _
      rw [ht, List.getD_eq_getElem _ _ (by simpa using hlt)]
      simp
    rw [hb]
    rfl

/-- An automaton whose tables are those of the single word `w` except that
the counter of the state before the last is 0 does not recognize `w`. -/
theorem chain_rejects (m : DFA) (w : List CChar) (hn : 1 ≤ w.length)
    (hl : m.arcLabels = w)
    (ht : m.arcTargets = (List.range w.length).map (fun j => j + 1))
    (hst : ∀ j, j < w.length →
      m.stateTable.getD j ⟨0, 0, 0, false⟩ =
        ⟨j, j, if j + 1 = w.length then 0 else 1, false⟩) :
    recognizes m w = false := by
  have hlt : w.length - 1 < w.length := by omega
  have hsplit : w = w.take (w.length - 1) ++ [w.getD (w.length - 1) 0] := by
    have h1 : w.take (w.length - 1 + 1) = w.take (w.length - 1) ++ [w.getD (w.length - 1) 0] := by
      rw [List.getD_eq_getElem _ _ hlt]
      simp
    have h2 : w.length - 1 + 1 = w.length := by omega
    rw [h2, List.take_length] at h1
    exact h1
  unfold recognizes
  rw [hsplit, List.foldl_append, chain_run m w hl ht hst (w.length - 1) (by omega)]
  show wordRecognized (next (atState m (w.length - 1)) (w.getD (w.length - 1) 0)) = false
  have hs : (atState m (w.length - 1)).stateTable.getD (atState m (w.length - 1)).curState
      ⟨0, 0, 0, false⟩ = ⟨w.length - 1, w.length - 1, 0, false⟩ := by
    show m.stateTable.getD (w.length - 1) ⟨0, 0, 0, false⟩ = _
    rw [hst (w.length - 1) hlt, if_pos (by omega)]
  unfold next
  have hdead : (atState m (w.length - 1)).dead = false := rfl
  rw [if_neg (by rw [hdead]; simp), hs]
  rfl

theorem getNextChar_sameButSize (r r2 : Reader) (h : r.SameButSize r2) :
    (getNextChar r2).1 = (getNextChar r).1 ∧
      (getNextChar r).2.SameButSize (getNextChar r2).2 := by
  rcases h with h | ⟨he, s, h⟩
  · subst h
    exact ⟨rfl, Or.inl rfl⟩
  · subst h
    unfold getNextChar
    by_cases hic : r.ic = BUF_SIZE
    · have hic2 : ({ r with size := s } : Reader).ic = BUF_SIZE := hic
      rw [if_pos hic, if_pos hic2]
      have e : refill { r with size := s } = refill r := rfl
      rw [e]
      exact ⟨rfl, Or.inl rfl⟩
    · have hic2 : ¬ ({ r with size := s } : Reader).ic = BUF_SIZE := hic
      rw [if_neg hic, if_neg hic2]
      exact ⟨rfl, Or.inr ⟨he, s, rfl⟩⟩

theorem readerFuel_sameButSize (r r2 : Reader) (h : r.SameButSize r2) :
    readerFuel r2 = readerFuel r := by
  rcases h with h | ⟨_, s, h⟩
  · rw [h]
  · rw [h]; rfl

theorem endFile_sameButSize (r r2 : Reader) (h : r.SameButSize r2) :
    endFile r2 = endFile r := by
  rcases h with h | ⟨he, s, h⟩
  · rw [h]
  · rw [h]
    unfold endFile
    have he2 : ({ r with size := s } : Reader).eofbit = false := he
    rw [he2]
    rfl

theorem skipSeparators_sameButSize (impl : Impl) (fuel : Nat) :
    ∀ (ch : Int) (r r2 : Reader), r.SameButSize r2 →
      Outcome.Same (fun a a2 => a2.1 = a.1 ∧ a.2.SameButSize a2.2)
        (skipSeparators impl fuel ch r) (skipSeparators impl fuel ch r2) := by
  induction fuel with
  | zero => intro ch r r2 _; simp only [skipSeparators]; trivial
  | succ fuel ih =>
    intro ch r r2 h
    simp only [skipSeparators]
    cases tableRead impl.buffer impl.separator ch with
    | none => trivial
    | some v =>
      by_cases hv : v ≠ 0
      · simp only [if_pos hv]
        obtain ⟨g1, g2⟩ := getNextChar_sameButSize r r2 h
        rw [g1]
        exact ih _ _ _ g2
      · simp only [if_neg hv]
        exact ⟨rfl, h⟩

theorem scanToken_sameButSize (impl : Impl) (fuel : Nat) :
    ∀ (ch : Int) (r r2 : Reader) (dst : List CChar) (m : DFA), r.SameButSize r2 →
      Outcome.Same
        (fun a a2 => a2.1 = a.1 ∧ a.2.1.SameButSize a2.2.1 ∧ a2.2.2 = a.2.2)
        (scanToken impl fuel ch r dst m) (scanToken impl fuel ch r2 dst m) := by
  induction fuel with
  | zero => intro ch r r2 dst m _; simp only [scanToken]; trivial
  | succ fuel ih =>
    intro ch r r2 dst m h
    simp only [scanToken]
    cases tableRead impl.buffer impl.token ch with
    | none => trivial
    | some v =>
      by_cases hv : v ≠ 0
      · simp only [if_pos hv]
        cases tableRead impl.buffer impl.lower ch with
        | none => trivial
        | some chlower =>
          obtain ⟨g1, g2⟩ := getNextChar_sameButSize r r2 h
          simp only []
          rw [g1]
          exact ih _ _ _ _ _ g2
      · simp only [if_neg hv]
        exact ⟨rfl, h, rfl⟩

theorem Outcome.Same.elim_cases {α : Type} {P : α → α → Prop} {o o2 : Outcome α}
    (h : Outcome.Same P o o2) :
    (∃ a a2, o = Outcome.ok a ∧ o2 = Outcome.ok a2 ∧ P a a2) ∨
      (o = Outcome.outOfBounds ∧ o2 = Outcome.outOfBounds) ∨
      (o = Outcome.outOfFuel ∧ o2 = Outcome.outOfFuel) := by
  cases o with
  | ok a =>
    cases o2 with
    | ok a2 => exact Or.inl ⟨a, a2, rfl, rfl, h⟩
    | outOfBounds => exact absurd h (by simp [Outcome.Same])
    | outOfFuel => exact absurd h (by simp [Outcome.Same])
  | outOfBounds =>
    cases o2 with
    | ok a2 => exact absurd h (by simp [Outcome.Same])
    | outOfBounds => exact Or.inr (Or.inl ⟨rfl, rfl⟩)
    | outOfFuel => exact absurd h (by simp [Outcome.Same])
  | outOfFuel =>
    cases o2 with
    | ok a2 => exact absurd h (by simp [Outcome.Same])
    | outOfBounds => exact absurd h (by simp [Outcome.Same])
    | outOfFuel => exact Or.inr (Or.inr ⟨rfl, rfl⟩)

theorem getWordLoop_sameButSize (impl : Impl) (fuel : Nat) :
    ∀ (r r2 : Reader) (dst : List CChar) (m : DFA), r.SameButSize r2 →
      Outcome.Same
        (fun a a2 => a2.1 = a.1 ∧ a.2.1.SameButSize a2.2.1 ∧ a2.2.2 = a.2.2)
        (getWordLoop impl fuel r dst m) (getWordLoop impl fuel r2 dst m) := by
  induction fuel with
  | zero => intro r r2 dst m _; simp only [getWordLoop]; trivial
  | succ fuel ih =>
    intro r r2 dst m h
    simp only [getWordLoop]
    obtain ⟨g1, g2⟩ := getNextChar_sameButSize r r2 h
    rw [readerFuel_sameButSize r r2 h, g1]
    rcases (skipSeparators_sameButSize impl (readerFuel r) (getNextChar r).1 _ _ g2).elim_cases
      with ⟨a, a2, e1, e2, p1, p2⟩ | ⟨e1, e2⟩ | ⟨e1, e2⟩
    · rw [e1, e2]
      obtain ⟨ch, r1⟩ := a
      obtain ⟨ch', r1'⟩ := a2
      have p1' : ch' = ch := p1
      have p2' : r1.SameButSize r1' := p2
      subst p1'
      simp only []
      rw [readerFuel_sameButSize r1 r1' p2']
      rcases (scanToken_sameButSize impl (readerFuel r1) ch' r1 r1' dst (init m) p2').elim_cases
        with ⟨b, b2, f1, f2, q1, q2, q3⟩ | ⟨f1, f2⟩ | ⟨f1, f2⟩
      · rw [f1, f2]
        obtain ⟨ch2, r3, dst2, m2⟩ := b
        obtain ⟨ch2', r3', dst2', m2'⟩ := b2
        have q1' : ch2' = ch2 := q1
        have q2' : r3.SameButSize r3' := q2
        have q3' : (dst2', m2') = (dst2, m2) := q3
        subst q1'
        cases q3'
        simp only []
        by_cases hc : ch2' ≠ EOF ∧ termFirst (if wordRecognized m2 then [] else dst2) = 0
        · simp only [if_pos hc]
          exact ih _ _ _ _ q2'
        · simp only [if_neg hc]
          exact ⟨rfl, q2', rfl⟩
      · rw [f1, f2]; trivial
      · rw [f1, f2]; trivial
    · rw [e1, e2]; trivial
    · rw [e1, e2]; trivial

theorem getWord_sameButSize (impl : Impl) (r r2 : Reader) (term : List CChar)
    (h : r.SameButSize r2) :
    Outcome.Same
      (fun a a2 => a2.1 = a.1 ∧ a2.2.1 = a.2.1 ∧ a.2.2.1.SameButSize a2.2.2.1 ∧
        a2.2.2.2 = a.2.2.2)
      (getWord impl r term) (getWord impl r2 term) := by
  unfold getWord
  rw [endFile_sameButSize r r2 h, readerFuel_sameButSize r r2 h]
  by_cases he : endFile r = true
  · simp only [he, if_true]
    exact ⟨rfl, rfl, h, rfl⟩
  · simp only [he]
    rcases (getWordLoop_sameButSize impl (readerFuel r) r r2 [] impl.machine h).elim_cases
      with ⟨b, b2, f1, f2, q1, q2, q3⟩ | ⟨f1, f2⟩ | ⟨f1, f2⟩
    · rw [f1, f2]
      obtain ⟨ch2, r3, dst2, m2⟩ := b
      obtain ⟨ch2', r3', dst2', m2'⟩ := b2
      have q2' : r3.SameButSize r3' := q2
      have q3' : (dst2', m2') = (dst2, m2) := q3
      cases q3'
      exact ⟨rfl, rfl, q2', rfl⟩
    · rw [f1, f2]; trivial
    · rw [f1, f2]; trivial

/-- The terms `getWord` delivers do not depend on the static `size` as long as
the stream has not met its end. -/
theorem getWords_sameButSize (fuel : Nat) :
    ∀ (impl : Impl) (r r2 : Reader) (term : List CChar), r.SameButSize r2 →
      getWords impl fuel r2 term = getWords impl fuel r term := by
  induction fuel with
  | zero => intro impl r r2 term _; rfl
  | succ fuel ih =>
    intro impl r r2 term h
    simp only [getWords]
    rcases (getWord_sameButSize impl r r2 term h).elim_cases
      with ⟨b, b2, f1, f2, q1, q2, q3, q4⟩ | ⟨f1, f2⟩ | ⟨f1, f2⟩
    · rw [f1, f2]
      obtain ⟨v, impl1, r1, term1⟩ := b
      obtain ⟨v', impl1', r1', term1'⟩ := b2
      have q1' : v' = v := q1
      have q2' : impl1' = impl1 := q2
      have q3' : r1.SameButSize r1' := q3
      have q4' : term1' = term1 := q4
      subst q1' q2' q4'
      cases v' with
      | true =>
        simp only []
        rw [ih impl1' r1 r1' term1' q3']
      | false => rfl
    · rw [f1, f2]
    · rw [f1, f2]

/-- The tokenizer on a stream opened in any state of the statics, for any
automaton: `getNextChar` first returns the rest of the static buffer,
`readbuf[ic .. BUF_SIZE)`, and then the stream; when these characters are
ASCII the terms delivered are their lowercased token runs without those the
automaton recognizes. -/
theorem getWords_any_reader (m0 : DFA) (impl : Impl) (r : Reader) (term : List CChar)
    (ht : impl.HasTables) (hm : impl.machine.SameTables m0)
    (heof : r.eofbit = false) (hbuf : r.readbuf.length = BUF_SIZE) (hic : r.ic ≤ BUF_SIZE)
    (hascii : ∀ c ∈ r.readbuf.drop r.ic ++ r.file, isASCII c) :
    getWords impl ((r.readbuf.drop r.ic ++ r.file).length + 1) r term =
      Outcome.ok (filterTerms m0 (r.readbuf.drop r.ic ++ r.file)) := by
  have hok : Reader.Ok { r with size := BUF_SIZE } :=
    { size_le := Nat.le_refl _, buf_len := hbuf, ic_le := Or.inl hic,
      eof := fun h => by
        have h2 : r.eofbit = true := h
        rw [heof] at h2
        cases h2
      noeof := fun _ => Or.inl rfl }
  have hpend : Reader.pending { r with size := BUF_SIZE } = r.readbuf.drop r.ic ++ r.file := by
    show (r.readbuf.take BUF_SIZE).drop r.ic ++ r.file = _
    rw [List.take_of_length_le (by rw [hbuf])]
  have hnd : ¬ Reader.Done { r with size := BUF_SIZE } := by
    intro h
    have h2 : r.eofbit = true := h.1
    rw [heof] at h2
    cases h2
  have hholds : Reader.Holds { r with size := BUF_SIZE } (r.readbuf.drop r.ic ++ r.file) :=
    ⟨hok, Or.inr ⟨hnd, hpend⟩⟩
  have hsame : Reader.SameButSize { r with size := BUF_SIZE } r :=
    Or.inr ⟨heof, r.size, rfl⟩
  rw [getWords_sameButSize _ impl _ r term hsame]
  exact getWords_spec m0 _ impl _ _ term ht hm hholds hascii (Nat.lt_succ_self _)

theorem tokenRuns_blanks (n : Nat) (l : List CChar) :
    tokenRuns none (List.replicate n 32 ++ l) = tokenRuns none l := by
  induction n with
  | zero => rfl
  | succ n ih =>
    rw [List.replicate_succ, List.cons_append]
    show (if isalpha 32 then _ else _) = _
    rw [if_neg (by decide)]
    exact ih

/-- The statics of the reader are not reset when a stream is opened: on the
stream `"y"` opened in the state `staleReader`, with an empty stop-word list,
the calls of `getWord` deliver the single term `"xy"`, whose first letter is
the last character of the first block of the stream read before. -/
theorem second_stream_reads_old_buffer :
    ∃ impl, setStopWords Impl.fresh [] = some impl ∧
      getWords impl
          ((staleReader.readbuf.drop staleReader.ic ++ staleReader.file).length + 1)
          staleReader [] =
        Outcome.ok [[120, 121]] ∧
      tokenRuns none staleReader.file = [[121]] := by
  obtain ⟨d, hd, _, _, _, hrec⟩ := build_empty Impl.fresh.machine []
  have hrest : staleReader.readbuf.drop staleReader.ic ++ staleReader.file =
      List.replicate (BUF_SIZE - 3) 32 ++ [120, 121] := by
    show (List.replicate (BUF_SIZE - 3) 32 ++ [120]) ++ [121] = _
    rw [List.append_assoc]
    rfl
  refine ⟨buildCharTables { Impl.fresh with machine := d }, ?_, ?_, by decide⟩
  · unfold setStopWords
    have e : loadStopWords [] = { wordsCharBuffer := [], words := [] } := rfl
    rw [e, hd]
    rfl
  · have h3 : 3 ≤ BUF_SIZE := by decide
    have hlen : staleReader.readbuf.length = BUF_SIZE := by
      show ([122, -1] ++ (List.replicate (BUF_SIZE - 3) (32 : CChar) ++ [120])).length = BUF_SIZE
      rw [List.length_append, List.length_append, List.length_replicate]
      show 2 + (BUF_SIZE - 3 + 1) = BUF_SIZE
      omega
    have hic : staleReader.ic ≤ BUF_SIZE := by
      show 2 ≤ BUF_SIZE
      omega
    have hascii : ∀ c ∈ staleReader.readbuf.drop staleReader.ic ++ staleReader.file,
        isASCII c := by
      rw [hrest]
      intro c hc
      rw [List.mem_append] at hc
      rcases hc with h | h
      · rw [List.eq_of_mem_replicate h]; decide
      · revert c; decide
    have key := getWords_any_reader d (buildCharTables { Impl.fresh with machine := d })
      staleReader [] (buildCharTables_hasTables _) ⟨rfl, rfl, rfl⟩ rfl hlen hic hascii
    have hf : filterTerms d (List.replicate (BUF_SIZE - 3) 32 ++ [120, 121]) =
        [[120, 121]] := by
      unfold filterTerms
      rw [tokenRuns_blanks]
      have ht : tokenRuns none [120, 121] = [[120, 121]] := by decide
      rw [ht, List.filter_eq_self]
      intro t _
      show (!recognizes d t) = true
      rw [hrec t]
      rfl
    rw [key, hrest, hf]

/-! ## The claims -/

/-- C1 (exact recognition) fails on the code: for the stop-word file with the
two lines `"\xFFb"` and `"a"` the automaton `build` produces does not recognize
the listed word `"\xFFb"`. The byte `0xFF` is the character `-1`, the value the
inner loop of `build` uses for "no arc label yet", so the run of the words that
start with it is merged into the run of the next first character. -/
theorem C1_sentinel_word_rejected :
    ∃ d, build (DFA.fresh false 0) (loadStopWords [[-1, 98], [97]]) = some d ∧
      [-1, 98] ∈ (loadStopWords [[-1, 98], [97]]).contents ∧
      recognizes d [-1, 98] = false :=
  ⟨{ stateTable := [⟨0, 0, 1, false⟩, ⟨1, 1, 1, true⟩, ⟨2, 2, 0, true⟩],
     arcLabels := [97, 98], arcTargets := [1, 2], pLabelsTable := [],
     htable := List.replicate HASH_TABLE_SIZE TreeNode.nil, dead := false, curState := 0 },
    by decide, by decide, by decide⟩

/-- C2 (no over-acceptance) fails on the code: for the stop-word file with the
two lines `"\xFFb"` and `"a"` the automaton recognizes `"ab"`, which is not a
word of the list. -/
theorem C2_string_outside_list_accepted :
    ∃ d, build (DFA.fresh false 0) (loadStopWords [[-1, 98], [97]]) = some d ∧
      [97, 98] ∉ (loadStopWords [[-1, 98], [97]]).contents ∧
      recognizes d [97, 98] = true :=
  ⟨{ stateTable := [⟨0, 0, 1, false⟩, ⟨1, 1, 1, true⟩, ⟨2, 2, 0, true⟩],
     arcLabels := [97, 98], arcTargets := [1, 2], pLabelsTable := [],
     htable := List.replicate HASH_TABLE_SIZE TreeNode.nil, dead := false, curState := 0 },
    by decide, by decide, by decide⟩

set_option maxRecDepth 100000 in
/-- The example of the specification for the tokenizer: with the stop word
`"the"`, the input `"The Quick fox"` yields `"quick"`, then `"fox"`, then the
end of the stream. -/
theorem tokenizer_filtering_example :
    (setStopWords Impl.fresh [[116, 104, 101]]).map
        (fun impl => getWords impl 3
          (Reader.opened [84, 104, 101, 32, 81, 117, 105, 99, 107, 32, 102, 111, 120]) []) =
      some (Outcome.ok [[113, 117, 105, 99, 107], [102, 111, 120]]) := by
  decide

set_option maxRecDepth 100000 in
/-- C3 (tokenizer filtering) fails on the code: with the stop words `"\xFFb"`
and `"a"` the ASCII input `"ab"` yields no term, although `"ab"` is a token run
that is not a stop word. -/
theorem C3_token_run_outside_list_removed :
    (setStopWords Impl.fresh [[-1, 98], [97]]).map
        (fun impl => getWords impl 3 (Reader.opened [97, 98]) []) = some (Outcome.ok []) ∧
      expectedTerms [[-1, 98], [97]] [97, 98] = [[97, 98]] := by
  decide

set_option maxRecDepth 100000 in
/-- The example of the specification for an input of stop words only: with the
stop words `"a"` and `"the"`, the first call of `getWord` on `"a the a"`
returns `false` and leaves an empty term. -/
theorem all_stop_words_example :
    (setStopWords Impl.fresh [[97], [116, 104, 101]]).map
        (fun impl => returned
          (getWord impl (Reader.opened [97, 32, 116, 104, 101, 32, 97]) [120])) =
      some (Outcome.ok (false, [])) := by
  decide

set_option maxRecDepth 100000 in
/-- The read of `separator[ch]` for the byte `0x80`: on the input that consists
of this byte alone `getWord` reads `separator[-128]`, an element in front of
the member `buffer`. -/
theorem separator_read_in_front_of_buffer :
    (setStopWords Impl.fresh [[97]]).map
        (fun impl => returned (getWord impl (Reader.opened [-128]) [])) =
      some Outcome.outOfBounds := by
  decide

set_option maxRecDepth 100000 in
/-- C4 (input of stop words and separators only) fails on the code: with the
stop word `"a"`, on the input `"a\x80"`, whose only token run is the stop word
`"a"` and whose second byte is no letter and no apostrophe, the first call of
`getWord` returns `true` and delivers the term `"a"`, where the claim has
`false` and an empty term: every read of the call lies inside the member
`buffer`, and `token[-128]`, which is the element `separator[128]`, holds 1. -/
theorem C4_stop_word_delivered_before_byte_0x80 :
    (setStopWords Impl.fresh [[97]]).map
        (fun impl => returned (getWord impl (Reader.opened [97, -128]) [])) =
        some (Outcome.ok (true, [97])) ∧
      tokenRuns none [97, -128] = [[97]] ∧
      expectedTerms [[97]] [97, -128] = [] ∧
      isTokenChar (-128) = false ∧
      (setStopWords Impl.fresh [[97]]).map
        (fun impl => (tableRead impl.buffer impl.token (-128),
          tableRead impl.buffer impl.separator 128,
          tableRead impl.buffer impl.lower (-128))) =
        some (some 1, some 1, some 0) := by
  decide

/-- C5 (minimality) fails on the code: for the stop-word file with the lines
`"\xFFa"`, `"aa"` and `"ba"` the states 1 and 2 of the automaton are distinct
and have the same right language. -/
theorem C5_two_states_same_right_language :
    ∃ d, build (DFA.fresh false 0) (loadStopWords [[-1, 97], [97, 97], [98, 97]]) = some d ∧
      1 < d.stateTable.length ∧ 2 < d.stateTable.length ∧
      ∀ s, acceptsFrom d 1 s = acceptsFrom d 2 s := by
  refine ⟨{
     stateTable := [⟨0, 0, 2, false⟩, ⟨1, 2, 1, false⟩, ⟨2, 3, 1, false⟩, ⟨3, 4, 0, true⟩],
     arcLabels := [97, 98, 97, 97], arcTargets := [1, 2, 3, 3], pLabelsTable := [],
     htable := List.replicate HASH_TABLE_SIZE TreeNode.nil, dead := false, curState := 0 },
    by decide, by decide, by decide, ?_⟩
  intro s
  cases s with
  | nil => rfl
  | cons c s =>
    unfold acceptsFrom
    simp only [List.foldl_cons]
    by_cases hc : c = 97
    · subst hc; rfl
    · have hc2 : ¬ (97 : Int) = c := fun h => hc h.symm
      rw [foldl_next_dead s _ (by simp [next, atState, nextLoop, hc2]),
        foldl_next_dead s _ (by simp [next, atState, nextLoop, hc2])]
      simp [next, atState, nextLoop, hc2, wordRecognized]

/-- C7 as stated fails: the start state of the automaton built from an empty
word list is not marked final. -/
theorem C7_start_state_not_final :
    ¬ ∃ d, build (DFA.fresh false 0) { wordsCharBuffer := [], words := [] } = some d ∧
      d.stateTable.length = 1 ∧
      (d.stateTable.getD 0 ⟨0, 0, 0, false⟩).isFinal = true ∧
      (d.stateTable.getD 0 ⟨0, 0, 0, false⟩).numArcs = 0 := by
  rintro ⟨d, hd, _, hf, _⟩
  have e : build (DFA.fresh false 0) { wordsCharBuffer := [], words := [] } =
      some { stateTable := [{ label := 0, arcOffset := 0, numArcs := 0, isFinal := false }],
             arcLabels := [], arcTargets := [], pLabelsTable := [],
             htable := List.replicate HASH_TABLE_SIZE TreeNode.nil,
             dead := false, curState := 0 } := by decide
  rw [e] at hd
  cases hd
  cases hf

/-- C7, amended: `build` on an empty word list yields an automaton with exactly
one state, the start state 0, which is not marked final and has no arcs, so
that every string, the empty one included, is rejected. -/
theorem C7_empty_list_automaton (d0 : DFA) (cbuf : List CChar) :
    ∃ d, build d0 { wordsCharBuffer := cbuf, words := [] } = some d ∧
      d.stateTable = [{ label := 0, arcOffset := 0, numArcs := 0, isFinal := false }] ∧
      d.arcLabels = [] ∧ d.arcTargets = [] ∧
      ∀ s, recognizes d s = false :=
  build_empty d0 cbuf

theorem exampleAutomaton_built :
    build (DFA.fresh false 0) (loadStopWords [[97]]) = some exampleAutomaton := by
  decide

theorem charTables_below_255 (impl : Impl) (c : Nat) (hc : c < 255) :
    tableRead (buildCharTables impl).buffer (buildCharTables impl).separator (c : Int) =
        some (if isalpha (c : Int) then 0 else 1) ∧
      tableRead (buildCharTables impl).buffer (buildCharTables impl).token (c : Int) =
        some (if isalpha (c : Int) || decide ((c : Int) = 39) then 1 else 0) ∧
      tableRead (buildCharTables impl).buffer (buildCharTables impl).lower (c : Int) =
        some (toChar (tolower (c : Int))) := by
  have e1 : (buildCharTables impl).separator = 1 := rfl
  have e2 : (buildCharTables impl).token = 257 := rfl
  have e3 : (buildCharTables impl).lower = 513 := rfl
  rw [e1, e2, e3]
  refine ⟨?_, ?_, ?_⟩
  · unfold tableRead
    rw [if_pos (by simp only [BUFFER_SIZE]; omega)]
    have e : ((1 : Nat) + (c : Int)).toNat = c + 1 := by omega
    simp only [Nat.cast_one] at e ⊢
    rw [e, buildCharTables_buffer]
    rw [if_neg (by omega), if_neg (by omega), if_neg (by omega), if_pos (by omega)]
    simp
  · unfold tableRead
    rw [if_pos (by simp only [BUFFER_SIZE]; omega)]
    have e : (((257 : Nat) : Int) + (c : Int)).toNat = c + 257 := by omega
    rw [e, buildCharTables_buffer]
    rw [if_neg (by omega), if_pos (by omega)]
    simp
  · unfold tableRead
    rw [if_pos (by simp only [BUFFER_SIZE]; omega)]
    have e : (((513 : Nat) : Int) + (c : Int)).toNat = c + 513 := by omega
    rw [e, buildCharTables_buffer]
    rw [if_pos (by omega)]
    simp only [Nat.add_sub_cancel]

/-- C6 (determinism): for every collection of spans that lie inside the
buffer, whatever the capacity of the state table and its growth at a
reallocation, `build` returns an automaton in which the arc range of every
state lies inside the arc table and the characters on the arcs of the state
are pairwise distinct; when the reference `State &state` of `addArc` never
dangles it is the automaton `buildChecked` returns. -/
theorem C6_arcs_pairwise_distinct (grow : Nat → Nat) (capacity : Nat) (d0 : DFA)
    (wc : WordCollection) (h : wc.WellFormed) :
    ∃ d, buildTracked grow capacity d0 wc = some d ∧
      (∀ k, k < d.stateTable.length →
        (d.stateTable.getD k ⟨0, 0, 0, false⟩).arcOffset +
            (d.stateTable.getD k ⟨0, 0, 0, false⟩).numArcs ≤ d.arcLabels.length ∧
          (arcsOf d.stateTable d.arcLabels k).Nodup) ∧
      ∀ d2, buildChecked capacity d0 wc = Built.ok d2 → d2 = d := by
  obtain ⟨b, d2, _, hinv, _, hbuild, hfin⟩ := buildTracked_spec grow capacity d0 wc h
  rw [hfin] at hbuild
  refine ⟨_, hbuild, ?_, ?_⟩
  · intro k hk
    obtain ⟨a1, a2⟩ := hinv.arcs k hk
    refine ⟨a1, ?_⟩
    show (arcsOf b.1.stateTable b.1.arcLabels k).Nodup
    exact a2.imp (fun h => ne_of_lt h)
  · intro d3 hd3
    have e := buildTracked_of_checked grow capacity d0 d3 wc hd3
    rw [hbuild] at e
    exact (Option.some.inj e).symm

/-- C6 at the stop-word file with the single line of 1024 letters `a`, for the
1024 elements `build` reserves and a capacity that doubles: the state table
reallocates while state 1023 is processed. -/
theorem C6_witness :
    (loadStopWords [List.replicate INITIAL_TABLE_SIZE 97]).WellFormed ∧
      ∃ d, buildTracked (fun c => 2 * c) INITIAL_TABLE_SIZE (DFA.fresh false 0)
          (loadStopWords [List.replicate INITIAL_TABLE_SIZE 97]) = some d ∧
        (∀ k, k < d.stateTable.length →
          (d.stateTable.getD k ⟨0, 0, 0, false⟩).arcOffset +
              (d.stateTable.getD k ⟨0, 0, 0, false⟩).numArcs ≤ d.arcLabels.length ∧
            (arcsOf d.stateTable d.arcLabels k).Nodup) ∧
        ∀ d2, buildChecked INITIAL_TABLE_SIZE (DFA.fresh false 0)
          (loadStopWords [List.replicate INITIAL_TABLE_SIZE 97]) = Built.ok d2 → d2 = d :=
  ⟨loadStopWords_wellFormed _,
    C6_arcs_pairwise_distinct (fun c => 2 * c) INITIAL_TABLE_SIZE (DFA.fresh false 0)
      (loadStopWords [List.replicate INITIAL_TABLE_SIZE 97]) (loadStopWords_wellFormed _)⟩

/-- C11 (dead state is permanent): when a call `next(c)` on a live matcher
finds no arc labelled `c` in the arc range of the current state, the matcher
is dead; every later sequence of `next` calls leaves the matcher as it is and
`wordRecognized()` returns `false`; `init()` makes the matcher live again; and
for every matcher `wordRecognized()` is `true` exactly when the matcher is not
dead and the current state is final. -/
theorem C11_dead_state_is_permanent (d : DFA) (c : CChar) (s : List CChar)
    (hlive : d.dead = false)
    (hno : ∀ j, j < (d.stateTable.getD d.curState ⟨0, 0, 0, false⟩).numArcs →
      d.arcLabels.getD ((d.stateTable.getD d.curState ⟨0, 0, 0, false⟩).arcOffset + j) 0 ≠ c) :
    (next d c).dead = true ∧
      s.foldl next (next d c) = next d c ∧
      wordRecognized (s.foldl next (next d c)) = false ∧
      (init (s.foldl next (next d c))).dead = false ∧
      ∀ m : DFA, wordRecognized m = true ↔
        (m.dead = false ∧ (m.stateTable.getD m.curState ⟨0, 0, 0, false⟩).isFinal = true) := by
  have hn : next d c = { d with dead := true } := by
    unfold next
    rw [hlive]
    exact nextLoop_no_arc d c _ _ hno
  have hd : (next d c).dead = true := by rw [hn]
  have hs := foldl_next_dead s (next d c) hd
  refine ⟨hd, hs, ?_, rfl, ?_⟩
  · rw [hs]
    unfold wordRecognized
    rw [hd]; rfl
  · intro m
    unfold wordRecognized
    cases m.dead <;> simp

/-- C11 at the automaton of the word `"a"`, the character `b` and the later
call `next('a')`. -/
theorem C11_witness :
    (exampleAutomaton.dead = false ∧
        ∀ j, j < (exampleAutomaton.stateTable.getD exampleAutomaton.curState
            ⟨0, 0, 0, false⟩).numArcs →
          exampleAutomaton.arcLabels.getD
            ((exampleAutomaton.stateTable.getD exampleAutomaton.curState
              ⟨0, 0, 0, false⟩).arcOffset + j) 0 ≠ 98) ∧
      ((next exampleAutomaton 98).dead = true ∧
        [97].foldl next (next exampleAutomaton 98) = next exampleAutomaton 98 ∧
        wordRecognized ([97].foldl next (next exampleAutomaton 98)) = false ∧
        (init ([97].foldl next (next exampleAutomaton 98))).dead = false ∧
        ∀ m : DFA, wordRecognized m = true ↔
          (m.dead = false ∧ (m.stateTable.getD m.curState ⟨0, 0, 0, false⟩).isFinal = true)) :=
  ⟨⟨rfl, by decide⟩, C11_dead_state_is_permanent exampleAutomaton 98 [97] rfl (by decide)⟩

/-- C12 (character tables over the full byte range) fails on the code at the
byte value 255: the loops of `buildCharTables` end before 255, so
`separator[255]`, which is the element `token[-1]` cleared for `EOF`, is false
although 255 is not a letter, and `token[255]` and `lower[255]` keep whatever
the memory held before. -/
theorem C12_entry_255_not_filled (impl : Impl) :
    tableRead (buildCharTables impl).buffer (buildCharTables impl).separator 255 = some 0 ∧
      isalpha 255 = false ∧
      tableRead (buildCharTables impl).buffer (buildCharTables impl).token 255 =
        some (impl.buffer 512) ∧
      tableRead (buildCharTables impl).buffer (buildCharTables impl).lower 255 =
        some (impl.buffer 768) := by
  have e1 : (buildCharTables impl).separator = 1 := rfl
  have e2 : (buildCharTables impl).token = 257 := rfl
  have e3 : (buildCharTables impl).lower = 513 := rfl
  rw [e1, e2, e3]
  unfold tableRead
  have t1 : (((1 : Nat) : Int) + 255).toNat = 256 := by omega
  have t2 : (((257 : Nat) : Int) + 255).toNat = 512 := by omega
  have t3 : (((513 : Nat) : Int) + 255).toNat = 768 := by omega
  rw [if_pos (by simp only [BUFFER_SIZE]; omega), if_pos (by simp only [BUFFER_SIZE]; omega),
    if_pos (by simp only [BUFFER_SIZE]; omega), t1, t2, t3,
    buildCharTables_buffer, buildCharTables_buffer, buildCharTables_buffer]
  refine ⟨?_, by decide, ?_, ?_⟩
  · rw [if_neg (by omega), if_neg (by omega), if_pos rfl]
  · rw [if_neg (by omega), if_neg (by omega), if_neg (by omega), if_neg (by omega),
      if_neg (by omega)]
  · rw [if_neg (by omega), if_neg (by omega), if_neg (by omega), if_neg (by omega),
      if_neg (by omega)]

/-- C13 (EOF sentinel classification): after `buildCharTables` the elements
`separator[EOF]` and `token[EOF]`, with `EOF = -1`, are 0, so the
separator-skipping loop and the token-accumulating loop of `getWord` stop at
once, without a further read, when the character read is `EOF`. -/
theorem C13_eof_stops_both_loops (impl : Impl) (fuel : Nat) (r : Reader) (dst : List CChar)
    (m : DFA) :
    EOF = -1 ∧
      tableRead (buildCharTables impl).buffer (buildCharTables impl).separator EOF = some 0 ∧
      tableRead (buildCharTables impl).buffer (buildCharTables impl).token EOF = some 0 ∧
      skipSeparators (buildCharTables impl) (fuel + 1) EOF r = Outcome.ok (EOF, r) ∧
      scanToken (buildCharTables impl) (fuel + 1) EOF r dst m = Outcome.ok (EOF, r, dst, m) :=
  ⟨rfl, separator_eof impl, token_eof impl, skipSeparators_eof impl fuel r,
    scanToken_eof impl fuel r dst m⟩

set_option maxRecDepth 100000 in
/-- C14 (arbitrary byte input) fails on the code: with an empty stop-word list,
on the input `"\xFFab"` the first call of `getWord` returns `false` with an
empty term although the token run `"ab"` follows the byte `0xFF`; and on the
input `"a\xE9b"` the byte `0xE9` does not end the token run: the calls deliver
the single term `"a"` and the run `"b"` is lost. -/
theorem C14_byte_above_127_not_a_separator :
    (setStopWords Impl.fresh []).map
        (fun impl => returned (getWord impl (Reader.opened [-1, 97, 98]) [])) =
        some (Outcome.ok (false, [])) ∧
      tokenRuns none [-1, 97, 98] = [[97, 98]] ∧
      (setStopWords Impl.fresh []).map
        (fun impl => getWords impl 4 (Reader.opened [97, -23, 98]) []) =
        some (Outcome.ok [[97]]) ∧
      tokenRuns none [97, -23, 98] = [[97], [98]] := by
  decide

/-- C15 (stop-word loading): `loadStopWords` records one span for every
non-empty line, in file order; the characters of the spans are the non-empty
lines with their letters in lower case; the buffer is the concatenation of
these lines; and the spans are non-empty half-open intervals that follow one
another from 0 to the size of the buffer, each ending where the next starts. -/
theorem C15_spans_of_loaded_lines (lines : List (List CChar)) :
    (loadStopWords lines).words.length = (lines.filter (fun line => !line.isEmpty)).length ∧
      (loadStopWords lines).contents =
        (lines.filter (fun line => !line.isEmpty)).map (fun line => line.map tolower) ∧
      (loadStopWords lines).wordsCharBuffer =
        ((lines.filter (fun line => !line.isEmpty)).map (fun line => line.map tolower)).flatten ∧
      chained 0 (loadStopWords lines).words (loadStopWords lines).wordsCharBuffer.length := by
  have hspec : loadStopWords lines =
      { wordsCharBuffer := (loweredLines lines).flatten,
        words := spansFrom 0 (loweredLines lines) } := by
    unfold loadStopWords
    rw [loadLines_spec]
    simp
  have hcontents : (loadStopWords lines).contents = loweredLines lines := by
    rw [hspec]
    have := map_content_spansFrom (loweredLines lines) [] []
    simpa [WordCollection.contents] using this
  refine ⟨?_, hcontents, by rw [hspec]; rfl, ?_⟩
  · have h1 : (loadStopWords lines).contents.length = (loweredLines lines).length := by
      rw [hcontents]
    simpa [WordCollection.contents, loweredLines] using h1
  · rw [hspec]
    have := chained_spansFrom (loweredLines lines) (loweredLines_ne_nil lines) 0
    simpa using this

/-- C16 (no false merge on signature collision): on tables whose search trees
hold states of the state table, for every label and signature `getState`
returns a state of the table whose stored label has, word for word, the
characters of the requested label; a state that existed before is returned
only when `cmpLabel` returns 0 for the two labels, and then nothing is
changed; so a state whose label differs in content from the requested one is
never returned, whatever the signatures; and the tables stay consistent. -/
theorem C16_no_false_merge (cbuf : List CChar) (d : DFA) (label : List Word) (signature : Nat)
    (hd : d.LabelsWF cbuf) (hw : ∀ w ∈ label, w.WellFormed cbuf) (ht : d.TreesOK) :
    (getState cbuf d label signature).2 < (getState cbuf d label signature).1.stateTable.length ∧
      ((getState cbuf d label signature).1.pLabelsTable.getD
          (getState cbuf d label signature).2 []).map (content cbuf) =
        label.map (content cbuf) ∧
      ((getState cbuf d label signature).2 < d.stateTable.length →
        (getState cbuf d label signature).1 = d ∧
        cmpLabel cbuf label (d.pLabelsTable.getD (getState cbuf d label signature).2 []) = 0) ∧
      (∀ k, k < d.stateTable.length →
        (d.pLabelsTable.getD k []).map (content cbuf) ≠ label.map (content cbuf) →
        (getState cbuf d label signature).2 ≠ k) ∧
      (getState cbuf d label signature).1.TreesOK := by
  obtain ⟨h1, h2, h3, h4, h5⟩ := getState_merge cbuf d label signature hd hw ht
  refine ⟨h1, h2, h3, ?_, h5⟩
  intro k hk hne heq
  apply hne
  rw [← h4 k (by rw [ht.1]; exact hk), ← heq]
  exact h2

/-- C16 at the tables `build` starts with for the words `"a"` and `"b"`, the
label with the word `"b"` and the signature 5. -/
theorem C16_witness :
    ((buildStart (DFA.fresh false 0) (loadStopWords [[97], [98]])).LabelsWF [97, 98] ∧
        (∀ w ∈ [(⟨1, 2⟩ : Word)], w.WellFormed [97, 98]) ∧
        (buildStart (DFA.fresh false 0) (loadStopWords [[97], [98]])).TreesOK) ∧
      ((getState [97, 98] (buildStart (DFA.fresh false 0) (loadStopWords [[97], [98]]))
            [⟨1, 2⟩] 5).2 <
          (getState [97, 98] (buildStart (DFA.fresh false 0) (loadStopWords [[97], [98]]))
            [⟨1, 2⟩] 5).1.stateTable.length ∧
        ((getState [97, 98] (buildStart (DFA.fresh false 0) (loadStopWords [[97], [98]]))
              [⟨1, 2⟩] 5).1.pLabelsTable.getD
            (getState [97, 98] (buildStart (DFA.fresh false 0) (loadStopWords [[97], [98]]))
              [⟨1, 2⟩] 5).2 []).map (content [97, 98]) =
          [(⟨1, 2⟩ : Word)].map (content [97, 98]) ∧
        ((getState [97, 98] (buildStart (DFA.fresh false 0) (loadStopWords [[97], [98]]))
              [⟨1, 2⟩] 5).2 <
            (buildStart (DFA.fresh false 0) (loadStopWords [[97], [98]])).stateTable.length →
          (getState [97, 98] (buildStart (DFA.fresh false 0) (loadStopWords [[97], [98]]))
              [⟨1, 2⟩] 5).1 =
            buildStart (DFA.fresh false 0) (loadStopWords [[97], [98]]) ∧
          cmpLabel [97, 98] [⟨1, 2⟩]
            ((buildStart (DFA.fresh false 0) (loadStopWords [[97], [98]])).pLabelsTable.getD
              (getState [97, 98] (buildStart (DFA.fresh false 0) (loadStopWords [[97], [98]]))
                [⟨1, 2⟩] 5).2 []) = 0) ∧
        (∀ k, k < (buildStart (DFA.fresh false 0)
              (loadStopWords [[97], [98]])).stateTable.length →
          ((buildStart (DFA.fresh false 0) (loadStopWords [[97], [98]])).pLabelsTable.getD
              k []).map (content [97, 98]) ≠ [(⟨1, 2⟩ : Word)].map (content [97, 98]) →
          (getState [97, 98] (buildStart (DFA.fresh false 0) (loadStopWords [[97], [98]]))
            [⟨1, 2⟩] 5).2 ≠ k) ∧
        (getState [97, 98] (buildStart (DFA.fresh false 0) (loadStopWords [[97], [98]]))
          [⟨1, 2⟩] 5).1.TreesOK) :=
  ⟨⟨by decide, by decide, by decide⟩,
    C16_no_false_merge [97, 98] (buildStart (DFA.fresh false 0) (loadStopWords [[97], [98]]))
      [⟨1, 2⟩] 5 (by decide) (by decide) (by decide)⟩

/-- C17 (canonicalization): for spans that lie inside the buffer,
`sortAndRemoveDuplicateWords` leaves a list of spans of the input list whose
contents are strictly increasing in the lexicographic order of the `char`
values, in which a proper prefix comes before the longer word, so that no two
spans have equal contents; and the set of the contents is that of the
input list. -/
theorem C17_sorted_without_duplicates (cbuf : List CChar) (words : List Word)
    (h : ∀ w ∈ words, w.WellFormed cbuf) :
    ((sortAndRemoveDuplicateWords cbuf words).map (content cbuf)).Pairwise
        (List.Lex (fun x y : Int => x < y)) ∧
      ((sortAndRemoveDuplicateWords cbuf words).map (content cbuf)).Nodup ∧
      (∀ x, x ∈ (sortAndRemoveDuplicateWords cbuf words).map (content cbuf) ↔
        x ∈ words.map (content cbuf)) ∧
      (∀ w ∈ sortAndRemoveDuplicateWords cbuf words, w ∈ words) ∧
      (∀ (a : List Int) (c : Int) (b : List Int), List.Lex (fun x y : Int => x < y) a (a ++ c :: b)) := by
  have hcan : Canonical ((sortAndRemoveDuplicateWords cbuf words).map (content cbuf)) := by
    rw [map_sortAndRemoveDuplicateWords cbuf words h]
    exact canonical_canonicalize _
  refine ⟨?_, ?_, ?_, fun w hw => mem_sortAndRemoveDuplicateWords cbuf words w hw, ?_⟩
  · exact hcan.imp (fun hab => (ltChars_iff_lex _ _).1 hab)
  · refine hcan.imp ?_
    intro a b hab heq
    rw [heq, ltChars_irrefl] at hab
    cases hab
  · intro x
    rw [map_sortAndRemoveDuplicateWords cbuf words h]
    exact mem_canonicalize _ x
  · intro a c b
    induction a with
    | nil => exact List.Lex.nil
    | cons x a ih => exact List.Lex.cons ih

/-- C17 at the words `"to"`, `"the"`, `"to"`, `"t"` of the buffer `"totheto"`. -/
theorem C17_witness :
    (∀ w ∈ [(⟨0, 2⟩ : Word), ⟨2, 5⟩, ⟨5, 7⟩, ⟨0, 1⟩],
        w.WellFormed [116, 111, 116, 104, 101, 116, 111]) ∧
      (((sortAndRemoveDuplicateWords [116, 111, 116, 104, 101, 116, 111]
            [⟨0, 2⟩, ⟨2, 5⟩, ⟨5, 7⟩, ⟨0, 1⟩]).map
          (content [116, 111, 116, 104, 101, 116, 111])).Pairwise
          (List.Lex (fun x y : Int => x < y)) ∧
        ((sortAndRemoveDuplicateWords [116, 111, 116, 104, 101, 116, 111]
            [⟨0, 2⟩, ⟨2, 5⟩, ⟨5, 7⟩, ⟨0, 1⟩]).map
          (content [116, 111, 116, 104, 101, 116, 111])).Nodup ∧
        (∀ x, x ∈ (sortAndRemoveDuplicateWords [116, 111, 116, 104, 101, 116, 111]
              [⟨0, 2⟩, ⟨2, 5⟩, ⟨5, 7⟩, ⟨0, 1⟩]).map
              (content [116, 111, 116, 104, 101, 116, 111]) ↔
          x ∈ [(⟨0, 2⟩ : Word), ⟨2, 5⟩, ⟨5, 7⟩, ⟨0, 1⟩].map
            (content [116, 111, 116, 104, 101, 116, 111])) ∧
        (∀ w ∈ sortAndRemoveDuplicateWords [116, 111, 116, 104, 101, 116, 111]
            [⟨0, 2⟩, ⟨2, 5⟩, ⟨5, 7⟩, ⟨0, 1⟩],
          w ∈ [(⟨0, 2⟩ : Word), ⟨2, 5⟩, ⟨5, 7⟩, ⟨0, 1⟩]) ∧
        (∀ (a : List Int) (c : Int) (b : List Int), List.Lex (fun x y : Int => x < y) a (a ++ c :: b))) :=
  ⟨by decide, C17_sorted_without_duplicates [116, 111, 116, 104, 101, 116, 111]
    [⟨0, 2⟩, ⟨2, 5⟩, ⟨5, 7⟩, ⟨0, 1⟩] (by decide)⟩

/-- C18 (builder termination): for every collection of spans that lie inside
the buffer, whatever the capacity of the state table and its growth at a
reallocation, the outer loop of `build` ends within the fuel `build` gives it,
and within every larger fuel, with the same tables; the body of the loop has
then run once for each state of the final state table, in the order 0, 1, 2,
...; and with the reference `State &state` of `addArc` tracked the loop does
not exhaust its fuel either. -/
theorem C18_worklist_loop_terminates (grow : Nat → Nat) (capacity : Nat) (d0 : DFA)
    (wc : WordCollection) (h : wc.WellFormed) :
    ∃ d, buildTracked grow capacity d0 wc = some (destroy d) ∧
      (∀ fuel, buildFuel wc.words ≤ fuel →
        buildLoopTracked grow wc.wordsCharBuffer fuel 0 (buildStart d0 wc, capacity) =
          some (d, List.range d.stateTable.length)) ∧
      buildChecked capacity d0 wc ≠ Built.outOfFuel := by
  obtain ⟨_, d, _, _, hloop, hbuild, _⟩ := buildTracked_spec grow capacity d0 wc h
  obtain ⟨b, _, _, hb⟩ := build_spec d0 wc h
  exact ⟨d, hbuild, fun fuel hf => buildLoopTracked_fuel grow _ _ 0 _ _ hloop fuel hf,
    buildChecked_fuel capacity d0 _ wc hb⟩

/-- C18 at the stop-word file with the single line of 1024 letters `a`, for
the 1024 elements `build` reserves and a capacity that doubles: the state
table reallocates while state 1023 is processed. -/
theorem C18_witness :
    (loadStopWords [List.replicate INITIAL_TABLE_SIZE 97]).WellFormed ∧
      ∃ d, buildTracked (fun c => 2 * c) INITIAL_TABLE_SIZE (DFA.fresh false 0)
          (loadStopWords [List.replicate INITIAL_TABLE_SIZE 97]) = some (destroy d) ∧
        (∀ fuel, buildFuel (loadStopWords [List.replicate INITIAL_TABLE_SIZE 97]).words ≤ fuel →
          buildLoopTracked (fun c => 2 * c)
              (loadStopWords [List.replicate INITIAL_TABLE_SIZE 97]).wordsCharBuffer fuel 0
              (buildStart (DFA.fresh false 0)
                (loadStopWords [List.replicate INITIAL_TABLE_SIZE 97]), INITIAL_TABLE_SIZE) =
            some (d, List.range d.stateTable.length)) ∧
        buildChecked INITIAL_TABLE_SIZE (DFA.fresh false 0)
          (loadStopWords [List.replicate INITIAL_TABLE_SIZE 97]) ≠ Built.outOfFuel :=
  ⟨loadStopWords_wellFormed _,
    C18_worklist_loop_terminates (fun c => 2 * c) INITIAL_TABLE_SIZE (DFA.fresh false 0)
      (loadStopWords [List.replicate INITIAL_TABLE_SIZE 97]) (loadStopWords_wellFormed _)⟩

/-- The tables `build` returns when the reference `State &state` of `addArc` is taken as
an index: `arcLabels` and `arcTargets` have the same length, every arc target
is a state of the state table, the arc range of state 0 starts at 0, the range
of each state starts where the range of the state before ends, the range of
the last state ends at the end of the arc table, so that every range lies
inside the arc table and the arc counts add up to the number of arcs (no
counter has wrapped); and for every string fed after `init()` every subscript
of `next` and `wordRecognized` lies inside its table. -/
theorem build_tables_well_formed (d0 : DFA) (wc : WordCollection) (h : wc.WellFormed)
    (hc : ∀ c ∈ wc.wordsCharBuffer, isChar c) :
    ∃ d, build d0 wc = some d ∧
      d.arcLabels.length = d.arcTargets.length ∧
      (∀ t ∈ d.arcTargets, t < d.stateTable.length) ∧
      0 < d.stateTable.length ∧
      (d.stateTable.getD 0 ⟨0, 0, 0, false⟩).arcOffset = 0 ∧
      (∀ k, k + 1 < d.stateTable.length →
        (d.stateTable.getD (k + 1) ⟨0, 0, 0, false⟩).arcOffset =
          (d.stateTable.getD k ⟨0, 0, 0, false⟩).arcOffset +
            (d.stateTable.getD k ⟨0, 0, 0, false⟩).numArcs) ∧
      (∀ k, k + 1 = d.stateTable.length →
        (d.stateTable.getD k ⟨0, 0, 0, false⟩).arcOffset +
          (d.stateTable.getD k ⟨0, 0, 0, false⟩).numArcs = d.arcLabels.length) ∧
      (∀ k, k < d.stateTable.length →
        (d.stateTable.getD k ⟨0, 0, 0, false⟩).arcOffset +
          (d.stateTable.getD k ⟨0, 0, 0, false⟩).numArcs ≤ d.arcLabels.length) ∧
      (d.stateTable.map (fun s => s.numArcs)).sum = d.arcLabels.length ∧
      ∀ s, feedChecked s (init d) = some (s.foldl next (init d)) ∧
        wordRecognizedChecked (s.foldl next (init d)) = some (recognizes d s) := by
  obtain ⟨b, _, hbuild, hinv, hpos, _⟩ := build_table d0 wc h hc
  have hlast := hinv.last (b.stateTable.length - 1) (by omega)
  refine ⟨Builder.finish d0 b, hbuild, hinv.targets_len.symm, ?_, hpos, hinv.first hpos,
    hinv.next, hinv.last, fun k hk => (hinv.states k hk).inside, ?_, ?_⟩
  · intro t ht
    have := hinv.targets_lt t ht
    rw [hinv.base.labels_len] at this
    exact this
  · have hs := sum_numArcs b.stateTable hinv.first hinv.next (b.stateTable.length - 1) (by omega)
    have e : b.stateTable.length - 1 + 1 = b.stateTable.length := by omega
    rw [e, List.take_length] at hs
    show (b.stateTable.map (fun s => s.numArcs)).sum = b.arcLabels.length
    rw [hs]
    exact hlast
  · intro s
    have hm : (init (Builder.finish d0 b)).Over b := ⟨rfl, rfl, rfl⟩
    obtain ⟨f1, f2, f3⟩ := feedChecked_ok b hinv s (init (Builder.finish d0 b)) hm (Or.inr hpos)
    exact ⟨f1, wordRecognizedChecked_ok b _ f2 f3⟩

/-- With the reference tracked, `build` returns an automaton exactly when the
automaton of `build` has at most `capacity` states, and then it returns that
automaton. -/
theorem buildChecked_ok_iff (capacity : Nat) (d0 d : DFA) (wc : WordCollection)
    (h : wc.WellFormed) (hcap : 1 ≤ capacity) :
    buildChecked capacity d0 wc = Built.ok d ↔
      (build d0 wc = some d ∧ d.stateTable.length ≤ capacity) := by
  obtain ⟨b, _, _, hb⟩ := build_spec d0 wc h
  rw [buildChecked_eq capacity d0 _ wc hcap hb]
  by_cases hlt : capacity < (Builder.finish d0 b).stateTable.length
  · rw [if_pos hlt, hb]
    constructor
    · intro hx; cases hx
    · rintro ⟨h1, h2⟩
      rw [← Option.some.inj h1] at h2
      omega
  · rw [if_neg hlt, hb]
    constructor
    · intro hx
      have : Builder.finish d0 b = d := by injection hx
      rw [← this]
      exact ⟨rfl, by omega⟩
    · rintro ⟨h1, _⟩
      rw [Option.some.inj h1]

/-- The three forms of `build` agree within the capacity of the state table:
when the automaton of `build` has at most `capacity` states, `build` with the
capacity carried along returns it, whatever the growth at a reallocation. -/
theorem buildTracked_within_capacity (grow : Nat → Nat) (capacity : Nat) (d0 d : DFA)
    (wc : WordCollection) (h : wc.WellFormed) (hcap : 1 ≤ capacity)
    (hb : build d0 wc = some d) (hlen : d.stateTable.length ≤ capacity) :
    buildChecked capacity d0 wc = Built.ok d ∧ buildTracked grow capacity d0 wc = some d :=
  ⟨(buildChecked_ok_iff capacity d0 d wc h hcap).2 ⟨hb, hlen⟩,
    buildTracked_of_checked grow capacity d0 d wc
      ((buildChecked_ok_iff capacity d0 d wc h hcap).2 ⟨hb, hlen⟩)⟩

/-- Table well-formedness within the capacity of the state table: when `build`
with the reference tracked returns an automaton, its tables are well formed
and the matcher stays inside them. -/
theorem tables_well_formed_within_capacity (capacity : Nat) (d0 d : DFA)
    (wc : WordCollection) (h : wc.WellFormed) (hc : ∀ c ∈ wc.wordsCharBuffer, isChar c)
    (hcap : 1 ≤ capacity) (hb : buildChecked capacity d0 wc = Built.ok d) :
    d.arcLabels.length = d.arcTargets.length ∧
      (∀ t ∈ d.arcTargets, t < d.stateTable.length) ∧
      0 < d.stateTable.length ∧ d.stateTable.length ≤ capacity ∧
      (d.stateTable.getD 0 ⟨0, 0, 0, false⟩).arcOffset = 0 ∧
      (∀ k, k + 1 < d.stateTable.length →
        (d.stateTable.getD (k + 1) ⟨0, 0, 0, false⟩).arcOffset =
          (d.stateTable.getD k ⟨0, 0, 0, false⟩).arcOffset +
            (d.stateTable.getD k ⟨0, 0, 0, false⟩).numArcs) ∧
      (∀ k, k + 1 = d.stateTable.length →
        (d.stateTable.getD k ⟨0, 0, 0, false⟩).arcOffset +
          (d.stateTable.getD k ⟨0, 0, 0, false⟩).numArcs = d.arcLabels.length) ∧
      (d.stateTable.map (fun s => s.numArcs)).sum = d.arcLabels.length ∧
      ∀ s, feedChecked s (init d) = some (s.foldl next (init d)) ∧
        wordRecognizedChecked (s.foldl next (init d)) = some (recognizes d s) := by
  obtain ⟨h1, h2⟩ := (buildChecked_ok_iff capacity d0 d wc h hcap).1 hb
  obtain ⟨d2, e, a1, a2, a3, a4, a5, a6, _, a8, a9⟩ := build_tables_well_formed d0 wc h hc
  rw [h1] at e
  have : d = d2 := Option.some.inj e
  subst this
  exact ⟨a1, a2, a3, h2, a4, a5, a6, a8, a9⟩

/-- Exact language within the capacity of the state table: when `build` with
the reference tracked returns an automaton for words without the byte `0xFF`,
the automaton recognizes exactly the words of the list. -/
theorem exact_language_within_capacity (capacity : Nat) (d0 d : DFA) (wc : WordCollection)
    (h : wc.WellFormed) (hc : ∀ c ∈ wc.wordsCharBuffer, isChar c)
    (hs : ∀ w ∈ wc.contents, (-1 : CChar) ∉ w)
    (hcap : 1 ≤ capacity) (hb : buildChecked capacity d0 wc = Built.ok d) :
    ∀ s, recognizes d s = true ↔ s ∈ wc.contents := by
  obtain ⟨h1, _⟩ := (buildChecked_ok_iff capacity d0 d wc h hcap).1 hb
  obtain ⟨d2, e, hl⟩ := build_language d0 wc h hc (fun w hw _ hcw h0 => hs w hw (h0 ▸ hcw))
  rw [h1] at e
  have : d = d2 := Option.some.inj e
  subst this
  exact hl

/-- C10 (idempotent rebuild) fails on the code for the stop-word file with the
single line of 1024 letters `a`, built on a newly constructed analyzer: in the
first `build` the last state is appended to the full state table inside
`addArc` (with the reference `State &state` tracked, `build` ends at the use of
the dangling reference), the increment of the arc counter is lost and the
automaton left does not recognize the listed word; the state table then holds
1025 states, so that in the second `build` its capacity is 1025 or more, the
reference stays valid, and the automaton left recognizes the word. -/
theorem C10_rebuild_recognizes_word_rejected_after_first_build (grow : Nat → Nat) (d : DFA)
    (k : Nat) :
    ∃ d1 d2,
      buildTracked grow INITIAL_TABLE_SIZE d
          (loadStopWords [List.replicate INITIAL_TABLE_SIZE 97]) = some d1 ∧
        d1.stateTable.length = INITIAL_TABLE_SIZE + 1 ∧
        buildTracked grow (INITIAL_TABLE_SIZE + 1 + k) d1
          (loadStopWords [List.replicate INITIAL_TABLE_SIZE 97]) = some d2 ∧
        recognizes d1 (List.replicate INITIAL_TABLE_SIZE 97) = false ∧
        recognizes d2 (List.replicate INITIAL_TABLE_SIZE 97) = true ∧
        buildChecked INITIAL_TABLE_SIZE d
          (loadStopWords [List.replicate INITIAL_TABLE_SIZE 97]) = Built.dangling ∧
        buildChecked (INITIAL_TABLE_SIZE + 1 + k) d1
          (loadStopWords [List.replicate INITIAL_TABLE_SIZE 97]) = Built.ok d2 := by
  have hpos : 1 ≤ INITIAL_TABLE_SIZE := by decide
  have hwf := loadStopWords_wellFormed [List.replicate INITIAL_TABLE_SIZE 97]
  have hcont : (loadStopWords [List.replicate INITIAL_TABLE_SIZE 97]).contents =
      [List.replicate INITIAL_TABLE_SIZE 97] := by
    rw [loadStopWords_contents, loweredLines_replicate _ hpos]
  have hlen : (List.replicate INITIAL_TABLE_SIZE (97 : CChar)).length = INITIAL_TABLE_SIZE :=
    List.length_replicate _ _
  obtain ⟨d1, t1, t2, t3, t4, t5, _⟩ :=
    buildTracked_single_word grow d _ (List.replicate INITIAL_TABLE_SIZE 97) hwf hcont
  rw [hlen] at t1 t2
  obtain ⟨d2, b1, b2⟩ := build_single_word d1 _ (List.replicate INITIAL_TABLE_SIZE 97) hwf hcont
  rw [hlen] at b2
  have hcap : 1 ≤ INITIAL_TABLE_SIZE + 1 + k := by omega
  have hok : buildChecked (INITIAL_TABLE_SIZE + 1 + k) d1
      (loadStopWords [List.replicate INITIAL_TABLE_SIZE 97]) = Built.ok d2 :=
    (buildChecked_ok_iff _ d1 d2 _ hwf hcap).2 ⟨b1, by omega⟩
  have hchars : ∀ c ∈ (loadStopWords [List.replicate INITIAL_TABLE_SIZE 97]).wordsCharBuffer,
      isChar c := by
    intro c hc
    rw [loadStopWords_eq, loweredLines_replicate _ hpos] at hc
    have hc2 : c ∈ List.replicate INITIAL_TABLE_SIZE (97 : CChar) := by simpa using hc
    rw [List.eq_of_mem_replicate hc2]
    decide
  have hfree : ∀ w ∈ (loadStopWords [List.replicate INITIAL_TABLE_SIZE 97]).contents,
      (-1 : CChar) ∉ w := by
    intro w hw hm
    rw [hcont, List.mem_singleton] at hw
    rw [hw] at hm
    have hx : (-1 : Int) = 97 := List.eq_of_mem_replicate hm
    exact absurd hx (by decide)
  have hlang := exact_language_within_capacity _ d1 d2 _ hwf hchars hfree hcap hok
  refine ⟨d1, d2, t1, t2, buildTracked_of_checked grow _ d1 d2 _ hok, ?_, ?_,
    buildChecked_long_word INITIAL_TABLE_SIZE d hpos, hok⟩
  · exact chain_rejects d1 _ (by rw [hlen]; exact hpos) t3 t4 t5
  · rw [hlang, hcont]
    exact List.mem_singleton_self _

/-- C19 (table well-formedness) fails on the code for an automaton with more
states than the state table has capacity: `addArc` holds the reference
`State &state` to an element of `stateTable` while `getState` appends the new
state; the vector reallocates and `++state.numArcs` is applied to the dangling
reference. With the reference tracked, `build` on the stop-word file with the
single line of 1024 letters `a` ends at this use when the capacity is the 1024
elements reserved, and so it does for every capacity and the line of as many
letters. -/
theorem C19_state_reference_dangles (d : DFA) (capacity : Nat) :
    buildChecked INITIAL_TABLE_SIZE d (loadStopWords [List.replicate INITIAL_TABLE_SIZE 97]) =
        Built.dangling ∧
      buildChecked (capacity + 1) d (loadStopWords [List.replicate (capacity + 1) 97]) =
        Built.dangling :=
  ⟨buildChecked_long_word INITIAL_TABLE_SIZE d (by decide),
    buildChecked_long_word (capacity + 1) d (Nat.succ_pos _)⟩

/-- C20 (exact language on sentinel-free word lists) fails on the code for the
stop-word file with the single line of 1024 letters `a`: the word list is
ASCII and holds no byte `0xFF`, and `build`, with the reference `State &state`
of `addArc` tracked and the 1024 elements of `stateTable` it reserves, returns
no automaton: the arc counter of the state before the last is incremented
through a dangling reference. -/
theorem C20_long_word_not_built (d : DFA) :
    (loadStopWords [List.replicate INITIAL_TABLE_SIZE 97]).contents =
        [List.replicate INITIAL_TABLE_SIZE 97] ∧
      (∀ w ∈ (loadStopWords [List.replicate INITIAL_TABLE_SIZE 97]).contents,
        ∀ c ∈ w, isASCII c ∧ c ≠ -1) ∧
      ∀ d2, buildChecked INITIAL_TABLE_SIZE d
        (loadStopWords [List.replicate INITIAL_TABLE_SIZE 97]) ≠ Built.ok d2 := by
  have hcont : (loadStopWords [List.replicate INITIAL_TABLE_SIZE 97]).contents =
      [List.replicate INITIAL_TABLE_SIZE 97] := by
    rw [loadStopWords_contents, loweredLines_replicate _ (by decide)]
  refine ⟨hcont, ?_, ?_⟩
  · rw [hcont]
    intro w hw c hcw
    rw [List.mem_singleton] at hw
    rw [hw] at hcw
    rw [List.eq_of_mem_replicate hcw]
    decide
  · intro d2 h
    rw [buildChecked_long_word INITIAL_TABLE_SIZE d (by decide)] at h
    cases h

end LexicalAnalyzer
